import Mathlib

/-!
# Universe levels, the environment of the kernel, the elaborator and utilities

A shallow embedding of `src/kernel/level.cpp`, of the universe and
declaration part of `src/kernel/environment.cpp`, of `depends_on` of
`src/kernel/justification.cpp`, of the engine of
`src/library/elaborator/elaborator.cpp`, of the Church numerals of
`src/tests/kernel/normalizer.cpp`, of `src/util/buffer.h`, of the layout
functions of `src/util/sexpr/format.cpp` and of
`src/frontends/lean/scanner.cpp`.

* machine integers: `unsigned` values are natural numbers below `2^32`, and
  unsigned addition is taken modulo `2^32`; `int` values are integers in
  `[-2^31, 2^31)`;
* a function that may throw returns an `Option`/`Except` value, and a
  function that changes the environment and may throw returns the final
  environment together with the outcome.
-/

set_option autoImplicit false

namespace lean

/-! ## Names -/

/-- Hierarchical names (`util/name.h`): anonymous, or a string or a number
appended to a name.  Equality is structural. -/
inductive name where
  | anonymous : name
  | str (p : name) (s : String) : name
  | num (p : name) (k : Nat) : name
  deriving DecidableEq, Repr

/-- The name made of a single string, `name("bot")` in the source. -/
def name.mk_str (s : String) : name := name.str name.anonymous s

/-! ## Levels (`kernel/level.cpp`) -/

/-- The level cells `level_uvar`, `level_lift` and `level_max`: a universe
variable carries its name `m_name` and its internal identifier `m_uvar`, a
lift carries the lifted level `m_l` and the offset `m_k`, a max carries its
children `m_levels`. -/
inductive level where
  | uvar (m_name : name) (m_uvar : Nat) : level
  | lift (m_l : level) (m_k : Nat) : level
  | max (m_levels : List level) : level
  deriving Repr

/-- The three values of `level_kind`. -/
inductive level_kind where
  | UVar | Lift | Max
  deriving DecidableEq, Repr

/-- The number `2^32` of values of the C++ type `unsigned`. -/
def UNSIGNED_RANGE : Nat := 4294967296

/-- The greatest `int`. -/
def INT_MAX : Int := 2147483647

/-- The least `int`. -/
def INT_MIN : Int := -2147483648

/-- The conversion of an integer to the type `int`: the value in
`[-2^31, 2^31)` that is congruent to it modulo `2^32`. -/
def to_int (x : Int) : Int := (x + 2147483648) % 4294967296 - 2147483648

/-- The kind of a level, `kind(l)`. -/
def kind : level → level_kind
  | .uvar _ _ => .UVar
  | .lift _ _ => .Lift
  | .max _ => .Max

def is_uvar (l : level) : Bool := kind l == .UVar
def is_lift (l : level) : Bool := kind l == .Lift
def is_max (l : level) : Bool := kind l == .Max

/-- The universe `level()`, the variable named `bot` with identifier 0. -/
def bot : level := .uvar (name.mk_str "bot") 0

/-- The name of a universe variable, `uvar_name(l)`; the source asserts
`is_uvar(l)`, the value at other levels is not used. -/
def uvar_name : level → name
  | .uvar n _ => n
  | _ => name.anonymous

/-- The identifier of a universe variable, `uvar_idx(l)`. -/
def uvar_idx : level → Nat
  | .uvar _ u => u
  | _ => 0

/-- The children of a max level (`max_begin_levels .. max_end_levels`). -/
def max_levels : level → List level
  | .max ls => ls
  | _ => []

/-- The level under a lift, or the level itself: `_lift_of`. -/
def _lift_of : level → level
  | .lift l _ => l
  | l => l

/-- The offset of a lift, or 0: `_lift_offset`. -/
def _lift_offset : level → Nat
  | .lift _ k => k
  | _ => 0

mutual
/-- The equality `operator==` of levels: the kinds agree and then two
universe variables are compared by `uvar_idx`, two lifts by the lifted level
and the offset, two max levels by their size and their children in order. -/
def level_eq : level → level → Bool
  | .uvar _ u1, .uvar _ u2 => u1 == u2
  | .lift l1 k1, .lift l2 k2 => level_eq l1 l2 && k1 == k2
  | .max ls1, .max ls2 => ls1.length == ls2.length && level_eq_list ls1 ls2
  | _, _ => false
/-- The loop of `operator==` over the children of two max levels of the
same size: false at the first pair of different children. -/
def level_eq_list : List level → List level → Bool
  | l1 :: ls1, l2 :: ls2 => if level_eq l1 l2 then level_eq_list ls1 ls2 else false
  | _, _ => true
end

/-- The linear search of `push_back`: the first element of the buffer with
the base of `l` is replaced by `l` when its offset is smaller, and left as it
is otherwise; without such an element `l` is appended. -/
def push_back : List level → level → List level
  | [], l => [l]
  | x :: xs, l =>
    if level_eq (_lift_of x) (_lift_of l) then
      (if _lift_offset x < _lift_offset l then l :: xs else x :: xs)
    else x :: push_back xs l

/-- The raw constructor `max_core(sz, ls)`: a max cell with the given
children. -/
def max_core (ls : List level) : level := .max ls

/-- The merge `max_core(sz1, ls1, sz2, ls2)`: `push_back` of every element of
`ls1` and then of `ls2` into an empty buffer; a buffer of size one is
returned as its element. -/
def max_core2 (ls1 ls2 : List level) : level :=
  let new_lvls := ls2.foldl push_back (ls1.foldl push_back [])
  match new_lvls with
  | [l] => l
  | _ => max_core new_lvls

/-- The binary `max(l1, l2)`, with its four cases as written in the source:
when both arguments are max levels the call is
`max_core(to_max(l1), to_max(l1))`. -/
def max (l1 l2 : level) : level :=
  match l1, l2 with
  | .max ls1, .max _ => max_core2 ls1 ls1
  | .max ls1, l2 => max_core2 ls1 [l2]
  | l1, .max ls2 => max_core2 [l1] ls2
  | l1, l2 => max_core2 [l1] [l2]

mutual
/-- The lift `operator+(l, k)`: a variable is wrapped in a lift of offset
`k`, the offset of a lift grows by `k` (unsigned addition), and the children
of a max are lifted one by one and put in a raw max cell. -/
def add : level → Nat → level
  | .uvar n u, k => .lift (.uvar n u) k
  | .lift l j, k => .lift l ((j + k) % UNSIGNED_RANGE)
  | .max ls, k => max_core (add_list ls k)
/-- The loop of `operator+` over the children of a max level. -/
def add_list : List level → Nat → List level
  | [], _ => []
  | l :: ls, k => add l k :: add_list ls k
end

/-- The list constructor `max(std::initializer_list<level>)`. -/
def max_list (l : List level) : level :=
  match l with
  | [x] => x
  | _ => max_core l

/-! ## Checked `int` arithmetic -/

/-- Modelled from the spec: `util/safe_arith.h` (`safe_add`, `safe_sub`) is
missing from the sources.  The spec says that integer overflow in offset
arithmetic is a fatal error reported as an exception: the sum is returned
when it is an `int`, and `none` stands for the exception.  The unsigned
offset of a lift enters with its value. -/
def safe_add (a b : Int) : Option Int :=
  if INT_MIN ≤ a + b ∧ a + b ≤ INT_MAX then some (a + b) else none

/-- Modelled from the spec: `util/safe_arith.h` is missing; the difference
is returned when it is an `int`, `none` stands for the overflow exception. -/
def safe_sub (a b : Int) : Option Int :=
  if INT_MIN ≤ a - b ∧ a - b ≤ INT_MAX then some (a - b) else none

/-! ## `environment_cell::is_ge`

The constraint store `universe_constraints` enters `is_ge` only through
`get_ro_ucs().is_implied`, which is a parameter here.  The value `none` is
the overflow exception of `safe_add`/`safe_sub`. -/

mutual
/-- The calls `is_ge(l1, l2, k)` whose second argument `l2` is a universe
variable: the equality test, then the inner `switch (kind(l1))`; its
recursive calls keep `l2`. -/
def is_ge_uvar (is_implied : name → name → Int → Bool) :
    level → level → Int → Option Bool
  | l1, l2, k =>
    if level_eq l1 l2 then some (decide (k ≤ 0)) else
    match l1 with
    | .uvar n1 _ => some (is_implied n1 (uvar_name l2) k)
    | .lift l o =>
      match safe_sub k (o : Int) with
      | none => none
      | some k1 => is_ge_uvar is_implied l l2 k1
    | .max ls => is_ge_any is_implied ls l2 k
/-- The loop `std::any_of(max_begin_levels(l1), max_end_levels(l1), ..)`:
the children are tried in order up to the first one that returns true; an
exception of a child that is reached ends the loop. -/
def is_ge_any (is_implied : name → name → Int → Bool) :
    List level → level → Int → Option Bool
  | [], _, _ => some false
  | l :: ls, l2, k =>
    match is_ge_uvar is_implied l l2 k with
    | none => none
    | some true => some true
    | some false => is_ge_any is_implied ls l2 k
end

mutual
/-- The function `is_ge(l1, l2, k)`: "true iff l1 >= l2 + k by asserted
universe constraints". -/
def is_ge (is_implied : name → name → Int → Bool) :
    level → level → Int → Option Bool
  | l1, l2, k =>
    if level_eq l1 l2 then some (decide (k ≤ 0)) else
    match l2 with
    | .uvar n u => is_ge_uvar is_implied l1 (.uvar n u) k
    | .lift l o =>
      match safe_add k (o : Int) with
      | none => none
      | some k1 => is_ge is_implied l1 l k1
    | .max ls => is_ge_all is_implied l1 ls k
/-- The loop `std::all_of(max_begin_levels(l2), max_end_levels(l2), ..)`:
the children are tried in order up to the first one that returns false. -/
def is_ge_all (is_implied : name → name → Int → Bool) :
    level → List level → Int → Option Bool
  | _, [], _ => some true
  | l1, l :: ls, k =>
    match is_ge is_implied l1 l k with
    | none => none
    | some false => some false
    | some true => is_ge_all is_implied l1 ls k
end

/-- The two-argument `is_ge(l1, l2)`. -/
def is_ge0 (is_implied : name → name → Int → Bool) (l1 l2 : level) : Option Bool :=
  is_ge is_implied l1 l2 0

/-! ## Universe constraints -/

/-- Modelled from the spec: `kernel/universe_constraints.h` and its
implementation are missing from the sources.  The spec describes the store as
a directed graph over universe variables whose edge `u → v` of weight `k`
means `u ≥ v + k`, queried by longest-path reachability and closed under
insertion: the store keeps, for every pair of variables joined by a path,
the greatest weight of a path between them. -/
structure universe_constraints where
  m_distances : List ((name × name) × Int)
  deriving Repr

namespace universe_constraints

/-- Modelled from the spec: the longest-path weight from `n1` to `n2`, when
`n2` is reachable from `n1` (`get_distance`). -/
def get_distance (ucs : universe_constraints) (n1 n2 : name) : Option Int :=
  match ucs.m_distances.find? (fun e => decide (e.1 = (n1, n2))) with
  | some e => some e.2
  | none => none

/-- Modelled from the spec: record the distance `d` from `n1` to `n2`. -/
def set_distance (ds : List ((name × name) × Int)) (n1 n2 : name) (d : Int) :
    List ((name × name) × Int) :=
  ((n1, n2), d) :: ds.filter (fun e => decide (e.1 ≠ (n1, n2)))

/-- Modelled from the spec: a new variable is a new node of the graph, at
distance 0 from itself (`add_var`). -/
def add_var (ucs : universe_constraints) (n : name) : universe_constraints :=
  match ucs.get_distance n n with
  | some _ => ucs
  | none => ⟨set_distance ucs.m_distances n n 0⟩

/-- Modelled from the spec: `is_implied(u, v, k)` answers by longest-path
reachability: `v` is reachable from `u` with weight at least `k`. -/
def is_implied (ucs : universe_constraints) (n1 n2 : name) (k : Int) : Bool :=
  match ucs.get_distance n1 n2 with
  | some d => decide (k ≤ d)
  | none => false

/-- Modelled from the spec: `is_consistent(u, v, k)` holds when the edge
`u ≥ v + k` closes no positive cycle. -/
def is_consistent (ucs : universe_constraints) (n1 n2 : name) (k : Int) : Bool :=
  match ucs.get_distance n2 n1 with
  | some d => decide (d + k ≤ 0)
  | none => true

/-- Modelled from the spec: the nodes that reach `n` with the weight of
their longest path to `n`; the node itself reaches it with weight 0. -/
def incoming (ucs : universe_constraints) (n : name) : List (name × Int) :=
  (n, 0) :: (ucs.m_distances.filter (fun e => decide (e.1.2 = n ∧ e.1.1 ≠ n))).map
    (fun e => (e.1.1, e.2))

/-- Modelled from the spec: the nodes reached from `n` with the weight of
their longest path from `n`; the node itself is reached with weight 0. -/
def outgoing (ucs : universe_constraints) (n : name) : List (name × Int) :=
  (n, 0) :: (ucs.m_distances.filter (fun e => decide (e.1.1 = n ∧ e.1.2 ≠ n))).map
    (fun e => (e.1.2, e.2))

/-- Modelled from the spec: the paths that the edge `n1 ≥ n2 + k` creates,
each with its end points and its weight. -/
def new_paths (ucs : universe_constraints) (n1 n2 : name) (k : Int) :
    List ((name × name) × Int) :=
  (ucs.incoming n1).flatMap (fun i =>
    (ucs.outgoing n2).map (fun o => ((i.1, o.1), i.2 + k + o.2)))

/-- Modelled from the spec: `overflows(u, v, k)` holds when a path through
the new edge has a weight that is not an `int`. -/
def overflows (ucs : universe_constraints) (n1 n2 : name) (k : Int) : Bool :=
  (ucs.new_paths n1 n2 k).any (fun e => decide (e.2 < INT_MIN ∨ INT_MAX < e.2))

/-- Modelled from the spec: raise the recorded distance of one pair. -/
def improve (ds : List ((name × name) × Int)) (e : (name × name) × Int) :
    List ((name × name) × Int) :=
  match (universe_constraints.mk ds).get_distance e.1.1 e.1.2 with
  | some d => if d < e.2 then set_distance ds e.1.1 e.1.2 e.2 else ds
  | none => set_distance ds e.1.1 e.1.2 e.2

/-- Modelled from the spec: `add_constraint(u, v, k)` inserts the edge
`u ≥ v + k` and updates the closure. -/
def add_constraint (ucs : universe_constraints) (n1 n2 : name) (k : Int) :
    universe_constraints :=
  ⟨(ucs.new_paths n1 n2 k).foldl improve ucs.m_distances⟩

end universe_constraints

/-- The class `universes`: the declared universe variables and the
constraint store. -/
structure universes where
  m_uvars : List level
  m_constraints : universe_constraints
  deriving Repr

/-! ## Objects and exceptions

Expressions (`kernel/expr.h`) are not part of the sources at hand: the type
`expr` is a parameter, and what the environment asks of an expression is
collected in `expr_ops`. -/

/-- What `environment.cpp` uses of an expression: whether some constant in it
carries a cached type (the search of `check_no_cached_type`), the constants
visited by `for_each_fn` in `get_max_weight`, and for a builtin value its
name, unicode name and type; `mk_constant` builds a constant. -/
structure expr_ops (expr : Type) where
  has_cached_type : expr → Bool
  constants : expr → List name
  is_value : expr → Bool
  value_name : expr → name
  value_unicode_name : expr → name
  value_type : expr → expr
  mk_constant : name → expr

/-- The neutral objects created in `environment.cpp`. -/
inductive neutral_object where
  | set_opaque_command (m_obj_name : name) ( m_opaque : Bool)
  | import_command (m_mod_name : String)
  | end_import_mark
  | begin_import_mark
  deriving DecidableEq, Repr

/-- Modelled from the spec: `kernel/object.h` is missing.  The objects of an
environment are the declarations listed by the spec: universe variable
constraints, definitions (with weight and opaque flag), theorems, axioms,
variables, builtin values and builtin sets, and neutral objects. -/
inductive object (expr : Type) where
  | UVarConstraint (n : name) (l : level)
  | Definition (n : name) (t v : expr) (weight : Nat) ( is_opaque : Bool)
  | Theorem (n : name) (t v : expr)
  | Axiom (n : name) (t : expr)
  | VarDecl (n : name) (t : expr)
  | Builtin (v : expr)
  | BuiltinSet (v : expr)
  | Neutral (o : neutral_object)

/-- The exceptions thrown by the environment. -/
inductive kernel_exception where
  | already_declared (n : name)
  | read_only_environment
  | unknown_object (n : name)
  | unknown_universe_variable (n : name)
  | universe_inconsistency (n : name) (l : level) (k : Int)
  | universe_overflow (n : name) (l : level) (k : Int)
  | integer_overflow
  | cached_type
  | def_type_mismatch (n : name)
  | invalid_builtin_value_declaration
  | set_opaque_failed (n : name)
  | type_checker_failure (code : Nat)
  deriving Repr

variable {expr : Type}

/-- Modelled from the spec: the name under which an object is registered
(`object::get_name`); a builtin value is registered under the name of the
value. -/
def object.get_name (ops : expr_ops expr) : object expr → name
  | .UVarConstraint n _ => n
  | .Definition n _ _ _ _ => n
  | .Theorem n _ _ => n
  | .Axiom n _ => n
  | .VarDecl n _ => n
  | .Builtin v => ops.value_name v
  | .BuiltinSet v => ops.value_name v
  | .Neutral _ => name.anonymous

/-- Modelled from the spec: the weight of an object (`object::get_weight`),
the weight of a definition and 0 for the other objects. -/
def object.get_weight : object expr → Nat
  | .Definition _ _ _ w _ => w
  | _ => 0

/-- Modelled from the spec: `object::is_definition`. -/
def object.is_definition : object expr → Bool
  | .Definition _ _ _ _ _ => true
  | _ => false

/-- Modelled from the spec: `object::set_opaque` on a definition. -/
def object.with_opaque_flag : object expr → Bool → object expr
  | .Definition n t v w _, f => .Definition n t v w f
  | o, _ => o

/-! ## The environment cell -/

/-- The data members of `environment_cell` that the declaration and universe
operations read and write.  `m_parent` is the parent cell, `m_num_children`
the number of live children; `m_object_dictionary` is the hash map from
names to objects, kept as an association list; `m_universes` is allocated on
the first write (a cell without it reads the universes of its parent). -/
inductive environment_cell (expr : Type) where
  | mk (m_parent : Option (environment_cell expr))
       (m_num_children : Nat)
       (m_objects : List (object expr))
       (m_object_dictionary : List (name × object expr))
       (m_universes : Option universes)
       (m_type_check : Bool)
       (m_trust_imported : Bool)
       (m_imported_modules : List name)

namespace environment_cell

def m_parent : environment_cell expr → Option (environment_cell expr)
  | mk p _ _ _ _ _ _ _ => p
def m_num_children : environment_cell expr → Nat
  | mk _ c _ _ _ _ _ _ => c
def m_objects : environment_cell expr → List (object expr)
  | mk _ _ o _ _ _ _ _ => o
def m_object_dictionary : environment_cell expr → List (name × object expr)
  | mk _ _ _ d _ _ _ _ => d
def m_universes : environment_cell expr → Option universes
  | mk _ _ _ _ u _ _ _ => u
def m_type_check : environment_cell expr → Bool
  | mk _ _ _ _ _ t _ _ => t
def m_trust_imported : environment_cell expr → Bool
  | mk _ _ _ _ _ _ t _ => t
def m_imported_modules : environment_cell expr → List name
  | mk _ _ _ _ _ _ _ i => i

def set_objects : environment_cell expr → List (object expr) → environment_cell expr
  | mk p c _ d u t ti i, o => mk p c o d u t ti i
def set_object_dictionary : environment_cell expr → List (name × object expr) →
    environment_cell expr
  | mk p c o _ u t ti i, d => mk p c o d u t ti i
def set_universes : environment_cell expr → Option universes → environment_cell expr
  | mk p c o d _ t ti i, u => mk p c o d u t ti i
def set_parent : environment_cell expr → Option (environment_cell expr) →
    environment_cell expr
  | mk _ c o d u t ti i, p => mk p c o d u t ti i

def has_parent (env : environment_cell expr) : Bool := env.m_parent.isSome
def has_children (env : environment_cell expr) : Bool := decide (0 < env.m_num_children)

end environment_cell

/-- The type checker `m_type_checker` of an environment is not part of the
sources at hand; its four entry points used by `environment.cpp` are
parameters.  `check_type` returns the exception it throws, if any. -/
structure type_checker (expr : Type) where
  check_type : environment_cell expr → expr → Option kernel_exception
  check : environment_cell expr → expr → Except kernel_exception expr
  infer_type : environment_cell expr → expr → Except kernel_exception expr
  is_convertible : environment_cell expr → expr → expr → Except kernel_exception Bool

namespace environment_cell

/-- The environment `environment_cell()` of the default constructor: no
parent, no children, type checking on, and `init_uvars()`: the universe
variable `bot` alone. -/
def empty : environment_cell expr :=
  mk none 0 [] [] (some ⟨[bot], (universe_constraints.mk []).add_var (uvar_name bot)⟩)
    true false []

/-- The function `mk_child`: the parent counts one more child, and the child
is a fresh cell that points to it.  The result is the parent and the child. -/
def mk_child (env : environment_cell expr) : environment_cell expr × environment_cell expr :=
  match env with
  | mk p c o d u t ti i =>
    let parent := mk p (c + 1) o d u t ti i
    (parent, mk (some parent) 0 [] [] none true false [])

/-- The function `check_name_core`: "throw exception if environment or its
ancestors already have an object with the given name"; the parent is asked
first. -/
def check_name_core : environment_cell expr → name → Option kernel_exception
  | mk none _ _ d _ _ _ _, n =>
    if d.any (fun e => decide (e.1 = n)) then some (.already_declared n) else none
  | mk (some p) _ _ d _ _ _ _, n =>
    match check_name_core p n with
    | some e => some e
    | none => if d.any (fun e => decide (e.1 = n)) then some (.already_declared n) else none

/-- The function `check_name`. -/
def check_name (env : environment_cell expr) (n : name) : Option kernel_exception :=
  if env.has_children then some .read_only_environment else check_name_core env n

/-- The function `register_named_object`: "store new named object inside
internal data-structures"; `insert` keeps the entry of a key that is
present. -/
def register_named_object (ops : expr_ops expr) (env : environment_cell expr)
    (new_obj : object expr) : environment_cell expr :=
  let env1 := env.set_objects (env.m_objects ++ [new_obj])
  if env1.m_object_dictionary.any (fun e => decide (e.1 = new_obj.get_name ops)) then env1
  else env1.set_object_dictionary
    (env1.m_object_dictionary ++ [(new_obj.get_name ops, new_obj)])

/-- The function `get_object_core`: the object named `n` in the environment
or its ancestors. -/
def get_object_core : environment_cell expr → name → Option (object expr)
  | mk none _ _ d _ _ _ _, n =>
    match d.find? (fun e => decide (e.1 = n)) with
    | some e => some e.2
    | none => none
  | mk (some p) _ _ d _ _ _ _, n =>
    match d.find? (fun e => decide (e.1 = n)) with
    | some e => some e.2
    | none => get_object_core p n

/-- The function `get_object(name)`. -/
def get_object (env : environment_cell expr) (n : name) : Except kernel_exception (object expr) :=
  match get_object_core env n with
  | some o => .ok o
  | none => .error (.unknown_object n)

/-- The function `get_max_weight`: the greatest weight of an object named by
a constant of `e`. -/
def get_max_weight (ops : expr_ops expr) (env : environment_cell expr) (e : expr) : Nat :=
  (ops.constants e).foldl (fun w c =>
    match get_object_core env c with
    | some obj => Nat.max w obj.get_weight
    | none => w) 0

/-- The function `add_neutral_object`. -/
def add_neutral_object (env : environment_cell expr) (o : neutral_object) :
    environment_cell expr :=
  env.set_objects (env.m_objects ++ [.Neutral o])

/-- The function `check_no_cached_type`. -/
def check_no_cached_type (ops : expr_ops expr) (e : expr) : Option kernel_exception :=
  if ops.has_cached_type e then some .cached_type else none

/-- The function `check_type(n, t, v)`: "throw an exception if t is not a
type or type of v is not convertible to t". -/
def check_type (tc : type_checker expr) (env : environment_cell expr) (n : name) (t v : expr) :
    Option kernel_exception :=
  if env.m_type_check then
    match tc.check_type env t with
    | some e => some e
    | none =>
      match tc.check env v with
      | .error e => some e
      | .ok v_t =>
        match tc.is_convertible env v_t t with
        | .error e => some e
        | .ok true => none
        | .ok false => some (.def_type_mismatch n)
  else none

/-- The function `check_new_definition`. -/
def check_new_definition (tc : type_checker expr) (env : environment_cell expr)
    (n : name) (t v : expr) : Option kernel_exception :=
  match check_name env n with
  | some e => some e
  | none => check_type tc env n t v

/-- The write `obj->set_opaque(opaque)` of `set_opaque`: the object found by
`find_object(n)` is shared by the object list and the dictionary of the cell
that declares it, nearest cell first. -/
def update_opaque : environment_cell expr → name → Bool → environment_cell expr
  | mk none c o d u t ti i, n, f =>
    mk none c
      (o.map (fun x => match x with
        | .Definition m a b w g => if m = n then .Definition m a b w f else .Definition m a b w g
        | x => x))
      (d.map (fun e => if e.1 = n then (e.1, e.2.with_opaque_flag f) else e)) u t ti i
  | mk (some p) c o d u t ti i, n, f =>
    if d.any (fun e => decide (e.1 = n)) then
      mk (some p) c
        (o.map (fun x => match x with
          | .Definition m a b w g => if m = n then .Definition m a b w f else .Definition m a b w g
          | x => x))
        (d.map (fun e => if e.1 = n then (e.1, e.2.with_opaque_flag f) else e)) u t ti i
    else mk (some ( update_opaque p n f)) c o d u t ti i

/-- The function `set_opaque`. -/
def set_opaque (env : environment_cell expr) (n : name) (opaque_flag : Bool) :
    Option kernel_exception × environment_cell expr :=
  match get_object_core env n with
  | none => (some (.set_opaque_failed n), env)
  | some obj =>
    if obj.is_definition then
      (none, add_neutral_object ( update_opaque env n opaque_flag)
        (.set_opaque_command n opaque_flag))
    else (some (.set_opaque_failed n), env)

end environment_cell

namespace environment_cell

/-! ### Declarations

Each operation returns the exception it throws, if any, and the environment
it leaves. -/

/-- The four-argument `add_definition(n, t, v, opaque)`. -/
def add_definition (ops : expr_ops expr) (tc : type_checker expr)
    (env : environment_cell expr) (n : name) (t v : expr) (opaque_flag : Bool) :
    Option kernel_exception × environment_cell expr :=
  match check_no_cached_type ops t with
  | some e => (some e, env)
  | none =>
    match check_no_cached_type ops v with
    | some e => (some e, env)
    | none =>
      match check_new_definition tc env n t v with
      | some e => (some e, env)
      | none =>
        let w := (get_max_weight ops env v + 1) % UNSIGNED_RANGE
        let env1 := register_named_object ops env (.Definition n t v w false)
        if opaque_flag then set_opaque env1 n opaque_flag else (none, env1)

/-- The three-argument `add_definition(n, v, opaque)`: "the type of the new
definition is the type of v". -/
def add_definition_infer (ops : expr_ops expr) (tc : type_checker expr)
    (env : environment_cell expr) (n : name) (v : expr) (opaque_flag : Bool) :
    Option kernel_exception × environment_cell expr :=
  match check_no_cached_type ops v with
  | some e => (some e, env)
  | none =>
    match check_name env n with
    | some e => (some e, env)
    | none =>
      match (if env.m_type_check then tc.check env v else tc.infer_type env v) with
      | .error e => (some e, env)
      | .ok v_t =>
        let w := (get_max_weight ops env v + 1) % UNSIGNED_RANGE
        let env1 := register_named_object ops env (.Definition n v_t v w false)
        if opaque_flag then set_opaque env1 n opaque_flag else (none, env1)

/-- The function `add_theorem`. -/
def add_theorem (ops : expr_ops expr) (tc : type_checker expr)
    (env : environment_cell expr) (n : name) (t v : expr) :
    Option kernel_exception × environment_cell expr :=
  match check_no_cached_type ops t with
  | some e => (some e, env)
  | none =>
    match check_no_cached_type ops v with
    | some e => (some e, env)
    | none =>
      match check_new_definition tc env n t v with
      | some e => (some e, env)
      | none => (none, register_named_object ops env (.Theorem n t v))

/-- The function `add_axiom`. -/
def add_axiom (ops : expr_ops expr) (tc : type_checker expr)
    (env : environment_cell expr) (n : name) (t : expr) :
    Option kernel_exception × environment_cell expr :=
  match check_no_cached_type ops t with
  | some e => (some e, env)
  | none =>
    match check_name env n with
    | some e => (some e, env)
    | none =>
      match (if env.m_type_check then tc.check_type env t else none) with
      | some e => (some e, env)
      | none => (none, register_named_object ops env (.Axiom n t))

/-- The function `add_var`. -/
def add_var (ops : expr_ops expr) (tc : type_checker expr)
    (env : environment_cell expr) (n : name) (t : expr) :
    Option kernel_exception × environment_cell expr :=
  match check_no_cached_type ops t with
  | some e => (some e, env)
  | none =>
    match check_name env n with
    | some e => (some e, env)
    | none =>
      match (if env.m_type_check then tc.check_type env t else none) with
      | some e => (some e, env)
      | none => (none, register_named_object ops env (.VarDecl n t))

/-- The function `auxiliary_section(fn)`: a begin mark, the body, and an end
mark also when the body throws. -/
def auxiliary_section (env : environment_cell expr)
    (fn : environment_cell expr → Option kernel_exception × environment_cell expr) :
    Option kernel_exception × environment_cell expr :=
  let r := fn (add_neutral_object env .begin_import_mark)
  (r.1, add_neutral_object r.2 .end_import_mark)

/-- The function `add_builtin`. -/
def add_builtin (ops : expr_ops expr) (tc : type_checker expr)
    (env : environment_cell expr) (v : expr) :
    Option kernel_exception × environment_cell expr :=
  if ops.is_value v then
    match check_name env (ops.value_name v) with
    | some e => (some e, env)
    | none =>
      match check_name env (ops.value_unicode_name v) with
      | some e => (some e, env)
      | none =>
        let env1 := register_named_object ops env (.Builtin v)
        if ops.value_unicode_name v ≠ ops.value_name v then
          auxiliary_section env1 (fun e =>
            add_definition ops tc e (ops.value_unicode_name v) (ops.value_type v)
              (ops.mk_constant (ops.value_name v)) false)
        else (none, env1)
  else (some .invalid_builtin_value_declaration, env)

/-- The function `add_builtin_set`. -/
def add_builtin_set (ops : expr_ops expr) (env : environment_cell expr) (r : expr) :
    Option kernel_exception × environment_cell expr :=
  if ops.is_value r then
    match check_name env (ops.value_name r) with
    | some e => (some e, env)
    | none => (none, register_named_object ops env (.BuiltinSet r))
  else (some .invalid_builtin_value_declaration, env)

/-- The function `already_imported`. -/
def already_imported : environment_cell expr → name → Bool
  | mk none _ _ _ _ _ _ i, n => decide (n ∈ i)
  | mk (some p) _ _ _ _ _ _ i, n => if n ∈ i then true else already_imported p n

/-- The function `mark_imported_core`. -/
def mark_imported_core (env : environment_cell expr) (n : name) :
    Except kernel_exception Bool × environment_cell expr :=
  if already_imported env n then (.ok false, env)
  else if env.has_children then (.error .read_only_environment, env)
  else
    match env with
    | mk p c o d u t ti i => (.ok true, mk p c o d u t ti (i ++ [n]))

end environment_cell

namespace environment_cell

/-! ### Universe variables -/

/-- The function `get_ro_universes`: the universes of the nearest cell that
has allocated them. -/
def get_ro_universes : environment_cell expr → universes
  | mk none _ _ _ u _ _ _ => u.getD ⟨[], ⟨[]⟩⟩
  | mk (some p) _ _ _ u _ _ _ =>
    match u with
    | some x => x
    | none => get_ro_universes p

/-- The function `get_rw_universes`: a cell without universes of its own
copies those of its parent, after the parent has allocated its own. -/
def get_rw_universes : environment_cell expr → universes × environment_cell expr
  | mk none c o d u t ti i => (u.getD ⟨[], ⟨[]⟩⟩, mk none c o d (some (u.getD ⟨[], ⟨[]⟩⟩)) t ti i)
  | mk (some p) c o d u t ti i =>
    match u with
    | some x => (x, mk (some p) c o d (some x) t ti i)
    | none =>
      let r := get_rw_universes p
      (r.1, mk (some r.2) c o d (some r.1) t ti i)

/-- The constraints `get_ro_ucs()`. -/
def get_ro_ucs (env : environment_cell expr) : universe_constraints :=
  (get_ro_universes env).m_constraints

/-- The member `is_ge(l1, l2, k)` of an environment: `is_ge` over the
constraints `get_ro_ucs()`. -/
def is_ge (env : environment_cell expr) (l1 l2 : level) (k : Int) : Option Bool :=
  lean.is_ge (get_ro_ucs env).is_implied l1 l2 k

/-- The member `is_ge(l1, l2)` of an environment. -/
def is_ge0 (env : environment_cell expr) (l1 l2 : level) : Option Bool :=
  is_ge env l1 l2 0

/-- The function `add_uvar_core`: "add a new universe variable".  The
declaration of the constructor used in `level r(n)` is missing (`level.h`):
the identifier of the new variable is its position in `m_uvars`, as for
`bot`, the variable 0. -/
def add_uvar_core (env : environment_cell expr) (n : name) :
    Except kernel_exception level × environment_cell expr :=
  match check_name env n with
  | some e => (.error e, env)
  | none =>
    let r := get_rw_universes env
    let v := level.uvar n r.1.m_uvars.length
    (.ok v, r.2.set_universes (some ⟨r.1.m_uvars ++ [v], r.1.m_constraints.add_var n⟩))

/-- The write `get_rw_ucs().add_constraint(n, m, k)`. -/
def add_basic_constraint (env : environment_cell expr) (n m : name) (k : Int) :
    environment_cell expr :=
  let r := get_rw_universes env
  r.2.set_universes (some ⟨r.1.m_uvars, r.1.m_constraints.add_constraint n m k⟩)

mutual
/-- The function `add_constraints`: "add all basic constraints implied by
n >= l + k". -/
def add_constraints : level → name → Int → environment_cell expr →
    Option kernel_exception × environment_cell expr
  | .uvar m _, n, k, env => (none, add_basic_constraint env n m k)
  | .lift l o, n, k, env =>
    match safe_add k (o : Int) with
    | none => (some .integer_overflow, env)
    | some k1 => add_constraints l n k1 env
  | .max ls, n, k, env => add_constraints_list ls n k env
/-- The loop `std::for_each` of `add_constraints` over the children of a max
level; an exception ends it. -/
def add_constraints_list : List level → name → Int → environment_cell expr →
    Option kernel_exception × environment_cell expr
  | [], _, _, env => (none, env)
  | l :: ls, n, k, env =>
    match add_constraints l n k env with
    | (some e, env1) => (some e, env1)
    | (none, env1) => add_constraints_list ls n k env1
end

mutual
/-- The function `check_consistency`: "check if n >= l + k is consistent
with the existing constraints". -/
def check_consistency (env : environment_cell expr) : level → name → Int →
    Option kernel_exception
  | .uvar m u, n, k =>
    if !(get_ro_ucs env).is_consistent n m k then
      some (.universe_inconsistency n (.uvar m u) k)
    else if (get_ro_ucs env).overflows n m k then
      some (.universe_overflow n (.uvar m u) k)
    else none
  | .lift l o, n, k =>
    match safe_add k (o : Int) with
    | none => some .integer_overflow
    | some k1 => check_consistency env l n k1
  | .max ls, n, k => check_consistency_list env ls n k
/-- The loop `std::for_each` of `check_consistency`. -/
def check_consistency_list (env : environment_cell expr) : List level → name → Int →
    Option kernel_exception
  | [], _, _ => none
  | l :: ls, n, k =>
    match check_consistency env l n k with
    | some e => some e
    | none => check_consistency_list env ls n k
end

/-- The function `add_uvar_cnstr`: "add a new universe variable with
constraint n >= l". -/
def add_uvar_cnstr (env : environment_cell expr) (n : name) (l : level) :
    Except kernel_exception level × environment_cell expr :=
  if env.has_children then (.error .read_only_environment, env)
  else
    let it := (get_ro_universes env).m_uvars.find? (fun x => decide (uvar_name x = n))
    match check_consistency env l n 0 with
    | some e => (.error e, env)
    | none =>
      match (match it with
             | none => add_uvar_core env n
             | some r => (.ok r, env)) with
      | (.error e, env1) => (.error e, env1)
      | (.ok r, env1) =>
        match add_constraints l n 0
            (env1.set_objects (env1.m_objects ++ [.UVarConstraint n l])) with
        | (some e, env3) => (.error e, env3)
        | (none, env3) => (.ok r, env3)

end environment_cell

/-! ## The normal form of levels and their value

The predicates below state the data model of levels: a lift wraps a
variable, a max has at least two children, none of them a max, with pairwise
different base variables. -/

/-- A universe variable, or a lift of a universe variable. -/
def simple : level → Bool
  | .uvar _ _ => true
  | .lift l _ => is_uvar l
  | .max _ => false

/-- No two levels of the list have the same base (`_lift_of`, compared with
`operator==`). -/
def distinct_bases : List level → Bool
  | [] => true
  | x :: xs => xs.all (fun y => !level_eq (_lift_of x) (_lift_of y)) && distinct_bases xs

/-- The normal form: a variable, a lift of a variable, or a max of at least
two such levels with pairwise different bases. -/
def normalized : level → Bool
  | .max ls => decide (2 ≤ ls.length) && ls.all simple && distinct_bases ls
  | l => simple l

/-- The children of the list whose base is `b`. -/
def with_base (b : level) (ls : List level) : List level :=
  ls.filter (fun c => level_eq (_lift_of c) b)

mutual
/-- The value of a level under a valuation of the universe variables: a lift
adds its offset, a max is the greatest value of its children (0 stands for
the value of a max without children). -/
def eval (rho : name → Int) : level → Int
  | .uvar n _ => rho n
  | .lift l k => eval rho l + (k : Int)
  | .max ls =>
    match eval_list rho ls with
    | [] => 0
    | x :: xs => xs.foldl Max.max x
/-- The values of the levels of a list. -/
def eval_list (rho : name → Int) : List level → List Int
  | [] => []
  | l :: ls => eval rho l :: eval_list rho ls
end

mutual
/-- Every universe variable of the level carries the name that `names`
gives to its identifier, and every max has a child. -/
def well_formed (names : Nat → name) : level → Bool
  | .uvar n u => decide (n = names u)
  | .lift l _ => well_formed names l
  | .max ls => !ls.isEmpty && well_formed_list names ls
/-- Every level of the list is well formed. -/
def well_formed_list (names : Nat → name) : List level → Bool
  | [] => true
  | l :: ls => well_formed names l && well_formed_list names ls
end

/-! ## The environments of `tests/kernel/level.cpp` -/

/-- The names registered in the dictionaries of an environment and of its
ancestors, the oldest ancestor first. -/
def environment_cell.declared_names : environment_cell expr → List name
  | .mk none _ _ d _ _ _ _ => d.map Prod.fst
  | .mk (some p) _ _ d _ _ _ _ => declared_names p ++ d.map Prod.fst

/-- Operations on expressions for the environments of the examples, whose
expressions are natural numbers: no expression has a cached type or a
constant, every expression is a builtin value named by its number, with
unicode name the next number. -/
def nat_ops : expr_ops Nat where
  has_cached_type := fun _ => false
  constants := fun _ => []
  is_value := fun _ => true
  value_name := fun v => name.num name.anonymous v
  value_unicode_name := fun v => name.num name.anonymous (v + 1)
  value_type := fun v => v
  mk_constant := fun _ => 0

/-- A type checker for the examples that accepts every expression. -/
def nat_tc : type_checker Nat where
  check_type := fun _ _ => none
  check := fun _ e => .ok e
  infer_type := fun _ e => .ok e
  is_convertible := fun _ _ _ => .ok true

/-- An environment in which the variable `x` is declared and which has a
live child: the parent left by `mk_child` after `add_var(x, 0)`. -/
def parent_with_x : environment_cell Nat :=
  (environment_cell.mk_child
    (environment_cell.add_var nat_ops nat_tc environment_cell.empty (name.mk_str "x") 0).2).1

/-- Operations on expressions for the examples in which the expression 7
holds a constant with a cached type; otherwise as `nat_ops`. -/
def nat_ops_cached : expr_ops Nat where
  has_cached_type := fun e => decide (e = 7)
  constants := fun _ => []
  is_value := fun _ => true
  value_name := fun v => name.num name.anonymous v
  value_unicode_name := fun v => name.num name.anonymous (v + 1)
  value_type := fun v => v
  mk_constant := fun _ => 0

/-- Modelled from the spec: the flag `object::is_opaque` of an object, the
opaque flag of a definition and false for the other objects. -/
def object.opaque_flag : object expr → Bool
  | .Definition _ _ _ _ f => f
  | _ => false

/-- An environment in which the definition `d` is declared and which has a
live child: the parent left by `mk_child` after `add_definition(d, 0, 0,
false)`. -/
def parent_with_d : environment_cell Nat :=
  (environment_cell.mk_child
    (environment_cell.add_definition nat_ops nat_tc environment_cell.empty
      (name.mk_str "d") 0 0 false).2).1

mutual
/-- The basic constraints `n >= v + k` implied by `n >= l + k`, as pairs
`(v, k)`, with the offsets added as integers. -/
def basic_constraints : level → Int → List (name × Int)
  | .uvar m _, k => [(m, k)]
  | .lift l o, k => basic_constraints l (k + (o : Int))
  | .max ls, k => basic_constraints_list ls k
/-- The basic constraints of the children of a max. -/
def basic_constraints_list : List level → Int → List (name × Int)
  | [], _ => []
  | l :: ls, k => basic_constraints l k ++ basic_constraints_list ls k
end

/-- The declarations of `tst3`: `l1 >= bot`, `l2 >= l1 + (2^30 + 1024)`, and
then `l3 >= l2 + 2^30`; the result is the environment before the third
declaration and the outcome of the third declaration. -/
def tst3_env : Option (environment_cell Unit ×
    (Except kernel_exception level × environment_cell Unit)) :=
  match environment_cell.add_uvar_cnstr environment_cell.empty (name.mk_str "l1") bot with
  | (.ok l1, e1) =>
    match environment_cell.add_uvar_cnstr e1 (name.mk_str "l2") (add l1 (1073741824 + 1024)) with
    | (.ok l2, e2) =>
      some (e2, environment_cell.add_uvar_cnstr e2 (name.mk_str "l3") (add l2 1073741824))
    | _ => none
  | _ => none

/-! ## Justifications (`kernel/justification.cpp`)

A justification is a pointer to a justification cell.  The cells are the
elements of a type `cell` with decidable equality (the comparison of
pointers), and the virtual method `get_children` of the cells is the function
`get_children`, which gives the children of every cell of the graph. -/

section justification

variable {cell : Type} [DecidableEq cell]

/-- The loop of `depends_on(t, d)`.  The buffer `todo` is kept with its back
first: `todo.back()` is the head of the list, and the `push_back` of the
children, one by one, puts the last child first.  The loop stops when `todo`
is empty (false) or when the cell `curr` is the cell of `d` (true); `none`
is returned when the given number of iterations is used up. -/
def depends_on_loop (get_children : cell → List cell) (d : cell) : Nat → List cell → Option Bool
  | _, [] => some false
  | 0, _ :: _ => none
  | fuel + 1, curr :: todo =>
    if curr = d then some true
    else depends_on_loop get_children d fuel
      ((get_children curr).foldl (fun todo child => child :: todo) todo)

/-- The function `depends_on(t, d)`, run for at most `fuel` iterations:
`todo` starts with the cell of `t`. -/
def depends_on (get_children : cell → List cell) (fuel : Nat) (t d : cell) : Option Bool :=
  depends_on_loop get_children d fuel [t]

/-- The number of cells of the unfolding of the graph below the cell `c`, to
the depth `r`: the number of paths of length at most `r` that start at
`c`. -/
def unfolding_size (get_children : cell → List cell) : Nat → cell → Nat
  | 0, _ => 1
  | r + 1, c => 1 + ((get_children c).map (unfolding_size get_children r)).sum

/-- The cell `d` is reachable from the cell `t` by zero or more
`get_children` steps. -/
def reachable (get_children : cell → List cell) (t d : cell) : Prop :=
  Relation.ReflTransGen (fun a b => b ∈ get_children a) t d

end justification

/-- A graph of four justification cells for the examples: the cell 3 has
the children 2 and 1, the cell 2 the children 1 and 0, the cell 1 the child
0, and the other cells have no children. -/
def diamond_children : Nat → List Nat
  | 3 => [2, 1]
  | 2 => [1, 0]
  | 1 => [0]
  | _ => []

/-! ## The elaborator (`library/elaborator/elaborator.cpp`)

The headers that declare expressions, contexts, metavariable environments
and traces are not part of the sources at hand: the types `context`, `expr`,
`metavar_env` and `trace` are parameters.  A value of type `trace` is a trace
cell; a handle `trace` of the source, which may be null, is an
`Option trace`, and `none` is the null handle `trace()`. -/

/-- Modelled from the spec: the unification constraints
(`unification_constraint.h` is missing), `Eq(ctx, a, b, j)`,
`Convertible(ctx, from, to, j)`, `Max(ctx, m, l1, l2, j)` and
`Choice(ctx, m, [c1 .. cn], j)`, where `j` is the justification trace. -/
inductive unification_constraint (context expr trace : Type) where
  | Eq (ctx : context) (lhs rhs : expr) (tr : Option trace)
  | Convertible (ctx : context) (from_ to_ : expr) (tr : Option trace)
  | Max (ctx : context) (m l1 l2 : expr) (tr : Option trace)
  | Choice (ctx : context) (mvar : expr) (choices : List expr) (tr : Option trace)

/-- The values of `unification_constraint_kind`. -/
inductive unification_constraint_kind where
  | Eq | Convertible | Max | Choice
  deriving DecidableEq, Repr

namespace unification_constraint

variable {context expr trace : Type}

def kind : unification_constraint context expr trace → unification_constraint_kind
  | .Eq _ _ _ _ => .Eq
  | .Convertible _ _ _ _ => .Convertible
  | .Max _ _ _ _ _ => .Max
  | .Choice _ _ _ _ => .Choice

/-- The context of a constraint, `get_context(c)`. -/
def get_context : unification_constraint context expr trace → context
  | .Eq ctx _ _ _ => ctx
  | .Convertible ctx _ _ _ => ctx
  | .Max ctx _ _ _ _ => ctx
  | .Choice ctx _ _ _ => ctx

/-- The trace of a constraint. -/
def get_trace : unification_constraint context expr trace → Option trace
  | .Eq _ _ _ tr => tr
  | .Convertible _ _ _ tr => tr
  | .Max _ _ _ _ tr => tr
  | .Choice _ _ _ tr => tr

def is_eq (c : unification_constraint context expr trace) : Bool := c.kind == .Eq
def is_convertible (c : unification_constraint context expr trace) : Bool :=
  c.kind == .Convertible

/-- The number of alternatives of a choice constraint, `choice_size(c)`. -/
def choice_size : unification_constraint context expr trace → Nat
  | .Choice _ _ cs _ => cs.length
  | _ => 0

/-- The metavariable of a choice constraint, `choice_mvar(c)`; for the
other constraints, which have none, a side of the constraint. -/
def choice_mvar : unification_constraint context expr trace → expr
  | .Choice _ m _ _ => m
  | .Eq _ a _ _ => a
  | .Convertible _ a _ _ => a
  | .Max _ m _ _ _ => m

/-- The alternative `choice_ith(c, i)` of a choice constraint, for
`i < choice_size(c)`. -/
def choice_ith (c : unification_constraint context expr trace) (i : Nat) : expr :=
  match c with
  | .Choice _ m cs _ => cs.getD i m
  | c => c.choice_mvar

end unification_constraint

/-- The engine state `state`: the metavariable environment and the
constraint queue, whose front is the head of the list. -/
structure state (context expr metavar_env trace : Type) where
  m_menv : metavar_env
  m_queue : List (unification_constraint context expr trace)

/-- The case splits of the elaborator: `choice_case_split`,
`generic_case_split` and `plugin_case_split`, each with the members
`m_curr_assumption`, `m_prev_state` and `m_failed_traces` of the base class
`case_split`.  The lazy sequence `m_alternatives` of a plugin split is the
list of the alternatives that are left, each a function of the assumption
passed to `next`. -/
inductive case_split (context expr metavar_env trace : Type) where
  | choice (m_curr_assumption : Option trace)
      (m_prev_state : state context expr metavar_env trace)
      (m_failed_traces : List (Option trace)) (m_idx : Nat)
      (m_choice : unification_constraint context expr trace)
  | generic (m_curr_assumption : Option trace)
      (m_prev_state : state context expr metavar_env trace)
      (m_failed_traces : List (Option trace))
      (m_constraint : unification_constraint context expr trace) (m_idx : Nat)
      (m_states : List (state context expr metavar_env trace))
      (m_assumptions : List (Option trace))
  | plugin (m_curr_assumption : Option trace)
      (m_prev_state : state context expr metavar_env trace)
      (m_failed_traces : List (Option trace))
      (m_constraint : unification_constraint context expr trace)
      (m_alternatives : List (Option trace →
        metavar_env × List (unification_constraint context expr trace)))

namespace case_split

variable {context expr metavar_env trace : Type}

def m_curr_assumption : case_split context expr metavar_env trace → Option trace
  | .choice a _ _ _ _ => a
  | .generic a _ _ _ _ _ _ => a
  | .plugin a _ _ _ _ => a

def m_prev_state : case_split context expr metavar_env trace →
    state context expr metavar_env trace
  | .choice _ s _ _ _ => s
  | .generic _ s _ _ _ _ _ => s
  | .plugin _ s _ _ _ => s

def m_failed_traces : case_split context expr metavar_env trace → List (Option trace)
  | .choice _ _ f _ _ => f
  | .generic _ _ f _ _ _ _ => f
  | .plugin _ _ f _ _ => f

/-- The constraint of a split: `m_choice` or `m_constraint`. -/
def constraint : case_split context expr metavar_env trace →
    unification_constraint context expr trace
  | .choice _ _ _ _ c => c
  | .generic _ _ _ c _ _ _ => c
  | .plugin _ _ _ c _ => c

/-- The statement `d->m_failed_traces.push_back(tr)`. -/
def push_failed : case_split context expr metavar_env trace → Option trace →
    case_split context expr metavar_env trace
  | .choice a s f i c, tr => .choice a s (f ++ [tr]) i c
  | .generic a s f c i ss as, tr => .generic a s (f ++ [tr]) c i ss as
  | .plugin a s f c alts, tr => .plugin a s (f ++ [tr]) c alts

/-- The number of alternatives that the split has already taken, for a
choice or generic split (`m_idx`). -/
def m_idx : case_split context expr metavar_env trace → Nat
  | .choice _ _ _ i _ => i
  | .generic _ _ _ _ i _ _ => i
  | .plugin _ _ _ _ _ => 0

/-- The split has an alternative left. -/
def has_alternative : case_split context expr metavar_env trace → Bool
  | .choice _ _ _ i c => decide (i < c.choice_size)
  | .generic _ _ _ _ i ss _ => decide (i < ss.length)
  | .plugin _ _ _ _ alts => !alts.isEmpty

end case_split

/-- The failures that leave the elaborator: `elaborator_exception` with the
conflict it carries, the interruption, and a failure of a kernel
function. -/
inductive elaborator_error (trace : Type) where
  | elaborator_exception (m_conflict : Option trace)
  | interrupted
  | kernel_failure

/-- The trace cells of `elaborator_trace.h` (missing) and the function
`depends_on` on traces: the constructors of the cells that the elaborator
allocates, as functions of their arguments. -/
structure trace_ops (context expr trace : Type) where
  assumption_trace : Nat → trace
  substitution_trace : unification_constraint context expr trace → Option trace → trace
  multi_substitution_trace : unification_constraint context expr trace →
    List (Option trace) → trace
  normalize_trace : unification_constraint context expr trace → trace
  destruct_trace : unification_constraint context expr trace → trace
  assignment_trace : unification_constraint context expr trace → trace
  typeof_mvar_trace : context → expr → expr → expr → Option trace → trace
  unification_failure_trace : unification_constraint context expr trace → trace
  unification_failure_by_cases_trace : unification_constraint context expr trace →
    List (Option trace) → trace
  next_solution_trace : List (Option trace) → trace
  depends_on : Option trace → Option trace → Bool

/-- The data members of `elaborator::imp` that change during elaboration.
The vector `m_case_splits` is kept with its back first: the head of the list
is `m_case_splits.back()`. -/
structure imp (context expr metavar_env trace : Type) where
  m_state : state context expr metavar_env trace
  m_case_splits : List (case_split context expr metavar_env trace)
  m_next_id : Nat
  m_quota : Int
  m_conflict : Option trace
  m_first : Bool
  m_interrupted : Bool
  m_use_traces : Bool
  m_use_normalizer : Bool

namespace imp

variable {context expr metavar_env trace : Type}

/-- The function `reset_quota`: the quota becomes the size of the queue. -/
def reset_quota (e : imp context expr metavar_env trace) : imp context expr metavar_env trace :=
  { e with m_quota := (e.m_state.m_queue.length : Int) }

/-- The function `mk_assumption`: a new assumption trace with the identifier
`m_next_id`, which is incremented (as an unsigned integer). -/
def mk_assumption (ops : trace_ops context expr trace)
    (e : imp context expr metavar_env trace) : trace × imp context expr metavar_env trace :=
  (ops.assumption_trace e.m_next_id,
    { e with m_next_id := (e.m_next_id + 1) % UNSIGNED_RANGE })

/-- The function `push_front`: "add given constraint to the front of the
current constraint queue", after `reset_quota()`. -/
def push_front (e : imp context expr metavar_env trace)
    (c : unification_constraint context expr trace) : imp context expr metavar_env trace :=
  let e1 := reset_quota e
  { e1 with m_state := { e1.m_state with m_queue := c :: e1.m_state.m_queue } }

/-- The function `push_back`: "add given constraint to the end of the
current constraint queue". -/
def push_back (e : imp context expr metavar_env trace)
    (c : unification_constraint context expr trace) : imp context expr metavar_env trace :=
  { e with m_state := { e.m_state with m_queue := e.m_state.m_queue ++ [c] } }

/-- The function `next_choice_case`, on the members of a choice split: the
result is the returned value, the split and the engine. -/
def next_choice_case (ops : trace_ops context expr trace)
    (m_curr_assumption : Option trace) (m_prev_state : state context expr metavar_env trace)
    (m_failed_traces : List (Option trace)) (m_idx : Nat)
    (m_choice : unification_constraint context expr trace)
    (e : imp context expr metavar_env trace) :
    Bool × case_split context expr metavar_env trace × imp context expr metavar_env trace :=
  if m_idx < m_choice.choice_size then
    let a := mk_assumption ops e
    let e1 := { a.2 with m_state := m_prev_state }
    (true, .choice (some a.1) m_prev_state m_failed_traces (m_idx + 1) m_choice,
      push_front e1 (.Eq m_choice.get_context m_choice.choice_mvar
        (m_choice.choice_ith m_idx) (some a.1)))
  else
    (false, .choice m_curr_assumption m_prev_state m_failed_traces m_idx m_choice,
      { e with
        m_conflict := some (ops.unification_failure_by_cases_trace m_choice m_failed_traces) })

/-- The function `next_generic_case`, on the members of a generic split. -/
def next_generic_case (ops : trace_ops context expr trace)
    (m_curr_assumption : Option trace) (m_prev_state : state context expr metavar_env trace)
    (m_failed_traces : List (Option trace))
    (m_constraint : unification_constraint context expr trace) (m_idx : Nat)
    (m_states : List (state context expr metavar_env trace))
    (m_assumptions : List (Option trace))
    (e : imp context expr metavar_env trace) :
    Bool × case_split context expr metavar_env trace × imp context expr metavar_env trace :=
  if m_idx < m_states.length then
    (true,
      .generic (m_assumptions.getD (m_states.length - m_idx - 1) none) m_prev_state
        m_failed_traces m_constraint (m_idx + 1) m_states m_assumptions,
      { e with m_state := m_states.getD (m_states.length - m_idx - 1) m_prev_state })
  else
    (false,
      .generic m_curr_assumption m_prev_state m_failed_traces m_constraint m_idx m_states
        m_assumptions,
      { e with
        m_conflict :=
          some (ops.unification_failure_by_cases_trace m_constraint m_failed_traces) })

/-- The function `next_plugin_case`, on the members of a plugin split: the
assumption is made first; when the alternatives are used up their `next`
throws, and the handler sets the conflict. -/
def next_plugin_case (ops : trace_ops context expr trace)
    (m_prev_state : state context expr metavar_env trace)
    (m_failed_traces : List (Option trace))
    (m_constraint : unification_constraint context expr trace)
    (m_alternatives : List (Option trace →
      metavar_env × List (unification_constraint context expr trace)))
    (e : imp context expr metavar_env trace) :
    Bool × case_split context expr metavar_env trace × imp context expr metavar_env trace :=
  let a := mk_assumption ops e
  match m_alternatives with
  | alt :: rest =>
    let r := alt (some a.1)
    (true, .plugin (some a.1) m_prev_state m_failed_traces m_constraint rest,
      r.2.foldl push_front
        { a.2 with m_state := { m_menv := r.1, m_queue := m_prev_state.m_queue } })
  | [] =>
    (false, .plugin (some a.1) m_prev_state m_failed_traces m_constraint [],
      { a.2 with
        m_conflict :=
          some (ops.unification_failure_by_cases_trace m_constraint m_failed_traces) })

/-- The virtual method `case_split::next(owner)`. -/
def next (ops : trace_ops context expr trace) :
    case_split context expr metavar_env trace → imp context expr metavar_env trace →
    Bool × case_split context expr metavar_env trace × imp context expr metavar_env trace
  | .choice a s f i c, e => next_choice_case ops a s f i c e
  | .generic a s f c i ss as, e => next_generic_case ops a s f c i ss as e
  | .plugin _ s f c alts, e => next_plugin_case ops s f c alts e

/-- The loop of `resolve_conflict` over the case splits that are left, the
back of `m_case_splits` first.  The result is the exception thrown, if any,
and the engine. -/
def resolve_conflict_loop (ops : trace_ops context expr trace) :
    List (case_split context expr metavar_env trace) → imp context expr metavar_env trace →
    Option (elaborator_error trace) × imp context expr metavar_env trace
  | [], e => (some (.elaborator_exception e.m_conflict), { e with m_case_splits := [] })
  | d :: rest, e =>
    if ops.depends_on e.m_conflict d.m_curr_assumption then
      match next ops (d.push_failed e.m_conflict)
          { e with m_case_splits := d.push_failed e.m_conflict :: rest } with
      | (true, d1, e1) =>
        (none, reset_quota { e1 with m_case_splits := d1 :: rest, m_conflict := none })
      | (false, _, e1) => resolve_conflict_loop ops rest { e1 with m_case_splits := rest }
    else resolve_conflict_loop ops rest { e with m_case_splits := rest }

/-- The function `resolve_conflict`. -/
def resolve_conflict (ops : trace_ops context expr trace)
    (e : imp context expr metavar_env trace) :
    Option (elaborator_error trace) × imp context expr metavar_env trace :=
  resolve_conflict_loop ops e.m_case_splits e

/-- The function `process_choice`: a choice split over the current state is
made and advanced once, and pushed on `m_case_splits`. -/
def process_choice (ops : trace_ops context expr trace)
    (e : imp context expr metavar_env trace) (c : unification_constraint context expr trace) :
    Bool × imp context expr metavar_env trace :=
  let r := next ops (.choice none e.m_state [] 0 c) e
  (r.1, { r.2.2 with m_case_splits := r.2.1 :: r.2.2.m_case_splits })

end imp

namespace case_split

variable {context expr metavar_env trace : Type}

/-- The number of alternatives that the split has left. -/
def remaining : case_split context expr metavar_env trace → Nat
  | .choice _ _ _ i c => c.choice_size - i
  | .generic _ _ _ _ i ss _ => ss.length - i
  | .plugin _ _ _ _ alts => alts.length

end case_split

section backtracking

variable {context expr metavar_env trace : Type}

/-- The conflict that leaves a split that cannot be advanced: when the
conflict `c` depends on the current assumption of the split (and the split
has no alternative left), the conflict is widened to the
`unification_failure_by_cases` trace over the failed traces of the split,
which include `c`; otherwise it stays `c`. -/
def conflict_after (ops : trace_ops context expr trace)
    (d : case_split context expr metavar_env trace) (c : Option trace) : Option trace :=
  if ops.depends_on c d.m_curr_assumption then
    some (ops.unification_failure_by_cases_trace d.constraint (d.m_failed_traces ++ [c]))
  else c

/-- No split of the stack (its top first) both has a current assumption
that the conflict reaching it depends on and has an alternative left. -/
def all_blocked (ops : trace_ops context expr trace) :
    List (case_split context expr metavar_env trace) → Option trace → Bool
  | [], _ => true
  | d :: rest, c =>
    !(ops.depends_on c d.m_curr_assumption && d.has_alternative) &&
      all_blocked ops rest (conflict_after ops d c)

/-- The conflict after all the splits of the stack (its top first) have
been passed. -/
def final_conflict (ops : trace_ops context expr trace) :
    List (case_split context expr metavar_env trace) → Option trace → Option trace
  | [], c => c
  | d :: rest, c => final_conflict ops rest (conflict_after ops d c)

end backtracking

/-! ### An instance for the examples

Expressions and traces are natural numbers, contexts and metavariable
environments are trivial. -/

/-- Traces for the examples: the assumption `i` is the cell `2 * i + 2`,
every failure by cases is the cell 1 and every other trace the cell 3; a
trace depends on an assumption when they are the same cell, and the failure
by cases depends on every assumption. -/
def nat_trace_ops : trace_ops Unit Nat Nat where
  assumption_trace := fun i => 2 * i + 2
  substitution_trace := fun _ _ => 3
  multi_substitution_trace := fun _ _ => 3
  normalize_trace := fun _ => 3
  destruct_trace := fun _ => 3
  assignment_trace := fun _ => 3
  typeof_mvar_trace := fun _ _ _ _ _ => 3
  unification_failure_trace := fun _ => 3
  unification_failure_by_cases_trace := fun _ _ => 1
  next_solution_trace := fun _ => 3
  depends_on := fun t d => decide (t = d) || decide (t = some 1)

/-- A choice split for the examples: the choice of the metavariable 0 among
the expressions 10, 11 and 12, made in the state with an empty queue, with
`idx` alternatives taken and the current assumption `a`. -/
def example_choice_split (a : Option Nat) (idx : Nat) : case_split Unit Nat Unit Nat :=
  .choice a ⟨(), []⟩ [] idx (.Choice () 0 [10, 11, 12] none)

/-- An engine for the examples: one constraint in the queue, the given
stack of case splits and the given conflict. -/
def example_engine (stack : List (case_split Unit Nat Unit Nat)) (conflict : Option Nat) :
    imp Unit Nat Unit Nat where
  m_state := ⟨(), [.Eq () 1 2 none]⟩
  m_case_splits := stack
  m_next_id := 5
  m_quota := 0
  m_conflict := conflict
  m_first := false
  m_interrupted := false
  m_use_traces := true
  m_use_normalizer := true

/-! ### The kernel functions used by `process`

The elaborator calls functions of the kernel and of the library whose
sources are not at hand (`kernel/expr.h`, `kernel/metavar.h`,
`kernel/free_vars.h`, `kernel/instantiate.h`, `kernel/context.h`,
`kernel/normalizer.h`, `library/type_inferer.h`, `library/update_expr.h`,
`kernel/replace.h`).  They are the fields of `kernel_ops`, taken as total
functions; a lookup in a context that throws returns `none`. -/

/-- The values of `expr_kind`. -/
inductive expr_kind where
  | Var | Constant | Value | App | Lambda | Pi | Type | Eq | Let | MetaVar
  deriving DecidableEq, Repr

/-- Modelled from the spec: the value of a definition or theorem,
`object::get_value`. -/
def object.get_value : object expr → Option expr
  | .Definition _ _ v _ _ => some v
  | .Theorem _ _ v => some v
  | _ => none

/-- The kernel and library functions that `elaborator.cpp` calls, with the
environment `m_env` of the elaborator and the trace cells. -/
structure kernel_ops (context expr metavar_env trace : Type) where
  traces : trace_ops context expr trace
  m_env : environment_cell expr
  kind : expr → expr_kind
  args : expr → List expr
  mk_app : List expr → expr
  update_app : expr → Nat → expr → expr
  var_idx : expr → Nat
  mk_var : Nat → expr
  ty_level : expr → level
  mk_type : level → expr
  Bool_ : expr
  TypeM : expr
  TypeU : expr
  eq_lhs : expr → expr
  eq_rhs : expr → expr
  mk_eq : expr → expr → expr
  abst_name : expr → name
  abst_domain : expr → expr
  abst_body : expr → expr
  mk_lambda : name → expr → expr → expr
  update_abstraction : expr → expr → expr → expr
  let_value : expr → expr
  let_body : expr → expr
  const_name : expr → name
  value_normalize : expr → List expr → Option expr
  has_local_context : expr → Bool
  lctx_head_is_lift : expr → Bool
  lctx_head_is_inst : expr → Bool
  lctx_head_s : expr → Nat
  lctx_head_n : expr → Nat
  lctx_head_v : expr → expr
  pop_meta_context : expr → expr
  has_metavar : expr → Bool
  has_metavar_in : expr → expr → metavar_env → Bool
  has_assigned_metavar : expr → metavar_env → Bool
  replace_assigned : expr → metavar_env → expr × List (Option trace)
  is_assigned : metavar_env → expr → Bool
  get_subst : metavar_env → expr → expr
  get_trace : metavar_env → expr → Option trace
  has_type : metavar_env → expr → Bool
  get_type : metavar_env → expr → expr
  assign : metavar_env → expr → expr → Option trace → metavar_env
  mk_metavar : metavar_env → context → expr × metavar_env
  has_free_var : expr → Nat → Nat → Bool
  lower_free_vars : expr → Nat → Nat → expr
  lift_free_vars : expr → Nat → Nat → expr
  closed : expr → Bool
  instantiate : expr → expr → expr
  head_beta_reduce : expr → expr
  ctx_remove : context → Nat → Nat → context
  ctx_extend : context → name → expr → context
  lookup_domain : context → Nat → Option expr
  lookup_body : context → Nat → Option expr
  normalizer : expr → context → metavar_env → expr
  type_inferer : expr → context → metavar_env →
    expr × metavar_env × List (unification_constraint context expr trace)

namespace kernel_ops

variable {context expr metavar_env trace : Type}

def is_var (k : kernel_ops context expr metavar_env trace) (a : expr) : Bool :=
  k.kind a == .Var
def is_constant (k : kernel_ops context expr metavar_env trace) (a : expr) : Bool :=
  k.kind a == .Constant
def is_value (k : kernel_ops context expr metavar_env trace) (a : expr) : Bool :=
  k.kind a == .Value
def is_app (k : kernel_ops context expr metavar_env trace) (a : expr) : Bool :=
  k.kind a == .App
def is_type (k : kernel_ops context expr metavar_env trace) (a : expr) : Bool :=
  k.kind a == .Type
def is_eq (k : kernel_ops context expr metavar_env trace) (a : expr) : Bool :=
  k.kind a == .Eq
def is_let (k : kernel_ops context expr metavar_env trace) (a : expr) : Bool :=
  k.kind a == .Let
def is_metavar (k : kernel_ops context expr metavar_env trace) (a : expr) : Bool :=
  k.kind a == .MetaVar
def is_abstraction (k : kernel_ops context expr metavar_env trace) (a : expr) : Bool :=
  k.kind a == .Lambda || k.kind a == .Pi

/-- The number of arguments `num_args(a)` of an application. -/
def num_args (k : kernel_ops context expr metavar_env trace) (a : expr) : Nat :=
  (k.args a).length

/-- The argument `arg(a, i)` of an application. -/
def arg (k : kernel_ops context expr metavar_env trace) (a : expr) (i : Nat) : expr :=
  (k.args a).getD i a

/-- The function `is_meta_app`: "true if a is of the form (?m ...)". -/
def is_meta_app (k : kernel_ops context expr metavar_env trace) (a : expr) : Bool :=
  k.is_app a && k.is_metavar (k.arg a 0)

/-- The function `is_meta`: "true iff a is a metavariable or if a is an
application where the function is a metavariable". -/
def is_meta (k : kernel_ops context expr metavar_env trace) (a : expr) : Bool :=
  k.is_metavar a || k.is_meta_app a

/-- The function `mk_lambda(types, body)`: "create the term
(fun (x_0 : types[0]) ... (x_{n-1} : types[n-1]) body)"; the name of the
variable `i` is `name(g_x_name, i)`. -/
def mk_lambdas (k : kernel_ops context expr metavar_env trace) (types : List expr)
    (body : expr) : expr :=
  (List.range types.length).foldr
    (fun i r => k.mk_lambda (name.num (name.mk_str "x") i) (types.getD i body) r) body

/-- The function `mk_app_vars(f, num_vars)`: "return
(f x_{num_vars - 1} ... x_0)". -/
def mk_app_vars (k : kernel_ops context expr metavar_env trace) (f : expr) (num_vars : Nat) :
    expr :=
  k.mk_app (f :: ((List.range num_vars).reverse.map k.mk_var))

end kernel_ops

namespace unification_constraint

variable {context expr trace : Type}

/-- The left-hand side `eq_lhs(c)` of an equality constraint; for the other
constraints, on which the source asserts that it is not called, their first
term. -/
def eq_lhs : unification_constraint context expr trace → expr
  | .Eq _ a _ _ => a
  | .Convertible _ a _ _ => a
  | .Max _ m _ _ _ => m
  | .Choice _ m _ _ => m

/-- The right-hand side `eq_rhs(c)` of an equality constraint; for a choice
constraint, which has none, its metavariable. -/
def eq_rhs : unification_constraint context expr trace → expr
  | .Eq _ _ b _ => b
  | .Convertible _ _ b _ => b
  | .Max _ _ _ l2 _ => l2
  | .Choice _ m _ _ => m

/-- The side `convertible_from(c)` of a convertibility constraint. -/
def convertible_from (c : unification_constraint context expr trace) : expr := c.eq_lhs

/-- The side `convertible_to(c)` of a convertibility constraint. -/
def convertible_to (c : unification_constraint context expr trace) : expr := c.eq_rhs

end unification_constraint

namespace imp

variable {context expr metavar_env trace : Type}

/-- The values of `enum status` of `process_metavar`. -/
inductive status where
  | Processed | Failed | Continue
  deriving DecidableEq, Repr

/-- The function `push_new_constraint(q, is_eq, ...)` on a constraint queue:
"if is_eq is true, then a equality constraint is created, otherwise a
convertability constraint is created". -/
def push_new_constraint_queue (q : List (unification_constraint context expr trace))
    (is_eq : Bool) (new_ctx : context) (new_a new_b : expr) (new_tr : Option trace) :
    List (unification_constraint context expr trace) :=
  if is_eq then .Eq new_ctx new_a new_b new_tr :: q
  else .Convertible new_ctx new_a new_b new_tr :: q

/-- The function `push_new_eq_constraint(q, ...)` on a constraint queue. -/
def push_new_eq_constraint (q : List (unification_constraint context expr trace))
    (new_ctx : context) (new_a new_b : expr) (new_tr : Option trace) :
    List (unification_constraint context expr trace) :=
  push_new_constraint_queue q true new_ctx new_a new_b new_tr

/-- The function `push_new_constraint(is_eq, ...)` on the current queue,
after `reset_quota()`. -/
def push_new_constraint (e : imp context expr metavar_env trace) (is_eq : Bool)
    (new_ctx : context) (new_a new_b : expr) (new_tr : Option trace) :
    imp context expr metavar_env trace :=
  let e1 := reset_quota e
  { e1 with
    m_state :=
      { e1.m_state with
        m_queue := push_new_constraint_queue e1.m_state.m_queue is_eq new_ctx new_a new_b
          new_tr } }

/-- The function `push_updated_constraint(c, new_a, new_b, new_tr)`. -/
def push_updated_constraint (e : imp context expr metavar_env trace)
    (c : unification_constraint context expr trace) (new_a new_b : expr)
    (new_tr : Option trace) : imp context expr metavar_env trace :=
  if c.is_eq then push_front e (.Eq c.get_context new_a new_b new_tr)
  else push_front e (.Convertible c.get_context new_a new_b new_tr)

/-- The function `push_updated_constraint(c, is_lhs, new_a, new_tr)`: "the
flag is_lhs says if the left-hand-side or right-hand-side are being updated
with new_a". -/
def push_updated_side (e : imp context expr metavar_env trace)
    (c : unification_constraint context expr trace) (is_lhs : Bool) (new_a : expr)
    (new_tr : Option trace) : imp context expr metavar_env trace :=
  if c.is_eq then
    if is_lhs then push_front e (.Eq c.get_context new_a c.eq_rhs new_tr)
    else push_front e (.Eq c.get_context c.eq_lhs new_a new_tr)
  else
    if is_lhs then push_front e (.Convertible c.get_context new_a c.convertible_to new_tr)
    else push_front e (.Convertible c.get_context c.convertible_from new_a new_tr)

/-- The function `push_normalized_constraint`. -/
def push_normalized_constraint (k : kernel_ops context expr metavar_env trace)
    (e : imp context expr metavar_env trace) (c : unification_constraint context expr trace)
    (new_a new_b : expr) : imp context expr metavar_env trace :=
  push_updated_constraint e c new_a new_b (some (k.traces.normalize_trace c))

/-- The function `assign`: "assign v to m with justification tr in the
current state"; when `m` has a type, the constraints of the type inferer and
the constraint between the type of `v` and the type of `m` are pushed. -/
def assign (k : kernel_ops context expr metavar_env trace)
    (e : imp context expr metavar_env trace) (m v : expr) (ctx : context)
    (tr : Option trace) : imp context expr metavar_env trace :=
  let menv1 := k.assign e.m_state.m_menv m v tr
  let e1 := { e with m_state := { e.m_state with m_menv := menv1 } }
  if k.has_type menv1 m then
    let r := k.type_inferer v ctx menv1
    let e2 := { e1 with m_state := { e1.m_state with m_menv := r.2.1 } }
    let e3 := r.2.2.foldl push_front e2
    let new_trace := k.traces.typeof_mvar_trace ctx m (k.get_type r.2.1 m) r.1 tr
    push_front e3 (.Convertible ctx r.1 (k.get_type r.2.1 m) (some new_trace))
  else e1

/-- Case 4 of `process_metavar`: "a is an application of the form (?m ...)
where ?m is an assigned metavariable"; otherwise the status is `Continue`. -/
def process_metavar_app (k : kernel_ops context expr metavar_env trace)
    (e : imp context expr metavar_env trace) (c : unification_constraint context expr trace)
    (a : expr) (is_lhs : Bool) : status × imp context expr metavar_env trace :=
  if k.is_app a && k.is_metavar (k.arg a 0) && k.is_assigned e.m_state.m_menv (k.arg a 0) then
    (.Processed,
      push_updated_side e c is_lhs
        (k.update_app a 0 (k.get_subst e.m_state.m_menv (k.arg a 0)))
        (some (k.traces.substitution_trace c (k.get_trace e.m_state.m_menv (k.arg a 0)))))
  else (.Continue, e)

/-- The function `process_metavar`. -/
def process_metavar (k : kernel_ops context expr metavar_env trace)
    (e : imp context expr metavar_env trace) (c : unification_constraint context expr trace)
    (a b : expr) (is_lhs allow_assignment : Bool) :
    status × imp context expr metavar_env trace :=
  if k.is_metavar a then
    if k.is_assigned e.m_state.m_menv a then
      (.Processed,
        push_updated_side e c is_lhs (k.get_subst e.m_state.m_menv a)
          (some (k.traces.substitution_trace c (k.get_trace e.m_state.m_menv a))))
    else if !k.has_local_context a then
      if k.has_metavar_in b a e.m_state.m_menv then
        (.Failed, { e with m_conflict := some (k.traces.unification_failure_trace c) })
      else if allow_assignment then
        (.Processed,
          reset_quota (assign k e a b c.get_context (some (k.traces.assignment_trace c))))
      else process_metavar_app k e c a is_lhs
    else if k.lctx_head_is_lift a then
      if !k.has_free_var b (k.lctx_head_s a)
          ((k.lctx_head_s a + k.lctx_head_n a) % UNSIGNED_RANGE) then
        let new_tr := some (k.traces.normalize_trace c)
        let new_a := k.pop_meta_context a
        let new_b := k.lower_free_vars b
          ((k.lctx_head_s a + k.lctx_head_n a) % UNSIGNED_RANGE) (k.lctx_head_n a)
        let new_ctx := k.ctx_remove c.get_context (k.lctx_head_s a) (k.lctx_head_n a)
        (.Processed,
          if is_lhs then push_new_constraint e c.is_eq new_ctx new_a new_b new_tr
          else push_new_constraint e c.is_eq new_ctx new_b new_a new_tr)
      else if k.is_var b then
        (.Failed, { e with m_conflict := some (k.traces.unification_failure_trace c) })
      else process_metavar_app k e c a is_lhs
    else process_metavar_app k e c a is_lhs
  else process_metavar_app k e c a is_lhs

/-- The function `mk_subst_trace`. -/
def mk_subst_trace (k : kernel_ops context expr metavar_env trace)
    (c : unification_constraint context expr trace) (subst_traces : List (Option trace)) :
    trace :=
  match subst_traces with
  | [t] => k.traces.substitution_trace c t
  | ts => k.traces.multi_substitution_trace c ts

/-- The function `instantiate_metavars`: "return true iff a contains
instantiated variables. If this is the case, then constraint c is updated
with a new a s.t. all metavariables of a are instantiated". -/
def instantiate_metavars (k : kernel_ops context expr metavar_env trace)
    (e : imp context expr metavar_env trace) (is_lhs : Bool) (a : expr)
    (c : unification_constraint context expr trace) :
    Bool × imp context expr metavar_env trace :=
  if k.has_assigned_metavar a e.m_state.m_menv then
    let r := k.replace_assigned a e.m_state.m_menv
    (true, push_updated_side e c is_lhs r.1 (some (mk_subst_trace k c r.2)))
  else (false, e)

end imp

namespace imp

variable {context expr metavar_env trace : Type} [DecidableEq expr]

/-- The function `process_let`: "unfold let-expression". -/
def process_let (k : kernel_ops context expr metavar_env trace) (a : expr) : expr :=
  if k.is_let a then k.instantiate (k.let_body a) (k.let_value a) else a

/-- The function `process_var`: "replace variables by their definition if
the context contains it". -/
def process_var (k : kernel_ops context expr metavar_env trace) (ctx : context) (a : expr) :
    expr :=
  if k.is_var a then
    match k.lookup_body ctx (k.var_idx a) with
    | some body => body
    | none => a
  else a

/-- The function `normalize`. -/
def normalize (k : kernel_ops context expr metavar_env trace)
    (e : imp context expr metavar_env trace) (ctx : context) (a : expr) : expr :=
  k.normalizer a ctx e.m_state.m_menv

/-- The loop of `process_app` over the arguments of a semantic attachment
`f`: the arguments before the current one are `done`, the current one and
the later ones are `todo`.  The result is the value of the attachment when
it becomes applicable, otherwise the arguments and the flag `modified`. -/
def process_app_args (k : kernel_ops context expr metavar_env trace)
    (e : imp context expr metavar_env trace) (ctx : context) (f : expr) :
    List expr → List expr → Bool → Except expr (List expr × Bool)
  | done, [], modified => .ok (done, modified)
  | done, curr :: rest, modified =>
    if curr ≠ normalize k e ctx curr then
      match k.value_normalize f (done ++ normalize k e ctx curr :: rest) with
      | some r => .error r
      | none => process_app_args k e ctx f (done ++ [normalize k e ctx curr]) rest true
    else process_app_args k e ctx f (done ++ [curr]) rest modified

/-- The function `process_app`. -/
def process_app (k : kernel_ops context expr metavar_env trace)
    (e : imp context expr metavar_env trace) (ctx : context) (a : expr) : expr :=
  if k.is_app a then
    if k.is_value (k.arg a 0) && e.m_use_normalizer then
      match process_app_args k e ctx (k.arg a 0) ((k.args a).take 1) ((k.args a).drop 1)
          false with
      | .error r => r
      | .ok (new_args, modified) => if modified then k.mk_app new_args else a
    else
      k.head_beta_reduce
        (k.update_app a 0 (k.head_beta_reduce (process_var k ctx (process_let k (k.arg a 0)))))
  else a

/-- The function `process_eq(ctx, a)` on an expression. -/
def process_eq_expr (k : kernel_ops context expr metavar_env trace)
    (e : imp context expr metavar_env trace) (ctx : context) (a : expr) : expr :=
  if k.is_eq a && e.m_use_normalizer then normalize k e ctx a else a

/-- The function `normalize_step`. -/
def normalize_step (k : kernel_ops context expr metavar_env trace)
    (e : imp context expr metavar_env trace) (ctx : context) (a : expr) : expr :=
  process_eq_expr k e ctx (process_app k e ctx (process_var k ctx (process_let k a)))

/-- The function `get_const_weight`: the weight of a definition that is not
opaque, converted from `unsigned` to `int`, and `-1` otherwise. -/
def get_const_weight (k : kernel_ops context expr metavar_env trace) (a : expr) : Int :=
  match k.m_env.get_object_core (k.const_name a) with
  | some obj =>
    if obj.is_definition && !obj.opaque_flag then to_int (obj.get_weight : Int) else -1
  | none => -1

/-- The function `get_unfolding_weight`: "return a number >= 0 if a is a
defined constant or the application of a defined constant. In this case, the
value is the weight of the definition". -/
def get_unfolding_weight (k : kernel_ops context expr metavar_env trace) (a : expr) : Int :=
  if k.is_constant a then get_const_weight k a
  else if k.is_app a && k.is_constant (k.arg a 0) then get_const_weight k (k.arg a 0)
  else -1

/-- The value `m_env.find_object(const_name(a)).get_value()` of a constant
`a`; it is asked only for definitions, and is `a` for the other constants. -/
def const_value (k : kernel_ops context expr metavar_env trace) (a : expr) : expr :=
  match k.m_env.get_object_core (k.const_name a) with
  | some obj => (obj.get_value).getD a
  | none => a

/-- The function `unfold`. -/
def unfold (k : kernel_ops context expr metavar_env trace) (a : expr) : expr :=
  if k.is_constant a then const_value k a
  else k.update_app a 0 (const_value k (k.arg a 0))

/-- The loop of `normalize_head`, with a bound `fuel` on the number of
iterations; `none` is returned when the bound is reached.  Otherwise the
result is an exception, or the returned value, with the engine. -/
def normalize_head_loop (k : kernel_ops context expr metavar_env trace)
    (c : unification_constraint context expr trace) :
    Nat → expr → expr → Bool → imp context expr metavar_env trace →
    Option (Except (elaborator_error trace) Bool × imp context expr metavar_env trace)
  | 0, _, _, _, _ => none
  | fuel + 1, a, b, modified, e =>
    if e.m_interrupted then some (.error .interrupted, e)
    else
      let ctx := c.get_context
      let new_a := normalize_step k e ctx a
      let new_b := normalize_step k e ctx b
      let w_a := get_unfolding_weight k a
      let w_b := get_unfolding_weight k b
      let unchanged := decide (new_a = a) && decide (new_b = b)
      let new_a1 := if unchanged && decide (w_a ≥ w_b) then unfold k a else new_a
      let new_b1 := if unchanged && decide (w_b ≥ w_a) then unfold k b else new_b
      if unchanged && !(decide (w_a ≥ 0) || decide (w_b ≥ 0)) then
        some (if modified then (.ok true, push_normalized_constraint k e c a b)
          else (.ok false, e))
      else if unchanged && decide (new_a1 = a) && decide (new_b1 = b) then
        some (if modified then (.ok true, push_normalized_constraint k e c a b)
          else (.ok false, e))
      else if new_a1 = new_b1 then some (.ok true, e)
      else normalize_head_loop k c fuel new_a1 new_b1 true e

/-- The function `normalize_head`, with the bound `fuel` on the iterations
of its loop. -/
def normalize_head (k : kernel_ops context expr metavar_env trace) (fuel : Nat)
    (e : imp context expr metavar_env trace) (a b : expr)
    (c : unification_constraint context expr trace) :
    Option (Except (elaborator_error trace) Bool × imp context expr metavar_env trace) :=
  normalize_head_loop k c fuel a b false e

/-- The function `has_body`: "return true iff the variable with id vidx has
a body/definition in the context ctx". -/
def has_body (k : kernel_ops context expr metavar_env trace) (ctx : context) (vidx : Nat) :
    Bool :=
  (k.lookup_body ctx vidx).isSome

/-- The function `are_args_vars`: "return true iff all arguments of the
application a are variables that do not have a definition in ctx". -/
def are_args_vars (k : kernel_ops context expr metavar_env trace) (ctx : context) (a : expr) :
    Bool :=
  ((k.args a).drop 1).all (fun x => k.is_var x && !has_body k ctx (k.var_idx x))

/-- The function `process_simple_ho_match`: a constraint `ctx |- (?m x) == c`
"is solved by assigning ?m to (fun (x : T), c)".  The lookup of a variable
that the context does not have throws. -/
def process_simple_ho_match (k : kernel_ops context expr metavar_env trace)
    (e : imp context expr metavar_env trace) (ctx : context) (a b : expr) (is_lhs : Bool)
    (c : unification_constraint context expr trace) :
    Except (elaborator_error trace) Bool × imp context expr metavar_env trace :=
  if c.is_eq && k.is_meta_app a && are_args_vars k ctx a && k.closed b then
    match ((k.args a).drop 1).mapM (fun x => k.lookup_domain ctx (k.var_idx x)) with
    | none => (.error .kernel_failure, e)
    | some types =>
      let new_trace := some (k.traces.destruct_trace c)
      if is_lhs then
        (.ok true, push_front e (.Eq ctx (k.arg a 0) (k.mk_lambdas types b) new_trace))
      else
        (.ok true, push_front e (.Eq ctx (k.mk_lambdas types b) (k.arg a 0) new_trace))
  else (.ok false, e)

end imp

namespace imp

variable {context expr metavar_env trace : Type} [DecidableEq expr]

/-- The first loop of `process_meta_app_core`: the types of the arguments
are inferred one by one; the buffer `ucs` of the constraints of the type
inferer is not cleared between the iterations, and after each inference all
its constraints are pushed at the front of the current queue. -/
def infer_arg_types (k : kernel_ops context expr metavar_env trace) (ctx : context) :
    List expr → List expr → List (unification_constraint context expr trace) →
    imp context expr metavar_env trace → List expr × imp context expr metavar_env trace
  | [], arg_types, _, e => (arg_types, e)
  | x :: xs, arg_types, ucs, e =>
    let r := k.type_inferer x ctx e.m_state.m_menv
    let e1 := { e with m_state := { e.m_state with m_menv := r.2.1 } }
    infer_arg_types k ctx xs (arg_types ++ [r.1]) (ucs ++ r.2.2)
      ((ucs ++ r.2.2).foldl push_front e1)

/-- The second loop of `process_meta_app_core`, "add projections": for the
argument `i` the alternative state is the current state with the constraint
between `arg(a, i)` and `b` and the equation
`f_a == fun x_1 ... x_{num_a-1}, x_i` pushed, under a new assumption. -/
def add_projections (k : kernel_ops context expr metavar_env trace) (a b : expr)
    (is_lhs : Bool) (c : unification_constraint context expr trace) (arg_types : List expr) :
    List Nat → List (state context expr metavar_env trace) × List (Option trace) →
    imp context expr metavar_env trace →
    (List (state context expr metavar_env trace) × List (Option trace)) ×
      imp context expr metavar_env trace
  | [], cs, e => (cs, e)
  | i :: rest, cs, e =>
    let r := mk_assumption k.traces e
    let new_assumption := some r.1
    let proj := k.mk_lambdas arg_types (k.mk_var (k.num_args a - i - 1))
    let q1 :=
      if is_lhs then
        push_new_constraint_queue r.2.m_state.m_queue c.is_eq c.get_context (k.arg a i) b
          new_assumption
      else
        push_new_constraint_queue r.2.m_state.m_queue c.is_eq c.get_context b (k.arg a i)
          new_assumption
    let q2 := push_new_eq_constraint q1 c.get_context (k.arg a 0) proj new_assumption
    add_projections k a b is_lhs c arg_types rest
      (cs.1 ++ [{ r.2.m_state with m_queue := q2 }], cs.2 ++ [new_assumption]) r.2

/-- The loop of the "imitation for applications": for each argument of `b`
a new metavariable `h_i` is made in the new state, `(h_i x_{num_a-1} ... x_0)`
is added to the arguments of the imitation, and the equation between
`update_app(a, 0, h_i)` and the argument is pushed on the new queue. -/
def imitation_app_args (k : kernel_ops context expr metavar_env trace) (ctx : context)
    (a : expr) (new_assumption : Option trace) :
    List expr → state context expr metavar_env trace → List expr →
    state context expr metavar_env trace × List expr
  | [], s, imitation_args => (s, imitation_args)
  | b_i :: rest, s, imitation_args =>
    let h := k.mk_metavar s.m_menv ctx
    imitation_app_args k ctx a new_assumption rest
      { m_menv := h.2,
        m_queue := push_new_eq_constraint s.m_queue ctx (k.update_app a 0 h.1) b_i
          new_assumption }
      (imitation_args ++ [k.mk_app_vars h.1 (k.num_args a - 1)])

/-- The last part of `process_meta_app_core`, "add imitation": the new state
and the imitation term, by the kind of `b`. -/
def imitation (k : kernel_ops context expr metavar_env trace) (ctx : context) (a b : expr)
    (arg_types : List expr) (new_assumption : Option trace)
    (new_state : state context expr metavar_env trace) :
    state context expr metavar_env trace × expr :=
  if k.is_app b then
    let r := imitation_app_args k ctx a new_assumption ((k.args b).drop 1) new_state [k.arg b 0]
    (r.1, k.mk_lambdas arg_types (k.mk_app r.2))
  else if k.is_eq b then
    let h_1 := k.mk_metavar new_state.m_menv ctx
    let h_2 := k.mk_metavar h_1.2 ctx
    let q1 := push_new_eq_constraint new_state.m_queue ctx (k.update_app a 0 h_1.1)
      (k.eq_lhs b) new_assumption
    let q2 := push_new_eq_constraint q1 ctx (k.update_app a 0 h_2.1) (k.eq_rhs b)
      new_assumption
    ({ m_menv := h_2.2, m_queue := q2 },
      k.mk_lambdas arg_types
        (k.mk_eq (k.mk_app_vars h_1.1 (k.num_args a - 1))
          (k.mk_app_vars h_2.1 (k.num_args a - 1))))
  else if k.is_abstraction b then
    let h_1 := k.mk_metavar new_state.m_menv ctx
    let h_2 := k.mk_metavar h_1.2 ctx
    let q1 := push_new_eq_constraint new_state.m_queue ctx (k.update_app a 0 h_1.1)
      (k.abst_domain b) new_assumption
    let q2 := push_new_eq_constraint q1 (k.ctx_extend ctx (k.abst_name b) (k.abst_domain b))
      (k.mk_app [k.update_app a 0 h_2.1, k.mk_var 0]) (k.abst_body b) new_assumption
    ({ m_menv := h_2.2, m_queue := q2 },
      k.mk_lambdas arg_types
        (k.update_abstraction b (k.mk_app_vars h_1.1 (k.num_args a - 1))
          (k.mk_app_vars h_2.1 (k.num_args a))))
  else (new_state, k.mk_lambdas arg_types (k.lift_free_vars b 0 (k.num_args a - 1)))

/-- The function `process_meta_app_core`: "add new case-splits to new_cs";
the alternatives of `new_cs` are its states and its assumptions. -/
def process_meta_app_core (k : kernel_ops context expr metavar_env trace)
    (new_cs : List (state context expr metavar_env trace) × List (Option trace))
    (e : imp context expr metavar_env trace) (a b : expr) (is_lhs : Bool)
    (c : unification_constraint context expr trace) :
    (List (state context expr metavar_env trace) × List (Option trace)) ×
      imp context expr metavar_env trace :=
  let ctx := c.get_context
  let t := infer_arg_types k ctx ((k.args a).drop 1) [] [] e
  let p := add_projections k a b is_lhs c t.1
    ((List.range (k.num_args a - 1)).map (fun i => i + 1)) new_cs t.2
  let r := mk_assumption k.traces p.2
  let new_assumption := some r.1
  let im := imitation k ctx a b t.1 new_assumption r.2.m_state
  let q := push_new_eq_constraint im.1.m_queue ctx (k.arg a 0) im.2 new_assumption
  ((p.1.1 ++ [{ im.1 with m_queue := q }], p.1.2 ++ [new_assumption]), r.2)

/-- The end of `process_meta_app` and of `process_metavar_inst`: the new
generic split over the state `prev_state` is advanced once and pushed on
`m_case_splits`, and the quota is reset. -/
def push_generic_split (k : kernel_ops context expr metavar_env trace)
    (c : unification_constraint context expr trace)
    (prev_state : state context expr metavar_env trace)
    (new_cs : List (state context expr metavar_env trace) × List (Option trace))
    (e : imp context expr metavar_env trace) : Bool × imp context expr metavar_env trace :=
  let r := next k.traces (.generic none prev_state [] c 0 new_cs.1 new_cs.2) e
  (r.1, reset_quota { r.2.2 with m_case_splits := r.2.1 :: r.2.2.m_case_splits })

/-- The function `process_meta_app`: "process a constraint ctx |- a = b where
a is of the form (?m ...). We perform a case split using projection or
imitation". -/
def process_meta_app (k : kernel_ops context expr metavar_env trace)
    (e : imp context expr metavar_env trace) (a b : expr) (is_lhs : Bool)
    (c : unification_constraint context expr trace) (flex_flex : Bool) :
    Bool × imp context expr metavar_env trace :=
  if k.is_meta_app a && (flex_flex || !k.is_meta_app b) then
    let r1 := process_meta_app_core k ([], []) e a b is_lhs c
    let r2 :=
      if flex_flex && k.is_meta_app b then process_meta_app_core k r1.1 r1.2 b a (!is_lhs) c
      else r1
    push_generic_split k c e.m_state r2.1 r2.2
  else (false, e)

/-- The function `is_metavar_inst`: "return true if a is of the form
?m[inst:i t, ...]". -/
def is_metavar_inst (k : kernel_ops context expr metavar_env trace) (a : expr) : Bool :=
  k.is_metavar a && k.has_local_context a && k.lctx_head_is_inst a

/-- Case 2 of `process_metavar_inst`: the new metavariable environment and
the imitation of `b`. -/
def imitation_inst (k : kernel_ops context expr metavar_env trace) (ctx : context)
    (b : expr) (i : Nat) (menv : metavar_env) : metavar_env × expr :=
  if k.is_app b then
    let r := ((k.args b).drop 1).foldl
      (fun (acc : metavar_env × List expr) _ =>
        let h := k.mk_metavar acc.1 ctx
        (h.2, acc.2 ++ [h.1]))
      (menv, [k.arg b 0])
    (r.1, k.mk_app r.2)
  else if k.is_eq b then
    let h_1 := k.mk_metavar menv ctx
    let h_2 := k.mk_metavar h_1.2 ctx
    (h_2.2, k.mk_eq h_1.1 h_2.1)
  else if k.is_abstraction b then
    let h_1 := k.mk_metavar menv ctx
    let h_2 := k.mk_metavar h_1.2 ctx
    (h_2.2, k.update_abstraction b h_1.1 (k.mk_app [h_2.1, k.mk_var 0]))
  else (menv, k.lift_free_vars b i 1)

/-- The function `process_metavar_inst`: "process a constraint ctx |- a == b
where a is of the form ?m[(inst:i t), ...]. We perform a case split,
Case 1) ?m[...] == #i and t == b, Case 2) imitate b". -/
def process_metavar_inst (k : kernel_ops context expr metavar_env trace)
    (e : imp context expr metavar_env trace) (a b : expr) (is_lhs : Bool)
    (c : unification_constraint context expr trace) :
    Bool × imp context expr metavar_env trace :=
  if is_metavar_inst k a && !is_metavar_inst k b && !k.is_meta_app b then
    let ctx := c.get_context
    let i := k.lctx_head_s a
    let t := k.lctx_head_v a
    let r1 := mk_assumption k.traces e
    let q1 := push_new_eq_constraint r1.2.m_state.m_queue ctx (k.pop_meta_context a)
      (k.mk_var i) (some r1.1)
    let q2 :=
      if is_lhs then push_new_constraint_queue q1 c.is_eq ctx t b (some r1.1)
      else push_new_constraint_queue q1 c.is_eq ctx b t (some r1.1)
    let s1 : state context expr metavar_env trace := { r1.2.m_state with m_queue := q2 }
    let r2 := mk_assumption k.traces r1.2
    let im := imitation_inst k ctx b i r2.2.m_state.m_menv
    let s2 : state context expr metavar_env trace :=
      { m_menv := im.1,
        m_queue := push_new_eq_constraint r2.2.m_state.m_queue ctx (k.pop_meta_context a)
          im.2 (some r2.1) }
    push_generic_split k c e.m_state ([s1, s2], [some r1.1, some r2.1]) r2.2
  else (false, e)

/-- The function `process_lower`: "process constraint of the form
ctx |- a << ?m, where a is Type of Bool"; "in principle, there are infinite
number of choices. We approximate and only consider the most useful ones". -/
def process_lower (k : kernel_ops context expr metavar_env trace)
    (e : imp context expr metavar_env trace) (a b : expr)
    (c : unification_constraint context expr trace) :
    Bool × imp context expr metavar_env trace :=
  if c.is_convertible && k.is_metavar b && (decide (a = k.Bool_) || k.is_type a) then
    let new_tr := some (k.traces.destruct_trace c)
    if a = k.Bool_ then
      (true, push_front e
        (.Choice c.get_context b
          [k.Bool_, k.mk_type bot, k.mk_type (add bot 1), k.TypeM, k.TypeU] new_tr))
    else
      (true, push_front e
        (.Choice c.get_context b
          [a, k.mk_type (add (k.ty_level a) 1), k.mk_type (add (k.ty_level a) 2), k.TypeM,
            k.TypeU] new_tr))
  else (false, e)

end imp

namespace imp

variable {context expr metavar_env trace : Type} [DecidableEq expr]

/-- The part of `process_eq_convertible` after the switch on the kind of the
two sides: instantiation of the assigned metavariables, failure for sides of
different kinds without metavariables, the expensive cases when the quota is
negative, and at last the constraint is postponed. -/
def process_eq_convertible_rest (k : kernel_ops context expr metavar_env trace)
    (e : imp context expr metavar_env trace) (a b : expr)
    (c : unification_constraint context expr trace) :
    Bool × imp context expr metavar_env trace :=
  let i1 := instantiate_metavars k e true a c
  if i1.1 then (true, i1.2)
  else
    let i2 := instantiate_metavars k i1.2 false b c
    if i2.1 then (true, i2.2)
    else if k.kind a ≠ k.kind b && !k.has_metavar a && !k.has_metavar b then
      (false, { i2.2 with m_conflict := some (k.traces.unification_failure_trace c) })
    else
      let e1 := i2.2
      let m1 := if e1.m_quota < 0 then process_meta_app k e1 a b true c false else (false, e1)
      if m1.1 then (true, m1.2)
      else
        let m2 :=
          if e1.m_quota < 0 then process_meta_app k m1.2 b a false c false else (false, m1.2)
        if m2.1 then (true, m2.2)
        else
          let m3 :=
            if e1.m_quota < 0 then process_metavar_inst k m2.2 a b true c else (false, m2.2)
          if m3.1 then (true, m3.2)
          else
            let m4 :=
              if e1.m_quota < 0 then process_metavar_inst k m3.2 b a false c
              else (false, m3.2)
            if m4.1 then (true, m4.2)
            else
              let e2 := m4.2
              if e2.m_quota < -(e2.m_state.m_queue.length : Int) then
                let l := process_lower k e2 a b c
                if l.1 then (true, l.2)
                else
                  let f := process_meta_app k l.2 a b true c true
                  if f.1 then (true, f.2) else (true, push_back f.2 c)
              else (true, push_back e2 c)

/-- The switch of `process_eq_convertible` on the kind of the two sides,
when they have the same kind; `none` is the `break` that goes on after the
switch.  For two applications that are not applications of a metavariable
and have different numbers of arguments the result is `false`, and
`m_conflict` is left as it is. -/
def process_same_kind (k : kernel_ops context expr metavar_env trace)
    (e : imp context expr metavar_env trace) (ctx : context) (a b : expr)
    (c : unification_constraint context expr trace) :
    Option (Except (elaborator_error trace) Bool × imp context expr metavar_env trace) :=
  let failure : Except (elaborator_error trace) Bool × imp context expr metavar_env trace :=
    (.ok false, { e with m_conflict := some (k.traces.unification_failure_trace c) })
  let new_trace := some (k.traces.destruct_trace c)
  match k.kind a with
  | .Constant | .Var | .Value => if a = b then some (.ok true, e) else some failure
  | .Type =>
    if c.is_eq then (if a = b then some (.ok true, e) else some failure)
    else
      match k.m_env.is_ge0 (k.ty_level b) (k.ty_level a) with
      | none => some (.error .kernel_failure, e)
      | some true => some (.ok true, e)
      | some false => some failure
  | .Eq =>
    some (.ok true,
      push_front (push_front e (.Eq ctx (k.eq_lhs a) (k.eq_lhs b) new_trace))
        (.Eq ctx (k.eq_rhs a) (k.eq_rhs b) new_trace))
  | .Pi =>
    let e1 := push_front e (.Eq ctx (k.abst_domain a) (k.abst_domain b) new_trace)
    let new_ctx := k.ctx_extend ctx (k.abst_name a) (k.abst_domain a)
    if c.is_eq then
      some (.ok true, push_front e1 (.Eq new_ctx (k.abst_body a) (k.abst_body b) new_trace))
    else
      some (.ok true,
        push_front e1 (.Convertible new_ctx (k.abst_body a) (k.abst_body b) new_trace))
  | .Lambda =>
    let e1 := push_front e (.Eq ctx (k.abst_domain a) (k.abst_domain b) new_trace)
    let new_ctx := k.ctx_extend ctx (k.abst_name a) (k.abst_domain a)
    some (.ok true, push_front e1 (.Eq new_ctx (k.abst_body a) (k.abst_body b) new_trace))
  | .App =>
    if !k.is_meta_app a && !k.is_meta_app b then
      if k.num_args a = k.num_args b then
        some (.ok true,
          (List.range (k.num_args a)).foldl
            (fun e1 i => push_front e1 (.Eq ctx (k.arg a i) (k.arg b i) new_trace)) e)
      else some (.ok false, e)
    else none
  | .Let => some (.ok true, e)
  | .MetaVar => none

/-- The part of `process_eq_convertible` after `normalize_head` has returned
false. -/
def process_eq_convertible_structural (k : kernel_ops context expr metavar_env trace)
    (e : imp context expr metavar_env trace) (ctx : context) (a b : expr)
    (c : unification_constraint context expr trace) :
    Except (elaborator_error trace) Bool × imp context expr metavar_env trace :=
  let r3 := process_metavar k e c a b true (!k.is_type b && !k.is_meta b)
  if r3.1 ≠ .Continue then (.ok (decide (r3.1 = .Processed)), r3.2)
  else
    let r4 := process_metavar k r3.2 c b a false
      (!k.is_type a && !k.is_meta a && decide (a ≠ k.Bool_))
    if r4.1 ≠ .Continue then (.ok (decide (r4.1 = .Processed)), r4.2)
    else
      match process_simple_ho_match k r4.2 ctx a b true c with
      | (.error x, e1) => (.error x, e1)
      | (.ok true, e1) => (.ok true, e1)
      | (.ok false, e1) =>
        match process_simple_ho_match k e1 ctx b a false c with
        | (.error x, e2) => (.error x, e2)
        | (.ok true, e2) => (.ok true, e2)
        | (.ok false, e2) =>
          if !c.is_eq && decide (a = k.Bool_) && k.is_type b then (.ok true, e2)
          else
            match (if k.kind a = k.kind b then process_same_kind k e2 ctx a b c else none) with
            | some r => r
            | none =>
              let r := process_eq_convertible_rest k e2 a b c
              (.ok r.1, r.2)

/-- The function `process_eq_convertible`, with the bound `fuel` on the
iterations of the loop of `normalize_head`; `none` is returned when the bound
is reached.  Otherwise the result is an exception, or the returned value,
with the engine. -/
def process_eq_convertible (k : kernel_ops context expr metavar_env trace) (fuel : Nat)
    (e : imp context expr metavar_env trace) (ctx : context) (a b : expr)
    (c : unification_constraint context expr trace) :
    Option (Except (elaborator_error trace) Bool × imp context expr metavar_env trace) :=
  if a = b then some (.ok true, e)
  else
    let r1 := process_metavar k e c a b true c.is_eq
    if r1.1 ≠ .Continue then some (.ok (decide (r1.1 = .Processed)), r1.2)
    else
      let r2 := process_metavar k r1.2 c b a false c.is_eq
      if r2.1 ≠ .Continue then some (.ok (decide (r2.1 = .Processed)), r2.2)
      else
        match normalize_head k fuel r2.2 a b c with
        | none => none
        | some (.error x, e1) => some (.error x, e1)
        | some (.ok true, e1) => some (.ok true, e1)
        | some (.ok false, e1) => some (process_eq_convertible_structural k e1 ctx a b c)

/-- The function `process_max`, which does nothing yet. -/
def process_max (e : imp context expr metavar_env trace)
    (_c : unification_constraint context expr trace) :
    Bool × imp context expr metavar_env trace :=
  (true, e)

/-- The function `process`: the quota is decremented and the constraint is
processed by its kind. -/
def process (k : kernel_ops context expr metavar_env trace) (fuel : Nat)
    (e : imp context expr metavar_env trace) (c : unification_constraint context expr trace) :
    Option (Except (elaborator_error trace) Bool × imp context expr metavar_env trace) :=
  let e1 := { e with m_quota := e.m_quota - 1 }
  match c.kind with
  | .Eq => process_eq_convertible k fuel e1 c.get_context c.eq_lhs c.eq_rhs c
  | .Convertible =>
    process_eq_convertible k fuel e1 c.get_context c.convertible_from c.convertible_to c
  | .Max => some (.ok (process_max e1 c).1, (process_max e1 c).2)
  | .Choice => some (.ok (process_choice k.traces e1 c).1, (process_choice k.traces e1 c).2)

end imp

/-- A kernel for the examples, on expressions coded by natural numbers: the
numbers below 100 are constants, a number `100 * f + x` with `f` and `x`
below 100 is the application `(f x)`, and a number `10000 * f + 100 * x + y`
is the application `(f x y)`.  There are no metavariables, no definitions
(the environment is the empty one) and the normalizer changes nothing. -/
def nat_kernel : kernel_ops Unit Nat Unit Nat where
  traces := nat_trace_ops
  m_env := environment_cell.empty
  kind := fun a => if a < 100 then .Constant else .App
  args := fun a =>
    if a < 100 then []
    else if a < 10000 then [a / 100, a % 100]
    else [a / 10000, a / 100 % 100, a % 100]
  mk_app := fun l => l.foldl (fun acc x => acc * 100 + x) 0
  update_app := fun a _ _ => a
  var_idx := fun a => a
  mk_var := fun i => i
  ty_level := fun _ => bot
  mk_type := fun _ => 0
  Bool_ := 0
  TypeM := 0
  TypeU := 0
  eq_lhs := fun a => a
  eq_rhs := fun a => a
  mk_eq := fun a _ => a
  abst_name := fun a => name.num name.anonymous a
  abst_domain := fun a => a
  abst_body := fun a => a
  mk_lambda := fun _ _ b => b
  update_abstraction := fun a _ _ => a
  let_value := fun a => a
  let_body := fun a => a
  const_name := fun a => name.num name.anonymous a
  value_normalize := fun _ _ => none
  has_local_context := fun _ => false
  lctx_head_is_lift := fun _ => false
  lctx_head_is_inst := fun _ => false
  lctx_head_s := fun _ => 0
  lctx_head_n := fun _ => 0
  lctx_head_v := fun a => a
  pop_meta_context := fun a => a
  has_metavar := fun _ => false
  has_metavar_in := fun _ _ _ => false
  has_assigned_metavar := fun _ _ => false
  replace_assigned := fun a _ => (a, [])
  is_assigned := fun _ _ => false
  get_subst := fun _ a => a
  get_trace := fun _ _ => none
  has_type := fun _ _ => false
  get_type := fun _ a => a
  assign := fun m _ _ _ => m
  mk_metavar := fun m _ => (0, m)
  has_free_var := fun _ _ _ => false
  lower_free_vars := fun a _ _ => a
  lift_free_vars := fun a _ _ => a
  closed := fun _ => true
  instantiate := fun a _ => a
  head_beta_reduce := fun a => a
  ctx_remove := fun c _ _ => c
  ctx_extend := fun c _ _ => c
  lookup_domain := fun _ _ => none
  lookup_body := fun _ _ => none
  normalizer := fun a _ _ => a
  type_inferer := fun a _ m => (a, m, [])

/-! ### The session: `next` and `interrupt` -/

namespace elaborator

variable {context expr metavar_env trace : Type} [DecidableEq expr]

/-- The function `interrupt`: the flag `m_interrupted` is set. -/
def interrupt (e : imp context expr metavar_env trace) : imp context expr metavar_env trace :=
  { e with m_interrupted := true }

/-- The main loop of `next`, with a bound on the number of its iterations
(the first `Nat`; `fuel` bounds the loop of `normalize_head`); `none` is
returned when a bound is reached.  Otherwise the result is the exception
thrown, or the metavariable environment whose substitutions are returned,
with the engine. -/
def next_loop (k : kernel_ops context expr metavar_env trace) (fuel : Nat) :
    Nat → imp context expr metavar_env trace →
    Option (Except (elaborator_error trace) metavar_env × imp context expr metavar_env trace)
  | 0, _ => none
  | n + 1, e =>
    if e.m_interrupted then some (.error .interrupted, e)
    else
      match e.m_state.m_queue with
      | [] => some (.ok e.m_state.m_menv, e)
      | c :: q =>
        if e.m_quota < -((c :: q).length : Int) - 10 then some (.ok e.m_state.m_menv, e)
        else
          match imp.process k fuel { e with m_state := { e.m_state with m_queue := q } } c with
          | none => none
          | some (.error x, e1) => some (.error x, e1)
          | some (.ok true, e1) => next_loop k fuel n e1
          | some (.ok false, e1) =>
            match imp.resolve_conflict k.traces e1 with
            | (some x, e2) => some (.error x, e2)
            | (none, e2) => next_loop k fuel n e2

/-- The function `next`, with the bound `fuel` on the iterations of its main
loop and of the loop of `normalize_head`.  The assumptions of the
`next_solution` trace are those of the case splits, from the front of
`m_case_splits` to its back. -/
def next (k : kernel_ops context expr metavar_env trace) (fuel : Nat)
    (e : imp context expr metavar_env trace) :
    Option (Except (elaborator_error trace) metavar_env × imp context expr metavar_env trace) :=
  if e.m_interrupted then some (.error .interrupted, e)
  else if e.m_conflict.isSome then some (.error (.elaborator_exception e.m_conflict), e)
  else if !e.m_case_splits.isEmpty then
    match imp.resolve_conflict k.traces
        { e with
          m_conflict :=
            some (k.traces.next_solution_trace
              (e.m_case_splits.map (fun cs => cs.m_curr_assumption)).reverse) } with
    | (some x, e1) => some (.error x, e1)
    | (none, e1) => next_loop k fuel fuel (imp.reset_quota e1)
  else if e.m_first then next_loop k fuel fuel (imp.reset_quota { e with m_first := false })
  else
    some (.error (.elaborator_exception (some (k.traces.next_solution_trace []))),
      { e with m_conflict := some (k.traces.next_solution_trace []) })

/-- The engine made by the constructor of `imp`: the given metavariable
environment and constraints, no case split, no conflict, and the options of
`set_options`. -/
def mk (menv : metavar_env) (cnstrs : List (unification_constraint context expr trace)) :
    imp context expr metavar_env trace where
  m_state := { m_menv := menv, m_queue := cnstrs }
  m_case_splits := []
  m_next_id := 0
  m_quota := 0
  m_conflict := none
  m_first := true
  m_interrupted := false
  m_use_traces := true
  m_use_normalizer := true

end elaborator

namespace imp

variable {context expr metavar_env trace : Type}

/-- The members of the engine that the processing of constraints and the
resolution of conflicts never assign: `m_first`, `m_interrupted` and the
options `m_use_traces` and `m_use_normalizer`. -/
def flags (e : imp context expr metavar_env trace) : Bool × Bool × Bool × Bool :=
  (e.m_first, e.m_interrupted, e.m_use_traces, e.m_use_normalizer)

end imp

namespace elaborator

variable {context expr metavar_env trace : Type}

/-- A session that has no more solutions: it is not interrupted, and either a
conflict is pending, or this is not the first run and there are no case
splits. -/
def exhausted (e : imp context expr metavar_env trace) : Prop :=
  e.m_interrupted = false ∧
    (e.m_conflict.isSome = true ∨ (e.m_case_splits = [] ∧ e.m_first = false))

/-- The sessions in which `m_first` is still set have no case split and no
pending conflict, as after the constructor. -/
def fresh_or_started (e : imp context expr metavar_env trace) : Prop :=
  e.m_first = true → e.m_case_splits = [] ∧ e.m_conflict = none

end elaborator

namespace elaborator

variable {context expr metavar_env trace α : Type}

/-- The conflict carried by a thrown `elaborator_exception`; `none` for a
normal return and for the other exceptions. -/
def thrown_conflict : Except (elaborator_error trace) α → Option (Option trace)
  | .error (.elaborator_exception t) => some t
  | _ => none

/-- True when the outcome is the `interrupted` exception. -/
def is_interrupted : Except (elaborator_error trace) α → Bool
  | .error .interrupted => true
  | _ => false

end elaborator

/-- Traces for the examples that tell the kinds of the cells apart: the
assumption `i` is the cell `10 + i`, and the substitution, multi
substitution, normalize, destruct, assignment, type of metavariable,
unification failure, failure by cases and next solution traces are the cells
1 to 9; a trace depends on an assumption when they are the same cell, and
the failure by cases and next solution traces depend on every assumption. -/
def code_trace_ops (context expr : Type) : trace_ops context expr Nat where
  assumption_trace := fun i => 10 + i
  substitution_trace := fun _ _ => 1
  multi_substitution_trace := fun _ _ => 2
  normalize_trace := fun _ => 3
  destruct_trace := fun _ => 4
  assignment_trace := fun _ => 5
  typeof_mvar_trace := fun _ _ _ _ _ => 6
  unification_failure_trace := fun _ => 7
  unification_failure_by_cases_trace := fun _ _ => 8
  next_solution_trace := fun _ => 9
  depends_on := fun t d => decide (t = d) || decide (t = some 8) || decide (t = some 9)

/-- The kernel `nat_kernel` of the examples with the traces
`code_trace_ops`. -/
def nat_code_kernel : kernel_ops Unit Nat Unit Nat :=
  { nat_kernel with traces := code_trace_ops Unit Nat }

/-! ### A model of the expressions

The sources of the expressions (`kernel/expr.h`), of the free variable
functions (`kernel/free_vars.h`), of the instantiation and beta reduction
(`kernel/instantiate.h` has their declarations only) and of the normalizer
(`kernel/normalizer.h`) are not at hand.  The model below follows the
specification: variables are de Bruijn indices, and an application is a
function applied to one argument, so that the application of an application
is the flattened application of the source. -/

/-- Modelled from the spec: the expressions, without semantic values and
let-expressions; `type k` is the type at the level `bot + k`, and the
binders carry no name (equality ignores the names of binders). -/
inductive simple_expr where
  | var (idx : Nat)
  | constant (n : name)
  | type (k : Nat)
  | app (f a : simple_expr)
  | lambda (d b : simple_expr)
  | pi (d b : simple_expr)
  | eq (lhs rhs : simple_expr)
  | metavar (n : Nat)
  deriving DecidableEq, Repr

namespace simple_expr

/-- Modelled from the spec: the kind of an expression. -/
def kind : simple_expr → expr_kind
  | var _ => .Var
  | constant _ => .Constant
  | type _ => .Type
  | app _ _ => .App
  | lambda _ _ => .Lambda
  | pi _ _ => .Pi
  | eq _ _ => .Eq
  | metavar _ => .MetaVar

/-- The function and the arguments of a flattened application, the function
first; an expression that is not an application is its own head. -/
def spine : simple_expr → List simple_expr
  | app f a => spine f ++ [a]
  | t => [t]

/-- Modelled from the spec: the arguments `arg(a, 0) .. arg(a, n-1)` of an
application, the function first. -/
def args : simple_expr → List simple_expr
  | app f a => spine (app f a)
  | _ => []

/-- Modelled from the spec: `mk_app`, which flattens a head that is itself an
application. -/
def mk_app : List simple_expr → simple_expr
  | [] => constant name.anonymous
  | f :: as => as.foldl app f

/-- Modelled from the spec: `lift_free_vars(e, s, n)`, the free variables
with index at least `s` are lifted by `n`. -/
def lift_free_vars : simple_expr → Nat → Nat → simple_expr
  | var i, s, n => if s ≤ i then var (i + n) else var i
  | app f a, s, n => app (lift_free_vars f s n) (lift_free_vars a s n)
  | lambda d b, s, n => lambda (lift_free_vars d s n) (lift_free_vars b (s + 1) n)
  | pi d b, s, n => pi (lift_free_vars d s n) (lift_free_vars b (s + 1) n)
  | eq l r, s, n => eq (lift_free_vars l s n) (lift_free_vars r s n)
  | t, _, _ => t

/-- Modelled from the spec: `lower_free_vars(e, s, n)`, the free variables
with index at least `s` are lowered by `n`. -/
def lower_free_vars : simple_expr → Nat → Nat → simple_expr
  | var i, s, n => if s ≤ i then var (i - n) else var i
  | app f a, s, n => app (lower_free_vars f s n) (lower_free_vars a s n)
  | lambda d b, s, n => lambda (lower_free_vars d s n) (lower_free_vars b (s + 1) n)
  | pi d b, s, n => pi (lower_free_vars d s n) (lower_free_vars b (s + 1) n)
  | eq l r, s, n => eq (lower_free_vars l s n) (lower_free_vars r s n)
  | t, _, _ => t

/-- Modelled from the spec: `has_free_var(e, low, high)`, true when `e` has a
free variable with index in `[low, high)`. -/
def has_free_var : simple_expr → Nat → Nat → Bool
  | var i, low, high => decide (low ≤ i) && decide (i < high)
  | app f a, low, high => has_free_var f low high || has_free_var a low high
  | lambda d b, low, high => has_free_var d low high || has_free_var b (low + 1) (high + 1)
  | pi d b, low, high => has_free_var d low high || has_free_var b (low + 1) (high + 1)
  | eq l r, low, high => has_free_var l low high || has_free_var r low high
  | _, _, _ => false

/-- True when `e` has no free variable with index at least `depth`. -/
def closed_from : simple_expr → Nat → Bool
  | var i, depth => decide (i < depth)
  | app f a, depth => closed_from f depth && closed_from a depth
  | lambda d b, depth => closed_from d depth && closed_from b (depth + 1)
  | pi d b, depth => closed_from d depth && closed_from b (depth + 1)
  | eq l r, depth => closed_from l depth && closed_from r depth
  | _, _ => true

/-- Modelled from the spec: `closed(e)`, "a closed expression contains no
free index". -/
def closed (e : simple_expr) : Bool := closed_from e 0

/-- The function `instantiate(e, n, s)` under `depth` binders: "replace the
free variables with indices 0, ..., n-1 with s[n-1], ..., s[0] in e"; the
free variables of the substitutes are lifted over the binders, and the other
free variables are lowered by `n`. -/
def instantiate_at : simple_expr → Nat → List simple_expr → simple_expr
  | var i, depth, s =>
    if i < depth then var i
    else if i - depth < s.length then
      lift_free_vars (s.getD (s.length - 1 - (i - depth)) (var i)) 0 depth
    else var (i - s.length)
  | app f a, depth, s => app (instantiate_at f depth s) (instantiate_at a depth s)
  | lambda d b, depth, s => lambda (instantiate_at d depth s) (instantiate_at b (depth + 1) s)
  | pi d b, depth, s => pi (instantiate_at d depth s) (instantiate_at b (depth + 1) s)
  | eq l r, depth, s => eq (instantiate_at l depth s) (instantiate_at r depth s)
  | t, _, _ => t

/-- The function `instantiate(e, n, s)` of `instantiate.h`. -/
def instantiate_list (e : simple_expr) (s : List simple_expr) : simple_expr :=
  instantiate_at e 0 s

/-- The function `instantiate(e, s)` of `instantiate.h`: "replace free
variable 0 with s in e". -/
def instantiate (e s : simple_expr) : simple_expr := instantiate_at e 0 [s]

/-- The body of `f` under at most `m` outer lambdas, with the number of the
lambdas that are stripped. -/
def strip_lambdas : simple_expr → Nat → Nat × simple_expr
  | lambda _ b, m + 1 => ((strip_lambdas b m).1 + 1, (strip_lambdas b m).2)
  | t, _ => (0, t)

/-- Modelled from the spec: "`apply_beta(f, args)` strips `args.len()` outer
λ's from `f` and substitutes"; when `f` has fewer outer lambdas, the result
is applied to the arguments that are left. -/
def apply_beta (f : simple_expr) (as : List simple_expr) : simple_expr :=
  let r := strip_lambdas f as.length
  mk_app (instantiate_list r.2 (as.take r.1) :: as.drop r.1)

/-- Modelled from the spec: "`head_beta_reduce` is β-reduction only when the
head is a λ". -/
def head_beta_reduce (t : simple_expr) : simple_expr :=
  match spine t with
  | lambda d b :: a :: as => apply_beta (lambda d b) (a :: as)
  | _ => t

/-- Modelled from the spec: the normalizer, which "reduces head β-redexes"
and normalizes the parts of the result; there are no definitions, values,
let-expressions or assigned metavariables in the model.  The bound `fuel` is
the step budget: the normalizer "bounds recursion by a configurable step
budget and fails with deep_recursion on exhaustion", which is the result
`none`. -/
def normalize : Nat → simple_expr → Option simple_expr
  | 0, _ => none
  | fuel + 1, app f a =>
    match normalize fuel f with
    | none => none
    | some (lambda _ b) => normalize fuel (instantiate b a)
    | some f1 =>
      match normalize fuel a with
      | none => none
      | some a1 => some (app f1 a1)
  | fuel + 1, lambda d b =>
    match normalize fuel d, normalize fuel b with
    | some d1, some b1 => some (lambda d1 b1)
    | _, _ => none
  | fuel + 1, pi d b =>
    match normalize fuel d, normalize fuel b with
    | some d1, some b1 => some (pi d1 b1)
    | _, _ => none
  | fuel + 1, eq l r =>
    match normalize fuel l, normalize fuel r with
    | some l1, some r1 => some (eq l1 r1)
    | _, _ => none
  | _ + 1, t => some t

end simple_expr

/-- The metavariable environment of the model: the number of the next
metavariable, and the assignments (the metavariable, its value and the
trace of the assignment), the last one first. -/
structure simple_menv where
  next_id : Nat
  subst : List (Nat × simple_expr × Option Nat)
  deriving DecidableEq, Repr

namespace simple_expr

/-- The value and the trace of the metavariable `n`, when it is assigned. -/
def find_subst (menv : simple_menv) (n : Nat) : Option (simple_expr × Option Nat) :=
  (menv.subst.find? (fun p => p.1 == n)).map (fun p => p.2)

/-- True when the expression holds a metavariable. -/
def has_metavar : simple_expr → Bool
  | metavar _ => true
  | app f a => has_metavar f || has_metavar a
  | lambda d b => has_metavar d || has_metavar b
  | pi d b => has_metavar d || has_metavar b
  | eq l r => has_metavar l || has_metavar r
  | _ => false

/-- True when the expression holds an assigned metavariable. -/
def has_assigned_metavar (menv : simple_menv) : simple_expr → Bool
  | metavar n => (find_subst menv n).isSome
  | app f a => has_assigned_metavar menv f || has_assigned_metavar menv a
  | lambda d b => has_assigned_metavar menv d || has_assigned_metavar menv b
  | pi d b => has_assigned_metavar menv d || has_assigned_metavar menv b
  | eq l r => has_assigned_metavar menv l || has_assigned_metavar menv r
  | _ => false

/-- The metavariables of the expression. -/
def metavars : simple_expr → List Nat
  | metavar n => [n]
  | app f a => metavars f ++ metavars a
  | lambda d b => metavars d ++ metavars b
  | pi d b => metavars d ++ metavars b
  | eq l r => metavars l ++ metavars r
  | _ => []

/-- True when the metavariable `n` occurs in the expression, or in the value
of an assigned metavariable of the expression, followed `fuel` times. -/
def occurs (menv : simple_menv) (n : Nat) : Nat → simple_expr → Bool
  | 0, e => (metavars e).contains n
  | fuel + 1, e =>
    (metavars e).contains n ||
      (metavars e).any (fun i =>
        match find_subst menv i with
        | some v => occurs menv n fuel v.1
        | none => false)

/-- The expression with its assigned metavariables replaced by their values,
and the traces of the assignments that have one. -/
def replace_assigned (menv : simple_menv) : simple_expr → simple_expr × List (Option Nat)
  | metavar n =>
    match find_subst menv n with
    | some (v, some t) => (v, [some t])
    | some (v, none) => (v, [])
    | none => (metavar n, [])
  | app f a =>
    (app (replace_assigned menv f).1 (replace_assigned menv a).1,
      (replace_assigned menv f).2 ++ (replace_assigned menv a).2)
  | lambda d b =>
    (lambda (replace_assigned menv d).1 (replace_assigned menv b).1,
      (replace_assigned menv d).2 ++ (replace_assigned menv b).2)
  | pi d b =>
    (pi (replace_assigned menv d).1 (replace_assigned menv b).1,
      (replace_assigned menv d).2 ++ (replace_assigned menv b).2)
  | eq l r =>
    (eq (replace_assigned menv l).1 (replace_assigned menv r).1,
      (replace_assigned menv l).2 ++ (replace_assigned menv r).2)
  | t => (t, [])

end simple_expr

/-- The contexts of the model: the domain and the body, if any, of each
variable, the variable 0 first. -/
abbrev simple_context : Type := List (simple_expr × Option simple_expr)

/-- A kernel on the expressions of the model, with the traces
`code_trace_ops`.  No metavariable has a local context or a declared type,
the environment is the empty one, the normalizer has the step budget 100 and
leaves an expression as it is when the budget is used up, and the type
inferer of the examples answers `type 0` for every expression and makes no
constraint. -/
def simple_kernel : kernel_ops simple_context simple_expr simple_menv Nat where
  traces := code_trace_ops simple_context simple_expr
  m_env := environment_cell.empty
  kind := simple_expr.kind
  args := simple_expr.args
  mk_app := simple_expr.mk_app
  update_app := fun a i f => simple_expr.mk_app ((simple_expr.args a).set i f)
  var_idx := fun a => match a with
    | .var i => i
    | _ => 0
  mk_var := simple_expr.var
  ty_level := fun a => match a with
    | .type k => add bot k
    | _ => bot
  mk_type := fun l => .type (_lift_offset l)
  Bool_ := .constant (name.mk_str "Bool")
  TypeM := .type 1000
  TypeU := .type 2000
  eq_lhs := fun a => match a with
    | .eq l _ => l
    | t => t
  eq_rhs := fun a => match a with
    | .eq _ r => r
    | t => t
  mk_eq := simple_expr.eq
  abst_name := fun _ => name.mk_str "x"
  abst_domain := fun a => match a with
    | .lambda d _ => d
    | .pi d _ => d
    | t => t
  abst_body := fun a => match a with
    | .lambda _ b => b
    | .pi _ b => b
    | t => t
  mk_lambda := fun _ d b => .lambda d b
  update_abstraction := fun a d b => match a with
    | .pi _ _ => .pi d b
    | _ => .lambda d b
  let_value := fun a => a
  let_body := fun a => a
  const_name := fun a => match a with
    | .constant n => n
    | _ => name.anonymous
  value_normalize := fun _ _ => none
  has_local_context := fun _ => false
  lctx_head_is_lift := fun _ => false
  lctx_head_is_inst := fun _ => false
  lctx_head_s := fun _ => 0
  lctx_head_n := fun _ => 0
  lctx_head_v := fun a => a
  pop_meta_context := fun a => a
  has_metavar := simple_expr.has_metavar
  has_metavar_in := fun e m menv => match m with
    | .metavar n => simple_expr.occurs menv n menv.subst.length e
    | _ => false
  has_assigned_metavar := fun e menv => simple_expr.has_assigned_metavar menv e
  replace_assigned := fun e menv => simple_expr.replace_assigned menv e
  is_assigned := fun menv m => match m with
    | .metavar n => (simple_expr.find_subst menv n).isSome
    | _ => false
  get_subst := fun menv m => match m with
    | .metavar n => ((simple_expr.find_subst menv n).map (fun v => v.1)).getD m
    | _ => m
  get_trace := fun menv m => match m with
    | .metavar n => ((simple_expr.find_subst menv n).map (fun v => v.2)).getD none
    | _ => none
  has_type := fun _ _ => false
  get_type := fun _ _ => .type 0
  assign := fun menv m v tr => match m with
    | .metavar n => { menv with subst := (n, v, tr) :: menv.subst }
    | _ => menv
  mk_metavar := fun menv _ => (.metavar menv.next_id, { menv with next_id := menv.next_id + 1 })
  has_free_var := simple_expr.has_free_var
  lower_free_vars := simple_expr.lower_free_vars
  lift_free_vars := simple_expr.lift_free_vars
  closed := simple_expr.closed
  instantiate := simple_expr.instantiate
  head_beta_reduce := simple_expr.head_beta_reduce
  ctx_remove := fun ctx s n => ctx.take s ++ ctx.drop (s + n)
  ctx_extend := fun ctx _ d => (d, none) :: ctx
  lookup_domain := fun ctx i => (ctx.get? i).map (fun p => p.1)
  lookup_body := fun ctx i => (ctx.get? i).bind (fun p => p.2)
  normalizer := fun a _ _ => (simple_expr.normalize 100 a).getD a
  type_inferer := fun _ _ menv => (.type 0, menv, [])

/-- The context of the examples of the simple higher-order match: the
variable 0 has the domain `T` and the variable 1 the domain `U`, and neither
has a body. -/
def example_ho_context : simple_context :=
  [(.constant (name.mk_str "T"), none), (.constant (name.mk_str "U"), none)]

/-- The application `(?0 #x #y)` of the metavariable 0 to two variables. -/
def example_ho_app (x y : Nat) : simple_expr :=
  .app (.app (.metavar 0) (.var x)) (.var y)

/-- The equation between `(?0 #x #y)` and the constant `c` in the context of
the examples. -/
def example_ho_constraint (x y : Nat) : unification_constraint simple_context simple_expr Nat :=
  .Eq example_ho_context (example_ho_app x y) (.constant (name.mk_str "c")) none

namespace imp

variable {context expr metavar_env trace : Type}

/-- The alternative of a flex-rigid split for the projection on the argument
`i` of `a = (?m a_1 ... a_n)`, as the specification describes it: the state
`s` with the constraint between `a_i` and `b`, of the kind of `c`, and in
front of it the equation between `?m` and `fun x_1 ... x_n, x_i`, whose body
is the variable `n - i`; both are justified by the assumption `asm`. -/
def projection_alternative (k : kernel_ops context expr metavar_env trace) (a b : expr)
    (is_lhs : Bool) (c : unification_constraint context expr trace) (arg_types : List expr)
    (s : state context expr metavar_env trace) (asm : Option trace) (i : Nat) :
    state context expr metavar_env trace :=
  { m_menv := s.m_menv,
    m_queue :=
      .Eq c.get_context (k.arg a 0)
          (k.mk_lambdas arg_types (k.mk_var (k.num_args a - i - 1))) asm ::
        (if c.is_eq then
          (if is_lhs then .Eq c.get_context (k.arg a i) b asm
            else .Eq c.get_context b (k.arg a i) asm)
        else
          (if is_lhs then .Convertible c.get_context (k.arg a i) b asm
            else .Convertible c.get_context b (k.arg a i) asm)) :: s.m_queue }

end imp

namespace imp

variable {context expr metavar_env trace : Type}

/-- The imitation alternative of a flex-rigid split: the state made by
`imitation` from the state `s`, with the equation between `?m` and the
imitation term pushed at the front of its queue, justified by the assumption
`asm`. -/
def imitation_alternative (k : kernel_ops context expr metavar_env trace) (a b : expr)
    (c : unification_constraint context expr trace) (arg_types : List expr)
    (s : state context expr metavar_env trace) (asm : Option trace) :
    state context expr metavar_env trace :=
  { m_menv := (imitation k c.get_context a b arg_types asm s).1.m_menv,
    m_queue :=
      .Eq c.get_context (k.arg a 0) (imitation k c.get_context a b arg_types asm s).2 asm ::
        (imitation k c.get_context a b arg_types asm s).1.m_queue }

end imp

/-! ### The Church numerals of `tests/kernel/normalizer.cpp` -/

namespace normalizer_test

open simple_expr

/-- The constant `t()` of the test. -/
def t : simple_expr := constant (name.mk_str "t")

/-- The function `lam(t, e)` of the test, `mk_lambda("_", t, e)`. -/
def lam (d e : simple_expr) : simple_expr := lambda d e

/-- Modelled from the spec: `mk_arrow(a, b)`, the Pi term with the domain `a`
and the body `b`. -/
def mk_arrow (a b : simple_expr) : simple_expr := pi a b

/-- The function `v(i)` of the test, `Var(i)`. -/
def v (i : Nat) : simple_expr := var i

/-- The term `zero()` of the test: "fun (t : T) (s : t -> t) (z : t) z". -/
def zero : simple_expr := lam t (lam (mk_arrow (v 0) (v 0)) (lam (v 1) (v 0)))

/-- The term `one()` of the test: "fun (t : T) (s : t -> t) s". -/
def one : simple_expr := lam t (lam (mk_arrow (v 0) (v 0)) (v 0))

/-- The constant `num()` of the test. -/
def num : simple_expr := constant (name.mk_str "num")

/-- The term `plus()` of the test: "fun (m n : numeral) (A : Type 0)
(f : A -> A) (x : A) => m A f (n A f x)", with `x = v(0)`, `f = v(1)`,
`A = v(2)`, `n = v(3)` and `m = v(4)`. -/
def plus : simple_expr :=
  lam num (lam num (lam t (lam (mk_arrow (v 0) (v 0)) (lam (v 1)
    (mk_app [v 4, v 2, v 1, mk_app [v 3, v 2, v 1, v 0]])))))

/-- The term `two()` of the test. -/
def two : simple_expr := mk_app [plus, one, one]

/-- The term `three()` of the test. -/
def three : simple_expr := mk_app [plus, two, one]

/-- The term `four()` of the test. -/
def four : simple_expr := mk_app [plus, two, two]

/-- The term `times()` of the test: "fun (m n : numeral) (A : Type 0)
(f : A -> A) (x : A) => m A (n A f) x". -/
def times : simple_expr :=
  lam num (lam num (lam t (lam (mk_arrow (v 0) (v 0)) (lam (v 1)
    (mk_app [v 4, v 2, mk_app [v 3, v 2, v 1], v 0])))))

/-- The term `power()` of the test, whose body is `n(mk_arrow(A, A), m(A))`
with `A = v(0)`, `n = v(1)` and `m = v(2)`. -/
def power : simple_expr :=
  lam num (lam num (lam (mk_arrow (v 0) (v 0))
    (mk_app [v 1, mk_arrow (v 0) (v 0), mk_app [v 2, v 0]])))

/-- The constant `N` of the test. -/
def N : simple_expr := constant (name.mk_str "N")

/-- The constant `s` of the test. -/
def s : simple_expr := constant (name.mk_str "s")

/-- The constant `z` of the test. -/
def z : simple_expr := constant (name.mk_str "z")

/-- The function `count_core` of the test, with the set `s` of the
expressions that have been visited as a list.  An application is flattened:
when the flag is set the expression is the function part of the application
that is being visited, which is not a node of its own, and only its
arguments are counted.  The switch of the test has no case for an equality,
for which 0 is returned. -/
def count_core : Bool → simple_expr → List simple_expr → Nat × List simple_expr
  | true, app f a, set =>
    ((count_core true f set).1 + (count_core false a (count_core true f set).2).1,
      (count_core false a (count_core true f set).2).2)
  | false, app f a, set =>
    if set.contains (app f a) then (0, set)
    else
      (1 + (count_core true f (app f a :: set)).1
          + (count_core false a (count_core true f (app f a :: set)).2).1,
        (count_core false a (count_core true f (app f a :: set)).2).2)
  | _, lambda d b, set =>
    if set.contains (lambda d b) then (0, set)
    else
      ((count_core false d (lambda d b :: set)).1
          + (count_core false b (count_core false d (lambda d b :: set)).2).1 + 1,
        (count_core false b (count_core false d (lambda d b :: set)).2).2)
  | _, pi d b, set =>
    if set.contains (pi d b) then (0, set)
    else
      ((count_core false d (pi d b :: set)).1
          + (count_core false b (count_core false d (pi d b :: set)).2).1 + 1,
        (count_core false b (count_core false d (pi d b :: set)).2).2)
  | _, eq l r, set => if set.contains (eq l r) then (0, set) else (0, eq l r :: set)
  | _, e, set => if set.contains e then (0, set) else (1, e :: set)

/-- The function `count` of the test: the number of the distinct subterms. -/
def count (a : simple_expr) : Nat := (count_core false a []).1

/-- The term `(h (h ... (h base)))` with `n` nested applications of `h`. -/
def iter_app (h base : simple_expr) : Nat → simple_expr
  | 0 => base
  | n + 1 => app h (iter_app h base n)

/-- The term with `n` nested applications of `s` to `z`. -/
def nest (n : Nat) : simple_expr := iter_app s z n

/-- The Church numeral for `n`:
"fun (t : T) (s : t -> t) (z : t), s (s ... (s z))" with `n` applications of
the variable `s`. -/
def church_numeral (n : Nat) : simple_expr :=
  lam t (lam (mk_arrow (v 0) (v 0)) (lam (v 1) (iter_app (v 1) (v 0) n)))

end normalizer_test

/-! ## Buffers (`util/buffer.h`) -/

/-- The class `buffer<T, INITIAL_SIZE>`: `m_buffer` holds the contents of the
constructed cells of the block, cell `i` being element `i` of the list,
`m_pos` is the number of elements and `m_capacity` the number of cells of the
block.  A write to a cell outside the block, a copy that does not fit in the
block and a violated assertion are failures: the operations return `none`
for them. -/
structure buffer (T : Type) where
  m_buffer : List T
  m_pos : Nat
  m_capacity : Nat
  deriving DecidableEq, Repr

namespace buffer

variable {T : Type}

/-- The constructor `buffer()`: no element, the capacity `INITIAL_SIZE`. -/
def mk_empty (INITIAL_SIZE : Nat) : buffer T := ⟨[], 0, INITIAL_SIZE⟩

/-- The function `size`. -/
def size (b : buffer T) : Nat := b.m_pos

/-- The function `empty`. -/
def empty (b : buffer T) : Bool := b.m_pos == 0

/-- The function `expand`: `new_capacity = m_capacity << 1` is an `unsigned`
value, and `memcpy` copies `m_pos` cells to the block of `new_capacity`
cells. -/
def expand (b : buffer T) : Option (buffer T) :=
  let new_capacity := (b.m_capacity * 2) % UNSIGNED_RANGE
  if b.m_pos ≤ new_capacity then some { b with m_capacity := new_capacity } else none

/-- The function `push_back`: the block is expanded when `m_pos >=
m_capacity`, then the element is built in the cell `m_pos`. -/
def push_back (b : buffer T) (elem : T) : Option (buffer T) :=
  match (if b.m_pos ≥ b.m_capacity then expand b else some b) with
  | none => none
  | some b1 =>
    if b1.m_pos < b1.m_capacity then
      some { b1 with m_buffer := b1.m_buffer.take b1.m_pos ++ [elem],
                     m_pos := (b1.m_pos + 1) % UNSIGNED_RANGE }
    else none

/-- The function `back`, with its assertion `!empty() && m_pos > 0`. -/
def back (b : buffer T) : Option T :=
  if !b.empty && decide (b.m_pos > 0) then b.m_buffer[b.m_pos - 1]? else none

/-- The function `operator[]`, with its assertion `idx < size()`. -/
def get (b : buffer T) (idx : Nat) : Option T :=
  if idx < b.size then b.m_buffer[idx]? else none

/-- The function `pop_back`: the last element is destroyed and `m_pos`
decremented. -/
def pop_back (b : buffer T) : Option (buffer T) :=
  if !b.empty && decide (b.m_pos > 0) then
    some { b with m_buffer := b.m_buffer.take (b.m_pos - 1), m_pos := b.m_pos - 1 }
  else none

/-- The loop `for (i = sz; i < nsz; i++) push_back(elem)`, on the number of
its iterations. -/
def push_back_loop : Nat → buffer T → T → Option (buffer T)
  | 0, b, _ => some b
  | n + 1, b, elem =>
    match push_back b elem with
    | none => none
    | some b1 => push_back_loop n b1 elem

/-- The loop `for (i = nsz; i < sz; i++) pop_back()`, on the number of its
iterations. -/
def pop_back_loop : Nat → buffer T → Option (buffer T)
  | 0, b => some b
  | n + 1, b =>
    match pop_back b with
    | none => none
    | some b1 => pop_back_loop n b1

/-- The function `resize(nsz, elem)`, with its closing assertion `size() ==
nsz`. -/
def resize (b : buffer T) (nsz : Nat) (elem : T) : Option (buffer T) :=
  let sz := b.size
  match (if nsz > sz then push_back_loop (nsz - sz) b elem
    else if nsz < sz then pop_back_loop (sz - nsz) b
    else some b) with
  | none => none
  | some b1 => if b1.size = nsz then some b1 else none

/-- The function `shrink(nsz)`, with its assertions `nsz <= sz` and `size()
== nsz`. -/
def shrink (b : buffer T) (nsz : Nat) : Option (buffer T) :=
  let sz := b.size
  if nsz ≤ sz then
    match pop_back_loop (sz - nsz) b with
    | none => none
    | some b1 => if b1.size = nsz then some b1 else none
  else none

/-- The invariant of a buffer: the cells `0 .. m_pos - 1` are the constructed
ones, they lie in the block, and the block has a cell. -/
def well_formed (b : buffer T) : Prop :=
  b.m_buffer.length = b.m_pos ∧ b.m_pos ≤ b.m_capacity ∧ 0 < b.m_capacity

instance (b : buffer T) : Decidable (well_formed b) := by
  unfold well_formed; infer_instance

end buffer

/-! ## Formats (`util/sexpr/format.cpp`) -/

/-- The S-expressions of `format.cpp`, by their `format_kind` (the header
`format.h` that declares them is not among the sources): `NIL`, `NEST i s`
(built by `sexpr_nest`, read by `sexpr_nest_i` and `sexpr_nest_s`),
`COMPOSE l` (`sexpr_compose`, `sexpr_compose_list`), `CHOICE x y`
(`sexpr_choice_1`, `sexpr_choice_2`), `LINE` (`sexpr_line`), `TEXT s`
(`sexpr_text`; the content is kept as the text that `layout` writes),
`COLOR_BEGIN c` and `COLOR_END`. -/
inductive format where
  | NIL : format
  | NEST (i : Int) (s : format) : format
  | COMPOSE (l : List format) : format
  | CHOICE (x y : format) : format
  | LINE : format
  | TEXT (s : String) : format
  | COLOR_BEGIN (c : Int) : format
  | COLOR_END : format
  deriving Repr

namespace format

mutual
/-- The function `format::flatten`. -/
def flatten : format → format
  | NIL => NIL
  | NEST _ x => flatten x
  | COMPOSE l => COMPOSE (flatten_list l)
  | CHOICE x _ => flatten x
  | LINE => TEXT " "
  | TEXT s => TEXT s
  | COLOR_BEGIN c => COLOR_BEGIN c
  | COLOR_END => COLOR_END
/-- The `map` of `flatten` over the list of a composition. -/
def flatten_list : List format → List format
  | [] => []
  | s :: l => flatten s :: flatten_list l
end

/-- The function `choice` of `format.h`, which builds a `CHOICE` node. -/
def choice (f1 f2 : format) : format := CHOICE f1 f2

/-- The function `group`. -/
def group (f : format) : format := choice (flatten f) f

mutual
/-- No node of the format is a `LINE`, a `NEST` or a `CHOICE`. -/
def is_flat : format → Bool
  | NEST _ _ => false
  | COMPOSE l => is_flat_list l
  | CHOICE _ _ => false
  | LINE => false
  | _ => true
/-- No node of the formats of the list is a `LINE`, a `NEST` or a `CHOICE`. -/
def is_flat_list : List format → Bool
  | [] => true
  | s :: l => is_flat s && is_flat_list l
end

end format

/-! ## The hash code of a level -/

/-- What `level::hash` uses of `util/name.h` and `util/hash.h`, which are not
among the sources: the hash code `name::hash()` of a name, the combination
`hash(h1, h2)` of two codes, and the code `hash(n, h)` of the `n` codes
`h(0), ..., h(n-1)`, given as their list. -/
structure hash_ops where
  name_hash : name → Nat
  hash : Nat → Nat → Nat
  hash_seq : List Nat → Nat

mutual
/-- The function `level::hash`: a universe variable hashes its name, a lift
combines the code of the lifted level with the offset, a max hashes the codes
of its children. -/
def level.hash (ops : hash_ops) : level → Nat
  | .uvar n _ => ops.name_hash n
  | .lift l k => ops.hash (level.hash ops l) k
  | .max ls => ops.hash_seq (level.hash_list ops ls)
/-- The codes `m_levels[i].hash()` of the children of a max. -/
def level.hash_list (ops : hash_ops) : List level → List Nat
  | [] => []
  | l :: ls => level.hash ops l :: level.hash_list ops ls
end

mutual
/-- Every universe variable of the level carries the name that `names` gives
to its identifier, as the variables of one environment do. -/
def uvars_named (names : Nat → name) : level → Bool
  | .uvar n u => decide (n = names u)
  | .lift l _ => uvars_named names l
  | .max ls => uvars_named_list names ls
/-- The universe variables of the levels of the list carry the names that
`names` gives to their identifiers. -/
def uvars_named_list (names : Nat → name) : List level → Bool
  | [] => true
  | l :: ls => uvars_named names l && uvars_named_list names ls
end

/-- A sample of a structural hash code of names, for the examples. -/
def name.example_hash : name → Nat
  | .anonymous => 11
  | .str p s => (name.example_hash p * 31 + s.data.foldl (fun h c => h * 31 + c.toNat) 0)
      % UNSIGNED_RANGE
  | .num p k => (name.example_hash p * 31 + k) % UNSIGNED_RANGE

/-- A sample of the hash functions, for the examples. -/
def example_hash_ops : hash_ops where
  name_hash := name.example_hash
  hash := fun h1 h2 => (h1 * 31 + h2) % UNSIGNED_RANGE
  hash_seq := fun hs => hs.foldl (fun h1 h2 => (h1 * 31 + h2) % UNSIGNED_RANGE) hs.length

/-- Operations on expressions for the examples of the weights: the
expression 0 mentions no constant, and the expression `e + 1` mentions the
constant named by the number `e`; otherwise as `nat_ops`. -/
def nat_ops_constants : expr_ops Nat where
  has_cached_type := fun _ => false
  constants := fun e => if e = 0 then [] else [name.num name.anonymous (e - 1)]
  is_value := fun _ => true
  value_name := fun v => name.num name.anonymous v
  value_unicode_name := fun v => name.num name.anonymous (v + 1)
  value_type := fun v => v
  mk_constant := fun _ => 0

/-- The environment left by `add_definition(0, 0, 0, false)` in the empty
environment: its definition, named by the number 0, mentions no constant. -/
def environment_with_definition : environment_cell Nat :=
  (environment_cell.add_definition nat_ops_constants nat_tc environment_cell.empty
    (name.num name.anonymous 0) 0 0 false).2

namespace imp

variable {context expr metavar_env trace : Type}

/-- The calls of `next` in a row on a case split, `n` of them: the value that
each call returns with the state `m_state` and the assumption
`m_curr_assumption` that it leaves, and then the split and the engine after
the last call. -/
def next_calls (ops : trace_ops context expr trace) :
    Nat → case_split context expr metavar_env trace → imp context expr metavar_env trace →
    List (Bool × state context expr metavar_env trace × Option trace) ×
      case_split context expr metavar_env trace × imp context expr metavar_env trace
  | 0, d, e => ([], d, e)
  | n + 1, d, e =>
    (((next ops d e).1, (next ops d e).2.2.m_state, (next ops d e).2.1.m_curr_assumption) ::
        (next_calls ops n (next ops d e).2.1 (next ops d e).2.2).1,
      (next_calls ops n (next ops d e).2.1 (next ops d e).2.2).2)

end imp

/-- The engine of the examples of the flex-rigid split, made for the
metavariable environment with the metavariable 0. -/
def example_split_engine : imp simple_context simple_expr simple_menv Nat :=
  elaborator.mk ⟨1, []⟩ []

/-- The flex-rigid constraint `(?0 a1 a2) == b` of the examples. -/
def example_split_constraint : unification_constraint simple_context simple_expr Nat :=
  .Eq []
    (.app (.app (.metavar 0) (.constant (name.mk_str "a1"))) (.constant (name.mk_str "a2")))
    (.constant (name.mk_str "b")) none

/-- A state of the examples: the metavariable environment with `n`
metavariables and no constraint. -/
def example_split_state (n : Nat) : state simple_context simple_expr simple_menv Nat :=
  { m_menv := ⟨n, []⟩, m_queue := [] }

/-- The tokens, `scanner::token`. -/
inductive token where
  | LeftParen | RightParen | LeftCurlyBracket | RightCurlyBracket | Colon | Comma | Period
  | Lambda | Pi | Exists | Arrow | Let | In | Id | CommandId | IntVal | DecimalVal | StringVal
  | Eq | Assign | Type_ | Placeholder | ScriptBlock | Have | By | Ellipsis | Eof
  deriving DecidableEq, Repr

/-- The exception `parser_exception(msg, m_stream_name, m_line, m_spos)`
thrown by `throw_exception`. -/
structure parser_exception where
  msg : String
  m_line : Nat
  m_spos : Nat
  deriving DecidableEq, Repr

/-- The value `EOF` as a `char`. -/
def EOF : Char := Char.ofNat 255

/-- The data members of `scanner`; `m_stream` holds the characters of the
stream that have not been read, `m_num_val` is an exact rational (`mpq`) and
`m_buffer` a string, `m_commands` the list of the command keywords. -/
structure scanner where
  m_spos : Nat
  m_curr : Char
  m_line : Nat
  m_pos : Nat
  m_stream : List Char
  m_script_line : Nat
  m_script_pos : Nat
  m_name_val : name
  m_num_val : Rat
  m_buffer : String
  m_commands : List name
  deriving DecidableEq, Repr

/-- The table `g_normalized` read by `normalize`: digits go to `0`, the
letters, `_`, the apostrophe and `@` to `a`, `-` to itself, the characters
of the group b to `b`, the punctuation, the new line and the double quote to
themselves, the other spaces to the space, the byte 255 to the end of
file, and every other character to `c`. -/
def normalize (c : Char) : Char :=
  if c.isDigit then '0'
  else if c.isAlpha || c = '_' || c = Char.ofNat 39 || c = '@' then 'a'
  else if c = '-' then '-'
  else if c ∈ ['=', '<', '>', '^', '|', '&', '~', '+', '*', '/', Char.ofNat 92, '$', '%', '?',
      ';', '[', ']', '#'] then 'b'
  else if c ∈ ['(', ')', Char.ofNat 123, Char.ofNat 125, ':', '.', ','] then c
  else if c = ' ' || c = '\t' || c = '\r' then ' '
  else if c = '\n' then '\n'
  else if c = Char.ofNat 34 then Char.ofNat 34
  else if c = EOF then EOF
  else 'c'

namespace scanner

/-- The function `curr`. -/
def curr (s : scanner) : Char := s.m_curr

/-- The function `new_line` of `scanner.h`: the line counter is incremented
and the position in the line is reset. -/
def new_line (s : scanner) : scanner := { s with m_line := s.m_line + 1, m_spos := 0 }

/-- The function `throw_exception`. -/
def throw_exception (s : scanner) (msg : String) : parser_exception :=
  ⟨msg, s.m_line, s.m_spos⟩

/-- The function `next`: the next character of the stream, or `EOF`, becomes
the current one. -/
def next (s : scanner) : scanner :=
  { s with m_curr := s.m_stream.headD EOF, m_stream := s.m_stream.tail, m_spos := s.m_spos + 1 }

/-- The constructor of `scanner`, which reads the first character. -/
def mk_scanner (stream : List Char) : scanner :=
  next ⟨0, Char.ofNat 0, 1, 0, stream, 1, 0, name.anonymous, 0, "", []⟩

/-- The function `check_next`: the character that follows the current one
is `c`; the stream is left as it is. -/
def check_next (s : scanner) (c : Char) : Bool :=
  match s.m_stream with
  | [] => false
  | d :: _ => d == c

/-- The function `check_next_is_digit`. -/
def check_next_is_digit (s : scanner) : Bool :=
  decide ('0' ≤ s.m_stream.headD EOF) && decide (s.m_stream.headD EOF ≤ '9')

/-- The loop of `read_single_line_comment`, with a bound on its
iterations. -/
def read_single_line_comment_loop : Nat → scanner → Option scanner
  | 0, _ => none
  | fuel + 1, s =>
    if s.curr = '\n' then some (next (new_line s))
    else if s.curr = EOF then some s
    else read_single_line_comment_loop fuel (next s)

/-- The function `read_single_line_comment`. -/
def read_single_line_comment (s : scanner) : Option scanner :=
  read_single_line_comment_loop (s.m_stream.length + 2) s

/-- The function `is_command`. -/
def is_command (s : scanner) (n : name) : Bool := s.m_commands.any (fun c => c == n)

/-- The value of the decimal numeral `buf`, as `mpz val(buf.c_str())`
reads it. -/
def numeral_value (buf : String) : Nat :=
  buf.data.foldl (fun v c => 10 * v + (c.toNat - '0'.toNat)) 0

/-- The function `mk_name`, "auxiliary function for read_a_symbol". -/
def mk_name (s : scanner) (curr : name) (buf : String) (only_digits : Bool) :
    Except parser_exception name :=
  if curr = name.anonymous then .ok (name.mk_str buf)
  else if only_digits then
    if numeral_value buf < UNSIGNED_RANGE then .ok (name.num curr (numeral_value buf))
    else .error (s.throw_exception "invalid hierarchical name, numeral is too big")
  else .ok (name.str curr buf)

/-- The keywords of `read_a_symbol`. -/
def g_lambda_name : name := name.mk_str "fun"
def g_type_name : name := name.mk_str "Type"
def g_pi_name : name := name.mk_str "forall"
def g_let_name : name := name.mk_str "let"
def g_in_name : name := name.mk_str "in"
def g_arrow_name : name := name.mk_str "->"
def g_exists_name : name := name.mk_str "exists"
def g_Exists_name : name := name.mk_str "Exists"
def g_placeholder_name : name := name.mk_str "_"
def g_have_name : name := name.mk_str "have"
def g_by_name : name := name.mk_str "by"

/-- The names of the unicode symbols, as the strings of their bytes in
UTF-8. -/
def g_lambda_unicode : name := name.mk_str (String.mk [Char.ofNat 206, Char.ofNat 187])
def g_pi_unicode : name :=
  name.mk_str (String.mk [Char.ofNat 226, Char.ofNat 136, Char.ofNat 128])
def g_arrow_unicode : name :=
  name.mk_str (String.mk [Char.ofNat 226, Char.ofNat 134, Char.ofNat 146])
def g_exists_unicode : name :=
  name.mk_str (String.mk [Char.ofNat 226, Char.ofNat 136, Char.ofNat 131])

/-- The end of `read_a_symbol`: the token of the name that has been read. -/
def a_symbol_token (s : scanner) : token × scanner :=
  if s.m_name_val = g_lambda_name then (.Lambda, s)
  else if s.m_name_val = g_pi_name then (.Pi, s)
  else if s.m_name_val = g_exists_name then (.Exists, s)
  else if s.m_name_val = g_type_name then (.Type_, s)
  else if s.m_name_val = g_let_name then (.Let, s)
  else if s.m_name_val = g_in_name then (.In, s)
  else if s.m_name_val = g_placeholder_name then (.Placeholder, s)
  else if s.m_name_val = g_have_name then (.Have, s)
  else if s.m_name_val = g_by_name then (.By, s)
  else if s.m_name_val = g_Exists_name then (.Id, { s with m_name_val := g_exists_name })
  else (if s.is_command s.m_name_val then .CommandId else .Id, s)

/-- The loop of `read_a_symbol`, with a bound on its iterations. -/
def read_a_symbol_loop : Nat → Bool → scanner → Option (Except parser_exception token × scanner)
  | 0, _, _ => none
  | fuel + 1, only_digits, s =>
    if normalize s.curr = 'a' then
      if only_digits then
        some (.error (s.throw_exception "invalid hierarchical name, digit expected"), s)
      else read_a_symbol_loop fuel only_digits (next { s with m_buffer := s.m_buffer.push s.curr })
    else if normalize s.curr = '0' then
      read_a_symbol_loop fuel only_digits (next { s with m_buffer := s.m_buffer.push s.curr })
    else if s.curr = ':' && s.check_next ':' then
      match mk_name (next (next s)) s.m_name_val s.m_buffer only_digits with
      | .error ex => some (.error ex, next (next s))
      | .ok n =>
        read_a_symbol_loop fuel (normalize (next (next s)).curr == '0')
          { next (next s) with m_name_val := n, m_buffer := "" }
    else
      match mk_name s s.m_name_val s.m_buffer only_digits with
      | .error ex => some (.error ex, s)
      | .ok n =>
        some (.ok (a_symbol_token { s with m_name_val := n }).1,
          (a_symbol_token { s with m_name_val := n }).2)

/-- The function `read_a_symbol`. -/
def read_a_symbol (s : scanner) : Option (Except parser_exception token × scanner) :=
  read_a_symbol_loop (s.m_stream.length + 2) false
    (next { s with m_buffer := "".push s.curr, m_name_val := name.anonymous })

/-- The loop of `read_b_symbol`, with a bound on its iterations. -/
def read_b_symbol_loop : Nat → scanner → Option (token × scanner)
  | 0, _ => none
  | fuel + 1, s =>
    if normalize s.curr = 'b' || s.curr = '-' then
      read_b_symbol_loop fuel (next { s with m_buffer := s.m_buffer.push s.curr })
    else
      some (if name.mk_str s.m_buffer = g_arrow_name then .Arrow else .Id,
        { s with m_name_val := name.mk_str s.m_buffer })

/-- The function `read_b_symbol(prev)`; `prev` is the character 0 when there
is none. -/
def read_b_symbol (s : scanner) (prev : Char) : Option (token × scanner) :=
  read_b_symbol_loop (s.m_stream.length + 2)
    (next { s with
      m_buffer := (if prev ≠ Char.ofNat 0 then "".push prev else "").push s.curr })

/-- The loop of `read_c_symbol`, with a bound on its iterations. -/
def read_c_symbol_loop : Nat → scanner → Option (token × scanner)
  | 0, _ => none
  | fuel + 1, s =>
    if normalize s.curr = 'c' then
      read_c_symbol_loop fuel (next { s with m_buffer := s.m_buffer.push s.curr })
    else
      some (
        if name.mk_str s.m_buffer = g_arrow_unicode then .Arrow
        else if name.mk_str s.m_buffer = g_lambda_unicode then .Lambda
        else if name.mk_str s.m_buffer = g_pi_unicode then .Pi
        else if name.mk_str s.m_buffer = g_exists_unicode then .Exists
        else .Id,
        { s with m_name_val := name.mk_str s.m_buffer })

/-- The function `read_c_symbol`. -/
def read_c_symbol (s : scanner) : Option (token × scanner) :=
  read_c_symbol_loop (s.m_stream.length + 2) (next { s with m_buffer := "".push s.curr })

/-- The loop of `read_number`, with a bound on its iterations; `q` is the
power of ten of the decimal digits, and the result holds `q` and
`is_decimal` at the end of the loop. -/
def read_number_loop : Nat → Rat → Bool → scanner → Option (Rat × Bool × scanner)
  | 0, _, _, _ => none
  | fuel + 1, q, is_decimal, s =>
    if '0' ≤ s.curr ∧ s.curr ≤ '9' then
      read_number_loop fuel (if is_decimal then q * 10 else q) is_decimal
        (next { s with m_num_val := 10 * s.m_num_val + ((s.curr.toNat - '0'.toNat : Nat) : Rat) })
    else if s.curr = '.' then
      if s.check_next_is_digit then
        if is_decimal then some (q, is_decimal, s)
        else read_number_loop fuel q true (next s)
      else some (q, is_decimal, s)
    else some (q, is_decimal, s)

/-- The function `read_number(pos)`. -/
def read_number (s : scanner) (pos : Bool) : Option (token × scanner) :=
  match read_number_loop (s.m_stream.length + 2) 1 false
      (next { s with m_num_val := ((s.curr.toNat - '0'.toNat : Nat) : Rat) }) with
  | none => none
  | some (q, is_decimal, s1) =>
    some (if is_decimal then .DecimalVal else .IntVal,
      { s1 with
        m_num_val :=
          (if pos then id else Neg.neg)
            (if is_decimal then s1.m_num_val / q else s1.m_num_val) })

/-- The loop of `read_string`, with a bound on its iterations. -/
def read_string_loop : Nat → scanner → Option (Except parser_exception token × scanner)
  | 0, _ => none
  | fuel + 1, s =>
    if s.curr = EOF then some (.error (s.throw_exception "unexpected end of string"), s)
    else if s.curr = Char.ofNat 34 then some (.ok .StringVal, next s)
    else if s.curr = '\n' then
      read_string_loop fuel (next { new_line s with m_buffer := s.m_buffer.push s.curr })
    else if s.curr = Char.ofNat 92 then
      if (next s).curr = EOF then
        some (.error ((next s).throw_exception "unexpected end of string"), next s)
      else if (next s).curr ≠ Char.ofNat 92 ∧ (next s).curr ≠ Char.ofNat 34 ∧
          (next s).curr ≠ 'n' then
        some (.error ((next s).throw_exception "invalid escape sequence"), next s)
      else
        read_string_loop fuel
          (next { next s with
            m_buffer := s.m_buffer.push (if (next s).curr = 'n' then '\n' else (next s).curr) })
    else read_string_loop fuel (next { s with m_buffer := s.m_buffer.push s.curr })

/-- The function `read_string`. -/
def read_string (s : scanner) : Option (Except parser_exception token × scanner) :=
  read_string_loop (s.m_stream.length + 2) (next { s with m_buffer := "" })

/-- The loop of `read_script_block`, with a bound on its iterations. -/
def read_script_block_loop : Nat → scanner →
    Option (Except parser_exception token × scanner)
  | 0, _ => none
  | fuel + 1, s =>
    if s.curr = EOF then some (.error (s.throw_exception "unexpected end of script"), s)
    else if s.curr = '*' then
      if (next s).curr = EOF then
        some (.error ((next s).throw_exception "unexpected end of script"), next s)
      else if (next s).curr = ')' then some (.ok .ScriptBlock, next (next s))
      else
        read_script_block_loop fuel
          { (if (next s).curr = '\n' then new_line (next (next s)) else next (next s)) with
            m_buffer := (s.m_buffer.push s.curr).push (next s).curr }
    else
      read_script_block_loop fuel
        { (if s.curr = '\n' then new_line (next s) else next s) with
          m_buffer := s.m_buffer.push s.curr }

/-- The function `read_script_block`. -/
def read_script_block (s : scanner) : Option (Except parser_exception token × scanner) :=
  read_script_block_loop (s.m_stream.length + 2)
    { s with m_script_line := s.m_line, m_script_pos := s.m_pos, m_buffer := "" }

/-- The function `scan`, with a bound on the iterations of its loop (the
spaces, new lines and comments that it skips).  The last `none` is the case
`default: lean_unreachable()`, which no value of `normalize` reaches. -/
def scan_loop : Nat → scanner → Option (Except parser_exception token × scanner)
  | 0, _ => none
  | fuel + 1, s0 =>
    let s := { s0 with m_pos := s0.m_spos }
    if normalize s.curr = ' ' then scan_loop fuel (next s)
    else if normalize s.curr = '\n' then scan_loop fuel (new_line (next s))
    else if normalize s.curr = ':' then
      if (next s).curr = '=' then some (.ok .Assign, next (next s))
      else some (.ok .Colon, next s)
    else if normalize s.curr = ',' then some (.ok .Comma, next s)
    else if normalize s.curr = '.' then
      if (next s).curr = '.' then
        if (next (next s)).curr ≠ '.' then
          some (.error ((next (next s)).throw_exception
            "invalid character sequence, \x27...\x27 ellipsis expected"), next (next s))
        else some (.ok .Ellipsis, next (next (next s)))
      else some (.ok .Period, next s)
    else if normalize s.curr = '(' then
      if (next s).curr = '*' then read_script_block (next (next s))
      else some (.ok .LeftParen, next s)
    else if normalize s.curr = ')' then some (.ok .RightParen, next s)
    else if normalize s.curr = Char.ofNat 123 then some (.ok .LeftCurlyBracket, next s)
    else if normalize s.curr = Char.ofNat 125 then some (.ok .RightCurlyBracket, next s)
    else if normalize s.curr = 'a' then read_a_symbol s
    else if normalize s.curr = 'b' then
      (read_b_symbol s (Char.ofNat 0)).map (fun r => (.ok r.1, r.2))
    else if normalize s.curr = 'c' then (read_c_symbol s).map (fun r => (.ok r.1, r.2))
    else if normalize s.curr = '-' then
      if normalize (next s).curr = '0' then
        (read_number (next s) false).map (fun r => (.ok r.1, r.2))
      else if (next s).curr = '-' then
        match read_single_line_comment (next s) with
        | none => none
        | some s1 => scan_loop fuel s1
      else if normalize (next s).curr = 'b' then
        (read_b_symbol (next s) '-').map (fun r => (.ok r.1, r.2))
      else some (.ok .Id, { next s with m_name_val := name.mk_str "-" })
    else if normalize s.curr = '0' then (read_number s true).map (fun r => (.ok r.1, r.2))
    else if normalize s.curr = Char.ofNat 34 then read_string s
    else if normalize s.curr = EOF then some (.ok .Eof, s)
    else none

/-- The function `scan`. -/
def scan (s : scanner) : Option (Except parser_exception token × scanner) :=
  scan_loop (s.m_stream.length + 2) s

end scanner
/-- The number that a list of decimal digits denotes. -/
def decimal_number (ds : List Char) : Nat :=
  ds.foldl (fun v c => 10 * v + (c.toNat - '0'.toNat)) 0

/-- The scanner reads the input `l`: its current character is the first one
of `l`, or `EOF` when `l` is empty, and its stream holds the others. -/
def scanner.reads (s : scanner) (l : List Char) : Prop :=
  s.m_curr = l.headD EOF ∧ s.m_stream = l.tail

instance (s : scanner) (l : List Char) : Decidable (s.reads l) := by
  unfold scanner.reads; infer_instance
/-- The characters `a` and `b` occur in a row in the list. -/
def has_pair (a b : Char) : List Char → Bool
  | x :: y :: l => (x == a && y == b) || has_pair a b (y :: l)
  | _ => false

namespace format

/-- The failures of the layout: the exception `std::length_error` thrown by
`std::string(i, ' ')` for a negative `i`, and the branch `lean_unreachable()`
of `layout`. -/
inductive format_exception where
  | length_error
  | unreachable
  deriving DecidableEq, Repr

mutual
/-- The function `space_upto_line_break(s, found_newline)`, called with
`found_newline` false: the result is the returned length, an `unsigned`
value, and the final value of `found_newline`.  The function
`sexpr_text_length` of `format.h`, which is not among the sources, is the
parameter `text_length`. -/
def space_upto_line_break (text_length : String → Nat) : format → Nat × Bool
  | NIL => (0, false)
  | COLOR_BEGIN _ => (0, false)
  | COLOR_END => (0, false)
  | COMPOSE l => space_upto_line_break_compose text_length l 0
  | NEST _ x => space_upto_line_break text_length x
  | TEXT s => (text_length s % UNSIGNED_RANGE, false)
  | LINE => (0, true)
  | CHOICE _ y => space_upto_line_break text_length y
/-- The loop of the case `COMPOSE` of `space_upto_line_break`, from the
length `len`: it stops after the element that sets `found_newline`. -/
def space_upto_line_break_compose (text_length : String → Nat) :
    List format → Nat → Nat × Bool
  | [], len => (len, false)
  | h :: list, len =>
    if (space_upto_line_break text_length h).2 then
      ((len + (space_upto_line_break text_length h).1) % UNSIGNED_RANGE, true)
    else
      space_upto_line_break_compose text_length list
        ((len + (space_upto_line_break text_length h).1) % UNSIGNED_RANGE)
end

/-- The function `space_upto_line_break_list(r, found_newline)` on a list of
pairs `(int, format)`, called with `found_newline` false, from the length
`len` (0 in the source). -/
def space_upto_line_break_list (text_length : String → Nat) :
    List (Int × format) → Nat → Nat × Bool
  | [], len => (len, false)
  | h :: list, len =>
    if (space_upto_line_break text_length h.2).2 then
      ((len + (space_upto_line_break text_length h.2).1) % UNSIGNED_RANGE, true)
    else
      space_upto_line_break_list text_length list
        ((len + (space_upto_line_break text_length h.2).1) % UNSIGNED_RANGE)

/-- The string `std::string(i, ' ')` of `i` spaces, for `i >= 0`. -/
def spaces (i : Int) : String := String.mk (List.replicate i.toNat ' ')

/-- The element `v` in front of the list that a call of `be` returns, as in
`sexpr(v, be(w, k, z))`. -/
def cons_result (v : format) (r : Option (Except format_exception (List format))) :
    Option (Except format_exception (List format)) :=
  r.map (fun x => x.map (fun l => v :: l))

/-- The function `be(w, k, s)` on the list `s` of the pending pairs
`(i, v)`, with a bound on the depth of its recursion (`none` when the bound
is reached).  The sum `i + j` of a `NEST` is an `int`; `std::string(i, ' ')`
throws for a negative `i`; the column `k + sexpr_text_length(v)` is an
`unsigned`; and `d` is the `int` computed from `static_cast<int>(w) -
static_cast<int>(k)` and the unsigned length. -/
def be (text_length : String → Nat) (w : Nat) :
    Nat → Nat → List (Int × format) → Option (Except format_exception (List format))
  | 0, _, _ => none
  | _ + 1, _, [] => some (.ok [])
  | fuel + 1, k, (_, NIL) :: z => be text_length w fuel k z
  | fuel + 1, k, (_, COLOR_BEGIN c) :: z =>
    cons_result (COLOR_BEGIN c) (be text_length w fuel k z)
  | fuel + 1, k, (_, COLOR_END) :: z => cons_result COLOR_END (be text_length w fuel k z)
  | fuel + 1, k, (i, COMPOSE list) :: z =>
    be text_length w fuel k (list.foldr (fun s res => (i, s) :: res) z)
  | fuel + 1, k, (i, NEST j x) :: z => be text_length w fuel k ((to_int (i + j), x) :: z)
  | fuel + 1, k, (_, TEXT s) :: z =>
    cons_result (TEXT s) (be text_length w fuel ((k + text_length s) % UNSIGNED_RANGE) z)
  | fuel + 1, _, (i, LINE) :: z =>
    if i < 0 then some (.error .length_error)
    else cons_result LINE (cons_result (TEXT (spaces i)) (be text_length w fuel i.toNat z))
  | fuel + 1, k, (i, CHOICE x y) :: z =>
    if to_int ((to_int (to_int (w : Int) - to_int (k : Int))
        - ((space_upto_line_break_list text_length ((i, x) :: z) 0).1 : Int)) % 4294967296) ≥ 0
    then be text_length w fuel k ((i, x) :: z)
    else be text_length w fuel k ((i, y) :: z)

/-- The function `best(w, k, s)`. -/
def best (text_length : String → Nat) (w fuel k : Nat) (s : format) :
    Option (Except format_exception (List format)) :=
  be text_length w fuel k [(0, s)]

/-- The function `layout`: the text written for an element of the list of
`best`. -/
def layout (colors : Bool) : format → Except format_exception String
  | NEST _ _ => .error .unreachable
  | CHOICE _ _ => .error .unreachable
  | COMPOSE _ => .error .unreachable
  | NIL => .ok ""
  | LINE => .ok "\n"
  | TEXT s => .ok s
  | COLOR_BEGIN c => .ok (if colors then "\x1b[" ++ toString (31 + Int.tmod c 7) ++ "m" else "")
  | COLOR_END => .ok (if colors then "\x1b[0m" else "")

/-- The function `layout_list`. -/
def layout_list (colors : Bool) : List format → Except format_exception String
  | [] => .ok ""
  | s :: l =>
    match layout colors s with
    | .error e => .error e
    | .ok a => (layout_list colors l).map (fun b => a ++ b)

/-- The function `pretty(out, w, colors, f)`: the text written. -/
def pretty (text_length : String → Nat) (w : Nat) (colors : Bool) (fuel : Nat) (f : format) :
    Option (Except format_exception String) :=
  match best text_length w fuel 0 f with
  | none => none
  | some (.error e) => some (.error e)
  | some (.ok b) => some (layout_list colors b)

/-- The length of a string in bytes, `std::string::length`: the text length
of the examples. -/
def string_length (s : String) : Nat := s.utf8ByteSize

mutual
/-- The number of nodes of a format. -/
def size : format → Nat
  | NEST _ x => size x + 1
  | COMPOSE l => size_list l + 1
  | CHOICE x y => size x + size y + 1
  | _ => 1
/-- The number of nodes of the formats of a list. -/
def size_list : List format → Nat
  | [] => 0
  | s :: l => size s + size_list l
end

/-- The number of nodes of the pending formats. -/
def size_items : List (Int × format) → Nat
  | [] => 0
  | h :: z => size h.2 + size_items z

/-- A `TEXT`, `LINE`, `COLOR_BEGIN` or `COLOR_END` node. -/
def is_leaf : format → Bool
  | TEXT _ => true
  | LINE => true
  | COLOR_BEGIN _ => true
  | COLOR_END => true
  | _ => false

/-- A `LINE` node. -/
def is_line : format → Bool
  | LINE => true
  | _ => false

/-- The lists `a ++ b` for `a` in `as` and `b` in `bs`. -/
def append_all (as bs : List (List format)) : List (List format) :=
  as.flatMap (fun a => bs.map (fun b => a ++ b))

mutual
/-- The resolved layouts of a format at the indentation `i`: every `CHOICE`
is replaced by one of its alternatives, a `NEST j` adds `j` to the
indentation, and a `LINE` gives the `LINE` followed by the text of `i`
spaces. -/
def layouts : Int → format → List (List format)
  | _, NIL => [[]]
  | i, NEST j x => layouts (i + j) x
  | i, COMPOSE l => layouts_compose i l
  | i, CHOICE x y => layouts i x ++ layouts i y
  | i, LINE => [[LINE, TEXT (spaces i)]]
  | _, TEXT s => [[TEXT s]]
  | _, COLOR_BEGIN c => [[COLOR_BEGIN c]]
  | _, COLOR_END => [[COLOR_END]]
/-- The resolved layouts of the composition of a list of formats. -/
def layouts_compose : Int → List format → List (List format)
  | _, [] => [[]]
  | i, s :: l => append_all (layouts i s) (layouts_compose i l)
end

/-- The resolved layouts of the pending pairs. -/
def layouts_items : List (Int × format) → List (List format)
  | [] => [[]]
  | h :: z => append_all (layouts h.1 h.2) (layouts_items z)

mutual
/-- The indentations of the format at the indentation `i` are `int` values,
and the indentation at every `LINE` is not negative. -/
def indent_ok : Int → format → Bool
  | i, NEST j x => decide (INT_MIN ≤ i + j) && decide (i + j ≤ INT_MAX) && indent_ok (i + j) x
  | i, COMPOSE l => indent_ok_compose i l
  | i, CHOICE x y => indent_ok i x && indent_ok i y
  | i, LINE => decide (0 ≤ i)
  | _, _ => true
/-- The indentations of the formats of a list are `int` values and are not
negative at the `LINE` nodes. -/
def indent_ok_compose : Int → List format → Bool
  | _, [] => true
  | i, s :: l => indent_ok i s && indent_ok_compose i l
end

/-- The indentations of the pending pairs are `int` values and are not
negative at the `LINE` nodes. -/
def indent_ok_items : List (Int × format) → Bool
  | [] => true
  | h :: z => indent_ok h.1 h.2 && indent_ok_items z

mutual
/-- The total length of the texts of a format. -/
def text_length_total (text_length : String → Nat) : format → Nat
  | NEST _ x => text_length_total text_length x
  | COMPOSE l => text_length_total_list text_length l
  | CHOICE x y => text_length_total text_length x + text_length_total text_length y
  | TEXT s => text_length s
  | _ => 0
/-- The total length of the texts of the formats of a list. -/
def text_length_total_list (text_length : String → Nat) : List format → Nat
  | [] => 0
  | s :: l => text_length_total text_length s + text_length_total_list text_length l
end

end format
namespace format

/-- A block of a resolved layout: a `LINE` followed by a `TEXT` of spaces
only, or a single `TEXT`, `COLOR_BEGIN` or `COLOR_END`. -/
def is_block : List format → Bool
  | [LINE, TEXT s] => s.data.all (fun c => c == ' ')
  | [TEXT _] => true
  | [COLOR_BEGIN _] => true
  | [COLOR_END] => true
  | _ => false

end format
namespace format

mutual
/-- The `TEXT` and `LINE` nodes of a format in their order, a `CHOICE`
counting by its second alternative (the one that `space_upto_line_break`
reads). -/
def leaves : format → List format
  | NEST _ x => leaves x
  | COMPOSE l => leaves_list l
  | CHOICE _ y => leaves y
  | LINE => [LINE]
  | TEXT s => [TEXT s]
  | _ => []
/-- The `TEXT` and `LINE` nodes of the formats of a list. -/
def leaves_list : List format → List format
  | [] => []
  | s :: l => leaves s ++ leaves_list l
end

/-- The total length of the texts that precede the first `LINE` in a list of
`TEXT` and `LINE` nodes. -/
def text_before_line (text_length : String → Nat) : List format → Nat
  | [] => 0
  | LINE :: _ => 0
  | TEXT s :: l => text_length s + text_before_line text_length l
  | _ :: l => text_before_line text_length l

end format

/-- The environment left by `k` calls of `add_definition` in a row in the
empty environment: the call number `j` declares the definition named by the
number `j` with the type 0 and the value `j`, which mentions the definition
declared by the call before it (`nat_ops_constants`). -/
def environment_with_chain : Nat → environment_cell Nat
  | 0 => environment_cell.empty
  | k + 1 =>
    (environment_cell.add_definition nat_ops_constants nat_tc (environment_with_chain k)
      (name.num name.anonymous k) 0 k false).2


/-! # Theorems -/

/-! ## Equality of levels -/

mutual
theorem level_eq_refl : ∀ l : level, level_eq l l = true
  | .uvar _ _ => by simp [level_eq]
  | .lift l _ => by simp [level_eq, level_eq_refl l]
  | .max ls => by simp [level_eq, level_eq_list_refl ls]
theorem level_eq_list_refl : ∀ ls : List level, level_eq_list ls ls = true
  | [] => by simp [level_eq_list]
  | l :: ls => by simp [level_eq_list, level_eq_refl l, level_eq_list_refl ls]
end

/-! ## The dispatch of `is_ge` -/

theorem is_ge_eq (imp : name → name → Int → Bool) (l1 l2 : level) (k : Int) :
    is_ge imp l1 l2 k =
      if level_eq l1 l2 then some (decide (k ≤ 0)) else
      match l2 with
      | .uvar n u => is_ge_uvar imp l1 (.uvar n u) k
      | .lift l o =>
        match safe_add k (o : Int) with
        | none => none
        | some k1 => is_ge imp l1 l k1
      | .max ls => is_ge_all imp l1 ls k := by
  cases l2 <;> rw [is_ge]

theorem is_ge_uvar_eq (imp : name → name → Int → Bool) (l1 l2 : level) (k : Int) :
    is_ge_uvar imp l1 l2 k =
      if level_eq l1 l2 then some (decide (k ≤ 0)) else
      match l1 with
      | .uvar n1 _ => some (imp n1 (uvar_name l2) k)
      | .lift l o =>
        match safe_sub k (o : Int) with
        | none => none
        | some k1 => is_ge_uvar imp l l2 k1
      | .max ls => is_ge_any imp ls l2 k := by
  cases l1 <;> rw [is_ge_uvar]

/-- A call of `is_ge` whose second argument is a universe variable. -/
theorem is_ge_of_uvar (imp : name → name → Int → Bool) (l1 : level) (n : name) (u : Nat)
    (k : Int) : is_ge imp l1 (.uvar n u) k = is_ge_uvar imp l1 (.uvar n u) k := by
  rw [is_ge_eq]
  cases h : level_eq l1 (.uvar n u)
  · simp
  · rw [is_ge_uvar_eq]; simp [h]

theorem is_ge_all_true (imp : name → name → Int → Bool) (l1 : level) (ls : List level)
    (k : Int) :
    is_ge_all imp l1 ls k = some true ↔ ∀ c ∈ ls, is_ge imp l1 c k = some true := by
  induction ls with
  | nil => simp [is_ge_all]
  | cons l ls ih =>
    rw [is_ge_all]
    cases h : is_ge imp l1 l k with
    | none => simp [h]
    | some b => cases b <;> simp [ih, h]

theorem is_ge_any_true (imp : name → name → Int → Bool) (ls : List level) (l2 : level)
    (k : Int) :
    is_ge_any imp ls l2 k = some true ↔
      ∃ pre c post, ls = pre ++ c :: post ∧ is_ge_uvar imp c l2 k = some true ∧
        ∀ d ∈ pre, is_ge_uvar imp d l2 k = some false := by
  induction ls with
  | nil => simp [is_ge_any]
  | cons l ls ih =>
    rw [is_ge_any]
    cases h : is_ge_uvar imp l l2 k with
    | none =>
      simp only [false_iff, not_exists, not_and, reduceCtorEq]
      intro pre c post hls hc hpre
      cases pre with
      | nil =>
        simp only [List.nil_append, List.cons.injEq] at hls
        rw [hls.1, hc] at h
        cases h
      | cons d pre =>
        simp only [List.cons_append, List.cons.injEq] at hls
        have := hpre d (by simp)
        rw [← hls.1, h] at this
        cases this
    | some b =>
      cases b with
      | true =>
        simp only [true_iff]
        exact ⟨[], l, ls, rfl, h, by simp⟩
      | false =>
        simp only [ih]
        constructor
        · rintro ⟨pre, c, post, hls, hc, hpre⟩
          refine ⟨l :: pre, c, post, by simp [hls], hc, ?_⟩
          intro d hd
          rcases List.mem_cons.mp hd with rfl | hd
          · exact h
          · exact hpre d hd
        · rintro ⟨pre, c, post, hls, hc, hpre⟩
          cases pre with
          | nil =>
            simp only [List.nil_append, List.cons.injEq] at hls
            rw [hls.1, hc] at h
            cases h
          | cons d pre =>
            simp only [List.cons_append, List.cons.injEq] at hls
            exact ⟨pre, c, post, hls.2, hc, fun e he => hpre e (by simp [he])⟩

/-- C1 (as amended): for levels `l1 != l2` and every offset `k`, `is_ge`
dispatches on the kinds: when `l2` is a max the result is true iff
`is_ge(l1, c, k)` is true for every child `c` of `l2`; when `l2` is a
universe variable and `l1` is a max the result is true iff some child `c`
of `l1` has `is_ge(c, l2, k)` true and every child before it returns false
(so that none of them throws); when both are universe variables the result
is `is_implied(name(l1), name(l2), k)`. -/
theorem is_ge_dispatch (imp : name → name → Int → Bool) (l1 l2 : level) (k : Int)
    (hne : level_eq l1 l2 = false) :
    (∀ ls, l2 = .max ls →
      (is_ge imp l1 l2 k = some true ↔ ∀ c ∈ ls, is_ge imp l1 c k = some true)) ∧
    (∀ n u ls, l2 = .uvar n u → l1 = .max ls →
      (is_ge imp l1 l2 k = some true ↔
        ∃ pre c post, ls = pre ++ c :: post ∧ is_ge imp c l2 k = some true ∧
          ∀ d ∈ pre, is_ge imp d l2 k = some false)) ∧
    (∀ n1 u1 n2 u2, l1 = .uvar n1 u1 → l2 = .uvar n2 u2 →
      is_ge imp l1 l2 k = some (imp n1 n2 k)) := by
  refine ⟨?_, ?_, ?_⟩
  · rintro ls rfl
    rw [is_ge_eq, hne]
    simpa using is_ge_all_true imp l1 ls k
  · rintro n u ls rfl rfl
    rw [is_ge_of_uvar, is_ge_uvar_eq, hne]
    simp only [is_ge_of_uvar]
    simpa using is_ge_any_true imp ls (.uvar n u) k
  · rintro n1 u1 n2 u2 rfl rfl
    rw [is_ge_of_uvar, is_ge_uvar_eq, hne]
    simp [uvar_name]

/-- The dispatch of `is_ge` at the levels `max(u1 + 5, u2)` and `u3`. -/
theorem is_ge_dispatch_witness :
    is_ge (fun _ _ k => decide (k ≤ 0)) (.max [.lift (.uvar (name.mk_str "u1") 1) 5,
        .uvar (name.mk_str "u2") 2]) (.uvar (name.mk_str "u3") 3) 0 = some true ↔
      ∃ pre c post, [level.lift (.uvar (name.mk_str "u1") 1) 5,
          level.uvar (name.mk_str "u2") 2] = pre ++ c :: post ∧
        is_ge (fun _ _ k => decide (k ≤ 0)) c (.uvar (name.mk_str "u3") 3) 0 = some true ∧
        ∀ d ∈ pre, is_ge (fun _ _ k => decide (k ≤ 0)) d (.uvar (name.mk_str "u3") 3) 0
          = some false :=
  (is_ge_dispatch (fun _ _ k => decide (k ≤ 0))
    (.max [.lift (.uvar (name.mk_str "u1") 1) 5, .uvar (name.mk_str "u2") 2])
    (.uvar (name.mk_str "u3") 3) 0 (by decide)).2.1 _ _ _ rfl rfl

/-- C1 (as stated) fails when a child of `l1` overflows before a child that
dominates: with `is_implied` constantly true, `l1 = max(u1 + 5, u2)`,
`l2 = u3` and `k = INT_MIN + 1`, the levels differ, the child `u2` has
`is_ge(u2, u3, k)` true, and `is_ge(l1, l2, k)` throws in `safe_sub(k, 5)`
instead of returning true. -/
theorem is_ge_dispatch_counterexample :
    level_eq (.max [.lift (.uvar (name.mk_str "u1") 1) 5, .uvar (name.mk_str "u2") 2])
      (.uvar (name.mk_str "u3") 3) = false ∧
    ¬ (is_ge (fun _ _ _ => true)
        (.max [.lift (.uvar (name.mk_str "u1") 1) 5, .uvar (name.mk_str "u2") 2])
        (.uvar (name.mk_str "u3") 3) (-2147483647) = some true ↔
      ∃ c ∈ max_levels (.max [.lift (.uvar (name.mk_str "u1") 1) 5,
          .uvar (name.mk_str "u2") 2]),
        is_ge (fun _ _ _ => true) c (.uvar (name.mk_str "u3") 3) (-2147483647) = some true) := by
  refine ⟨by decide, ?_⟩
  intro h
  have h1 : is_ge (fun _ _ _ => true)
      (.max [.lift (.uvar (name.mk_str "u1") 1) 5, .uvar (name.mk_str "u2") 2])
      (.uvar (name.mk_str "u3") 3) (-2147483647) = none := by decide
  rw [h1] at h
  have h2 := h.mpr ⟨.uvar (name.mk_str "u2") 2, by simp [max_levels], by decide⟩
  cases h2

/-! ## Lifts and the offset of `is_ge` -/

/-- C2: lifts absorb into the offset of `is_ge`.  For every level `l1`,
universe variables `u`, `v` and offsets `j`, `k`: when `l1 != v + j` and
`k + j` is an `int`, `is_ge(l1, v + j, k)` equals `is_ge(l1, v, k + j)`; and
when `k - j` is an `int`, `is_ge(u + j, v, k)` equals `is_ge(u, v, k - j)`. -/
theorem is_ge_lift_absorb (imp : name → name → Int → Bool) (l1 : level) (n m : name)
    (u v : Nat) (j : Nat) (k : Int) :
    (level_eq l1 (add (.uvar m v) j) = false → INT_MIN ≤ k + j → k + j ≤ INT_MAX →
      is_ge imp l1 (add (.uvar m v) j) k = is_ge imp l1 (.uvar m v) (k + j)) ∧
    (INT_MIN ≤ k - j → k - j ≤ INT_MAX →
      is_ge imp (add (.uvar n u) j) (.uvar m v) k = is_ge imp (.uvar n u) (.uvar m v) (k - j)) := by
  constructor
  · intro hne h1 h2
    rw [add] at hne ⊢
    rw [is_ge_eq imp l1 (.lift (.uvar m v) j), hne]
    simp [safe_add, h1, h2]
  · intro h1 h2
    rw [add, is_ge_of_uvar, is_ge_of_uvar, is_ge_uvar_eq imp (.lift (.uvar n u) j)]
    simp [level_eq, safe_sub, h1, h2]

/-- The two equations of `is_ge_lift_absorb` at `l1 = u1`, `u = u1`,
`v = u2`, `j = 3` and `k = 4`. -/
theorem is_ge_lift_absorb_witness :
    is_ge (fun _ _ k => decide (k ≤ 7)) (.uvar (name.mk_str "u1") 1)
        (add (.uvar (name.mk_str "u2") 2) 3) 4
      = is_ge (fun _ _ k => decide (k ≤ 7)) (.uvar (name.mk_str "u1") 1)
        (.uvar (name.mk_str "u2") 2) (4 + (3 : Nat)) ∧
    is_ge (fun _ _ k => decide (k ≤ 7)) (add (.uvar (name.mk_str "u1") 1) 3)
        (.uvar (name.mk_str "u2") 2) 4
      = is_ge (fun _ _ k => decide (k ≤ 7)) (.uvar (name.mk_str "u1") 1)
        (.uvar (name.mk_str "u2") 2) (4 - (3 : Nat)) :=
  ⟨(is_ge_lift_absorb (fun _ _ k => decide (k ≤ 7)) (.uvar (name.mk_str "u1") 1)
      (name.mk_str "u1") (name.mk_str "u2") 1 2 3 4).1 (by decide) (by decide) (by decide),
   (is_ge_lift_absorb (fun _ _ k => decide (k ≤ 7)) (.uvar (name.mk_str "u1") 1)
      (name.mk_str "u1") (name.mk_str "u2") 1 2 3 4).2 (by decide) (by decide)⟩

/-! ## Soundness of `is_ge` -/

theorem safe_add_some {a b r : Int} (h : safe_add a b = some r) : r = a + b := by
  unfold safe_add at h
  split at h <;> simp_all

theorem safe_sub_some {a b r : Int} (h : safe_sub a b = some r) : r = a - b := by
  unfold safe_sub at h
  split at h <;> simp_all

theorem eval_list_eq_map (rho : name → Int) (ls : List level) :
    eval_list rho ls = ls.map (eval rho) := by
  induction ls with
  | nil => simp [eval_list]
  | cons l ls ih => simp [eval_list, ih]

theorem le_foldl_max (xs : List Int) (a : Int) : a ≤ xs.foldl Max.max a := by
  induction xs generalizing a with
  | nil => simp
  | cons x xs ih => exact le_trans (le_max_left a x) (ih _)

theorem mem_le_foldl_max (xs : List Int) (a y : Int) (hy : y ∈ xs) :
    y ≤ xs.foldl Max.max a := by
  induction xs generalizing a with
  | nil => cases hy
  | cons x xs ih =>
    rcases List.mem_cons.mp hy with rfl | hy
    · exact le_trans (le_max_right a y) (le_foldl_max xs _)
    · exact ih _ hy

theorem foldl_max_le (xs : List Int) (a b : Int) (ha : a ≤ b) (hxs : ∀ y ∈ xs, y ≤ b) :
    xs.foldl Max.max a ≤ b := by
  induction xs generalizing a with
  | nil => simpa using ha
  | cons x xs ih =>
    exact ih _ (max_le ha (hxs x (by simp))) (fun y hy => hxs y (by simp [hy]))

/-- A child of a max is not above the max. -/
theorem eval_child_le_max (rho : name → Int) (ls : List level) (c : level) (hc : c ∈ ls) :
    eval rho c ≤ eval rho (.max ls) := by
  rw [eval, eval_list_eq_map]
  cases ls with
  | nil => cases hc
  | cons l ls =>
    simp only [List.map_cons]
    rcases List.mem_cons.mp hc with rfl | hc
    · exact le_foldl_max _ _
    · exact mem_le_foldl_max _ _ _ (List.mem_map.mpr ⟨c, hc, rfl⟩)

/-- A bound of all the children of a max with a child is a bound of the
max. -/
theorem eval_max_le (rho : name → Int) (ls : List level) (b : Int) (hne : ls ≠ [])
    (h : ∀ c ∈ ls, eval rho c ≤ b) : eval rho (.max ls) ≤ b := by
  rw [eval, eval_list_eq_map]
  cases ls with
  | nil => exact absurd rfl hne
  | cons l ls =>
    simp only [List.map_cons]
    refine foldl_max_le _ _ _ (h l (by simp)) ?_
    intro y hy
    obtain ⟨c, hc, rfl⟩ := List.mem_map.mp hy
    exact h c (by simp [hc])

theorem well_formed_list_mem (names : Nat → name) (ls : List level)
    (h : well_formed_list names ls = true) : ∀ c ∈ ls, well_formed names c = true := by
  induction ls with
  | nil => intro c hc; cases hc
  | cons l ls ih =>
    simp only [well_formed_list, Bool.and_eq_true] at h
    intro c hc
    rcases List.mem_cons.mp hc with rfl | hc
    · exact h.1
    · exact ih h.2 c hc

mutual
/-- Equal well-formed levels have the same value. -/
theorem eval_eq_of_level_eq (rho : name → Int) (names : Nat → name) :
    ∀ l1 l2 : level, well_formed names l1 = true → well_formed names l2 = true →
      level_eq l1 l2 = true → eval rho l1 = eval rho l2
  | .uvar n1 u1, .uvar n2 u2, h1, h2, h => by
    simp only [well_formed, decide_eq_true_eq] at h1 h2
    simp only [level_eq, beq_iff_eq] at h
    simp [eval, h1, h2, h]
  | .lift l1 k1, .lift l2 k2, h1, h2, h => by
    simp only [well_formed] at h1 h2
    simp only [level_eq, Bool.and_eq_true, beq_iff_eq] at h
    simp [eval, eval_eq_of_level_eq rho names l1 l2 h1 h2 h.1, h.2]
  | .max ls1, .max ls2, h1, h2, h => by
    simp only [well_formed, Bool.and_eq_true] at h1 h2
    simp only [level_eq, Bool.and_eq_true, beq_iff_eq] at h
    simp [eval, eval_list_eq_of_level_eq rho names ls1 ls2 h1.2 h2.2 h.1 h.2]
  | .uvar _ _, .lift _ _, _, _, h => by simp [level_eq] at h
  | .uvar _ _, .max _, _, _, h => by simp [level_eq] at h
  | .lift _ _, .uvar _ _, _, _, h => by simp [level_eq] at h
  | .lift _ _, .max _, _, _, h => by simp [level_eq] at h
  | .max _, .uvar _ _, _, _, h => by simp [level_eq] at h
  | .max _, .lift _ _, _, _, h => by simp [level_eq] at h
theorem eval_list_eq_of_level_eq (rho : name → Int) (names : Nat → name) :
    ∀ ls1 ls2 : List level, well_formed_list names ls1 = true →
      well_formed_list names ls2 = true → ls1.length = ls2.length →
      level_eq_list ls1 ls2 = true → eval_list rho ls1 = eval_list rho ls2
  | [], [], _, _, _, _ => rfl
  | [], _ :: _, _, _, hl, _ => by simp at hl
  | _ :: _, [], _, _, hl, _ => by simp at hl
  | l1 :: ls1, l2 :: ls2, h1, h2, hl, h => by
    simp only [well_formed_list, Bool.and_eq_true] at h1 h2
    simp only [List.length_cons, add_left_inj] at hl
    rw [level_eq_list] at h
    cases h12 : level_eq l1 l2 with
    | false => simp [h12] at h
    | true =>
      simp only [h12, if_true] at h
      simp [eval_list, eval_eq_of_level_eq rho names l1 l2 h1.1 h2.1 h12,
        eval_list_eq_of_level_eq rho names ls1 ls2 h1.2 h2.2 hl h]
end

mutual
theorem is_ge_uvar_sound (imp : name → name → Int → Bool) (rho : name → Int)
    (names : Nat → name) (hrho : ∀ a b k, imp a b k = true → rho b + k ≤ rho a)
    (u : Nat) :
    ∀ (l1 : level) (k : Int), well_formed names l1 = true →
      is_ge_uvar imp l1 (.uvar (names u) u) k = some true → rho (names u) + k ≤ eval rho l1
  | .uvar n1 u1, k, hw, h => by
    rw [is_ge_uvar_eq] at h
    simp only [well_formed, decide_eq_true_eq] at hw
    cases he : level_eq (.uvar n1 u1) (.uvar (names u) u) with
    | true =>
      simp only [he, if_true, Option.some.injEq, decide_eq_true_eq] at h
      simp only [level_eq, beq_iff_eq] at he
      simp only [eval, hw, he]
      omega
    | false =>
      simp only [he, uvar_name, Bool.false_eq_true, if_false, Option.some.injEq] at h
      simpa [eval] using hrho _ _ _ h
  | .lift l o, k, hw, h => by
    rw [is_ge_uvar_eq] at h
    simp only [well_formed] at hw
    simp only [level_eq] at h
    cases hs : safe_sub k (o : Int) with
    | none => simp [hs] at h
    | some k1 =>
      simp only [hs] at h
      have := is_ge_uvar_sound imp rho names hrho u l k1 hw (by simpa using h)
      have hk := safe_sub_some hs
      simp only [eval]
      omega
  | .max ls, k, hw, h => by
    rw [is_ge_uvar_eq] at h
    simp only [well_formed, Bool.and_eq_true] at hw
    simp only [level_eq] at h
    obtain ⟨c, hc, hle⟩ := is_ge_any_sound imp rho names hrho u ls k hw.2 (by simpa using h)
    exact le_trans hle (eval_child_le_max rho ls c hc)
theorem is_ge_any_sound (imp : name → name → Int → Bool) (rho : name → Int)
    (names : Nat → name) (hrho : ∀ a b k, imp a b k = true → rho b + k ≤ rho a)
    (u : Nat) :
    ∀ (ls : List level) (k : Int), well_formed_list names ls = true →
      is_ge_any imp ls (.uvar (names u) u) k = some true →
      ∃ c ∈ ls, rho (names u) + k ≤ eval rho c
  | [], k, _, h => by simp [is_ge_any] at h
  | l :: ls, k, hw, h => by
    rw [is_ge_any] at h
    simp only [well_formed_list, Bool.and_eq_true] at hw
    cases hl : is_ge_uvar imp l (.uvar (names u) u) k with
    | none => simp [hl] at h
    | some b =>
      cases b with
      | true => exact ⟨l, by simp, is_ge_uvar_sound imp rho names hrho u l k hw.1 hl⟩
      | false =>
        simp only [hl] at h
        obtain ⟨c, hc, hle⟩ := is_ge_any_sound imp rho names hrho u ls k hw.2 h
        exact ⟨c, by simp [hc], hle⟩
end

mutual
theorem is_ge_sound_aux (imp : name → name → Int → Bool) (rho : name → Int)
    (names : Nat → name) (hrho : ∀ a b k, imp a b k = true → rho b + k ≤ rho a) :
    ∀ (l2 l1 : level) (k : Int), well_formed names l1 = true → well_formed names l2 = true →
      is_ge imp l1 l2 k = some true → eval rho l2 + k ≤ eval rho l1
  | .uvar n u, l1, k, h1, h2, h => by
    rw [is_ge_of_uvar] at h
    simp only [well_formed, decide_eq_true_eq] at h2
    subst h2
    simpa [eval] using is_ge_uvar_sound imp rho names hrho u l1 k h1 h
  | .lift l o, l1, k, h1, h2, h => by
    rw [is_ge_eq] at h
    cases he : level_eq l1 (.lift l o) with
    | true =>
      simp only [he, if_true, Option.some.injEq, decide_eq_true_eq] at h
      rw [eval_eq_of_level_eq rho names l1 _ h1 h2 he]
      omega
    | false =>
      simp only [he] at h
      cases hs : safe_add k (o : Int) with
      | none => simp [hs] at h
      | some k1 =>
        simp only [hs] at h
        simp only [well_formed] at h2
        have := is_ge_sound_aux imp rho names hrho l l1 k1 h1 h2 (by simpa using h)
        have hk := safe_add_some hs
        simp only [eval]
        omega
  | .max ls, l1, k, h1, h2, h => by
    rw [is_ge_eq] at h
    cases he : level_eq l1 (.max ls) with
    | true =>
      simp only [he, if_true, Option.some.injEq, decide_eq_true_eq] at h
      rw [eval_eq_of_level_eq rho names l1 _ h1 h2 he]
      omega
    | false =>
      simp only [he] at h
      simp only [well_formed, Bool.and_eq_true, Bool.not_eq_true', List.isEmpty_eq_false] at h2
      have hall := is_ge_all_sound imp rho names hrho ls l1 k h1 h2.2 (by simpa using h)
      have := eval_max_le rho ls (eval rho l1 - k) h2.1 (fun c hc => by
        have := hall c hc
        omega)
      omega
theorem is_ge_all_sound (imp : name → name → Int → Bool) (rho : name → Int)
    (names : Nat → name) (hrho : ∀ a b k, imp a b k = true → rho b + k ≤ rho a) :
    ∀ (ls : List level) (l1 : level) (k : Int), well_formed names l1 = true →
      well_formed_list names ls = true → is_ge_all imp l1 ls k = some true →
      ∀ c ∈ ls, eval rho c + k ≤ eval rho l1
  | [], _, _, _, _, _ => by intro c hc; cases hc
  | l :: ls, l1, k, h1, h2, h => by
    rw [is_ge_all] at h
    simp only [well_formed_list, Bool.and_eq_true] at h2
    cases hl : is_ge imp l1 l k with
    | none => simp [hl] at h
    | some b =>
      cases b with
      | false => simp [hl] at h
      | true =>
        simp only [hl] at h
        intro c hc
        rcases List.mem_cons.mp hc with rfl | hc
        · exact is_ge_sound_aux imp rho names hrho c l1 k h1 h2.1 hl
        · exact is_ge_all_sound imp rho names hrho ls l1 k h1 h2.2 h c hc
end

/-! ## `is_ge` and the distance of two variables -/

/-- C5: the code at the failing input.  Both `max(u1, u2)` and
`max(u3, u4 + 1)` are normalized; their `max` is `max(u1, u2)`, whatever the
second max level is, and has no child of base `u3`. -/
theorem max_of_two_max_levels :
    normalized (.max [.uvar (name.mk_str "u1") 1, .uvar (name.mk_str "u2") 2]) = true ∧
    normalized (.max [.uvar (name.mk_str "u3") 3,
      .lift (.uvar (name.mk_str "u4") 4) 1]) = true ∧
    max (.max [.uvar (name.mk_str "u1") 1, .uvar (name.mk_str "u2") 2])
        (.max [.uvar (name.mk_str "u3") 3, .lift (.uvar (name.mk_str "u4") 4) 1])
      = .max [.uvar (name.mk_str "u1") 1, .uvar (name.mk_str "u2") 2] ∧
    with_base (.uvar (name.mk_str "u3") 3)
      (max_levels (max (.max [.uvar (name.mk_str "u1") 1, .uvar (name.mk_str "u2") 2])
        (.max [.uvar (name.mk_str "u3") 3, .lift (.uvar (name.mk_str "u4") 4) 1]))) = [] ∧
    ∀ ls1 ls2 ls3 : List level, max (.max ls1) (.max ls2) = max (.max ls1) (.max ls3) :=
  ⟨by decide, by decide, rfl, rfl, fun _ _ _ => rfl⟩

theorem distinct_bases_iff (ls : List level) :
    distinct_bases ls = true ↔
      ls.Pairwise (fun x y => level_eq (_lift_of x) (_lift_of y) = false) := by
  induction ls with
  | nil => simp [distinct_bases]
  | cons x xs ih => simp [distinct_bases, ih]

theorem push_back_mem (ls : List level) (l : level)
    (hd : ls.Pairwise (fun x y => level_eq (_lift_of x) (_lift_of y) = false))
    (hl : l ∈ ls) : push_back ls l = ls := by
  induction ls with
  | nil => cases hl
  | cons x xs ih =>
    rw [push_back]
    rw [List.pairwise_cons] at hd
    rcases List.mem_cons.mp hl with rfl | hl
    · simp [level_eq_refl]
    · simp [hd.1 l hl, ih hd.2 hl]

theorem push_back_new (ls : List level) (l : level)
    (h : ∀ x ∈ ls, level_eq (_lift_of x) (_lift_of l) = false) : push_back ls l = ls ++ [l] := by
  induction ls with
  | nil => rfl
  | cons x xs ih =>
    rw [push_back]
    simp [h x (by simp), ih (fun y hy => h y (by simp [hy]))]

theorem foldl_push_back_new (ls acc : List level)
    (hd : (acc ++ ls).Pairwise (fun x y => level_eq (_lift_of x) (_lift_of y) = false)) :
    ls.foldl push_back acc = acc ++ ls := by
  induction ls generalizing acc with
  | nil => simp
  | cons l ls ih =>
    rw [List.foldl_cons]
    have h1 : ∀ x ∈ acc, level_eq (_lift_of x) (_lift_of l) = false := by
      intro x hx
      exact (List.pairwise_append.mp hd).2.2 x hx l (by simp)
    rw [push_back_new acc l h1, ih (acc ++ [l]) (by simpa using hd)]
    simp

theorem foldl_push_back_mem (ls acc : List level)
    (hd : acc.Pairwise (fun x y => level_eq (_lift_of x) (_lift_of y) = false))
    (hl : ∀ l ∈ ls, l ∈ acc) : ls.foldl push_back acc = acc := by
  induction ls with
  | nil => rfl
  | cons l ls ih =>
    rw [List.foldl_cons, push_back_mem acc l hd (hl l (by simp))]
    exact ih (fun x hx => hl x (by simp [hx]))

/-- The `max` of a normalized level with itself. -/
theorem max_self (l : level) (h : normalized l = true) : level_eq (max l l) l = true := by
  cases l with
  | uvar n u => simp [max, max_core2, push_back, _lift_of, level_eq]
  | lift l k => simp [max, max_core2, push_back, _lift_of, level_eq, level_eq_refl]
  | max ls =>
    simp only [normalized, Bool.and_eq_true, decide_eq_true_eq] at h
    have hd := (distinct_bases_iff ls).mp h.2
    simp only [max, max_core2]
    rw [foldl_push_back_new ls [] (by simpa using hd), List.nil_append,
      foldl_push_back_mem ls ls hd (fun _ h => h)]
    match ls, h.1.1 with
    | a :: b :: rest, _ => simp [max_core, level_eq_refl]

/-- C6 (as amended): `max` absorbs a smaller offset of the same variable.
For every universe variable `u`: `max(u, u + k) == u + k` for `k >= 1`
(while `max(u, u + 0)` is `u` itself); `max(u + j, u + k) == u + k` and
`max(u + k, u + j) == u + k` for `j <= k`; and `max(l, l) == l` for every
normalized level `l`. -/
theorem max_absorbs (n : name) (u : Nat) (j k : Nat) (l : level) :
    (1 ≤ k → level_eq (max (.uvar n u) (add (.uvar n u) k)) (add (.uvar n u) k) = true) ∧
    max (.uvar n u) (add (.uvar n u) 0) = .uvar n u ∧
    (j ≤ k → level_eq (max (add (.uvar n u) j) (add (.uvar n u) k)) (add (.uvar n u) k) = true ∧
      level_eq (max (add (.uvar n u) k) (add (.uvar n u) j)) (add (.uvar n u) k) = true) ∧
    (normalized l = true → level_eq (max l l) l = true) := by
  refine ⟨?_, ?_, ?_, max_self l⟩
  · intro hk
    have : 0 < k := hk
    simp [max, add, max_core2, push_back, _lift_of, _lift_offset, level_eq, this]
  · simp [max, add, max_core2, push_back, _lift_of, _lift_offset, level_eq]
  · intro hjk
    constructor
    · by_cases h : j < k
      · simp [max, add, max_core2, push_back, _lift_of, _lift_offset, level_eq, h]
      · have : j = k := by omega
        subst this
        simp [max, add, max_core2, push_back, _lift_of, _lift_offset, level_eq]
    · have h : ¬ k < j := by omega
      simp [max, add, max_core2, push_back, _lift_of, _lift_offset, level_eq, h]

/-- The equations of `max_absorbs` at `u1`, `j = 1`, `k = 2` and the
normalized level `max(u1 + 1, u2)`. -/
theorem max_absorbs_witness :
    level_eq (max (.uvar (name.mk_str "u1") 1) (add (.uvar (name.mk_str "u1") 1) 2))
      (add (.uvar (name.mk_str "u1") 1) 2) = true ∧
    (level_eq (max (add (.uvar (name.mk_str "u1") 1) 1) (add (.uvar (name.mk_str "u1") 1) 2))
        (add (.uvar (name.mk_str "u1") 1) 2) = true ∧
      level_eq (max (add (.uvar (name.mk_str "u1") 1) 2) (add (.uvar (name.mk_str "u1") 1) 1))
        (add (.uvar (name.mk_str "u1") 1) 2) = true) ∧
    level_eq (max (.max [.lift (.uvar (name.mk_str "u1") 1) 1, .uvar (name.mk_str "u2") 2])
        (.max [.lift (.uvar (name.mk_str "u1") 1) 1, .uvar (name.mk_str "u2") 2]))
      (.max [.lift (.uvar (name.mk_str "u1") 1) 1, .uvar (name.mk_str "u2") 2]) = true :=
  ⟨(max_absorbs (name.mk_str "u1") 1 1 2
      (.max [.lift (.uvar (name.mk_str "u1") 1) 1, .uvar (name.mk_str "u2") 2])).1 (by decide),
   (max_absorbs (name.mk_str "u1") 1 1 2
      (.max [.lift (.uvar (name.mk_str "u1") 1) 1, .uvar (name.mk_str "u2") 2])).2.2.1
      (by decide),
   (max_absorbs (name.mk_str "u1") 1 1 2
      (.max [.lift (.uvar (name.mk_str "u1") 1) 1, .uvar (name.mk_str "u2") 2])).2.2.2
      (by decide)⟩

/-- C6 (as stated) fails at `k = 0`: `max(u1, u1 + 0)` is the variable `u1`,
which is not `==` to the lift `u1 + 0`. -/
theorem max_absorbs_counterexample :
    level_eq (max (.uvar (name.mk_str "u1") 1) (add (.uvar (name.mk_str "u1") 1) 0))
      (add (.uvar (name.mk_str "u1") 1) 0) = false := by
  decide

/-! ## The lift `operator+` -/

mutual
/-- Two lifts in a row add their offsets as unsigned integers. -/
theorem add_add (j k : Nat) :
    ∀ l : level, add (add l j) k = add l ((j + k) % UNSIGNED_RANGE)
  | .uvar _ _ => by simp [add]
  | .lift l m => by
    simp only [add, UNSIGNED_RANGE, level.lift.injEq, true_and]
    omega
  | .max ls => by simp [add, max_core, add_list_add j k ls]
theorem add_list_add (j k : Nat) :
    ∀ ls : List level, add_list (add_list ls j) k = add_list ls ((j + k) % UNSIGNED_RANGE)
  | [] => by simp [add_list]
  | l :: ls => by simp [add_list, add_add j k l, add_list_add j k ls]
end

theorem add_list_eq_map (ls : List level) (k : Nat) :
    add_list ls k = ls.map (fun c => add c k) := by
  induction ls with
  | nil => simp [add_list]
  | cons l ls ih => simp [add_list, ih]

theorem simple_add (c : level) (k : Nat) (h : simple c = true) :
    simple (add c k) = true ∧ _lift_of (add c k) = _lift_of c := by
  cases c with
  | uvar n u => simp [add, simple, is_uvar, kind, _lift_of]
  | lift l m => simpa [add, simple, _lift_of] using h
  | max ls => simp [simple] at h

theorem distinct_bases_add (ls : List level) (k : Nat) (hs : ∀ c ∈ ls, simple c = true)
    (hd : ls.Pairwise (fun x y => level_eq (_lift_of x) (_lift_of y) = false)) :
    (ls.map (fun c => add c k)).Pairwise
      (fun x y => level_eq (_lift_of x) (_lift_of y) = false) := by
  rw [List.pairwise_map]
  refine hd.imp_of_mem ?_
  intro a b ha hb hab
  rw [(simple_add a k (hs a ha)).2, (simple_add b k (hs b hb)).2]
  exact hab

/-- C7: `operator+` keeps the normal form and is additive.  For every
normalized level `l` and offsets `j`, `k`, the level `l + k` is normalized
(its lifts wrap universe variables, and the children of a max are not max
levels and have pairwise different base variables), and
`(l + j) + k == l + (j + k)`, the offsets added as 32-bit unsigned
integers. -/
theorem add_normalized_additive (l : level) (j k : Nat) (h : normalized l = true) :
    normalized (add l k) = true ∧
    level_eq (add (add l j) k) (add l ((j + k) % UNSIGNED_RANGE)) = true := by
  refine ⟨?_, by rw [add_add]; exact level_eq_refl _⟩
  cases l with
  | uvar n u => simp [add, normalized, simple, is_uvar, kind]
  | lift l m => simpa [add, normalized, simple] using h
  | max ls =>
    simp only [normalized, Bool.and_eq_true, decide_eq_true_eq, List.all_eq_true] at h
    simp only [add, max_core, normalized, Bool.and_eq_true, decide_eq_true_eq,
      List.all_eq_true, add_list_eq_map, List.length_map]
    refine ⟨⟨h.1.1, ?_⟩, ?_⟩
    · intro x hx
      obtain ⟨c, hc, rfl⟩ := List.mem_map.mp hx
      exact (simple_add c k (h.1.2 c hc)).1
    · rw [distinct_bases_iff]
      exact distinct_bases_add ls k h.1.2 ((distinct_bases_iff ls).mp h.2)

/-- The lift of the normalized level `max(u1 + 4294967295, u2)` by 1 and by
2: the offset of `u1` wraps around to 2. -/
theorem add_normalized_additive_witness :
    normalized (add (.max [.lift (.uvar (name.mk_str "u1") 1) 4294967295,
      .uvar (name.mk_str "u2") 2]) 2) = true ∧
    level_eq (add (add (.max [.lift (.uvar (name.mk_str "u1") 1) 4294967295,
        .uvar (name.mk_str "u2") 2]) 1) 2)
      (add (.max [.lift (.uvar (name.mk_str "u1") 1) 4294967295,
        .uvar (name.mk_str "u2") 2]) ((1 + 2) % UNSIGNED_RANGE)) = true :=
  add_normalized_additive (.max [.lift (.uvar (name.mk_str "u1") 1) 4294967295,
    .uvar (name.mk_str "u2") 2]) 1 2 (by decide)

/-! ## The list `max` -/

/-- C8: the code at two failing inputs.  The list `max` of the normalized
levels `u1` and `u1 + 1` is the raw max with these two children, which have
the same base variable; the list `max` of `max(u1, u2)` and `u3` is the raw
max whose first child is a max level. -/
theorem max_list_keeps_its_arguments :
    normalized (.uvar (name.mk_str "u1") 1) = true ∧
    normalized (.lift (.uvar (name.mk_str "u1") 1) 1) = true ∧
    max_list [.uvar (name.mk_str "u1") 1, .lift (.uvar (name.mk_str "u1") 1) 1]
      = .max [.uvar (name.mk_str "u1") 1, .lift (.uvar (name.mk_str "u1") 1) 1] ∧
    distinct_bases (max_levels
      (max_list [.uvar (name.mk_str "u1") 1, .lift (.uvar (name.mk_str "u1") 1) 1])) = false ∧
    normalized (.max [.uvar (name.mk_str "u1") 1, .uvar (name.mk_str "u2") 2]) = true ∧
    max_list [.max [.uvar (name.mk_str "u1") 1, .uvar (name.mk_str "u2") 2],
        .uvar (name.mk_str "u3") 3]
      = .max [.max [.uvar (name.mk_str "u1") 1, .uvar (name.mk_str "u2") 2],
        .uvar (name.mk_str "u3") 3] ∧
    (max_levels (max_list [.max [.uvar (name.mk_str "u1") 1, .uvar (name.mk_str "u2") 2],
        .uvar (name.mk_str "u3") 3])).any is_max = true ∧
    ∀ a b : level, ∀ ls : List level, max_list (a :: b :: ls) = .max (a :: b :: ls) :=
  ⟨by decide, by decide, rfl, by decide, by decide, rfl, by decide, fun _ _ _ => rfl⟩

/-! ## Declaring a universe variable again -/

namespace environment_cell

mutual
theorem add_constraints_ok (env : environment_cell expr) (n : name) :
    ∀ (l : level) (k : Int) (env1 : environment_cell expr),
      check_consistency env l n k = none → (add_constraints l n k env1).1 = none
  | .uvar _ _, _, _, _ => by simp [add_constraints]
  | .lift l o, k, env1, h => by
    rw [check_consistency] at h
    rw [add_constraints]
    cases hs : safe_add k (o : Int) with
    | none => simp [hs] at h
    | some k1 =>
      simp only [hs] at h
      exact add_constraints_ok env n l k1 env1 h
  | .max ls, k, env1, h => by
    rw [check_consistency] at h
    rw [add_constraints]
    exact add_constraints_list_ok env n ls k env1 h
theorem add_constraints_list_ok (env : environment_cell expr) (n : name) :
    ∀ (ls : List level) (k : Int) (env1 : environment_cell expr),
      check_consistency_list env ls n k = none → (add_constraints_list ls n k env1).1 = none
  | [], _, _, _ => by simp [add_constraints_list]
  | l :: ls, k, env1, h => by
    rw [check_consistency_list] at h
    rw [add_constraints_list]
    cases hc : check_consistency env l n k with
    | some e => simp [hc] at h
    | none =>
      simp only [hc] at h
      have h1 := add_constraints_ok env n l k env1 hc
      cases hr : add_constraints l n k env1 with
      | mk o env2 =>
        rw [hr] at h1
        simp only at h1
        subst h1
        exact add_constraints_list_ok env n ls k env2 h
end

end environment_cell

namespace environment_cell

theorem any_key_iff (d : List (name × object expr)) (n : name) :
    d.any (fun e => decide (e.1 = n)) = true ↔ n ∈ d.map Prod.fst := by
  simp only [List.any_eq_true, decide_eq_true_eq, List.mem_map]

/-- The function `check_name_core` throws exactly for the declared names. -/
theorem check_name_core_eq : ∀ (env : environment_cell expr) (n : name),
    check_name_core env n =
      if n ∈ declared_names env then some (.already_declared n) else none
  | mk none _ _ d _ _ _ _, n => by
    simp only [check_name_core, declared_names]
    by_cases h : n ∈ d.map Prod.fst
    · rw [if_pos ((any_key_iff d n).mpr h), if_pos h]
    · rw [if_neg (fun h1 => h ((any_key_iff d n).mp h1)), if_neg h]
  | mk (some p) _ _ d _ _ _ _, n => by
    simp only [check_name_core, declared_names, check_name_core_eq p n, List.mem_append]
    by_cases hp : n ∈ declared_names p
    · simp [hp]
    · by_cases h : n ∈ d.map Prod.fst
      · rw [if_neg hp]
        simp only [hp, false_or]
        rw [if_pos ((any_key_iff d n).mpr h), if_pos h]
      · rw [if_neg hp]
        simp only [hp, false_or]
        rw [if_neg (fun h1 => h ((any_key_iff d n).mp h1)), if_neg h]

theorem check_name_of_declared (env : environment_cell expr) (n : name)
    (hn : n ∈ declared_names env) :
    check_name env n =
      some (if env.has_children then .read_only_environment else .already_declared n) := by
  unfold check_name
  rw [check_name_core_eq, if_pos hn]
  cases env.has_children <;> rfl

theorem not_declared_of_check_name (env : environment_cell expr) (n : name)
    (h : check_name env n = none) : n ∉ declared_names env := by
  unfold check_name at h
  rw [check_name_core_eq] at h
  intro hn
  rw [if_pos hn] at h
  cases hc : env.has_children <;> simp [hc] at h

theorem declared_names_set_objects (env : environment_cell expr) (o : List (object expr)) :
    declared_names (env.set_objects o) = declared_names env := by
  cases env with
  | mk p c o1 d u t ti i => cases p <;> rfl

theorem declared_names_set_universes (env : environment_cell expr) (u : Option universes) :
    declared_names (env.set_universes u) = declared_names env := by
  cases env with
  | mk p c o1 d u1 t ti i => cases p <;> rfl

theorem declared_names_add_neutral_object (env : environment_cell expr) (o : neutral_object) :
    declared_names (add_neutral_object env o) = declared_names env :=
  declared_names_set_objects env _

theorem map_fst_with_flag (d : List (name × object expr)) (n : name) (f : Bool) :
    (d.map (fun e => if e.1 = n then (e.1, e.2.with_opaque_flag f) else e)).map Prod.fst
      = d.map Prod.fst := by
  rw [List.map_map]
  refine List.map_congr_left ?_
  intro e _
  simp only [Function.comp]
  split <;> rfl

theorem declared_names_update_opaque : ∀ (env : environment_cell expr) (n : name) (f : Bool),
    declared_names ( update_opaque env n f) = declared_names env
  | mk none _ _ d _ _ _ _, n, f => by
    simp only [ update_opaque, declared_names, map_fst_with_flag]
  | mk (some p) _ _ d _ _ _ _, n, f => by
    rw [ update_opaque]
    split
    · simp only [declared_names, map_fst_with_flag]
    · simp only [declared_names, declared_names_update_opaque p n f]

theorem declared_names_set_opaque (env : environment_cell expr) (n : name) (f : Bool) :
    declared_names ( set_opaque env n f).2 = declared_names env := by
  unfold set_opaque
  cases get_object_core env n with
  | none => rfl
  | some obj =>
    simp only
    split
    · rw [declared_names_add_neutral_object, declared_names_update_opaque]
    · rfl

theorem declared_names_register (ops : expr_ops expr) (env : environment_cell expr)
    (o : object expr) (h : o.get_name ops ∉ declared_names env) :
    declared_names (register_named_object ops env o) = declared_names env ++ [o.get_name ops] := by
  cases env with
  | mk p c o1 d u t ti i =>
    have hd : o.get_name ops ∉ d.map Prod.fst := by
      intro hmem
      apply h
      cases p <;> simp [declared_names] <;> simp at hmem <;> simp [hmem]
    have hany : d.any (fun e => decide (e.1 = o.get_name ops)) = false := by
      rw [Bool.eq_false_iff]
      exact fun h1 => hd ((any_key_iff d _).mp h1)
    cases p <;>
      simp [register_named_object, set_objects, m_objects, m_object_dictionary,
        set_object_dictionary, hany, declared_names]

theorem nodup_register (ops : expr_ops expr) (env : environment_cell expr) (o : object expr)
    (hnd : (declared_names env).Nodup) (h : check_name env (o.get_name ops) = none) :
    (declared_names (register_named_object ops env o)).Nodup := by
  have hn := not_declared_of_check_name env _ h
  rw [declared_names_register ops env o hn]
  exact List.nodup_append.mpr ⟨hnd, List.nodup_singleton _, by
    intro a ha hb
    simp only [List.mem_singleton] at hb
    exact hn (hb ▸ ha)⟩

end environment_cell

namespace environment_cell

theorem nodup_add_definition (ops : expr_ops expr) (tc : type_checker expr)
    (env : environment_cell expr) (n : name) (t v : expr) (f : Bool)
    (hnd : (declared_names env).Nodup) :
    (declared_names (add_definition ops tc env n t v f).2).Nodup := by
  unfold add_definition
  cases check_no_cached_type ops t with
  | some e => exact hnd
  | none =>
    cases check_no_cached_type ops v with
    | some e => exact hnd
    | none =>
      simp only
      cases hc : check_new_definition tc env n t v with
      | some e => exact hnd
      | none =>
        simp only
        have hcn : check_name env n = none := by
          unfold check_new_definition at hc
          cases h : check_name env n with
          | none => rfl
          | some e => simp [h] at hc
        have hr := nodup_register ops env
          (.Definition n t v ((get_max_weight ops env v + 1) % UNSIGNED_RANGE) false)
          hnd hcn
        cases f with
        | true => simpa [ declared_names_set_opaque] using hr
        | false => simpa using hr

theorem nodup_add_definition_infer (ops : expr_ops expr) (tc : type_checker expr)
    (env : environment_cell expr) (n : name) (v : expr) (f : Bool)
    (hnd : (declared_names env).Nodup) :
    (declared_names (add_definition_infer ops tc env n v f).2).Nodup := by
  unfold add_definition_infer
  cases check_no_cached_type ops v with
  | some e => exact hnd
  | none =>
    simp only
    cases hcn : check_name env n with
    | some e => exact hnd
    | none =>
      simp only
      cases (if env.m_type_check = true then tc.check env v else tc.infer_type env v) with
      | error e => exact hnd
      | ok v_t =>
        have hr := nodup_register ops env
          (.Definition n v_t v ((get_max_weight ops env v + 1) % UNSIGNED_RANGE) false) hnd hcn
        cases f with
        | true => simpa [ declared_names_set_opaque] using hr
        | false => simpa using hr

theorem nodup_add_theorem (ops : expr_ops expr) (tc : type_checker expr)
    (env : environment_cell expr) (n : name) (t v : expr)
    (hnd : (declared_names env).Nodup) :
    (declared_names (add_theorem ops tc env n t v).2).Nodup := by
  unfold add_theorem
  cases check_no_cached_type ops t with
  | some e => exact hnd
  | none =>
    cases check_no_cached_type ops v with
    | some e => exact hnd
    | none =>
      simp only
      cases hc : check_new_definition tc env n t v with
      | some e => exact hnd
      | none =>
        have hcn : check_name env n = none := by
          unfold check_new_definition at hc
          cases h : check_name env n with
          | none => rfl
          | some e => simp [h] at hc
        exact nodup_register ops env (.Theorem n t v) hnd hcn

theorem nodup_add_axiom (ops : expr_ops expr) (tc : type_checker expr)
    (env : environment_cell expr) (n : name) (t : expr)
    (hnd : (declared_names env).Nodup) :
    (declared_names ( add_axiom ops tc env n t).2).Nodup := by
  unfold add_axiom
  cases check_no_cached_type ops t with
  | some e => exact hnd
  | none =>
    simp only
    cases hcn : check_name env n with
    | some e => exact hnd
    | none =>
      simp only
      cases (if env.m_type_check = true then tc.check_type env t else none) with
      | some e => exact hnd
      | none => exact nodup_register ops env (.Axiom n t) hnd hcn

theorem nodup_add_var (ops : expr_ops expr) (tc : type_checker expr)
    (env : environment_cell expr) (n : name) (t : expr)
    (hnd : (declared_names env).Nodup) :
    (declared_names (add_var ops tc env n t).2).Nodup := by
  unfold add_var
  cases check_no_cached_type ops t with
  | some e => exact hnd
  | none =>
    simp only
    cases hcn : check_name env n with
    | some e => exact hnd
    | none =>
      simp only
      cases (if env.m_type_check = true then tc.check_type env t else none) with
      | some e => exact hnd
      | none => exact nodup_register ops env (.VarDecl n t) hnd hcn

theorem nodup_add_builtin (ops : expr_ops expr) (tc : type_checker expr)
    (env : environment_cell expr) (v : expr) (hnd : (declared_names env).Nodup) :
    (declared_names (add_builtin ops tc env v).2).Nodup := by
  unfold add_builtin
  cases ops.is_value v with
  | false => exact hnd
  | true =>
    simp only [if_true]
    cases hcn : check_name env (ops.value_name v) with
    | some e => exact hnd
    | none =>
      simp only
      cases check_name env (ops.value_unicode_name v) with
      | some e => exact hnd
      | none =>
        simp only
        have hr := nodup_register ops env (.Builtin v) hnd hcn
        split
        · unfold auxiliary_section
          simp only [declared_names_add_neutral_object]
          refine nodup_add_definition ops tc _ _ _ _ _ ?_
          rw [declared_names_add_neutral_object]
          exact hr
        · exact hr

theorem nodup_add_builtin_set (ops : expr_ops expr) (env : environment_cell expr) (v : expr)
    (hnd : (declared_names env).Nodup) :
    (declared_names (add_builtin_set ops env v).2).Nodup := by
  unfold add_builtin_set
  cases ops.is_value v with
  | false => exact hnd
  | true =>
    simp only [if_true]
    cases hcn : check_name env (ops.value_name v) with
    | some e => exact hnd
    | none => exact nodup_register ops env (.BuiltinSet v) hnd hcn

end environment_cell

namespace environment_cell

theorem declared_names_get_rw_universes : ∀ env : environment_cell expr,
    declared_names (get_rw_universes env).2 = declared_names env
  | mk none _ _ _ _ _ _ _ => by simp [get_rw_universes, declared_names]
  | mk (some p) _ _ _ u _ _ _ => by
    cases u with
    | some x => simp [get_rw_universes, declared_names]
    | none => simp [get_rw_universes, declared_names, declared_names_get_rw_universes p]

theorem declared_names_add_basic_constraint (env : environment_cell expr) (n m : name)
    (k : Int) : declared_names (add_basic_constraint env n m k) = declared_names env := by
  unfold add_basic_constraint
  simp only [declared_names_set_universes, declared_names_get_rw_universes]

mutual
theorem declared_names_add_constraints (n : name) :
    ∀ (l : level) (k : Int) (env : environment_cell expr),
      declared_names (add_constraints l n k env).2 = declared_names env
  | .uvar _ _, _, _ => by simp [add_constraints, declared_names_add_basic_constraint]
  | .lift l o, k, env => by
    rw [add_constraints]
    cases safe_add k (o : Int) with
    | none => rfl
    | some k1 => exact declared_names_add_constraints n l k1 env
  | .max ls, k, env => by
    rw [add_constraints]
    exact declared_names_add_constraints_list n ls k env
theorem declared_names_add_constraints_list (n : name) :
    ∀ (ls : List level) (k : Int) (env : environment_cell expr),
      declared_names (add_constraints_list ls n k env).2 = declared_names env
  | [], _, _ => by simp [add_constraints_list]
  | l :: ls, k, env => by
    rw [add_constraints_list]
    have h1 := declared_names_add_constraints n l k env
    cases hr : add_constraints l n k env with
    | mk o env1 =>
      rw [hr] at h1
      cases o with
      | some e => exact h1
      | none =>
        simp only
        rw [declared_names_add_constraints_list n ls k env1]
        exact h1
end

theorem declared_names_add_uvar_core (env : environment_cell expr) (n : name) :
    declared_names (add_uvar_core env n).2 = declared_names env := by
  unfold add_uvar_core
  cases check_name env n with
  | some e => rfl
  | none => simp only [declared_names_set_universes, declared_names_get_rw_universes]

theorem declared_names_add_uvar_cnstr (env : environment_cell expr) (n : name) (l : level) :
    declared_names (add_uvar_cnstr env n l).2 = declared_names env := by
  unfold add_uvar_cnstr
  split
  · rfl
  · simp only
    cases check_consistency env l n 0 with
    | some e => rfl
    | none =>
      simp only
      have key : ∀ r : Except kernel_exception level × environment_cell expr,
          declared_names r.2 = declared_names env →
          declared_names (match r with
            | (.error e, env1) => ((.error e : Except kernel_exception level), env1)
            | (.ok r, env1) =>
              match add_constraints l n 0
                  (env1.set_objects (env1.m_objects ++ [object.UVarConstraint n l])) with
              | (some e, env3) => (.error e, env3)
              | (none, env3) => (.ok r, env3)).2 = declared_names env := by
        rintro ⟨r, env1⟩ h
        cases r with
        | error e => exact h
        | ok r =>
          simp only
          have h2 := declared_names_add_constraints n l 0
            (env1.set_objects (env1.m_objects ++ [object.UVarConstraint n l]))
          rw [declared_names_set_objects] at h2
          cases hr : add_constraints l n 0
              (env1.set_objects (env1.m_objects ++ [object.UVarConstraint n l])) with
          | mk o env3 =>
            rw [hr] at h2
            cases o <;> simpa [h] using h2
      apply key
      split
      · exact declared_names_add_uvar_core env n
      · rfl

theorem declared_names_mk_child (env : environment_cell expr) :
    declared_names (mk_child env).1 = declared_names env ∧
    declared_names (mk_child env).2 = declared_names env := by
  cases env with
  | mk p c o d u t ti i => cases p <;> simp [mk_child, declared_names]

end environment_cell

namespace environment_cell

/-- C10 (as amended): if an object named `n` is registered in the
environment or in one of its ancestors, then `add_var`, `add_axiom`,
`add_definition` (both forms), `add_theorem` with name `n` and `add_builtin`
of a value named `n` throw and leave the environment as it was.  The
exception is the one of the first check that fails: a constant with a cached
type in the given expressions (for `add_builtin`: an argument that is not a
value), then the read-only exception when the environment has children, and
otherwise the already-declared exception for `n`.  Consequently the
registered names stay pairwise different along the ancestor chain: this holds
in the empty environment and is kept by `mk_child` and by every declaration
operation, whatever its arguments. -/
theorem redeclaration_fails (ops : expr_ops expr) (tc : type_checker expr)
    (env : environment_cell expr) (n : name) (t v b : expr) (f : Bool)
    (hn : n ∈ declared_names env) (hb : ops.value_name b = n) :
    add_var ops tc env n t =
      (some (if ops.has_cached_type t then .cached_type
        else if env.has_children then .read_only_environment else .already_declared n), env) ∧
    add_axiom ops tc env n t =
      (some (if ops.has_cached_type t then .cached_type
        else if env.has_children then .read_only_environment else .already_declared n), env) ∧
    add_definition ops tc env n t v f =
      (some (if ops.has_cached_type t || ops.has_cached_type v then .cached_type
        else if env.has_children then .read_only_environment else .already_declared n), env) ∧
    add_definition_infer ops tc env n v f =
      (some (if ops.has_cached_type v then .cached_type
        else if env.has_children then .read_only_environment else .already_declared n), env) ∧
    add_theorem ops tc env n t v =
      (some (if ops.has_cached_type t || ops.has_cached_type v then .cached_type
        else if env.has_children then .read_only_environment else .already_declared n), env) ∧
    add_builtin ops tc env b =
      (some (if ops.is_value b then
          (if env.has_children then .read_only_environment else .already_declared n)
        else .invalid_builtin_value_declaration), env) ∧
    (declared_names (empty : environment_cell expr)).Nodup ∧
    ((declared_names env).Nodup →
      (declared_names (mk_child env).1).Nodup ∧ (declared_names (mk_child env).2).Nodup ∧
      ∀ (m : name) (t1 v1 : expr) (f1 : Bool) (l1 : level),
        (declared_names (add_var ops tc env m t1).2).Nodup ∧
        (declared_names ( add_axiom ops tc env m t1).2).Nodup ∧
        (declared_names (add_definition ops tc env m t1 v1 f1).2).Nodup ∧
        (declared_names (add_definition_infer ops tc env m v1 f1).2).Nodup ∧
        (declared_names (add_theorem ops tc env m t1 v1).2).Nodup ∧
        (declared_names (add_builtin ops tc env v1).2).Nodup ∧
        (declared_names (add_builtin_set ops env v1).2).Nodup ∧
        (declared_names ( set_opaque env m f1).2).Nodup ∧
        (declared_names (add_uvar_cnstr env m l1).2).Nodup) := by
  have hc := check_name_of_declared env n hn
  refine ⟨?_, ?_, ?_, ?_, ?_, ?_, ?_, ?_⟩
  · unfold add_var check_no_cached_type
    cases ops.has_cached_type t <;> simp [hc]
  · unfold add_axiom check_no_cached_type
    cases ops.has_cached_type t <;> simp [hc]
  · unfold add_definition check_no_cached_type check_new_definition
    cases ops.has_cached_type t <;> cases ops.has_cached_type v <;> simp [hc]
  · unfold add_definition_infer check_no_cached_type
    cases ops.has_cached_type v <;> simp [hc]
  · unfold add_theorem check_no_cached_type check_new_definition
    cases ops.has_cached_type t <;> cases ops.has_cached_type v <;> simp [hc]
  · unfold add_builtin
    rw [hb]
    cases ops.is_value b <;> simp [hc]
  · simp [empty, declared_names]
  · intro hnd
    refine ⟨by rw [(declared_names_mk_child env).1]; exact hnd,
      by rw [(declared_names_mk_child env).2]; exact hnd, ?_⟩
    intro m t1 v1 f1 l1
    exact ⟨nodup_add_var ops tc env m t1 hnd, nodup_add_axiom ops tc env m t1 hnd,
      nodup_add_definition ops tc env m t1 v1 f1 hnd,
      nodup_add_definition_infer ops tc env m v1 f1 hnd,
      nodup_add_theorem ops tc env m t1 v1 hnd, nodup_add_builtin ops tc env v1 hnd,
      nodup_add_builtin_set ops env v1 hnd,
      by rw [ declared_names_set_opaque]; exact hnd,
      by rw [declared_names_add_uvar_cnstr]; exact hnd⟩

end environment_cell

/-- After `add_var(5, 0)` in the empty environment, where the name 5 is the
name of the builtin value 5: declaring the name again as a variable, and
adding the builtin value, throw the already-declared exception and leave the
environment as it was. -/
theorem redeclaration_fails_witness :
    environment_cell.add_var nat_ops nat_tc
        (environment_cell.add_var nat_ops nat_tc environment_cell.empty
          (name.num .anonymous 5) 0).2 (name.num .anonymous 5) 1 =
      (some (.already_declared (name.num .anonymous 5)),
        (environment_cell.add_var nat_ops nat_tc environment_cell.empty
          (name.num .anonymous 5) 0).2) ∧
    environment_cell.add_builtin nat_ops nat_tc
        (environment_cell.add_var nat_ops nat_tc environment_cell.empty
          (name.num .anonymous 5) 0).2 5 =
      (some (.already_declared (name.num .anonymous 5)),
        (environment_cell.add_var nat_ops nat_tc environment_cell.empty
          (name.num .anonymous 5) 0).2) :=
  ⟨(environment_cell.redeclaration_fails nat_ops nat_tc
      (environment_cell.add_var nat_ops nat_tc environment_cell.empty
        (name.num .anonymous 5) 0).2 (name.num .anonymous 5) 1 1 5 false
      (by decide) rfl).1,
   (environment_cell.redeclaration_fails nat_ops nat_tc
      (environment_cell.add_var nat_ops nat_tc environment_cell.empty
        (name.num .anonymous 5) 0).2 (name.num .anonymous 5) 1 1 5 false
      (by decide) rfl).2.2.2.2.2.1⟩

/-- C10 (as stated) fails in an environment with a live child: the name `x`
is registered in `parent_with_x`, and `add_var(x, 0)` throws the read-only
exception, not the already-declared one. -/
theorem redeclaration_fails_counterexample :
    name.mk_str "x" ∈ environment_cell.declared_names parent_with_x ∧
    (environment_cell.add_var nat_ops nat_tc parent_with_x (name.mk_str "x") 0).1
      = some .read_only_environment ∧
    (environment_cell.add_var nat_ops nat_tc parent_with_x (name.mk_str "x") 0).1
      ≠ some (.already_declared (name.mk_str "x")) := by
  refine ⟨by decide, rfl, ?_⟩
  intro h
  have h1 : (environment_cell.add_var nat_ops nat_tc parent_with_x (name.mk_str "x") 0).1
      = some .read_only_environment := rfl
  rw [h1] at h
  cases h

/-! ## Environments with live children -/

namespace environment_cell

/-- C11 (as amended): in an environment that has a live child, every
declaration operation throws and leaves the environment as it was.  The
exception is the read-only exception, unless an earlier check fails:
`add_var`, `add_axiom`, `add_definition` and `add_theorem` first throw for a
constant with a cached type in the given expressions, and `add_builtin` and
`add_builtin_set` first throw for an argument that is not a value.
`add_uvar_cnstr`, and `mark_imported_core` on a module that is not yet
imported, throw the read-only exception. -/
theorem read_only_with_children (ops : expr_ops expr) (tc : type_checker expr)
    (env : environment_cell expr) (n : name) (t v b : expr) (f : Bool) (l : level)
    (hc : env.has_children = true) :
    add_var ops tc env n t =
      (some (if ops.has_cached_type t then .cached_type else .read_only_environment), env) ∧
    add_axiom ops tc env n t =
      (some (if ops.has_cached_type t then .cached_type else .read_only_environment), env) ∧
    add_definition ops tc env n t v f =
      (some (if ops.has_cached_type t || ops.has_cached_type v then .cached_type
        else .read_only_environment), env) ∧
    add_definition_infer ops tc env n v f =
      (some (if ops.has_cached_type v then .cached_type else .read_only_environment), env) ∧
    add_theorem ops tc env n t v =
      (some (if ops.has_cached_type t || ops.has_cached_type v then .cached_type
        else .read_only_environment), env) ∧
    add_builtin ops tc env b =
      (some (if ops.is_value b then .read_only_environment
        else .invalid_builtin_value_declaration), env) ∧
    add_builtin_set ops env b =
      (some (if ops.is_value b then .read_only_environment
        else .invalid_builtin_value_declaration), env) ∧
    add_uvar_cnstr env n l = (.error .read_only_environment, env) ∧
    (already_imported env n = false →
      mark_imported_core env n = (.error .read_only_environment, env)) := by
  have hcn : ∀ m, check_name env m = some .read_only_environment := by
    intro m
    simp [check_name, hc]
  refine ⟨?_, ?_, ?_, ?_, ?_, ?_, ?_, ?_, ?_⟩
  · unfold add_var check_no_cached_type
    cases ops.has_cached_type t <;> simp [hcn]
  · unfold add_axiom check_no_cached_type
    cases ops.has_cached_type t <;> simp [hcn]
  · unfold add_definition check_no_cached_type check_new_definition
    cases ops.has_cached_type t <;> cases ops.has_cached_type v <;> simp [hcn]
  · unfold add_definition_infer check_no_cached_type
    cases ops.has_cached_type v <;> simp [hcn]
  · unfold add_theorem check_no_cached_type check_new_definition
    cases ops.has_cached_type t <;> cases ops.has_cached_type v <;> simp [hcn]
  · unfold add_builtin
    cases ops.is_value b <;> simp [hcn]
  · unfold add_builtin_set
    cases ops.is_value b <;> simp [hcn]
  · simp [add_uvar_cnstr, hc]
  · intro hi
    simp [mark_imported_core, hi, hc]

end environment_cell

/-- In `parent_with_x`, which has a live child, `add_var(y, 0)` and
`add_uvar_cnstr(u, bot)` throw the read-only exception and leave the
environment as it was. -/
theorem read_only_with_children_witness :
    environment_cell.add_var nat_ops nat_tc parent_with_x (name.mk_str "y") 0 =
      (some .read_only_environment, parent_with_x) ∧
    environment_cell.add_uvar_cnstr parent_with_x (name.mk_str "u") bot =
      (.error .read_only_environment, parent_with_x) :=
  ⟨(environment_cell.read_only_with_children nat_ops nat_tc parent_with_x (name.mk_str "y")
      0 0 0 false bot (by decide)).1,
   (environment_cell.read_only_with_children nat_ops nat_tc parent_with_x (name.mk_str "u")
      0 0 0 false bot (by decide)).2.2.2.2.2.2.2.1⟩

/-- C11 (as stated) fails for an expression with a cached type: in
`parent_with_x`, which has a live child, `add_var(y, 7)` throws the
cached-type exception of `check_no_cached_type`, not the read-only one. -/
theorem read_only_with_children_counterexample :
    parent_with_x.has_children = true ∧
    (environment_cell.add_var nat_ops_cached nat_tc parent_with_x (name.mk_str "y") 7).1
      = some .cached_type ∧
    (environment_cell.add_var nat_ops_cached nat_tc parent_with_x (name.mk_str "y") 7).1
      ≠ some .read_only_environment := by
  refine ⟨by decide, rfl, ?_⟩
  intro h
  have h1 : (environment_cell.add_var nat_ops_cached nat_tc parent_with_x
      (name.mk_str "y") 7).1 = some .cached_type := rfl
  rw [h1] at h
  cases h

/-- C12: the code at the failing input.  The environment `parent_with_d`
has a live child and declares the definition `d`, which is not opaque;
`set_opaque(d, true)` returns normally, makes `d` opaque and appends a
neutral object to the object list.  For every environment, `set_opaque`
never throws the read-only exception. -/
theorem set_opaque_with_children :
    parent_with_d.has_children = true ∧
    (environment_cell.get_object_core parent_with_d (name.mk_str "d")).map
      object.opaque_flag = some false ∧
    ( environment_cell.set_opaque parent_with_d (name.mk_str "d") true).1.isNone = true ∧
    (environment_cell.get_object_core
      ( environment_cell.set_opaque parent_with_d (name.mk_str "d") true).2
      (name.mk_str "d")).map object.opaque_flag = some true ∧
    ( environment_cell.set_opaque parent_with_d (name.mk_str "d") true).2.m_objects.length
      = parent_with_d.m_objects.length + 1 ∧
    ∀ (env : environment_cell Nat) (n : name) (f : Bool),
      ( environment_cell.set_opaque env n f).1 ≠ some .read_only_environment := by
  refine ⟨by decide, by decide, by decide, by decide, by decide, ?_⟩
  intro env n f
  unfold environment_cell.set_opaque
  cases environment_cell.get_object_core env n with
  | none => simp
  | some obj =>
    simp only
    split <;> simp

/-! ## Adding an object and looking it up -/

namespace environment_cell

theorem get_object_core_eq (env : environment_cell expr) (n : name) :
    get_object_core env n =
      match env.m_object_dictionary.find? (fun e => decide (e.1 = n)) with
      | some e => some e.2
      | none =>
        match env.m_parent with
        | some p => get_object_core p n
        | none => none := by
  cases env with
  | mk p c o d u t ti i =>
    cases p <;> simp only [get_object_core, m_object_dictionary, m_parent]

theorem find_key_none (d : List (name × object expr)) (n : name)
    (h : n ∉ d.map Prod.fst) : d.find? (fun e => decide (e.1 = n)) = none := by
  rw [List.find?_eq_none]
  intro e he hen
  simp only [decide_eq_true_eq] at hen
  exact h (List.mem_map.mpr ⟨e, he, hen⟩)

theorem own_key_declared (env : environment_cell expr) (n : name)
    (h : n ∈ env.m_object_dictionary.map Prod.fst) : n ∈ declared_names env := by
  cases env with
  | mk p c o d u t ti i =>
    cases p with
    | none => simpa [declared_names, m_object_dictionary] using h
    | some q =>
      simp only [declared_names, List.mem_append]
      exact Or.inr (by simpa [m_object_dictionary] using h)

/-- The object that `register_named_object` stores under a name that is not
declared is the one that `get_object_core` finds. -/
theorem get_object_core_register (ops : expr_ops expr) (env : environment_cell expr)
    (o : object expr) (h : o.get_name ops ∉ declared_names env) :
    get_object_core (register_named_object ops env o) (o.get_name ops) = some o := by
  have hd : o.get_name ops ∉ env.m_object_dictionary.map Prod.fst :=
    fun hm => h (own_key_declared env _ hm)
  cases env with
  | mk p c o1 d u t ti i =>
    simp only [m_object_dictionary] at hd
    have hany : d.any (fun e => decide (e.1 = o.get_name ops)) = false := by
      rw [Bool.eq_false_iff]
      exact fun h1 => hd ((any_key_iff d _).mp h1)
    have hf : (d ++ [(o.get_name ops, o)]).find? (fun e => decide (e.1 = o.get_name ops))
        = some (o.get_name ops, o) := by
      rw [List.find?_append, find_key_none d _ hd]
      simp
    rw [get_object_core_eq]
    simp [register_named_object, set_objects, m_objects, m_object_dictionary,
      set_object_dictionary, hany, hf]

/-- The objects seen from a fresh child are those of its parent. -/
theorem get_object_core_mk_child (env : environment_cell expr) (n : name) :
    get_object_core (mk_child env).2 n = get_object_core env n := by
  cases env with
  | mk p c o d u t ti i =>
    cases p <;> simp [mk_child, get_object_core]

theorem get_object_core_add_neutral_object (env : environment_cell expr)
    (o : neutral_object) (n : name) :
    get_object_core (add_neutral_object env o) n = get_object_core env n := by
  cases env with
  | mk p c o1 d u t ti i => cases p <;> rfl

theorem find_key_map (d : List (name × object expr)) (n m : name) (f : Bool) :
    (d.map (fun e => if e.1 = n then (e.1, e.2.with_opaque_flag f) else e)).find?
        (fun e => decide (e.1 = m))
      = (d.find? (fun e => decide (e.1 = m))).map
          (fun e => if e.1 = n then (e.1, e.2.with_opaque_flag f) else e) := by
  induction d with
  | nil => rfl
  | cons x xs ih =>
    simp only [List.map_cons, List.find?_cons]
    have hk : (if x.1 = n then (x.1, x.2.with_opaque_flag f) else x).1 = x.1 := by
      split <;> rfl
    rw [hk]
    cases decide (x.1 = m) with
    | true => rfl
    | false => exact ih

/-- After `update_opaque`, the object declared under `n` in the environment
itself carries the new flag. -/
theorem get_object_core_update_opaque (env : environment_cell expr) (n : name) (f : Bool)
    (o : object expr)
    (h : env.m_object_dictionary.find? (fun e => decide (e.1 = n)) = some (n, o)) :
    get_object_core ( update_opaque env n f) n = some (o.with_opaque_flag f) := by
  cases env with
  | mk p c o1 d u t ti i =>
    simp only [m_object_dictionary] at h
    have hany : d.any (fun e => decide (e.1 = n)) = true := by
      rw [List.any_eq_true]
      exact ⟨(n, o), List.mem_of_find?_eq_some h, by simp⟩
    cases p with
    | none =>
      rw [ update_opaque, get_object_core, find_key_map, h]
      simp
    | some q =>
      rw [ update_opaque, if_pos hany, get_object_core, find_key_map, h]
      simp

theorem get_object_core_none_iff : ∀ (env : environment_cell expr) (m : name),
    get_object_core env m = none ↔ m ∉ declared_names env
  | mk none _ _ d _ _ _ _, m => by
    simp only [get_object_core, declared_names]
    cases h : d.find? (fun e => decide (e.1 = m)) with
    | none =>
      simp only [true_iff]
      intro hm
      obtain ⟨e, he, hem⟩ := List.mem_map.mp hm
      have := List.find?_eq_none.mp h e he
      simp [hem] at this
    | some e =>
      simp only [reduceCtorEq, false_iff, not_not]
      have h1 := List.mem_of_find?_eq_some h
      have h2 := List.find?_some h
      simp only [decide_eq_true_eq] at h2
      exact List.mem_map.mpr ⟨e, h1, h2⟩
  | mk (some p) _ _ d _ _ _ _, m => by
    simp only [get_object_core, declared_names, List.mem_append, not_or]
    cases h : d.find? (fun e => decide (e.1 = m)) with
    | none =>
      simp only [get_object_core_none_iff p m]
      constructor
      · intro hp
        refine ⟨hp, ?_⟩
        intro hm
        obtain ⟨e, he, hem⟩ := List.mem_map.mp hm
        have := List.find?_eq_none.mp h e he
        simp [hem] at this
      · exact fun hp => hp.1
    | some e =>
      simp only [reduceCtorEq, false_iff, not_and, not_not]
      intro _
      have h1 := List.mem_of_find?_eq_some h
      have h2 := List.find?_some h
      simp only [decide_eq_true_eq] at h2
      exact List.mem_map.mpr ⟨e, h1, h2⟩

end environment_cell

namespace environment_cell

theorem get_object_ok (env : environment_cell expr) (n : name) (o : object expr)
    (h : get_object_core env n = some o) : get_object env n = .ok o := by
  simp [get_object, h]

/-- After a registration under a name that passes `check_name`, the object
is found in the environment and in a child created afterwards. -/
theorem get_object_register (ops : expr_ops expr) (env : environment_cell expr)
    (o : object expr) (h : check_name env (o.get_name ops) = none) :
    get_object (register_named_object ops env o) (o.get_name ops) = .ok o ∧
    get_object (mk_child (register_named_object ops env o)).2 (o.get_name ops) = .ok o := by
  have h1 := get_object_core_register ops env o (not_declared_of_check_name env _ h)
  exact ⟨get_object_ok _ _ _ h1,
    get_object_ok _ _ _ (by rw [get_object_core_mk_child]; exact h1)⟩

theorem own_entry_register (ops : expr_ops expr) (env : environment_cell expr)
    (o : object expr) (h : check_name env (o.get_name ops) = none) :
    (register_named_object ops env o).m_object_dictionary.find?
      (fun e => decide (e.1 = o.get_name ops)) = some (o.get_name ops, o) := by
  have hd : o.get_name ops ∉ env.m_object_dictionary.map Prod.fst :=
    fun hm => not_declared_of_check_name env _ h (own_key_declared env _ hm)
  cases env with
  | mk p c o1 d u t ti i =>
    simp only [m_object_dictionary] at hd
    have hany : d.any (fun e => decide (e.1 = o.get_name ops)) = false := by
      rw [Bool.eq_false_iff]
      exact fun h1 => hd ((any_key_iff d _).mp h1)
    simp only [register_named_object, set_objects, m_objects, m_object_dictionary,
      set_object_dictionary, hany, Bool.false_eq_true, if_false]
    rw [List.find?_append, find_key_none d _ hd]
    simp

/-- After `add_var(n, t)`, `add_axiom(n, t)`, `add_theorem(n, t, v)` or
`add_definition(n, t, v, f)` returns normally, `get_object(n)` on the
environment, and on a child created from it afterwards, returns the object
just registered; and `get_object(m)` throws the unknown-object exception
exactly when no object named `m` is registered in the environment or its
ancestors. -/
theorem get_object_after_add (ops : expr_ops expr) (tc : type_checker expr)
    (env : environment_cell expr) (n : name) (t v : expr) (f : Bool) :
    ((add_var ops tc env n t).1 = none →
      get_object (add_var ops tc env n t).2 n = .ok (.VarDecl n t) ∧
      get_object (mk_child (add_var ops tc env n t).2).2 n = .ok (.VarDecl n t)) ∧
    (( add_axiom ops tc env n t).1 = none →
      get_object ( add_axiom ops tc env n t).2 n = .ok (.Axiom n t) ∧
      get_object (mk_child ( add_axiom ops tc env n t).2).2 n = .ok (.Axiom n t)) ∧
    ((add_theorem ops tc env n t v).1 = none →
      get_object (add_theorem ops tc env n t v).2 n = .ok (.Theorem n t v) ∧
      get_object (mk_child (add_theorem ops tc env n t v).2).2 n = .ok (.Theorem n t v)) ∧
    ((add_definition ops tc env n t v f).1 = none →
      get_object (add_definition ops tc env n t v f).2 n
        = .ok (.Definition n t v ((get_max_weight ops env v + 1) % UNSIGNED_RANGE) f) ∧
      get_object (mk_child (add_definition ops tc env n t v f).2).2 n
        = .ok (.Definition n t v ((get_max_weight ops env v + 1) % UNSIGNED_RANGE) f)) ∧
    ∀ m, (get_object env m = .error (.unknown_object m) ↔ m ∉ declared_names env) ∧
      (m ∈ declared_names env → ∃ o, get_object env m = .ok o) := by
  refine ⟨?_, ?_, ?_, ?_, ?_⟩
  · unfold add_var
    cases check_no_cached_type ops t with
    | some e => simp
    | none =>
      simp only
      cases hcn : check_name env n with
      | some e => simp
      | none =>
        simp only
        cases (if env.m_type_check = true then tc.check_type env t else none) with
        | some e => simp
        | none => exact fun _ => get_object_register ops env (.VarDecl n t) hcn
  · unfold add_axiom
    cases check_no_cached_type ops t with
    | some e => simp
    | none =>
      simp only
      cases hcn : check_name env n with
      | some e => simp
      | none =>
        simp only
        cases (if env.m_type_check = true then tc.check_type env t else none) with
        | some e => simp
        | none => exact fun _ => get_object_register ops env (.Axiom n t) hcn
  · unfold add_theorem
    cases check_no_cached_type ops t with
    | some e => simp
    | none =>
      cases check_no_cached_type ops v with
      | some e => simp
      | none =>
        simp only
        cases hc : check_new_definition tc env n t v with
        | some e => simp
        | none =>
          have hcn : check_name env n = none := by
            unfold check_new_definition at hc
            cases h : check_name env n with
            | none => rfl
            | some e => simp [h] at hc
          exact fun _ => get_object_register ops env (.Theorem n t v) hcn
  · unfold add_definition
    cases check_no_cached_type ops t with
    | some e => simp
    | none =>
      cases check_no_cached_type ops v with
      | some e => simp
      | none =>
        simp only
        cases hc : check_new_definition tc env n t v with
        | some e => simp
        | none =>
          have hcn : check_name env n = none := by
            unfold check_new_definition at hc
            cases h : check_name env n with
            | none => rfl
            | some e => simp [h] at hc
          simp only
          cases f with
          | false =>
            simp only [Bool.false_eq_true, if_false]
            exact fun _ => get_object_register ops env
              (.Definition n t v ((get_max_weight ops env v + 1) % UNSIGNED_RANGE) false) hcn
          | true =>
            simp only [if_true]
            intro _
            have hreg := get_object_core_register ops env
              (.Definition n t v ((get_max_weight ops env v + 1) % UNSIGNED_RANGE) false)
              (not_declared_of_check_name env _ hcn)
            have hown := own_entry_register ops env
              (.Definition n t v ((get_max_weight ops env v + 1) % UNSIGNED_RANGE) false) hcn
            simp only [object.get_name] at hreg hown
            have hres : get_object_core ( set_opaque (register_named_object ops env
                (.Definition n t v ((get_max_weight ops env v + 1) % UNSIGNED_RANGE) false))
                  n true).2 n
                = some (.Definition n t v ((get_max_weight ops env v + 1) % UNSIGNED_RANGE)
                    true) := by
              unfold set_opaque
              rw [hreg]
              simp only [object.is_definition, if_true]
              rw [get_object_core_add_neutral_object,
                get_object_core_update_opaque _ n true _ hown]
              rfl
            exact ⟨get_object_ok _ _ _ hres,
              get_object_ok _ _ _ (by rw [get_object_core_mk_child]; exact hres)⟩
  · intro m
    constructor
    · unfold get_object
      cases h : get_object_core env m with
      | none => simpa using (get_object_core_none_iff env m).mp h
      | some o =>
        simp only [reduceCtorEq, false_iff, not_not]
        by_contra hm
        rw [(get_object_core_none_iff env m).mpr hm] at h
        cases h
    · intro hm
      cases h : get_object_core env m with
      | none => exact absurd hm ((get_object_core_none_iff env m).mp h)
      | some o => exact ⟨o, get_object_ok env m o h⟩

end environment_cell

/-! ## Inconsistent and overflowing universe constraints -/

namespace environment_cell

mutual
/-- When `check_consistency` passes, every basic constraint implied by
`n >= l + k` is consistent with the store and does not overflow. -/
theorem check_consistency_none (env : environment_cell expr) (n : name) :
    ∀ (l : level) (k : Int), check_consistency env l n k = none →
      ∀ p ∈ basic_constraints l k,
        (get_ro_ucs env).is_consistent n p.1 p.2 = true ∧
        (get_ro_ucs env).overflows n p.1 p.2 = false
  | .uvar m u, k, h => by
    intro p hp
    simp only [basic_constraints, List.mem_singleton] at hp
    subst hp
    rw [check_consistency] at h
    cases hc : (get_ro_ucs env).is_consistent n m k with
    | false => simp [hc] at h
    | true =>
      cases ho : (get_ro_ucs env).overflows n m k with
      | true => simp [hc, ho] at h
      | false => exact ⟨rfl, rfl⟩
  | .lift l o, k, h => by
    rw [check_consistency] at h
    cases hs : safe_add k (o : Int) with
    | none => simp [hs] at h
    | some k1 =>
      simp only [hs] at h
      rw [basic_constraints, ← safe_add_some hs]
      exact check_consistency_none env n l k1 h
  | .max ls, k, h => by
    rw [check_consistency] at h
    rw [basic_constraints]
    exact check_consistency_list_none env n ls k h
theorem check_consistency_list_none (env : environment_cell expr) (n : name) :
    ∀ (ls : List level) (k : Int), check_consistency_list env ls n k = none →
      ∀ p ∈ basic_constraints_list ls k,
        (get_ro_ucs env).is_consistent n p.1 p.2 = true ∧
        (get_ro_ucs env).overflows n p.1 p.2 = false
  | [], _, _ => by
    intro p hp
    simp [basic_constraints_list] at hp
  | l :: ls, k, h => by
    rw [check_consistency_list] at h
    cases hc : check_consistency env l n k with
    | some e => simp [hc] at h
    | none =>
      simp only [hc] at h
      intro p hp
      simp only [basic_constraints_list, List.mem_append] at hp
      rcases hp with hp | hp
      · exact check_consistency_none env n l k hc p hp
      · exact check_consistency_list_none env n ls k h p hp
end

/-- When `add_uvar_cnstr` throws, the environment is as before the call. -/
theorem add_uvar_cnstr_atomic (env : environment_cell expr) (n : name) (l : level)
    (e : kernel_exception) (h : (add_uvar_cnstr env n l).1 = .error e) :
    (add_uvar_cnstr env n l).2 = env := by
  unfold add_uvar_cnstr at h ⊢
  cases hc : env.has_children with
  | true => simp
  | false =>
    simp only [hc, Bool.false_eq_true, if_false] at h ⊢
    cases hcc : check_consistency env l n 0 with
    | some e1 => rfl
    | none =>
      simp only [hcc] at h ⊢
      have key : ∀ r : Except kernel_exception level × environment_cell expr,
          (r.1 = .error e → r.2 = env) →
          (match r with
            | (.error e, env1) => ((.error e : Except kernel_exception level), env1)
            | (.ok r, env1) =>
              match add_constraints l n 0
                  (env1.set_objects (env1.m_objects ++ [object.UVarConstraint n l])) with
              | (some e, env3) => (.error e, env3)
              | (none, env3) => (.ok r, env3)).1 = .error e →
          (match r with
            | (.error e, env1) => ((.error e : Except kernel_exception level), env1)
            | (.ok r, env1) =>
              match add_constraints l n 0
                  (env1.set_objects (env1.m_objects ++ [object.UVarConstraint n l])) with
              | (some e, env3) => (.error e, env3)
              | (none, env3) => (.ok r, env3)).2 = env := by
        rintro ⟨r, env1⟩ hr hh
        cases r with
        | error e1 => exact hr hh
        | ok r =>
          simp only at hh ⊢
          have h1 := add_constraints_ok env n l 0
            (env1.set_objects (env1.m_objects ++ [object.UVarConstraint n l])) hcc
          cases hres : add_constraints l n 0
              (env1.set_objects (env1.m_objects ++ [object.UVarConstraint n l])) with
          | mk o env3 =>
            rw [hres] at h1 hh
            simp only at h1
            subst h1
            simp at hh
      refine key _ ?_ h
      split
      · intro herr
        unfold add_uvar_core at herr ⊢
        cases hcn : check_name env n with
        | some e1 => rfl
        | none =>
          rw [hcn] at herr
          simp at herr
      · intro herr
        simp at herr

end environment_cell

/-- C14 (spec-modelled store): universe offset overflow is reported as an
exception and `add_uvar_cnstr` is atomic.  `add_uvar_cnstr(n, l)` throws when
some basic constraint `n >= v + k` derived from `l` is inconsistent with, or
overflows against, the constraints of the environment; after `l1 >= bot` and
`l2 >= l1 + (2^30 + 1024)`, declaring `l3 >= l2 + 2^30` throws and leaves the
environment as it was; and whenever `add_uvar_cnstr` throws, the environment
(universe variables, constraints and object list) is as before the call. -/
theorem add_uvar_cnstr_throws_atomic (env : environment_cell expr) (n : name) (l : level) :
    ((∃ p ∈ basic_constraints l 0,
        (environment_cell.get_ro_ucs env).is_consistent n p.1 p.2 = false ∨
        (environment_cell.get_ro_ucs env).overflows n p.1 p.2 = true) →
      ∃ e, (environment_cell.add_uvar_cnstr env n l).1 = .error e) ∧
    (∀ e, (environment_cell.add_uvar_cnstr env n l).1 = .error e →
      (environment_cell.add_uvar_cnstr env n l).2 = env) ∧
    tst3_env.map (fun r => (r.2.1.toBool,
      (environment_cell.get_ro_universes r.2.2).m_uvars.length
        == (environment_cell.get_ro_universes r.1).m_uvars.length,
      r.2.2.m_objects.length == r.1.m_objects.length)) = some (false, true, true) := by
  refine ⟨?_, fun e h => environment_cell.add_uvar_cnstr_atomic env n l e h, by decide⟩
  rintro ⟨p, hp, hbad⟩
  unfold environment_cell.add_uvar_cnstr
  cases hc : env.has_children with
  | true => exact ⟨.read_only_environment, by simp⟩
  | false =>
    simp only [Bool.false_eq_true, if_false]
    cases hcc : environment_cell.check_consistency env l n 0 with
    | some e1 => exact ⟨e1, rfl⟩
    | none =>
      have := environment_cell.check_consistency_none env n l 0 hcc p hp
      rcases hbad with hbad | hbad
      · rw [this.1] at hbad
        cases hbad
      · rw [this.2] at hbad
        cases hbad

/-- After `u >= bot`, the declaration `bot >= u + 1` is inconsistent: it
throws and leaves the environment as it was. -/
theorem add_uvar_cnstr_throws_atomic_witness :
    (∃ e, (environment_cell.add_uvar_cnstr
        (environment_cell.add_uvar_cnstr (environment_cell.empty : environment_cell Unit)
          (name.mk_str "u") bot).2
        (name.mk_str "bot") (add (.uvar (name.mk_str "u") 1) 1)).1 = .error e) ∧
    (environment_cell.add_uvar_cnstr
        (environment_cell.add_uvar_cnstr (environment_cell.empty : environment_cell Unit)
          (name.mk_str "u") bot).2
        (name.mk_str "bot") (add (.uvar (name.mk_str "u") 1) 1)).2
      = (environment_cell.add_uvar_cnstr (environment_cell.empty : environment_cell Unit)
          (name.mk_str "u") bot).2 :=
  ⟨(add_uvar_cnstr_throws_atomic
      (environment_cell.add_uvar_cnstr (environment_cell.empty : environment_cell Unit)
        (name.mk_str "u") bot).2
      (name.mk_str "bot") (add (.uvar (name.mk_str "u") 1) 1)).1
      ⟨(name.mk_str "u", 1), by decide, Or.inl (by decide)⟩,
   (add_uvar_cnstr_throws_atomic
      (environment_cell.add_uvar_cnstr (environment_cell.empty : environment_cell Unit)
        (name.mk_str "u") bot).2
      (name.mk_str "bot") (add (.uvar (name.mk_str "u") 1) 1)).2.1
      (.universe_inconsistency (name.mk_str "bot") (.uvar (name.mk_str "u") 1) 1) rfl⟩

/-! ## `depends_on` is reachability -/

theorem foldl_push_eq {cell : Type} (cs todo : List cell) :
    cs.foldl (fun todo child => child :: todo) todo = cs.reverse ++ todo := by
  induction cs generalizing todo with
  | nil => rfl
  | cons c cs ih => simp [ih]

theorem unfolding_size_pos {cell : Type} (get_children : cell → List cell) (r : Nat)
    (c : cell) : 1 ≤ unfolding_size get_children r c := by
  cases r <;> simp [unfolding_size]

section justification

variable {cell : Type} [DecidableEq cell]

/-- Below the rank of a cell the unfolding does not grow. -/
theorem unfolding_size_stable (get_children : cell → List cell) (rank : cell → Nat)
    (hacyclic : ∀ c ch, ch ∈ get_children c → rank ch < rank c) :
    ∀ (r1 r2 : Nat) (c : cell), rank c ≤ r1 → rank c ≤ r2 →
      unfolding_size get_children r1 c = unfolding_size get_children r2 c := by
  intro r1
  induction r1 with
  | zero =>
    intro r2 c h1 _
    have hno : get_children c = [] := by
      cases hch : get_children c with
      | nil => rfl
      | cons x xs =>
        have := hacyclic c x (by simp [hch])
        omega
    cases r2 <;> simp [unfolding_size, hno]
  | succ r1 ih =>
    intro r2 c h1 h2
    cases r2 with
    | zero =>
      have hno : get_children c = [] := by
        cases hch : get_children c with
        | nil => rfl
        | cons x xs =>
          have := hacyclic c x (by simp [hch])
          omega
      simp [unfolding_size, hno]
    | succ r2 =>
      simp only [unfolding_size]
      congr 2
      refine List.map_congr_left ?_
      intro ch hch
      have := hacyclic c ch hch
      exact ih r2 ch (by omega) (by omega)

/-- The size of the unfolding below a cell is one more than the sizes below
its children. -/
theorem unfolding_size_children (get_children : cell → List cell) (rank : cell → Nat)
    (hacyclic : ∀ c ch, ch ∈ get_children c → rank ch < rank c) (c : cell) :
    unfolding_size get_children (rank c) c =
      1 + ((get_children c).map (fun ch => unfolding_size get_children (rank ch) ch)).sum := by
  rw [unfolding_size_stable get_children rank hacyclic (rank c) (rank c + 1) c (le_refl _)
    (Nat.le_succ _)]
  simp only [unfolding_size]
  congr 2
  refine List.map_congr_left ?_
  intro ch hch
  have := hacyclic c ch hch
  exact unfolding_size_stable get_children rank hacyclic _ _ ch (by omega) (le_refl _)

/-- A true answer of the loop is a cell of `todo` from which `d` is
reachable, whatever the number of iterations. -/
theorem depends_on_loop_sound (get_children : cell → List cell) (d : cell) :
    ∀ (fuel : Nat) (todo : List cell), depends_on_loop get_children d fuel todo = some true →
      ∃ c ∈ todo, reachable get_children c d := by
  intro fuel
  induction fuel with
  | zero =>
    intro todo h
    cases todo <;> simp [depends_on_loop] at h
  | succ fuel ih =>
    intro todo h
    cases todo with
    | nil => simp [depends_on_loop] at h
    | cons curr todo =>
      rw [depends_on_loop] at h
      by_cases hcd : curr = d
      · exact ⟨curr, by simp, hcd ▸ Relation.ReflTransGen.refl⟩
      · rw [if_neg hcd, foldl_push_eq] at h
        obtain ⟨c, hc, hr⟩ := ih _ h
        rcases List.mem_append.mp hc with hc | hc
        · exact ⟨curr, by simp,
            Relation.ReflTransGen.head (List.mem_reverse.mp hc) hr⟩
        · exact ⟨c, by simp [hc], hr⟩

/-- With enough iterations the loop answers, and answers true exactly when
`d` is reachable from a cell of `todo`. -/
theorem depends_on_loop_complete (get_children : cell → List cell) (rank : cell → Nat)
    (hacyclic : ∀ c ch, ch ∈ get_children c → rank ch < rank c) (d : cell) :
    ∀ (fuel : Nat) (todo : List cell),
      (todo.map (fun c => unfolding_size get_children (rank c) c)).sum ≤ fuel →
      ∃ b, depends_on_loop get_children d fuel todo = some b ∧
        (b = true ↔ ∃ c ∈ todo, reachable get_children c d) := by
  intro fuel
  induction fuel with
  | zero =>
    intro todo h
    cases todo with
    | nil => exact ⟨false, rfl, by simp⟩
    | cons curr todo =>
      simp only [List.map_cons, List.sum_cons] at h
      have := unfolding_size_pos get_children (rank curr) curr
      omega
  | succ fuel ih =>
    intro todo h
    cases todo with
    | nil => exact ⟨false, rfl, by simp⟩
    | cons curr todo =>
      rw [depends_on_loop]
      by_cases hcd : curr = d
      · exact ⟨true, by simp [hcd], by
          simp only [true_iff]
          exact ⟨curr, by simp, hcd ▸ Relation.ReflTransGen.refl⟩⟩
      · rw [if_neg hcd, foldl_push_eq]
        simp only [List.map_cons, List.sum_cons] at h
        rw [unfolding_size_children get_children rank hacyclic curr] at h
        obtain ⟨b, hb, hiff⟩ := ih ((get_children curr).reverse ++ todo) (by
          simp only [List.map_append, List.sum_append, List.map_reverse, List.sum_reverse]
          omega)
        refine ⟨b, hb, hiff.trans ?_⟩
        constructor
        · rintro ⟨c, hc, hr⟩
          rcases List.mem_append.mp hc with hc | hc
          · exact ⟨curr, by simp, Relation.ReflTransGen.head (List.mem_reverse.mp hc) hr⟩
          · exact ⟨c, by simp [hc], hr⟩
        · rintro ⟨c, hc, hr⟩
          rcases List.mem_cons.mp hc with rfl | hc
          · rcases Relation.ReflTransGen.cases_head hr with heq | ⟨ch, hch, hr2⟩
            · exact absurd heq hcd
            · exact ⟨ch, List.mem_append.mpr (Or.inl (List.mem_reverse.mpr hch)), hr2⟩
          · exact ⟨c, List.mem_append.mpr (Or.inr hc), hr⟩

end justification

section justification

variable {cell : Type} [DecidableEq cell]

/-- C15: `depends_on` is reachability in the justification DAG.  For every
graph of cells that is acyclic (the children of a cell have a smaller rank)
and all cells `t` and `d`: `depends_on(t, d)` terminates, within the number
of cells of the unfolding of the graph below `t`, and returns true iff the
cell `d` is reachable from the cell `t` by zero or more `get_children`
steps; `depends_on(t, t)` is true; and `depends_on` is transitive. -/
theorem depends_on_reachability (get_children : cell → List cell) (rank : cell → Nat)
    (hacyclic : ∀ c ch, ch ∈ get_children c → rank ch < rank c) (t d : cell) :
    (∀ fuel, unfolding_size get_children (rank t) t ≤ fuel →
      ∃ b, depends_on get_children fuel t d = some b ∧
        (b = true ↔ reachable get_children t d)) ∧
    (∀ fuel, unfolding_size get_children (rank t) t ≤ fuel →
      depends_on get_children fuel t t = some true) ∧
    (∀ (m : cell) (f1 f2 fuel : Nat), depends_on get_children f1 t m = some true →
      depends_on get_children f2 m d = some true →
      unfolding_size get_children (rank t) t ≤ fuel →
      depends_on get_children fuel t d = some true) := by
  have main : ∀ (a b : cell) (fuel : Nat), unfolding_size get_children (rank a) a ≤ fuel →
      ∃ r, depends_on get_children fuel a b = some r ∧
        (r = true ↔ reachable get_children a b) := by
    intro a b fuel hf
    obtain ⟨r, hr, hiff⟩ := depends_on_loop_complete get_children rank hacyclic b fuel [a]
      (by simpa using hf)
    exact ⟨r, hr, by simpa using hiff⟩
  have sound : ∀ (a b : cell) (fuel : Nat), depends_on get_children fuel a b = some true →
      reachable get_children a b := by
    intro a b fuel h
    obtain ⟨c, hc, hr⟩ := depends_on_loop_sound get_children b fuel [a] h
    simp only [List.mem_singleton] at hc
    exact hc ▸ hr
  refine ⟨fun fuel hf => main t d fuel hf, ?_, ?_⟩
  · intro fuel hf
    obtain ⟨r, hr, hiff⟩ := main t t fuel hf
    rw [hr, hiff.mpr Relation.ReflTransGen.refl]
  · intro m f1 f2 fuel h1 h2 hf
    obtain ⟨r, hr, hiff⟩ := main t d fuel hf
    rw [hr, hiff.mpr (Relation.ReflTransGen.trans (sound t m f1 h1) (sound m d f2 h2))]

end justification

/-- In the graph `diamond_children`, whose unfolding below the cell 3 has 7
cells, `depends_on(3, 0)` answers within 7 iterations, and answers true iff
the cell 0 is reachable from the cell 3. -/
theorem depends_on_reachability_witness :
    ∃ b, depends_on diamond_children 7 3 0 = some b ∧
      (b = true ↔ reachable diamond_children 3 0) :=
  (depends_on_reachability diamond_children id (by
    intro c ch h
    match c, h with
    | 0, h => simp [diamond_children] at h
    | 1, h => simp [diamond_children] at h; simp [h]
    | 2, h => simp [diamond_children] at h; rcases h with h | h <;> simp [h]
    | 3, h => simp [diamond_children] at h; rcases h with h | h <;> simp [h]
    | n + 4, h => simp [diamond_children] at h) 3 0).1 7 (by decide)

/-! ## Case splits and conflict resolution -/

namespace imp

variable {context expr metavar_env trace : Type}

theorem foldl_push_front_case_splits
    (cs : List (unification_constraint context expr trace))
    (e : imp context expr metavar_env trace) :
    (cs.foldl push_front e).m_case_splits = e.m_case_splits := by
  induction cs generalizing e with
  | nil => rfl
  | cons c cs ih => rw [List.foldl_cons, ih]; rfl

/-- A split is advanced exactly when it has an alternative left. -/
theorem next_fst (ops : trace_ops context expr trace)
    (d : case_split context expr metavar_env trace) (e : imp context expr metavar_env trace) :
    (next ops d e).1 = d.has_alternative := by
  cases d with
  | choice a s f i c =>
    simp only [next, next_choice_case, case_split.has_alternative]
    split <;> simp [*]
  | generic a s f c i ss as =>
    simp only [next, next_generic_case, case_split.has_alternative]
    split <;> simp [*]
  | plugin a s f c alts =>
    simp only [next, next_plugin_case, case_split.has_alternative]
    cases alts <;> simp

/-- A split without an alternative left sets the conflict to the failure by
cases over its failed traces and leaves the state and the stack as they
are. -/
theorem next_exhausted (ops : trace_ops context expr trace)
    (d : case_split context expr metavar_env trace) (e : imp context expr metavar_env trace)
    (h : d.has_alternative = false) :
    (next ops d e).2.2.m_state = e.m_state ∧
    (next ops d e).2.2.m_case_splits = e.m_case_splits ∧
    (next ops d e).2.2.m_conflict =
      some (ops.unification_failure_by_cases_trace d.constraint d.m_failed_traces) := by
  cases d with
  | choice a s f i c =>
    simp only [case_split.has_alternative, decide_eq_false_iff_not] at h
    simp [next, next_choice_case, h, case_split.constraint, case_split.m_failed_traces]
  | generic a s f c i ss as =>
    simp only [case_split.has_alternative, decide_eq_false_iff_not] at h
    simp [next, next_generic_case, h, case_split.constraint, case_split.m_failed_traces]
  | plugin a s f c alts =>
    cases alts with
    | nil =>
      simp [next, next_plugin_case, mk_assumption, case_split.constraint,
        case_split.m_failed_traces]
    | cons x xs => simp [case_split.has_alternative] at h

/-- A split that is advanced keeps its constraint and its failed traces,
takes one alternative, and leaves the stack and the conflict as they are. -/
theorem next_advanced (ops : trace_ops context expr trace)
    (d : case_split context expr metavar_env trace) (e : imp context expr metavar_env trace)
    (h : d.has_alternative = true) :
    (next ops d e).2.1.m_failed_traces = d.m_failed_traces ∧
    (next ops d e).2.1.remaining + 1 = d.remaining ∧
    (next ops d e).2.2.m_case_splits = e.m_case_splits := by
  cases d with
  | choice a s f i c =>
    simp only [case_split.has_alternative, decide_eq_true_eq] at h
    simp only [next, next_choice_case, h, if_true, case_split.m_failed_traces,
      case_split.remaining, push_front, reset_quota, mk_assumption, true_and, and_true]
    omega
  | generic a s f c i ss as =>
    simp only [case_split.has_alternative, decide_eq_true_eq] at h
    simp only [next, next_generic_case, h, if_true, case_split.m_failed_traces,
      case_split.remaining, true_and, and_true]
    omega
  | plugin a s f c alts =>
    cases alts with
    | nil => simp [case_split.has_alternative] at h
    | cons x xs =>
      simp only [next, next_plugin_case, case_split.m_failed_traces, case_split.remaining,
        List.length_cons, true_and]
      simp [foldl_push_front_case_splits, mk_assumption]

end imp

namespace imp

variable {context expr metavar_env trace : Type}

theorem has_alternative_push_failed (d : case_split context expr metavar_env trace)
    (c : Option trace) : (d.push_failed c).has_alternative = d.has_alternative := by
  cases d <;> rfl

theorem constraint_push_failed (d : case_split context expr metavar_env trace)
    (c : Option trace) : (d.push_failed c).constraint = d.constraint := by
  cases d <;> rfl

theorem failed_push_failed (d : case_split context expr metavar_env trace)
    (c : Option trace) : (d.push_failed c).m_failed_traces = d.m_failed_traces ++ [c] := by
  cases d <;> rfl

theorem remaining_push_failed (d : case_split context expr metavar_env trace)
    (c : Option trace) : (d.push_failed c).remaining = d.remaining := by
  cases d <;> rfl

/-- A split whose current assumption is not a dependency of the conflict is
popped, and the loop goes on with the engine as it is. -/
theorem resolve_conflict_loop_skip (ops : trace_ops context expr trace)
    (d : case_split context expr metavar_env trace)
    (rest : List (case_split context expr metavar_env trace))
    (e : imp context expr metavar_env trace)
    (h : ops.depends_on e.m_conflict d.m_curr_assumption = false) :
    resolve_conflict_loop ops (d :: rest) e =
      resolve_conflict_loop ops rest { e with m_case_splits := rest } := by
  rw [resolve_conflict_loop, h]
  simp

/-- When every split of the stack is blocked, the loop pops them all and
throws the final conflict; the state is the one at entry. -/
theorem resolve_conflict_loop_blocked (ops : trace_ops context expr trace) :
    ∀ (stack : List (case_split context expr metavar_env trace))
      (e : imp context expr metavar_env trace),
      all_blocked ops stack e.m_conflict = true →
      (resolve_conflict_loop ops stack e).1
        = some (.elaborator_exception (final_conflict ops stack e.m_conflict)) ∧
      (resolve_conflict_loop ops stack e).2.m_case_splits = [] ∧
      (resolve_conflict_loop ops stack e).2.m_conflict = final_conflict ops stack e.m_conflict ∧
      (resolve_conflict_loop ops stack e).2.m_state = e.m_state := by
  intro stack
  induction stack with
  | nil =>
    intro e _
    simp [resolve_conflict_loop, final_conflict]
  | cons d rest ih =>
    intro e h
    simp only [all_blocked, Bool.and_eq_true, Bool.not_eq_true', Bool.and_eq_false_iff] at h
    cases hdep : ops.depends_on e.m_conflict d.m_curr_assumption with
    | false =>
      rw [resolve_conflict_loop_skip ops d rest e hdep]
      have hca : conflict_after ops d e.m_conflict = e.m_conflict := by
        simp [conflict_after, hdep]
      rw [hca] at h
      simpa [final_conflict, hca] using ih { e with m_case_splits := rest } h.2
    | true =>
      have hex : d.has_alternative = false := by
        rcases h.1 with h1 | h1
        · rw [hdep] at h1; cases h1
        · exact h1
      have hca : conflict_after ops d e.m_conflict
          = some (ops.unification_failure_by_cases_trace d.constraint
              (d.m_failed_traces ++ [e.m_conflict])) := by
        simp [conflict_after, hdep]
      have hex2 : (d.push_failed e.m_conflict).has_alternative = false := by
        rw [has_alternative_push_failed]; exact hex
      have hn1 := next_fst ops (d.push_failed e.m_conflict)
        { e with m_case_splits := d.push_failed e.m_conflict :: rest }
      have hn2 := next_exhausted ops (d.push_failed e.m_conflict)
        { e with m_case_splits := d.push_failed e.m_conflict :: rest } hex2
      rw [hex2] at hn1
      rw [constraint_push_failed, failed_push_failed] at hn2
      rw [resolve_conflict_loop, hdep]
      simp only [if_true]
      cases hn : next ops (d.push_failed e.m_conflict)
          { e with m_case_splits := d.push_failed e.m_conflict :: rest } with
      | mk b r =>
        cases r with
        | mk d1 e1 =>
          rw [hn] at hn1 hn2
          simp only at hn1 hn2
          subst hn1
          simp only
          have hc2 : ({ e1 with m_case_splits := rest } :
              imp context expr metavar_env trace).m_conflict
              = conflict_after ops d e.m_conflict := by
            rw [hca]; exact hn2.2.2
          have hs2 : ({ e1 with m_case_splits := rest } :
              imp context expr metavar_env trace).m_state = e.m_state := hn2.1
          generalize ({ e1 with m_case_splits := rest } :
              imp context expr metavar_env trace) = e2 at hc2 hs2 ⊢
          have := ih e2 (by rw [hc2]; exact h.2)
          rw [hc2, hs2] at this
          simp only [final_conflict]
          exact this

/-- When some split of the stack is not blocked, the loop pops the blocked
splits above the first such split `d`, and advances `d` from an engine that
has the state at entry and holds the conflict that reaches `d`. -/
theorem resolve_conflict_loop_advance (ops : trace_ops context expr trace) :
    ∀ (stack : List (case_split context expr metavar_env trace))
      (e : imp context expr metavar_env trace),
      all_blocked ops stack e.m_conflict = false →
      ∃ popped d rest e_mid,
        stack = popped ++ d :: rest ∧
        all_blocked ops popped e.m_conflict = true ∧
        e_mid.m_conflict = final_conflict ops popped e.m_conflict ∧
        e_mid.m_state = e.m_state ∧
        e_mid.m_case_splits = d.push_failed e_mid.m_conflict :: rest ∧
        ops.depends_on e_mid.m_conflict d.m_curr_assumption = true ∧
        d.has_alternative = true ∧
        resolve_conflict_loop ops stack e =
          (none, reset_quota
            { (next ops (d.push_failed e_mid.m_conflict) e_mid).2.2 with
              m_case_splits := (next ops (d.push_failed e_mid.m_conflict) e_mid).2.1 :: rest,
              m_conflict := none }) := by
  intro stack
  induction stack with
  | nil =>
    intro e h
    simp [all_blocked] at h
  | cons d rest ih =>
    intro e h
    cases hdep : ops.depends_on e.m_conflict d.m_curr_assumption with
    | false =>
      have hca : conflict_after ops d e.m_conflict = e.m_conflict := by
        simp [conflict_after, hdep]
      have hb : all_blocked ops rest e.m_conflict = false := by
        simpa [all_blocked, hdep, hca] using h
      obtain ⟨popped, d0, rest0, e_mid, h1, h2, h3, h4, h5, h6, h7, h8⟩ :=
        ih { e with m_case_splits := rest } hb
      refine ⟨d :: popped, d0, rest0, e_mid, by simp [h1], ?_, ?_, h4, h5, h6, h7, ?_⟩
      · simpa [all_blocked, hdep, hca] using h2
      · simpa [final_conflict, hca] using h3
      · rw [resolve_conflict_loop_skip ops d rest e hdep]
        exact h8
    | true =>
      cases hex : d.has_alternative with
      | true =>
        refine ⟨[], d, rest,
          { e with m_case_splits := d.push_failed e.m_conflict :: rest }, rfl,
          by simp [all_blocked], by simp [final_conflict], rfl, rfl, hdep, hex, ?_⟩
        have hex2 : (d.push_failed e.m_conflict).has_alternative = true := by
          rw [has_alternative_push_failed]; exact hex
        have hn1 := next_fst ops (d.push_failed e.m_conflict)
          { e with m_case_splits := d.push_failed e.m_conflict :: rest }
        rw [hex2] at hn1
        rw [resolve_conflict_loop, hdep]
        simp only [if_true]
        cases hn : next ops (d.push_failed e.m_conflict)
            { e with m_case_splits := d.push_failed e.m_conflict :: rest } with
        | mk b r =>
          cases r with
          | mk d1 e1 =>
            rw [hn] at hn1
            simp only at hn1
            subst hn1
            rfl
      | false =>
        have hca : conflict_after ops d e.m_conflict
            = some (ops.unification_failure_by_cases_trace d.constraint
                (d.m_failed_traces ++ [e.m_conflict])) := by
          simp [conflict_after, hdep]
        have hex2 : (d.push_failed e.m_conflict).has_alternative = false := by
          rw [has_alternative_push_failed]; exact hex
        have hn1 := next_fst ops (d.push_failed e.m_conflict)
          { e with m_case_splits := d.push_failed e.m_conflict :: rest }
        have hn2 := next_exhausted ops (d.push_failed e.m_conflict)
          { e with m_case_splits := d.push_failed e.m_conflict :: rest } hex2
        rw [hex2] at hn1
        rw [constraint_push_failed, failed_push_failed] at hn2
        have hb : all_blocked ops rest (conflict_after ops d e.m_conflict) = false := by
          simpa [all_blocked, hdep, hex] using h
        rw [resolve_conflict_loop, hdep]
        simp only [if_true]
        cases hn : next ops (d.push_failed e.m_conflict)
            { e with m_case_splits := d.push_failed e.m_conflict :: rest } with
        | mk b r =>
          cases r with
          | mk d1 e1 =>
            rw [hn] at hn1 hn2
            simp only at hn1 hn2
            subst hn1
            simp only
            have hc2 : ({ e1 with m_case_splits := rest } :
                imp context expr metavar_env trace).m_conflict
                = conflict_after ops d e.m_conflict := by
              rw [hca]; exact hn2.2.2
            have hs2 : ({ e1 with m_case_splits := rest } :
                imp context expr metavar_env trace).m_state = e.m_state := hn2.1
            generalize ({ e1 with m_case_splits := rest } :
                imp context expr metavar_env trace) = e2 at hc2 hs2 ⊢
            obtain ⟨popped, d0, rest0, e_mid, h1, h2, h3, h4, h5, h6, h7, h8⟩ :=
              ih e2 (by rw [hc2]; exact hb)
            rw [hc2] at h2 h3
            rw [hs2] at h4
            refine ⟨d :: popped, d0, rest0, e_mid, by simp [h1], ?_, ?_, h4, h5, h6, h7, h8⟩
            · simp only [all_blocked, hdep, hex, Bool.and_false, Bool.not_false, Bool.true_and]
              exact h2
            · simp only [final_conflict]
              exact h3

end imp

namespace imp

variable {context expr metavar_env trace : Type}

/-- C17 (as amended): conflict resolution does not restore the state when
it pops a case split.  When `resolve_conflict` throws, every split has been
popped and the engine state is the state at entry; when it returns normally,
the state is the one installed by `next()` of the split `d` that is advanced,
called from the state at entry: for a choice split this is the state saved
in the split (`m_prev_state`) with the equation of the alternative pushed at
the front of its queue, for a generic split it is the saved state of the
alternative. -/
theorem resolve_conflict_state (ops : trace_ops context expr trace)
    (e : imp context expr metavar_env trace) :
    ((resolve_conflict ops e).1 ≠ none →
      (resolve_conflict ops e).2.m_state = e.m_state ∧
      (resolve_conflict ops e).2.m_case_splits = []) ∧
    ((resolve_conflict ops e).1 = none →
      ∃ popped d rest e_mid,
        e.m_case_splits = popped ++ d :: rest ∧ e_mid.m_state = e.m_state ∧
        (resolve_conflict ops e).2.m_state
          = (next ops (d.push_failed e_mid.m_conflict) e_mid).2.2.m_state ∧
        (resolve_conflict ops e).2.m_case_splits
          = (next ops (d.push_failed e_mid.m_conflict) e_mid).2.1 :: rest) ∧
    (∀ (a : Option trace) (s : state context expr metavar_env trace)
        (f : List (Option trace)) (i : Nat) (c : unification_constraint context expr trace)
        (e0 : imp context expr metavar_env trace), i < c.choice_size →
      (next ops (.choice a s f i c) e0).2.2.m_state =
        ⟨s.m_menv, .Eq c.get_context c.choice_mvar (c.choice_ith i)
          (some (ops.assumption_trace e0.m_next_id)) :: s.m_queue⟩) ∧
    (∀ (a : Option trace) (s : state context expr metavar_env trace)
        (f : List (Option trace)) (c : unification_constraint context expr trace) (i : Nat)
        (ss : List (state context expr metavar_env trace)) (as : List (Option trace))
        (e0 : imp context expr metavar_env trace), i < ss.length →
      (next ops (.generic a s f c i ss as) e0).2.2.m_state = ss.getD (ss.length - i - 1) s) := by
  refine ⟨?_, ?_, ?_, ?_⟩
  · intro h
    cases hb : all_blocked ops e.m_case_splits e.m_conflict with
    | true =>
      have := resolve_conflict_loop_blocked ops e.m_case_splits e hb
      exact ⟨this.2.2.2, this.2.1⟩
    | false =>
      obtain ⟨_, _, _, _, _, _, _, _, _, _, _, h8⟩ :=
        resolve_conflict_loop_advance ops e.m_case_splits e hb
      exact absurd (by rw [resolve_conflict, h8]) h
  · intro h
    cases hb : all_blocked ops e.m_case_splits e.m_conflict with
    | true =>
      have := (resolve_conflict_loop_blocked ops e.m_case_splits e hb).1
      rw [resolve_conflict, this] at h
      cases h
    | false =>
      obtain ⟨popped, d, rest, e_mid, h1, _, _, h4, _, _, _, h8⟩ :=
        resolve_conflict_loop_advance ops e.m_case_splits e hb
      refine ⟨popped, d, rest, e_mid, h1, h4, ?_, ?_⟩
      · rw [resolve_conflict, h8]; rfl
      · rw [resolve_conflict, h8]; rfl
  · intro a s f i c e0 hi
    simp [next, next_choice_case, hi, push_front, reset_quota, mk_assumption]
  · intro a s f c i ss as e0 hi
    simp [next, next_generic_case, hi]

/-- C18: a choice constraint `Choice(ctx, m, [c_0 .. c_{n-1}], j)` is
enumerated in order.  The call of `next()` on its split that has taken `i`
alternatives (`m_idx = i`, the `(i+1)`-th call) returns true for `i < n`:
the engine state becomes the state saved in the split with `Eq(ctx, m, c_i)`
pushed at the front of the saved queue, justified by the assumption with the
fresh identifier `m_next_id`, which becomes the current assumption of the
split, and `m_idx` becomes `i + 1`.  For `i >= n` (the `(n+1)`-th call) it
returns false, leaves the state and the split as they are, and sets the
conflict to `unification_failure_by_cases` over the failed traces of the
split. -/
theorem next_choice_enumerates (ops : trace_ops context expr trace)
    (a : Option trace) (s : state context expr metavar_env trace) (f : List (Option trace))
    (i : Nat) (ctx : context) (m : expr) (cs : List expr) (j : Option trace)
    (e : imp context expr metavar_env trace) :
    (∀ x, cs[i]? = some x →
      next ops (.choice a s f i (.Choice ctx m cs j)) e =
        (true,
          .choice (some (ops.assumption_trace e.m_next_id)) s f (i + 1) (.Choice ctx m cs j),
          { e with
            m_state := ⟨s.m_menv,
              .Eq ctx m x (some (ops.assumption_trace e.m_next_id)) :: s.m_queue⟩,
            m_next_id := (e.m_next_id + 1) % UNSIGNED_RANGE,
            m_quota := (s.m_queue.length : Int) })) ∧
    (cs.length ≤ i →
      next ops (.choice a s f i (.Choice ctx m cs j)) e =
        (false, .choice a s f i (.Choice ctx m cs j),
          { e with
            m_conflict :=
              some (ops.unification_failure_by_cases_trace (.Choice ctx m cs j) f) })) := by
  constructor
  · intro x hx
    have hi : i < cs.length := by
      by_contra hcon
      rw [List.getElem?_eq_none (by omega)] at hx
      cases hx
    have hget : cs.getD i m = x := by
      rw [List.getD_eq_getElem?_getD, hx]
      rfl
    have hget2 : cs[i] = x := by
      rw [List.getElem?_eq_getElem hi] at hx
      exact Option.some.inj hx
    simp [next, next_choice_case, unification_constraint.choice_size, hi, push_front,
      reset_quota, mk_assumption, unification_constraint.get_context,
      unification_constraint.choice_mvar, unification_constraint.choice_ith, hget, hget2]
  · intro hi
    have : ¬ i < cs.length := by omega
    simp [next, next_choice_case, unification_constraint.choice_size, this]

end imp

namespace imp

variable {context expr metavar_env trace : Type}

/-- C19: non-chronological backtracking.  A split whose current assumption
is not a dependency of the conflict held when it is reached is popped
without a call of `next()`: the loop goes on with the engine as it is.  When
`resolve_conflict` returns normally, the case splits are `popped ++ d ::
rest`, from the top: the splits `popped` above `d` were blocked (not a
dependency, or no alternative left) and are gone; the conflict `c` that
reached `d` depended on the current assumption of `d`; the stack that is
left is `d1 :: rest`, where `d1` is `d` with `c` recorded in its failed
traces and advanced by exactly one alternative; the conflict is cleared and
the quota is the size of the queue. -/
theorem resolve_conflict_advances (ops : trace_ops context expr trace)
    (e : imp context expr metavar_env trace) :
    (∀ (d : case_split context expr metavar_env trace)
        (rest : List (case_split context expr metavar_env trace))
        (e0 : imp context expr metavar_env trace),
      ops.depends_on e0.m_conflict d.m_curr_assumption = false →
      resolve_conflict_loop ops (d :: rest) e0 =
        resolve_conflict_loop ops rest { e0 with m_case_splits := rest }) ∧
    ((resolve_conflict ops e).1 = none →
      ∃ popped d rest c d1,
        e.m_case_splits = popped ++ d :: rest ∧
        all_blocked ops popped e.m_conflict = true ∧
        c = final_conflict ops popped e.m_conflict ∧
        ops.depends_on c d.m_curr_assumption = true ∧
        (resolve_conflict ops e).2.m_case_splits = d1 :: rest ∧
        d1.m_failed_traces = d.m_failed_traces ++ [c] ∧
        d1.remaining + 1 = d.remaining ∧
        (resolve_conflict ops e).2.m_conflict = none ∧
        (resolve_conflict ops e).2.m_quota
          = ((resolve_conflict ops e).2.m_state.m_queue.length : Int)) := by
  refine ⟨fun d rest e0 h => resolve_conflict_loop_skip ops d rest e0 h, ?_⟩
  intro h
  cases hb : all_blocked ops e.m_case_splits e.m_conflict with
  | true =>
    have := (resolve_conflict_loop_blocked ops e.m_case_splits e hb).1
    rw [resolve_conflict, this] at h
    cases h
  | false =>
    obtain ⟨popped, d, rest, e_mid, h1, h2, h3, _, _, h6, h7, h8⟩ :=
      resolve_conflict_loop_advance ops e.m_case_splits e hb
    have hadv := next_advanced ops (d.push_failed e_mid.m_conflict) e_mid
      (by rw [has_alternative_push_failed]; exact h7)
    rw [failed_push_failed, remaining_push_failed] at hadv
    refine ⟨popped, d, rest, e_mid.m_conflict,
      (next ops (d.push_failed e_mid.m_conflict) e_mid).2.1, h1, h2, h3, h6, ?_, hadv.1,
      hadv.2.1, ?_, ?_⟩
    · rw [resolve_conflict, h8]; rfl
    · rw [resolve_conflict, h8]; rfl
    · rw [resolve_conflict, h8]; rfl

/-- C20: exhausting the case-split stack surfaces the final conflict.
The loop of `resolve_conflict` is a recursion on the stack, so it
terminates.  It throws exactly when no split of the stack both has a current
assumption that the conflict reaching it depends on and has an alternative
left; it then throws `elaborator_exception` with the final conflict, which is
also left in `m_conflict`, and leaves the stack empty.  A split without an
alternative whose current assumption the conflict `c` depends on widens the
conflict to `unification_failure_by_cases` over its failed traces, to which
`c` has been added. -/
theorem resolve_conflict_exhausted (ops : trace_ops context expr trace)
    (e : imp context expr metavar_env trace) :
    ((resolve_conflict ops e).1.isSome = all_blocked ops e.m_case_splits e.m_conflict) ∧
    (all_blocked ops e.m_case_splits e.m_conflict = true →
      (resolve_conflict ops e).1
        = some (.elaborator_exception (final_conflict ops e.m_case_splits e.m_conflict)) ∧
      (resolve_conflict ops e).2.m_conflict
        = final_conflict ops e.m_case_splits e.m_conflict ∧
      (resolve_conflict ops e).2.m_case_splits = []) ∧
    (∀ (d : case_split context expr metavar_env trace) (c : Option trace)
        (e0 : imp context expr metavar_env trace),
      d.has_alternative = false →
      (next ops (d.push_failed c) e0).1 = false ∧
      (next ops (d.push_failed c) e0).2.2.m_conflict
        = some (ops.unification_failure_by_cases_trace d.constraint
            (d.m_failed_traces ++ [c]))) := by
  refine ⟨?_, ?_, ?_⟩
  · cases hb : all_blocked ops e.m_case_splits e.m_conflict with
    | true =>
      rw [resolve_conflict, (resolve_conflict_loop_blocked ops e.m_case_splits e hb).1]
      rfl
    | false =>
      obtain ⟨_, _, _, _, _, _, _, _, _, _, _, h8⟩ :=
        resolve_conflict_loop_advance ops e.m_case_splits e hb
      rw [resolve_conflict, h8]
      rfl
  · intro hb
    have := resolve_conflict_loop_blocked ops e.m_case_splits e hb
    exact ⟨this.1, this.2.2.1, this.2.1⟩
  · intro d c e0 hex
    have hex2 : (d.push_failed c).has_alternative = false := by
      rw [has_alternative_push_failed]; exact hex
    have h1 := next_fst ops (d.push_failed c) e0
    have h2 := next_exhausted ops (d.push_failed c) e0 hex2
    rw [constraint_push_failed, failed_push_failed] at h2
    exact ⟨by rw [h1, hex2], h2.2.2⟩

end imp

/-- Conflict resolution in the engine of the examples, with one choice
split that has taken one of its three alternatives and whose current
assumption is the conflict: the split is advanced and the state is its saved
state with one equation. -/
theorem resolve_conflict_state_witness :
    ∃ popped d rest e_mid,
      (example_engine [example_choice_split (some 4) 1] (some 4)).m_case_splits
        = popped ++ d :: rest ∧
      e_mid.m_state = (example_engine [example_choice_split (some 4) 1] (some 4)).m_state ∧
      (imp.resolve_conflict nat_trace_ops
          (example_engine [example_choice_split (some 4) 1] (some 4))).2.m_state
        = (imp.next nat_trace_ops (d.push_failed e_mid.m_conflict) e_mid).2.2.m_state ∧
      (imp.resolve_conflict nat_trace_ops
          (example_engine [example_choice_split (some 4) 1] (some 4))).2.m_case_splits
        = (imp.next nat_trace_ops (d.push_failed e_mid.m_conflict) e_mid).2.1 :: rest :=
  (imp.resolve_conflict_state nat_trace_ops
    (example_engine [example_choice_split (some 4) 1] (some 4))).2.1 rfl

/-- C17 (as stated) fails: in the engine of the examples, whose queue has
one constraint, with one choice split whose saved state has an empty queue
and whose current assumption is not a dependency of the conflict,
`resolve_conflict` pops the split (and throws); after the pop the queue of
the engine still has its constraint, so the state is not the saved one. -/
theorem resolve_conflict_state_counterexample :
    (imp.resolve_conflict nat_trace_ops
        (example_engine [example_choice_split (some 4) 1] (some 3))).2.m_case_splits.length
      = 0 ∧
    (imp.resolve_conflict nat_trace_ops
        (example_engine [example_choice_split (some 4) 1] (some 3))).2.m_state.m_queue.length
      = 1 ∧
    (example_choice_split (some 4) 1).m_prev_state.m_queue.length = 0 := by
  decide

/-- The second call of `next()` on the choice split of the examples, in the
engine of the examples. -/
theorem next_choice_enumerates_witness :
    imp.next nat_trace_ops (.choice (some 4) ⟨(), []⟩ [] 1 (.Choice () 0 [10, 11, 12] none))
        (example_engine [] none) =
      (true, .choice (some (nat_trace_ops.assumption_trace 5)) ⟨(), []⟩ [] (1 + 1)
          (.Choice () 0 [10, 11, 12] none),
        { example_engine [] none with
          m_state := ⟨(), [.Eq () 0 11 (some (nat_trace_ops.assumption_trace 5))]⟩,
          m_next_id := (5 + 1) % UNSIGNED_RANGE,
          m_quota := ((([] : List (unification_constraint Unit Nat Nat)).length : Nat) : Int) })
      ∧
    imp.next nat_trace_ops (.choice (some 4) ⟨(), []⟩ [] 3 (.Choice () 0 [10, 11, 12] none))
        (example_engine [] none) =
      (false, .choice (some 4) ⟨(), []⟩ [] 3 (.Choice () 0 [10, 11, 12] none),
        { example_engine [] none with
          m_conflict := some (nat_trace_ops.unification_failure_by_cases_trace
            (.Choice () 0 [10, 11, 12] none) []) }) :=
  ⟨(imp.next_choice_enumerates nat_trace_ops (some 4) ⟨(), []⟩ [] 1 () 0 [10, 11, 12] none
      (example_engine [] none)).1 11 rfl,
   (imp.next_choice_enumerates nat_trace_ops (some 4) ⟨(), []⟩ [] 3 () 0 [10, 11, 12] none
      (example_engine [] none)).2 (by decide)⟩

/-- Conflict resolution in the engine of the examples with two choice
splits: the top one is not a dependency of the conflict and is popped, the
second one is a dependency and is advanced. -/
theorem resolve_conflict_advances_witness :
    ∃ popped d rest c d1,
      (example_engine [example_choice_split (some 6) 1, example_choice_split (some 4) 1]
        (some 4)).m_case_splits = popped ++ d :: rest ∧
      all_blocked nat_trace_ops popped
        (example_engine [example_choice_split (some 6) 1, example_choice_split (some 4) 1]
          (some 4)).m_conflict = true ∧
      c = final_conflict nat_trace_ops popped
        (example_engine [example_choice_split (some 6) 1, example_choice_split (some 4) 1]
          (some 4)).m_conflict ∧
      nat_trace_ops.depends_on c d.m_curr_assumption = true ∧
      (imp.resolve_conflict nat_trace_ops
        (example_engine [example_choice_split (some 6) 1, example_choice_split (some 4) 1]
          (some 4))).2.m_case_splits = d1 :: rest ∧
      d1.m_failed_traces = d.m_failed_traces ++ [c] ∧
      d1.remaining + 1 = d.remaining ∧
      (imp.resolve_conflict nat_trace_ops
        (example_engine [example_choice_split (some 6) 1, example_choice_split (some 4) 1]
          (some 4))).2.m_conflict = none ∧
      (imp.resolve_conflict nat_trace_ops
        (example_engine [example_choice_split (some 6) 1, example_choice_split (some 4) 1]
          (some 4))).2.m_quota
        = ((imp.resolve_conflict nat_trace_ops
          (example_engine [example_choice_split (some 6) 1, example_choice_split (some 4) 1]
            (some 4))).2.m_state.m_queue.length : Int) :=
  (imp.resolve_conflict_advances nat_trace_ops
    (example_engine [example_choice_split (some 6) 1, example_choice_split (some 4) 1]
      (some 4))).2 rfl

/-- Conflict resolution in the engine of the examples with two choice splits
that have taken their three alternatives: both are popped, the conflict is
widened at the first one, and the exception carries the final conflict. -/
theorem resolve_conflict_exhausted_witness :
    (imp.resolve_conflict nat_trace_ops
        (example_engine [example_choice_split (some 4) 3, example_choice_split (some 2) 3]
          (some 4))).1
      = some (.elaborator_exception (final_conflict nat_trace_ops
          (example_engine [example_choice_split (some 4) 3, example_choice_split (some 2) 3]
            (some 4)).m_case_splits
          (example_engine [example_choice_split (some 4) 3, example_choice_split (some 2) 3]
            (some 4)).m_conflict)) ∧
    (imp.resolve_conflict nat_trace_ops
        (example_engine [example_choice_split (some 4) 3, example_choice_split (some 2) 3]
          (some 4))).2.m_conflict
      = final_conflict nat_trace_ops
          (example_engine [example_choice_split (some 4) 3, example_choice_split (some 2) 3]
            (some 4)).m_case_splits
          (example_engine [example_choice_split (some 4) 3, example_choice_split (some 2) 3]
            (some 4)).m_conflict ∧
    (imp.resolve_conflict nat_trace_ops
        (example_engine [example_choice_split (some 4) 3, example_choice_split (some 2) 3]
          (some 4))).2.m_case_splits = [] :=
  (imp.resolve_conflict_exhausted nat_trace_ops
    (example_engine [example_choice_split (some 4) 3, example_choice_split (some 2) 3]
      (some 4))).2.1 (by decide)

section process_frame

variable {context expr metavar_env trace : Type}

theorem imp.process_metavar_app_continue (k : kernel_ops context expr metavar_env trace)
    (e : imp context expr metavar_env trace) (c : unification_constraint context expr trace)
    (a : expr) (is_lhs : Bool) (hm : k.is_meta_app a = false) :
    imp.process_metavar_app k e c a is_lhs = (.Continue, e) := by
  unfold imp.process_metavar_app
  have h : (k.is_app a && k.is_metavar (k.arg a 0)) = false := hm
  simp [h]

theorem imp.process_metavar_continue (k : kernel_ops context expr metavar_env trace)
    (e : imp context expr metavar_env trace) (c : unification_constraint context expr trace)
    (a b : expr) (is_lhs allow_assignment : Bool) (ha : k.kind a = .App)
    (hm : k.is_meta_app a = false) :
    imp.process_metavar k e c a b is_lhs allow_assignment = (.Continue, e) := by
  have h : k.is_metavar a = false := by simp [kernel_ops.is_metavar, ha]
  unfold imp.process_metavar
  simp [h, imp.process_metavar_app_continue k e c a is_lhs hm]

theorem imp.process_simple_ho_match_false (k : kernel_ops context expr metavar_env trace)
    (e : imp context expr metavar_env trace) (ctx : context) (a b : expr) (is_lhs : Bool)
    (c : unification_constraint context expr trace) (hm : k.is_meta_app a = false) :
    imp.process_simple_ho_match k e ctx a b is_lhs c = (.ok false, e) := by
  unfold imp.process_simple_ho_match
  simp [hm]

end process_frame

section process

variable {context expr metavar_env trace : Type} [DecidableEq expr]

theorem imp.normalize_head_stable (k : kernel_ops context expr metavar_env trace) (fuel : Nat)
    (e : imp context expr metavar_env trace) (a b : expr)
    (c : unification_constraint context expr trace) (hint : e.m_interrupted = false)
    (hsa : imp.normalize_step k e c.get_context a = a)
    (hsb : imp.normalize_step k e c.get_context b = b)
    (hwa : imp.get_unfolding_weight k a < 0) (hwb : imp.get_unfolding_weight k b < 0) :
    imp.normalize_head k (fuel + 1) e a b c = some (.ok false, e) := by
  unfold imp.normalize_head imp.normalize_head_loop
  have h1 : ¬ (imp.get_unfolding_weight k a ≥ 0) := by omega
  have h2 : ¬ (imp.get_unfolding_weight k b ≥ 0) := by omega
  simp [hint, hsa, hsb, h1, h2]

end process

section process_arity

variable {context expr metavar_env trace : Type} [DecidableEq expr]

theorem imp.process_app_args_congr (k : kernel_ops context expr metavar_env trace)
    (e e1 : imp context expr metavar_env trace) (ctx : context) (f : expr)
    (h : e1.m_state = e.m_state) (todo : List expr) :
    ∀ (done : List expr) (modified : Bool),
      imp.process_app_args k e1 ctx f done todo modified
        = imp.process_app_args k e ctx f done todo modified := by
  induction todo with
  | nil => intro done modified; rfl
  | cons curr rest ih =>
    intro done modified
    simp only [imp.process_app_args, imp.normalize, h, ih]

theorem imp.normalize_step_congr (k : kernel_ops context expr metavar_env trace)
    (e e1 : imp context expr metavar_env trace) (ctx : context) (a : expr)
    (h1 : e1.m_state = e.m_state) (h2 : e1.m_use_normalizer = e.m_use_normalizer) :
    imp.normalize_step k e1 ctx a = imp.normalize_step k e ctx a := by
  simp only [imp.normalize_step, imp.process_eq_expr, imp.process_app, imp.normalize, h1, h2,
    imp.process_app_args_congr k e e1 ctx _ h1]

/-- C16: an equation between two applications that are not applications of
a metavariable and have different numbers of arguments, with sides that
`normalize_step` leaves as they are and heads that are not unfoldable
definitions, makes `process` return false and changes nothing but the quota:
the conflict `m_conflict` is not set, so it is still null when it was null
before. -/
theorem imp.process_app_arity_mismatch (k : kernel_ops context expr metavar_env trace)
    (fuel : Nat) (e : imp context expr metavar_env trace) (ctx : context) (a b : expr)
    (tr : Option trace) (hab : a ≠ b) (ha : k.kind a = .App) (hb : k.kind b = .App)
    (hma : k.is_meta_app a = false) (hmb : k.is_meta_app b = false)
    (hn : k.num_args a ≠ k.num_args b) (hint : e.m_interrupted = false)
    (hsa : imp.normalize_step k e ctx a = a) (hsb : imp.normalize_step k e ctx b = b)
    (hwa : imp.get_unfolding_weight k a < 0) (hwb : imp.get_unfolding_weight k b < 0) :
    imp.process k (fuel + 1) e (.Eq ctx a b tr)
        = some (.ok false, { e with m_quota := e.m_quota - 1 })
      ∧ (e.m_conflict = none →
          ∀ r, imp.process k (fuel + 1) e (.Eq ctx a b tr) = some r → r.2.m_conflict = none) := by
  have key : imp.process k (fuel + 1) e (.Eq ctx a b tr)
      = some (.ok false, { e with m_quota := e.m_quota - 1 }) := by
    have hnh := imp.normalize_head_stable k fuel { e with m_quota := e.m_quota - 1 } a b
      (.Eq ctx a b tr) hint
      ((imp.normalize_step_congr k e { e with m_quota := e.m_quota - 1 } ctx a rfl rfl).trans hsa)
      ((imp.normalize_step_congr k e { e with m_quota := e.m_quota - 1 } ctx b rfl rfl).trans hsb)
      hwa hwb
    simp only [imp.process, unification_constraint.kind, unification_constraint.get_context,
      unification_constraint.eq_lhs, unification_constraint.eq_rhs,
      imp.process_eq_convertible, if_neg hab,
      imp.process_metavar_continue k _ _ a b _ _ ha hma,
      imp.process_metavar_continue k _ _ b a _ _ hb hmb, hnh,
      imp.process_eq_convertible_structural,
      imp.process_simple_ho_match_false k _ ctx a b _ _ hma,
      imp.process_simple_ho_match_false k _ ctx b a _ _ hmb,
      imp.process_same_kind, ha, hb, hma, hmb]
    simp [unification_constraint.is_eq, unification_constraint.kind, hn]
  refine ⟨key, ?_⟩
  intro hc r hr
  rw [key] at hr
  cases hr
  exact hc

end process_arity

/-- C16, at the equation between `(1 2)` and `(3 2 4)` in an engine without
a pending conflict. -/
theorem process_app_arity_mismatch_witness :
    imp.process nat_kernel 1 (example_engine [] none) (.Eq () 102 30204 none)
        = some (.ok false,
            { example_engine [] none with m_quota := (example_engine [] none).m_quota - 1 })
      ∧ ((example_engine [] none).m_conflict = none →
          ∀ r, imp.process nat_kernel 1 (example_engine [] none) (.Eq () 102 30204 none)
            = some r → r.2.m_conflict = none) :=
  imp.process_app_arity_mismatch nat_kernel 0 (example_engine [] none) () 102 30204 none
    (by decide) (by decide) (by decide) (by decide) (by decide) (by decide) rfl rfl rfl
    (by decide) (by decide)

section flags

variable {context expr metavar_env trace : Type}

@[simp] theorem imp.flags_reset_quota (e : imp context expr metavar_env trace) :
    (imp.reset_quota e).flags = e.flags := rfl

@[simp] theorem imp.flags_mk_assumption (ops : trace_ops context expr trace)
    (e : imp context expr metavar_env trace) : (imp.mk_assumption ops e).2.flags = e.flags := rfl

@[simp] theorem imp.flags_push_front (e : imp context expr metavar_env trace)
    (c : unification_constraint context expr trace) : (imp.push_front e c).flags = e.flags := rfl

@[simp] theorem imp.flags_push_back (e : imp context expr metavar_env trace)
    (c : unification_constraint context expr trace) : (imp.push_back e c).flags = e.flags := rfl

@[simp] theorem imp.flags_foldl_push_front
    (cs : List (unification_constraint context expr trace))
    (e : imp context expr metavar_env trace) :
    (cs.foldl imp.push_front e).flags = e.flags := by
  induction cs generalizing e with
  | nil => rfl
  | cons c cs ih => simp [List.foldl, ih]

@[simp] theorem imp.flags_push_new_constraint (e : imp context expr metavar_env trace)
    (is_eq : Bool) (ctx : context) (a b : expr) (tr : Option trace) :
    (imp.push_new_constraint e is_eq ctx a b tr).flags = e.flags := rfl

@[simp] theorem imp.flags_push_updated_constraint (e : imp context expr metavar_env trace)
    (c : unification_constraint context expr trace) (a b : expr) (tr : Option trace) :
    (imp.push_updated_constraint e c a b tr).flags = e.flags := by
  unfold imp.push_updated_constraint; split <;> rfl

@[simp] theorem imp.flags_push_updated_side (e : imp context expr metavar_env trace)
    (c : unification_constraint context expr trace) (is_lhs : Bool) (a : expr)
    (tr : Option trace) : (imp.push_updated_side e c is_lhs a tr).flags = e.flags := by
  unfold imp.push_updated_side; split <;> split <;> rfl

@[simp] theorem imp.flags_push_normalized_constraint
    (k : kernel_ops context expr metavar_env trace) (e : imp context expr metavar_env trace)
    (c : unification_constraint context expr trace) (a b : expr) :
    (imp.push_normalized_constraint k e c a b).flags = e.flags := by
  simp [imp.push_normalized_constraint]

@[simp] theorem imp.flags_assign (k : kernel_ops context expr metavar_env trace)
    (e : imp context expr metavar_env trace) (m v : expr) (ctx : context) (tr : Option trace) :
    (imp.assign k e m v ctx tr).flags = e.flags := by
  simp only [imp.assign]
  split
  · simp; rfl
  · rfl

@[simp] theorem imp.flags_process_metavar_app (k : kernel_ops context expr metavar_env trace)
    (e : imp context expr metavar_env trace) (c : unification_constraint context expr trace)
    (a : expr) (is_lhs : Bool) : (imp.process_metavar_app k e c a is_lhs).2.flags = e.flags := by
  unfold imp.process_metavar_app; split <;> first | rfl | simp

@[simp] theorem imp.flags_process_metavar (k : kernel_ops context expr metavar_env trace)
    (e : imp context expr metavar_env trace) (c : unification_constraint context expr trace)
    (a b : expr) (is_lhs allow : Bool) :
    (imp.process_metavar k e c a b is_lhs allow).2.flags = e.flags := by
  unfold imp.process_metavar
  repeat' split
  all_goals first | rfl | simp

@[simp] theorem imp.flags_instantiate_metavars (k : kernel_ops context expr metavar_env trace)
    (e : imp context expr metavar_env trace) (is_lhs : Bool) (a : expr)
    (c : unification_constraint context expr trace) :
    (imp.instantiate_metavars k e is_lhs a c).2.flags = e.flags := by
  unfold imp.instantiate_metavars; split <;> first | rfl | simp

@[simp] theorem imp.flags_process_simple_ho_match
    (k : kernel_ops context expr metavar_env trace) (e : imp context expr metavar_env trace)
    (ctx : context) (a b : expr) (is_lhs : Bool)
    (c : unification_constraint context expr trace) :
    (imp.process_simple_ho_match k e ctx a b is_lhs c).2.flags = e.flags := by
  unfold imp.process_simple_ho_match
  repeat' split
  all_goals rfl

@[simp] theorem imp.flags_next (ops : trace_ops context expr trace)
    (d : case_split context expr metavar_env trace) (e : imp context expr metavar_env trace) :
    (imp.next ops d e).2.2.flags = e.flags := by
  cases d with
  | choice a s f i c =>
    simp only [imp.next, imp.next_choice_case]; split <;> rfl
  | generic a s f c i ss as =>
    simp only [imp.next, imp.next_generic_case]; split <;> rfl
  | plugin a s f c alts =>
    cases alts with
    | nil => rfl
    | cons alt rest => simp [imp.next, imp.next_plugin_case]; rfl

theorem imp.flags_resolve_conflict_loop (ops : trace_ops context expr trace)
    (l : List (case_split context expr metavar_env trace)) :
    ∀ e : imp context expr metavar_env trace,
      (imp.resolve_conflict_loop ops l e).2.flags = e.flags := by
  induction l with
  | nil => intro e; rfl
  | cons d rest ih =>
    intro e
    unfold imp.resolve_conflict_loop
    split
    · have h := imp.flags_next ops (d.push_failed e.m_conflict)
        { e with m_case_splits := d.push_failed e.m_conflict :: rest }
      split
      · rename_i b d1 e1 heq
        rw [heq] at h
        simpa [imp.flags] using h
      · rename_i b d1 e1 heq
        rw [heq] at h
        rw [ih]
        simpa [imp.flags] using h
    · rw [ih]; rfl

@[simp] theorem imp.flags_resolve_conflict (ops : trace_ops context expr trace)
    (e : imp context expr metavar_env trace) :
    (imp.resolve_conflict ops e).2.flags = e.flags :=
  imp.flags_resolve_conflict_loop ops _ e

@[simp] theorem imp.flags_process_choice (ops : trace_ops context expr trace)
    (e : imp context expr metavar_env trace) (c : unification_constraint context expr trace) :
    (imp.process_choice ops e c).2.flags = e.flags := by
  have h := imp.flags_next ops (.choice none e.m_state [] 0 c) e
  simpa [imp.process_choice, imp.flags] using h

end flags

section flags_splits

variable {context expr metavar_env trace : Type}

@[simp] theorem imp.flags_with_conflict (e : imp context expr metavar_env trace)
    (x : Option trace) : ({ e with m_conflict := x } : imp _ _ _ _).flags = e.flags := rfl

theorem imp.flags_infer_arg_types (k : kernel_ops context expr metavar_env trace)
    (ctx : context) (xs : List expr) :
    ∀ (arg_types : List expr) (ucs : List (unification_constraint context expr trace))
      (e : imp context expr metavar_env trace),
      (imp.infer_arg_types k ctx xs arg_types ucs e).2.flags = e.flags := by
  induction xs with
  | nil => intro _ _ e; rfl
  | cons x xs ih =>
    intro arg_types ucs e
    simp only [imp.infer_arg_types]
    rw [ih, imp.flags_foldl_push_front]
    rfl

theorem imp.flags_add_projections (k : kernel_ops context expr metavar_env trace)
    (a b : expr) (is_lhs : Bool) (c : unification_constraint context expr trace)
    (arg_types : List expr) (l : List Nat) :
    ∀ (cs : List (state context expr metavar_env trace) × List (Option trace))
      (e : imp context expr metavar_env trace),
      (imp.add_projections k a b is_lhs c arg_types l cs e).2.flags = e.flags := by
  induction l with
  | nil => intro _ e; rfl
  | cons i rest ih =>
    intro cs e
    simp only [imp.add_projections]
    rw [ih]
    rfl

@[simp] theorem imp.flags_process_meta_app_core (k : kernel_ops context expr metavar_env trace)
    (new_cs : List (state context expr metavar_env trace) × List (Option trace))
    (e : imp context expr metavar_env trace) (a b : expr) (is_lhs : Bool)
    (c : unification_constraint context expr trace) :
    (imp.process_meta_app_core k new_cs e a b is_lhs c).2.flags = e.flags := by
  simp only [imp.process_meta_app_core, imp.flags_mk_assumption, imp.flags_add_projections,
    imp.flags_infer_arg_types]

@[simp] theorem imp.flags_push_generic_split (k : kernel_ops context expr metavar_env trace)
    (c : unification_constraint context expr trace)
    (prev_state : state context expr metavar_env trace)
    (new_cs : List (state context expr metavar_env trace) × List (Option trace))
    (e : imp context expr metavar_env trace) :
    (imp.push_generic_split k c prev_state new_cs e).2.flags = e.flags := by
  have h := imp.flags_next k.traces (.generic none prev_state [] c 0 new_cs.1 new_cs.2) e
  simpa [imp.push_generic_split, imp.flags, imp.reset_quota] using h

@[simp] theorem imp.flags_process_meta_app (k : kernel_ops context expr metavar_env trace)
    (e : imp context expr metavar_env trace) (a b : expr) (is_lhs : Bool)
    (c : unification_constraint context expr trace) (flex_flex : Bool) :
    (imp.process_meta_app k e a b is_lhs c flex_flex).2.flags = e.flags := by
  unfold imp.process_meta_app
  split
  · simp only [imp.flags_push_generic_split]
    split <;> simp
  · rfl

@[simp] theorem imp.flags_process_metavar_inst (k : kernel_ops context expr metavar_env trace)
    (e : imp context expr metavar_env trace) (a b : expr) (is_lhs : Bool)
    (c : unification_constraint context expr trace) :
    (imp.process_metavar_inst k e a b is_lhs c).2.flags = e.flags := by
  unfold imp.process_metavar_inst
  split
  · simp only [imp.flags_push_generic_split, imp.flags_mk_assumption]
  · rfl

end flags_splits

section flags_process

variable {context expr metavar_env trace : Type} [DecidableEq expr]

theorem imp.flags_normalize_head_loop (k : kernel_ops context expr metavar_env trace)
    (c : unification_constraint context expr trace) (fuel : Nat) :
    ∀ (a b : expr) (modified : Bool) (e : imp context expr metavar_env trace)
      (r : Except (elaborator_error trace) Bool × imp context expr metavar_env trace),
      imp.normalize_head_loop k c fuel a b modified e = some r → r.2.flags = e.flags := by
  induction fuel with
  | zero => intro a b m e r h; simp [imp.normalize_head_loop] at h
  | succ n ih =>
    intro a b m e r h
    simp only [imp.normalize_head_loop] at h
    repeat' (split at h)
    all_goals first
      | exact ih _ _ _ _ _ h
      | (cases h; first | rfl | simp)

@[simp] theorem imp.flags_process_lower (k : kernel_ops context expr metavar_env trace)
    (e : imp context expr metavar_env trace) (a b : expr)
    (c : unification_constraint context expr trace) :
    (imp.process_lower k e a b c).2.flags = e.flags := by
  unfold imp.process_lower
  repeat' split
  all_goals rfl

@[simp] theorem imp.flags_process_eq_convertible_rest
    (k : kernel_ops context expr metavar_env trace) (e : imp context expr metavar_env trace)
    (a b : expr) (c : unification_constraint context expr trace) :
    (imp.process_eq_convertible_rest k e a b c).2.flags = e.flags := by
  simp only [imp.process_eq_convertible_rest, apply_ite Prod.snd, apply_ite imp.flags,
    imp.flags_instantiate_metavars, imp.flags_process_meta_app, imp.flags_process_metavar_inst,
    imp.flags_process_lower, imp.flags_push_back, imp.flags_with_conflict, ite_self]

end flags_process

section session

variable {context expr metavar_env trace : Type}

theorem imp.next_false_conflict (ops : trace_ops context expr trace)
    (d d1 : case_split context expr metavar_env trace)
    (e e1 : imp context expr metavar_env trace) (h : imp.next ops d e = (false, d1, e1)) :
    e1.m_conflict.isSome = true := by
  cases d with
  | choice a s f i c =>
    simp only [imp.next, imp.next_choice_case] at h
    split at h
    · simp at h
    · cases h; rfl
  | generic a s f c i ss as =>
    simp only [imp.next, imp.next_generic_case] at h
    split at h
    · simp at h
    · cases h; rfl
  | plugin a s f c alts =>
    cases alts with
    | nil => simp only [imp.next, imp.next_plugin_case] at h; cases h; rfl
    | cons alt rest => simp [imp.next, imp.next_plugin_case] at h

theorem imp.resolve_conflict_loop_throws (ops : trace_ops context expr trace)
    (l : List (case_split context expr metavar_env trace)) :
    ∀ (e e1 : imp context expr metavar_env trace) (x : elaborator_error trace),
      imp.resolve_conflict_loop ops l e = (some x, e1) →
      x = .elaborator_exception e1.m_conflict ∧ e1.m_case_splits = [] ∧
        (e.m_conflict.isSome = true → e1.m_conflict.isSome = true) := by
  induction l with
  | nil =>
    intro e e1 x h
    simp only [imp.resolve_conflict_loop] at h
    cases h
    exact ⟨rfl, rfl, id⟩
  | cons d rest ih =>
    intro e e1 x h
    unfold imp.resolve_conflict_loop at h
    split at h
    · split at h
      · simp at h
      · rename_i b d1 e2 heq
        have hc := imp.next_false_conflict ops _ _ _ _ heq
        have := ih _ _ _ h
        exact ⟨this.1, this.2.1, fun _ => this.2.2 hc⟩
    · have := ih _ _ _ h
      exact ⟨this.1, this.2.1, this.2.2⟩

end session

section process_frame_flags

variable {context expr metavar_env trace : Type}

theorem imp.flags_foldl {α : Type} (f : imp context expr metavar_env trace → α →
      imp context expr metavar_env trace) (hf : ∀ e x, (f e x).flags = e.flags) (l : List α) :
    ∀ e, (l.foldl f e).flags = e.flags := by
  induction l with
  | nil => intro e; rfl
  | cons x l ih => intro e; simp only [List.foldl]; rw [ih, hf]

variable [DecidableEq expr]

theorem imp.process_same_kind_frame (k : kernel_ops context expr metavar_env trace)
    (e : imp context expr metavar_env trace) (ctx : context) (a b : expr)
    (c : unification_constraint context expr trace)
    (r : Except (elaborator_error trace) Bool × imp context expr metavar_env trace)
    (h : imp.process_same_kind k e ctx a b c = some r) :
    r.2.flags = e.flags ∧ ∀ t, r.1 ≠ .error (.elaborator_exception t) := by
  unfold imp.process_same_kind at h
  repeat' (split at h)
  all_goals first
    | (cases h; done)
    | (cases h; exact ⟨rfl, fun t ht => by cases ht⟩)
    | (cases h
       refine ⟨?_, fun t ht => by cases ht⟩
       apply imp.flags_foldl
       intro _ _
       rfl)

theorem imp.process_eq_convertible_structural_frame
    (k : kernel_ops context expr metavar_env trace) (e : imp context expr metavar_env trace)
    (ctx : context) (a b : expr) (c : unification_constraint context expr trace) :
    (imp.process_eq_convertible_structural k e ctx a b c).2.flags = e.flags ∧
      ∀ t, (imp.process_eq_convertible_structural k e ctx a b c).1
        ≠ .error (.elaborator_exception t) := by
  unfold imp.process_eq_convertible_structural
  have h3 := imp.flags_process_metavar k e c a b true (!k.is_type b && !k.is_meta b)
  generalize imp.process_metavar k e c a b true (!k.is_type b && !k.is_meta b) = r3 at h3 ⊢
  dsimp only
  split
  · exact ⟨h3, fun t ht => by cases ht⟩
  · have h4 := imp.flags_process_metavar k r3.2 c b a false
      (!k.is_type a && !k.is_meta a && decide (a ≠ k.Bool_))
    generalize imp.process_metavar k r3.2 c b a false
      (!k.is_type a && !k.is_meta a && decide (a ≠ k.Bool_)) = r4 at h4 ⊢
    split
    · exact ⟨h4.trans h3, fun t ht => by cases ht⟩
    · have h5 := imp.flags_process_simple_ho_match k r4.2 ctx a b true c
      have h5e : ∀ t, (imp.process_simple_ho_match k r4.2 ctx a b true c).1
          ≠ .error (.elaborator_exception t) := by
        intro t; unfold imp.process_simple_ho_match
        repeat' split
        all_goals (intro ht; cases ht)
      generalize imp.process_simple_ho_match k r4.2 ctx a b true c = r5 at h5 h5e ⊢
      split
      · exact ⟨h5.trans (h4.trans h3), h5e⟩
      · exact ⟨h5.trans (h4.trans h3), h5e⟩
      · rename_i e1
        have h5' : e1.flags = e.flags := h5.trans (h4.trans h3)
        have h6 := imp.flags_process_simple_ho_match k e1 ctx b a false c
        have h6e : ∀ t, (imp.process_simple_ho_match k e1 ctx b a false c).1
            ≠ .error (.elaborator_exception t) := by
          intro t; unfold imp.process_simple_ho_match
          repeat' split
          all_goals (intro ht; cases ht)
        generalize imp.process_simple_ho_match k e1 ctx b a false c = r6 at h6 h6e ⊢
        split
        · exact ⟨h6.trans h5', h6e⟩
        · exact ⟨h6.trans h5', h6e⟩
        · rename_i e2
          have h6' : e2.flags = e.flags := h6.trans h5'
          split
          · exact ⟨h6', fun t ht => by cases ht⟩
          · split
            · rename_i r hr
              split at hr
              · have := imp.process_same_kind_frame k e2 ctx a b c r hr
                exact ⟨this.1.trans h6', this.2⟩
              · cases hr
            · exact ⟨(imp.flags_process_eq_convertible_rest k e2 a b c).trans h6',
                fun t ht => by cases ht⟩

end process_frame_flags

section process_frame_session

variable {context expr metavar_env trace : Type} [DecidableEq expr]

theorem imp.normalize_head_loop_error (k : kernel_ops context expr metavar_env trace)
    (c : unification_constraint context expr trace) (fuel : Nat) :
    ∀ (a b : expr) (modified : Bool) (e : imp context expr metavar_env trace)
      (r : Except (elaborator_error trace) Bool × imp context expr metavar_env trace),
      imp.normalize_head_loop k c fuel a b modified e = some r →
      ∀ t, r.1 ≠ .error (.elaborator_exception t) := by
  induction fuel with
  | zero => intro a b m e r h; simp [imp.normalize_head_loop] at h
  | succ n ih =>
    intro a b m e r h
    simp only [imp.normalize_head_loop] at h
    repeat' (split at h)
    all_goals first
      | exact ih _ _ _ _ _ h
      | (cases h; intro t ht; cases ht)

theorem imp.process_eq_convertible_frame (k : kernel_ops context expr metavar_env trace)
    (fuel : Nat) (e : imp context expr metavar_env trace) (ctx : context) (a b : expr)
    (c : unification_constraint context expr trace)
    (r : Except (elaborator_error trace) Bool × imp context expr metavar_env trace)
    (h : imp.process_eq_convertible k fuel e ctx a b c = some r) :
    r.2.flags = e.flags ∧ ∀ t, r.1 ≠ .error (.elaborator_exception t) := by
  unfold imp.process_eq_convertible at h
  split at h
  · cases h; exact ⟨rfl, fun t ht => by cases ht⟩
  · have h1 := imp.flags_process_metavar k e c a b true c.is_eq
    generalize imp.process_metavar k e c a b true c.is_eq = r1 at h h1
    dsimp only at h
    split at h
    · cases h; exact ⟨h1, fun t ht => by cases ht⟩
    · have h2 := imp.flags_process_metavar k r1.2 c b a false c.is_eq
      generalize imp.process_metavar k r1.2 c b a false c.is_eq = r2 at h h2
      split at h
      · cases h; exact ⟨h2.trans h1, fun t ht => by cases ht⟩
      · have h12 : r2.2.flags = e.flags := h2.trans h1
        split at h
        · cases h
        · rename_i x e1 heq
          cases h
          exact ⟨(imp.flags_normalize_head_loop k c fuel _ _ _ _ _ heq).trans h12,
            imp.normalize_head_loop_error k c fuel _ _ _ _ _ heq⟩
        · rename_i e1 heq
          cases h
          exact ⟨(imp.flags_normalize_head_loop k c fuel _ _ _ _ _ heq).trans h12,
            fun t ht => by cases ht⟩
        · rename_i e1 heq
          cases h
          have hf := (imp.flags_normalize_head_loop k c fuel _ _ _ _ _ heq).trans h12
          have := imp.process_eq_convertible_structural_frame k e1 ctx a b c
          exact ⟨this.1.trans hf, this.2⟩

theorem imp.process_frame (k : kernel_ops context expr metavar_env trace)
    (fuel : Nat) (e : imp context expr metavar_env trace)
    (c : unification_constraint context expr trace)
    (r : Except (elaborator_error trace) Bool × imp context expr metavar_env trace)
    (h : imp.process k fuel e c = some r) :
    r.2.flags = e.flags ∧ ∀ t, r.1 ≠ .error (.elaborator_exception t) := by
  unfold imp.process at h
  split at h
  · exact imp.process_eq_convertible_frame k fuel { e with m_quota := e.m_quota - 1 } _ _ _ c r h
  · exact imp.process_eq_convertible_frame k fuel { e with m_quota := e.m_quota - 1 } _ _ _ c r h
  · cases h; exact ⟨rfl, fun t ht => by cases ht⟩
  · cases h
    exact ⟨imp.flags_process_choice k.traces _ c, fun t ht => by cases ht⟩

theorem elaborator.next_loop_throws (k : kernel_ops context expr metavar_env trace)
    (fuel : Nat) (n : Nat) :
    ∀ (e e1 : imp context expr metavar_env trace) (x : Option trace),
      e.m_first = false →
      elaborator.next_loop k fuel n e = some (.error (.elaborator_exception x), e1) →
      elaborator.exhausted e1 := by
  induction n with
  | zero => intro e e1 x _ h; simp [elaborator.next_loop] at h
  | succ n ih =>
    intro e e1 x hf h
    unfold elaborator.next_loop at h
    split at h
    · cases h
    · rename_i hint
      split at h
      · cases h
      · rename_i c q hq
        split at h
        · cases h
        · split at h
          · cases h
          · rename_i x1 e2 hp
            have := (imp.process_frame k fuel _ c _ hp).2 x
            cases h
            exact absurd rfl this
          · rename_i e2 hp
            have hfl := (imp.process_frame k fuel _ c _ hp).1
            simp only [imp.flags, Prod.mk.injEq] at hfl
            exact ih e2 e1 x (hfl.1.trans hf) h
          · rename_i e2 hp
            have hfl := (imp.process_frame k fuel _ c _ hp).1
            simp only [imp.flags, Prod.mk.injEq] at hfl
            split at h
            · rename_i x2 e3 hr
              cases h
              have hr1 := imp.resolve_conflict_loop_throws k.traces _ _ _ _ hr
              have hr2 := imp.flags_resolve_conflict k.traces e2
              rw [hr] at hr2
              simp only [imp.flags, Prod.mk.injEq] at hr2
              refine ⟨?_, Or.inr ⟨hr1.2.1, ?_⟩⟩
              · rw [hr2.2.1, hfl.2.1]; simpa using hint
              · rw [hr2.1, hfl.1]; exact hf
            · rename_i e3 hr
              have hr2 := imp.flags_resolve_conflict k.traces e2
              rw [hr] at hr2
              simp only [imp.flags, Prod.mk.injEq] at hr2
              exact ih e3 e1 x (by rw [hr2.1, hfl.1]; exact hf) h

end process_frame_session

section no_more_solutions

variable {context expr metavar_env trace : Type} [DecidableEq expr]

theorem elaborator.next_of_exhausted (k : kernel_ops context expr metavar_env trace)
    (fuel : Nat) (e : imp context expr metavar_env trace) (h : elaborator.exhausted e) :
    ∃ x e1, elaborator.next k fuel e = some (.error (.elaborator_exception x), e1) ∧
      elaborator.exhausted e1 := by
  obtain ⟨hi, hc⟩ := h
  unfold elaborator.next
  rw [if_neg (by simp [hi])]
  by_cases hcs : e.m_conflict.isSome = true
  · rw [if_pos hcs]
    exact ⟨_, _, rfl, hi, Or.inl hcs⟩
  · rw [if_neg hcs]
    rcases hc with hc | ⟨hs, hf⟩
    · exact absurd hc hcs
    · rw [if_neg (by simp [hs]), if_neg (by simp [hf])]
      exact ⟨_, _, rfl, hi, Or.inl rfl⟩

theorem elaborator.exhausted_of_throw (k : kernel_ops context expr metavar_env trace)
    (fuel : Nat) (e e1 : imp context expr metavar_env trace) (x : Option trace)
    (hinv : elaborator.fresh_or_started e)
    (h : elaborator.next k fuel e = some (.error (.elaborator_exception x), e1)) :
    elaborator.exhausted e1 := by
  unfold elaborator.next at h
  split at h
  · cases h
  · rename_i hint
    have hint' : e.m_interrupted = false := by simpa using hint
    split at h
    · rename_i hc
      cases h
      exact ⟨hint', Or.inl hc⟩
    · rename_i hc
      split at h
      · rename_i hs
        have hf : e.m_first = false := by
          cases hfirst : e.m_first with
          | false => rfl
          | true =>
            have := (hinv hfirst).1
            simp [this] at hs
        split at h
        · rename_i x1 e2 hr
          cases h
          have hr1 := imp.resolve_conflict_loop_throws k.traces _ _ _ _ hr
          have hr2 := imp.flags_resolve_conflict k.traces
            { e with
              m_conflict :=
                some (k.traces.next_solution_trace
                  (e.m_case_splits.map (fun cs => cs.m_curr_assumption)).reverse) }
          rw [hr] at hr2
          simp only [imp.flags, Prod.mk.injEq] at hr2
          exact ⟨hr2.2.1.trans hint', Or.inl (hr1.2.2 rfl)⟩
        · rename_i e2 hr
          have hr2 := imp.flags_resolve_conflict k.traces
            { e with
              m_conflict :=
                some (k.traces.next_solution_trace
                  (e.m_case_splits.map (fun cs => cs.m_curr_assumption)).reverse) }
          rw [hr] at hr2
          simp only [imp.flags, Prod.mk.injEq] at hr2
          exact elaborator.next_loop_throws k fuel fuel (imp.reset_quota e2) e1 x (hr2.1.trans hf) h
      · split at h
        · exact elaborator.next_loop_throws k fuel fuel _ e1 x rfl h
        · cases h
          exact ⟨hint', Or.inl rfl⟩

/-- C21 (as amended): no more solutions.  In a session that is not
interrupted, a call of `next()` with a pending conflict throws
`elaborator_exception` with that conflict and changes nothing; a call without
a pending conflict that is not the first one and finds no case split throws
`elaborator_exception` with the `next_solution` conflict over no assumption,
which becomes the pending conflict, and changes nothing else (no constraint
is processed).  Once a call of `next()` has thrown `elaborator_exception`,
the session is exhausted, and every call of `next()` on an exhausted session
throws `elaborator_exception` and leaves it exhausted; after `interrupt()`
the call throws `interrupted` instead. -/
theorem elaborator.next_no_more_solutions (k : kernel_ops context expr metavar_env trace)
    (fuel : Nat) (e : imp context expr metavar_env trace) :
    (e.m_interrupted = false → ∀ t, e.m_conflict = some t →
      elaborator.next k fuel e = some (.error (.elaborator_exception (some t)), e)) ∧
    (e.m_interrupted = false → e.m_conflict = none → e.m_case_splits = [] →
      e.m_first = false →
      elaborator.next k fuel e =
        some (.error (.elaborator_exception (some (k.traces.next_solution_trace []))),
          { e with m_conflict := some (k.traces.next_solution_trace []) })) ∧
    (elaborator.fresh_or_started e → ∀ x e1,
      elaborator.next k fuel e = some (.error (.elaborator_exception x), e1) →
      elaborator.exhausted e1) ∧
    (elaborator.exhausted e → ∀ fuel1, ∃ x e1,
      elaborator.next k fuel1 e = some (.error (.elaborator_exception x), e1) ∧
      elaborator.exhausted e1) ∧
    (elaborator.exhausted e →
      elaborator.next k fuel (elaborator.interrupt e)
        = some (.error .interrupted, elaborator.interrupt e)) := by
  refine ⟨?_, ?_, ?_, ?_, ?_⟩
  · intro hi t ht
    simp [elaborator.next, hi, ht]
  · intro hi hc hs hf
    simp [elaborator.next, hi, hc, hs, hf]
  · intro hinv x e1 h
    exact elaborator.exhausted_of_throw k fuel e e1 x hinv h
  · intro h fuel1
    exact elaborator.next_of_exhausted k fuel1 e h
  · intro _
    simp [elaborator.next, elaborator.interrupt]

end no_more_solutions

/-- C21, at the session of the examples that is made with the equation
between the constants 1 and 2: the engine after `next()` has thrown is
exhausted, and the next call throws again. -/
theorem next_no_more_solutions_witness :
    elaborator.fresh_or_started
        (elaborator.mk () [.Eq () 1 2 none] : imp Unit Nat Unit Nat) ∧
      ∀ x e1,
        elaborator.next nat_code_kernel 5 (elaborator.mk () [.Eq () 1 2 none])
          = some (.error (.elaborator_exception x), e1) →
        elaborator.exhausted e1 ∧
        ∃ x2 e2, elaborator.next nat_code_kernel 5 e1
          = some (.error (.elaborator_exception x2), e2) ∧ elaborator.exhausted e2 :=
  ⟨fun _ => ⟨rfl, rfl⟩, fun x e1 h =>
    ⟨(elaborator.next_no_more_solutions nat_code_kernel 5 _).2.2.1 (fun _ => ⟨rfl, rfl⟩) x e1 h,
      (elaborator.next_no_more_solutions nat_code_kernel 5 e1).2.2.2.1
        ((elaborator.next_no_more_solutions nat_code_kernel 5 _).2.2.1
          (fun _ => ⟨rfl, rfl⟩) x e1 h) 5⟩⟩

/-- C21 (as stated) fails: in the session of the examples that is made with
the equation between the constants 1 and 2, the first `next()` throws the
unification failure (the cell 7); the second call is not the first one and
finds no case split, and it throws `elaborator_exception` with that pending
unification failure, which is not the `next_solution` conflict (the cell 9). -/
theorem next_no_more_solutions_counterexample :
    (elaborator.next nat_code_kernel 5 (elaborator.mk () [.Eq () 1 2 none])).map
        (fun r => (elaborator.thrown_conflict r.1, r.2.m_first, r.2.m_case_splits.length))
      = some (some (some 7), false, 0) ∧
    ((elaborator.next nat_code_kernel 5 (elaborator.mk () [.Eq () 1 2 none])).bind
        (fun r => (elaborator.next nat_code_kernel 5 r.2).map
          (fun r2 => elaborator.thrown_conflict r2.1)))
      = some (some (some 7)) ∧
    nat_code_kernel.traces.next_solution_trace [] = 9 := by
  decide

section occurs_check

variable {context expr metavar_env trace : Type}

theorem imp.menv_push_updated_side (e : imp context expr metavar_env trace)
    (c : unification_constraint context expr trace) (is_lhs : Bool) (a : expr)
    (tr : Option trace) :
    (imp.push_updated_side e c is_lhs a tr).m_state.m_menv = e.m_state.m_menv := by
  unfold imp.push_updated_side; split <;> split <;> rfl

theorem imp.menv_process_metavar_app (k : kernel_ops context expr metavar_env trace)
    (e : imp context expr metavar_env trace) (c : unification_constraint context expr trace)
    (a : expr) (is_lhs : Bool) :
    (imp.process_metavar_app k e c a is_lhs).2.m_state.m_menv = e.m_state.m_menv := by
  unfold imp.process_metavar_app
  split
  · exact imp.menv_push_updated_side _ _ _ _ _
  · rfl

/-- C23: the occurs check of `process_metavar`.  When `a` is an unassigned
metavariable without local context and `b` mentions `a` under the current
substitution, `process_metavar` fails, the conflict is the unification
failure of `c` and nothing else changes: no assignment is made.  And whenever
`process_metavar` changes the metavariable environment, it does so by the
assignment of `b` to the unassigned metavariable `a`, and `b` does not
mention `a` under the current substitution. -/
theorem imp.process_metavar_occurs_check (k : kernel_ops context expr metavar_env trace)
    (e : imp context expr metavar_env trace) (c : unification_constraint context expr trace)
    (a b : expr) (is_lhs allow_assignment : Bool) :
    (k.is_metavar a = true → k.is_assigned e.m_state.m_menv a = false →
      k.has_local_context a = false → k.has_metavar_in b a e.m_state.m_menv = true →
      imp.process_metavar k e c a b is_lhs allow_assignment
        = (.Failed, { e with m_conflict := some (k.traces.unification_failure_trace c) })) ∧
    ((imp.process_metavar k e c a b is_lhs allow_assignment).2.m_state.m_menv
        ≠ e.m_state.m_menv →
      k.is_metavar a = true ∧ k.is_assigned e.m_state.m_menv a = false ∧
      k.has_local_context a = false ∧ k.has_metavar_in b a e.m_state.m_menv = false ∧
      allow_assignment = true ∧
      imp.process_metavar k e c a b is_lhs allow_assignment
        = (.Processed,
            imp.reset_quota
              (imp.assign k e a b c.get_context (some (k.traces.assignment_trace c))))) := by
  constructor
  · intro h1 h2 h3 h4
    simp [imp.process_metavar, h1, h2, h3, h4]
  · intro h
    unfold imp.process_metavar at h ⊢
    by_cases h1 : k.is_metavar a = true
    · rw [if_pos h1] at h ⊢
      by_cases h2 : k.is_assigned e.m_state.m_menv a = true
      · rw [if_pos h2] at h
        exact absurd (imp.menv_push_updated_side _ _ _ _ _) h
      · rw [if_neg h2] at h ⊢
        by_cases h3 : (!k.has_local_context a) = true
        · rw [if_pos h3] at h ⊢
          by_cases h4 : k.has_metavar_in b a e.m_state.m_menv = true
          · rw [if_pos h4] at h
            exact absurd rfl h
          · rw [if_neg h4] at h ⊢
            by_cases h5 : allow_assignment = true
            · rw [if_pos h5]
              refine ⟨h1, by simpa using h2, by simpa using h3, by simpa using h4, h5, rfl⟩
            · rw [if_neg h5] at h
              exact absurd (imp.menv_process_metavar_app _ _ _ _ _) h
        · rw [if_neg h3] at h
          by_cases h6 : k.lctx_head_is_lift a = true
          · rw [if_pos h6] at h
            split at h
            · exfalso
              apply h
              dsimp only
              split <;> rfl
            · split at h
              · exact absurd rfl h
              · exact absurd (imp.menv_process_metavar_app _ _ _ _ _) h
          · rw [if_neg h6] at h
            exact absurd (imp.menv_process_metavar_app _ _ _ _ _) h
    · rw [if_neg h1] at h
      exact absurd (imp.menv_process_metavar_app _ _ _ _ _) h

end occurs_check

/-- C23, in the model: the equation between the metavariable 0 and `(f ?0)`
fails by the occurs check, and the equation between the metavariable 0 and
the constant `a`, which changes the metavariable environment, is an
assignment that passes the check. -/
theorem process_metavar_occurs_check_witness :
    imp.process_metavar simple_kernel (elaborator.mk ⟨1, []⟩ [])
        (.Eq [] (.metavar 0) (.app (.constant (name.mk_str "f")) (.metavar 0)) none)
        (.metavar 0) (.app (.constant (name.mk_str "f")) (.metavar 0)) true true
      = (.Failed,
          { (elaborator.mk ⟨1, []⟩ [] : imp simple_context simple_expr simple_menv Nat) with
            m_conflict := some 7 }) ∧
    simple_kernel.has_metavar_in (.constant (name.mk_str "a")) (.metavar 0) ⟨1, []⟩ = false :=
  ⟨(imp.process_metavar_occurs_check simple_kernel (elaborator.mk ⟨1, []⟩ [])
      (.Eq [] (.metavar 0) (.app (.constant (name.mk_str "f")) (.metavar 0)) none)
      (.metavar 0) (.app (.constant (name.mk_str "f")) (.metavar 0)) true true).1
      rfl rfl rfl (by decide),
    ((imp.process_metavar_occurs_check simple_kernel (elaborator.mk ⟨1, []⟩ [])
      (.Eq [] (.metavar 0) (.constant (name.mk_str "a")) none)
      (.metavar 0) (.constant (name.mk_str "a")) true true).2 (by decide)).2.2.2.1⟩

section interrupt_quota

variable {context expr metavar_env trace : Type} [DecidableEq expr]

/-- C24: interrupt leaves the session untouched.  After `interrupt()` the
call of `next()` throws `interrupted`, with any bound on its loops, and the
engine is the interrupted one: the queue, the metavariable environment, the
case-split stack and the pending conflict are those before `interrupt()`. -/
theorem elaborator.next_after_interrupt (k : kernel_ops context expr metavar_env trace)
    (fuel : Nat) (e : imp context expr metavar_env trace) :
    elaborator.next k fuel (elaborator.interrupt e)
        = some (.error .interrupted, elaborator.interrupt e) ∧
      (elaborator.interrupt e).m_state = e.m_state ∧
      (elaborator.interrupt e).m_case_splits = e.m_case_splits ∧
      (elaborator.interrupt e).m_conflict = e.m_conflict := by
  refine ⟨?_, rfl, rfl, rfl⟩
  simp [elaborator.next, elaborator.interrupt]

/-- C27: pushing onto the front resets the quota.  After `push_front(c)` the
queue is `c` followed by the previous queue, the metavariable environment is
unchanged and `m_quota` is the number of constraints that the queue held
before the push; `push_back(c)` appends `c` and leaves `m_quota` and the
metavariable environment unchanged; and `process` decrements `m_quota` by one
before it dispatches on the kind of the constraint. -/
theorem imp.push_front_resets_quota (k : kernel_ops context expr metavar_env trace)
    (fuel : Nat) (e : imp context expr metavar_env trace)
    (c : unification_constraint context expr trace) :
    ((imp.push_front e c).m_state.m_queue = c :: e.m_state.m_queue ∧
      (imp.push_front e c).m_state.m_menv = e.m_state.m_menv ∧
      (imp.push_front e c).m_quota = (e.m_state.m_queue.length : Int)) ∧
    ((imp.push_back e c).m_state.m_queue = e.m_state.m_queue ++ [c] ∧
      (imp.push_back e c).m_state.m_menv = e.m_state.m_menv ∧
      (imp.push_back e c).m_quota = e.m_quota) ∧
    (∀ ctx a b tr,
      imp.process k fuel e (.Eq ctx a b tr)
        = imp.process_eq_convertible k fuel { e with m_quota := e.m_quota - 1 } ctx a b
            (.Eq ctx a b tr)) ∧
    (∀ ctx a b tr,
      imp.process k fuel e (.Convertible ctx a b tr)
        = imp.process_eq_convertible k fuel { e with m_quota := e.m_quota - 1 } ctx a b
            (.Convertible ctx a b tr)) ∧
    (∀ ctx m l1 l2 tr,
      imp.process k fuel e (.Max ctx m l1 l2 tr)
        = some (.ok true, { e with m_quota := e.m_quota - 1 })) ∧
    (∀ ctx m cs tr,
      imp.process k fuel e (.Choice ctx m cs tr)
        = some (.ok (imp.process_choice k.traces { e with m_quota := e.m_quota - 1 }
              (.Choice ctx m cs tr)).1,
            (imp.process_choice k.traces { e with m_quota := e.m_quota - 1 }
              (.Choice ctx m cs tr)).2)) :=
  ⟨⟨rfl, rfl, rfl⟩, ⟨rfl, rfl, rfl⟩, fun _ _ _ _ => rfl, fun _ _ _ _ => rfl,
    fun _ _ _ _ _ => rfl, fun _ _ _ _ => rfl⟩

end interrupt_quota

section structural

variable {context expr metavar_env trace : Type}

theorem imp.process_metavar_rigid (k : kernel_ops context expr metavar_env trace)
    (e : imp context expr metavar_env trace) (c : unification_constraint context expr trace)
    (a b : expr) (is_lhs allow_assignment : Bool) (ha : k.is_metavar a = false)
    (hm : k.is_meta_app a = false) :
    imp.process_metavar k e c a b is_lhs allow_assignment = (.Continue, e) := by
  unfold imp.process_metavar
  simp [ha, imp.process_metavar_app_continue k e c a is_lhs hm]

variable [DecidableEq expr]

/-- The stages of `process` before the switch on the kinds: for sides that
are different, are no metavariables and no applications of a metavariable,
that `normalize_head` leaves as they are, and that are not `Bool` and a type
in a convertibility constraint, `process` gets to the switch on the kinds of
the sides, and after it to the last stages. -/
theorem imp.process_reaches_switch (k : kernel_ops context expr metavar_env trace)
    (fuel : Nat) (e : imp context expr metavar_env trace) (ctx : context) (a b : expr)
    (tr : Option trace) (c : unification_constraint context expr trace)
    (hc : c = .Eq ctx a b tr ∨ c = .Convertible ctx a b tr) (hab : a ≠ b)
    (ha : k.is_metavar a = false) (hma : k.is_meta_app a = false)
    (hb : k.is_metavar b = false) (hmb : k.is_meta_app b = false)
    (hnh : imp.normalize_head k fuel { e with m_quota := e.m_quota - 1 } a b c
      = some (.ok false, { e with m_quota := e.m_quota - 1 }))
    (hbool : (!c.is_eq && decide (a = k.Bool_) && k.is_type b) = false) :
    imp.process k fuel e c =
      some (match (if k.kind a = k.kind b then
            imp.process_same_kind k { e with m_quota := e.m_quota - 1 } ctx a b c else none) with
        | some r => r
        | none =>
          (.ok (imp.process_eq_convertible_rest k { e with m_quota := e.m_quota - 1 } a b c).1,
            (imp.process_eq_convertible_rest k { e with m_quota := e.m_quota - 1 } a b c).2)) := by
  have key : imp.process k fuel e c
      = imp.process_eq_convertible k fuel { e with m_quota := e.m_quota - 1 } ctx a b c := by
    rcases hc with rfl | rfl <;> rfl
  rw [key]
  simp only [imp.process_eq_convertible, if_neg hab,
    imp.process_metavar_rigid k _ _ a b _ _ ha hma,
    imp.process_metavar_rigid k _ _ b a _ _ hb hmb, hnh,
    imp.process_eq_convertible_structural,
    imp.process_simple_ho_match_false k _ ctx a b _ _ hma,
    imp.process_simple_ho_match_false k _ ctx b a _ _ hmb, hbool]
  rfl

end structural

section decomposition

variable {context expr metavar_env trace : Type} [DecidableEq expr]

/-- C26: Pi decomposition.  For an equality or convertibility constraint `c`
between two Pi terms, or two lambdas, that are different and that
`normalize_head` leaves as they are, `process` returns true and pushes two
constraints at the front of the queue, both justified by `destruct(c)`: first
the equation of the domains in the context of `c`, then, in front of it, the
constraint of the bodies in the context extended with the binder of the
left-hand side; the latter is a convertibility constraint when `c` is one and
the sides are Pi terms, and an equation otherwise.  Nothing else changes but
the quota. -/
theorem imp.process_pi_decomposition (k : kernel_ops context expr metavar_env trace)
    (fuel : Nat) (e : imp context expr metavar_env trace) (ctx : context) (a b : expr)
    (tr : Option trace) (c : unification_constraint context expr trace)
    (hc : c = .Eq ctx a b tr ∨ c = .Convertible ctx a b tr) (hab : a ≠ b)
    (hk : k.kind a = .Pi ∨ k.kind a = .Lambda) (hkb : k.kind b = k.kind a)
    (hnh : imp.normalize_head k fuel { e with m_quota := e.m_quota - 1 } a b c
      = some (.ok false, { e with m_quota := e.m_quota - 1 })) :
    imp.process k fuel e c =
      some (.ok true,
        imp.push_front
          (imp.push_front { e with m_quota := e.m_quota - 1 }
            (.Eq ctx (k.abst_domain a) (k.abst_domain b) (some (k.traces.destruct_trace c))))
          (if k.kind a = .Pi ∧ c.is_eq = false then
            .Convertible (k.ctx_extend ctx (k.abst_name a) (k.abst_domain a)) (k.abst_body a)
              (k.abst_body b) (some (k.traces.destruct_trace c))
          else
            .Eq (k.ctx_extend ctx (k.abst_name a) (k.abst_domain a)) (k.abst_body a)
              (k.abst_body b) (some (k.traces.destruct_trace c)))) ∧
    ∀ r, imp.process k fuel e c = some r →
      r.2.m_state.m_menv = e.m_state.m_menv ∧ r.2.m_case_splits = e.m_case_splits ∧
      r.2.m_conflict = e.m_conflict ∧
      ∃ body, r.2.m_state.m_queue
        = body :: .Eq ctx (k.abst_domain a) (k.abst_domain b)
            (some (k.traces.destruct_trace c)) :: e.m_state.m_queue := by
  have ha : k.is_metavar a = false := by
    rcases hk with h | h <;> simp [kernel_ops.is_metavar, h]
  have hb : k.is_metavar b = false := by
    rcases hk with h | h <;> simp [kernel_ops.is_metavar, hkb, h]
  have hma : k.is_meta_app a = false := by
    rcases hk with h | h <;> simp [kernel_ops.is_meta_app, kernel_ops.is_app, h]
  have hmb : k.is_meta_app b = false := by
    rcases hk with h | h <;> simp [kernel_ops.is_meta_app, kernel_ops.is_app, hkb, h]
  have hbool : (!c.is_eq && decide (a = k.Bool_) && k.is_type b) = false := by
    rcases hk with h | h <;> simp [kernel_ops.is_type, hkb, h]
  have key := imp.process_reaches_switch k fuel e ctx a b tr c hc hab ha hma hb hmb hnh hbool
  have main : imp.process k fuel e c =
      some (.ok true,
        imp.push_front
          (imp.push_front { e with m_quota := e.m_quota - 1 }
            (.Eq ctx (k.abst_domain a) (k.abst_domain b) (some (k.traces.destruct_trace c))))
          (if k.kind a = .Pi ∧ c.is_eq = false then
            .Convertible (k.ctx_extend ctx (k.abst_name a) (k.abst_domain a)) (k.abst_body a)
              (k.abst_body b) (some (k.traces.destruct_trace c))
          else
            .Eq (k.ctx_extend ctx (k.abst_name a) (k.abst_domain a)) (k.abst_body a)
              (k.abst_body b) (some (k.traces.destruct_trace c)))) := by
    rw [key, if_pos hkb.symm]
    rcases hk with h | h
    · simp only [imp.process_same_kind, h]
      cases hceq : c.is_eq <;> simp
    · simp only [imp.process_same_kind, h]
      simp
  refine ⟨main, ?_⟩
  intro r hr
  rw [main] at hr
  cases hr
  exact ⟨rfl, rfl, rfl, _, rfl⟩

/-- C28: kind-mismatch failure.  For an equality or convertibility constraint
`c` between sides of different kinds that hold no metavariable, and that the
earlier stages of `process` leave alone (the sides are no metavariables and
no applications of a metavariable, `normalize_head` leaves them as they are,
they are not `Bool` and a type in a convertibility constraint, and they hold
no assigned metavariable), `process` returns false with the conflict
`unification_failure(c)`, and changes nothing else but the quota. -/
theorem imp.process_kind_mismatch (k : kernel_ops context expr metavar_env trace)
    (fuel : Nat) (e : imp context expr metavar_env trace) (ctx : context) (a b : expr)
    (tr : Option trace) (c : unification_constraint context expr trace)
    (hc : c = .Eq ctx a b tr ∨ c = .Convertible ctx a b tr) (hab : a ≠ b)
    (ha : k.is_metavar a = false) (hma : k.is_meta_app a = false)
    (hb : k.is_metavar b = false) (hmb : k.is_meta_app b = false)
    (hnh : imp.normalize_head k fuel { e with m_quota := e.m_quota - 1 } a b c
      = some (.ok false, { e with m_quota := e.m_quota - 1 }))
    (hbool : (!c.is_eq && decide (a = k.Bool_) && k.is_type b) = false)
    (hkind : k.kind a ≠ k.kind b)
    (hasa : k.has_assigned_metavar a e.m_state.m_menv = false)
    (hasb : k.has_assigned_metavar b e.m_state.m_menv = false)
    (hmva : k.has_metavar a = false) (hmvb : k.has_metavar b = false) :
    imp.process k fuel e c =
      some (.ok false,
        { e with
          m_quota := e.m_quota - 1,
          m_conflict := some (k.traces.unification_failure_trace c) }) := by
  rw [imp.process_reaches_switch k fuel e ctx a b tr c hc hab ha hma hb hmb hnh hbool,
    if_neg hkind]
  simp [imp.process_eq_convertible_rest, imp.instantiate_metavars, hasa, hasb, hkind, hmva,
    hmvb]

end decomposition

/-- C26, in the model: the convertibility constraint between
`Pi x : Type 0, x` and `Pi x : Type 1, x` pushes the convertibility
constraint of the bodies in front of the equation of the domains. -/
theorem process_pi_decomposition_witness :
    (imp.process simple_kernel 1 (elaborator.mk ⟨0, []⟩ [])
        (.Convertible [] (.pi (.type 0) (.var 0)) (.pi (.type 1) (.var 0)) none)).map
      (fun r => r.2.m_state.m_queue)
      = some [.Convertible [(.type 0, none)] (.var 0) (.var 0) (some 4),
          .Eq [] (.type 0) (.type 1) (some 4)] := by
  rw [(imp.process_pi_decomposition simple_kernel 1 (elaborator.mk ⟨0, []⟩ []) []
    (.pi (.type 0) (.var 0)) (.pi (.type 1) (.var 0)) none
    (.Convertible [] (.pi (.type 0) (.var 0)) (.pi (.type 1) (.var 0)) none)
    (Or.inr rfl) (by decide) (Or.inl rfl) rfl
    (imp.normalize_head_stable simple_kernel 0 _ _ _ _ rfl (by decide) (by decide) (by decide)
      (by decide))).1]
  rfl

/-- C28, in the kernel of the examples: the equation between the constant 5
and the application `(1 2)` fails with the unification failure. -/
theorem process_kind_mismatch_witness :
    imp.process nat_code_kernel 1 (example_engine [] none) (.Eq () 5 102 none)
      = some (.ok false,
          { example_engine [] none with
            m_quota := (example_engine [] none).m_quota - 1,
            m_conflict := some 7 }) :=
  imp.process_kind_mismatch nat_code_kernel 1 (example_engine [] none) () 5 102 none
    (.Eq () 5 102 none) (Or.inl rfl) (by decide) rfl rfl rfl rfl rfl rfl (by decide) rfl rfl
    rfl rfl

section solve_metavar

variable {context expr metavar_env trace : Type} [DecidableEq expr]

/-- C22 (as amended): solving `?m = t`.  In the session made with the single
constraint `Eq(ctx, ?m, t)`, where `?m` is an unassigned metavariable without
local context and without declared type and `t` is different from `?m` and
does not mention it, the first `next()` returns the substitutions of the
metavariable environment in which `t` has been assigned to `?m` (justified
by the assignment trace of the constraint), with an empty queue and no case
split.  The same holds for `Eq(ctx, t, ?m)` when `t` is not a metavariable
and not the application of an assigned metavariable. -/
theorem elaborator.next_solves_metavar (k : kernel_ops context expr metavar_env trace)
    (fuel : Nat) (menv : metavar_env) (ctx : context) (m t : expr) (tr : Option trace)
    (hmt : m ≠ t) (hm : k.is_metavar m = true) (hna : k.is_assigned menv m = false)
    (hlc : k.has_local_context m = false) (hocc : k.has_metavar_in t m menv = false)
    (hty : ∀ j, k.has_type (k.assign menv m t j) m = false) :
    elaborator.next k (fuel + 2) (elaborator.mk menv [.Eq ctx m t tr])
      = some (.ok (k.assign menv m t (some (k.traces.assignment_trace (.Eq ctx m t tr)))),
          { elaborator.mk
              (k.assign menv m t (some (k.traces.assignment_trace (.Eq ctx m t tr)))) [] with
            m_first := false }) ∧
    (k.is_metavar t = false →
      (k.is_app t && k.is_metavar (k.arg t 0) && k.is_assigned menv (k.arg t 0)) = false →
      elaborator.next k (fuel + 2) (elaborator.mk menv [.Eq ctx t m tr])
        = some (.ok (k.assign menv m t (some (k.traces.assignment_trace (.Eq ctx t m tr)))),
            { elaborator.mk
                (k.assign menv m t (some (k.traces.assignment_trace (.Eq ctx t m tr)))) [] with
              m_first := false })) := by
  constructor
  · have hp : ∀ q : Int, imp.process k (fuel + 2)
        { elaborator.mk menv [] with m_first := false, m_quota := q } (.Eq ctx m t tr)
        = some (.ok true,
          { elaborator.mk
              (k.assign menv m t (some (k.traces.assignment_trace (.Eq ctx m t tr)))) [] with
            m_first := false }) := by
      intro q
      simp [imp.process, unification_constraint.kind, imp.process_eq_convertible, hmt,
        imp.process_metavar, hm, hna, hlc, hocc, unification_constraint.is_eq,
        unification_constraint.eq_lhs, unification_constraint.eq_rhs,
        unification_constraint.get_context, imp.assign, hty, imp.reset_quota, elaborator.mk]
    simp only [elaborator.mk] at hp
    simp [elaborator.next, elaborator.mk, imp.reset_quota, elaborator.next_loop, hp]
  · intro ht ht4
    have hp : ∀ q : Int, imp.process k (fuel + 2)
        { elaborator.mk menv [] with m_first := false, m_quota := q } (.Eq ctx t m tr)
        = some (.ok true,
          { elaborator.mk
              (k.assign menv m t (some (k.traces.assignment_trace (.Eq ctx t m tr)))) [] with
            m_first := false }) := by
      intro q
      simp [imp.process, unification_constraint.kind, imp.process_eq_convertible, Ne.symm hmt,
        imp.process_metavar, imp.process_metavar_app, ht, ht4, hm, hna, hlc, hocc,
        unification_constraint.is_eq,
        unification_constraint.eq_lhs, unification_constraint.eq_rhs,
        unification_constraint.get_context, imp.assign, hty, imp.reset_quota, elaborator.mk]
    simp only [elaborator.mk] at hp
    simp [elaborator.next, elaborator.mk, imp.reset_quota, elaborator.next_loop, hp]

end solve_metavar

/-- C22, in the model: the session made with the equation between the
metavariable 0 and the constant `a` returns the environment in which `a` is
assigned to the metavariable. -/
theorem next_solves_metavar_witness :
    elaborator.next simple_kernel 2
        (elaborator.mk ⟨1, []⟩ [.Eq [] (.metavar 0) (.constant (name.mk_str "a")) none])
      = some (.ok ⟨1, [(0, .constant (name.mk_str "a"), some 5)]⟩,
          { elaborator.mk ⟨1, [(0, .constant (name.mk_str "a"), some 5)]⟩ [] with
            m_first := false }) :=
  (elaborator.next_solves_metavar simple_kernel 0 ⟨1, []⟩ [] (.metavar 0)
    (.constant (name.mk_str "a")) none (by decide) rfl rfl rfl (by decide) (fun _ => rfl)).1

/-- C22 (as stated) fails: in the session made with the equation
`Eq(ctx, ?1, ?0)`, where the term `?1` is another unassigned metavariable,
different from `?0` and without an occurrence of it, the first `next()`
assigns `?0` to `?1`: the substitution that is returned maps `?1` to `?0`,
and `?0` is not assigned. -/
theorem next_solves_metavar_counterexample :
    (elaborator.next simple_kernel 2
        (elaborator.mk ⟨2, []⟩ [.Eq [] (.metavar 1) (.metavar 0) none])).map
      (fun r => (r.1.toOption, r.2.m_case_splits.length))
      = some (some ⟨2, [(1, .metavar 0, some 5)]⟩, 0) ∧
    simple_kernel.is_assigned ⟨2, [(1, .metavar 0, some 5)]⟩ (.metavar 0) = false ∧
    simple_kernel.has_metavar_in (.metavar 1) (.metavar 0) ⟨2, []⟩ = false ∧
    (simple_expr.metavar 1 ≠ simple_expr.metavar 0) := by
  decide

section simple_ho_match

variable {context expr metavar_env trace : Type}

theorem list_mapM'_option_forall₂ {α β : Type} (f : α → Option β) :
    ∀ (l : List α) (r : List β), l.mapM' f = some r →
      List.Forall₂ (fun x y => f x = some y) l r := by
  intro l
  induction l with
  | nil =>
    intro r h
    simp [List.mapM'] at h
    subst h
    exact List.Forall₂.nil
  | cons x xs ih =>
    intro r h
    simp only [List.mapM', Option.bind_eq_bind, Option.pure_def] at h
    cases hx : f x with
    | none => simp [hx] at h
    | some y =>
      cases hxs : xs.mapM' f with
      | none => simp [hx, hxs] at h
      | some ys =>
        simp [hx, hxs] at h
        subst h
        exact List.Forall₂.cons hx (ih ys hxs)

theorem list_mapM_option_forall₂ {α β : Type} (f : α → Option β) (l : List α) (r : List β)
    (h : l.mapM f = some r) : List.Forall₂ (fun x y => f x = some y) l r :=
  list_mapM'_option_forall₂ f l r ((List.mapM'_eq_mapM f l).trans h)

/-- C30 (as amended): the simple higher-order match.  `are_args_vars` holds
exactly when every argument of `a` is a variable without let-body in the
context (a variable that the context does not have has none); the arguments
need not be pairwise distinct.  `process_simple_ho_match` returns true
exactly when the constraint is an equality, `a` is `(?m v_1 ... v_k)` with
such arguments, `b` is closed, and the context has a domain `T_i` for every
`v_i`; it then pushes at the front the equation between `?m` and
`fun x_1 : T_1 ... x_k : T_k, b` (the sides swapped when `a` is the
right-hand side), justified by `destruct(c)`, and changes nothing else.  When
the other conditions hold and the context lacks one of the variables, the
lookup throws; otherwise the result is false and nothing changes. -/
theorem imp.process_simple_ho_match_iff (k : kernel_ops context expr metavar_env trace)
    (e : imp context expr metavar_env trace) (ctx : context) (a b : expr) (is_lhs : Bool)
    (c : unification_constraint context expr trace) :
    (imp.are_args_vars k ctx a = true ↔
      ∀ x ∈ (k.args a).drop 1, k.is_var x = true ∧ k.lookup_body ctx (k.var_idx x) = none) ∧
    ((imp.process_simple_ho_match k e ctx a b is_lhs c).1 = .ok true ↔
      c.is_eq = true ∧ k.is_meta_app a = true ∧ imp.are_args_vars k ctx a = true ∧
      k.closed b = true ∧
      ∃ types, ((k.args a).drop 1).mapM (fun x => k.lookup_domain ctx (k.var_idx x))
        = some types) ∧
    (∀ types, c.is_eq = true → k.is_meta_app a = true → imp.are_args_vars k ctx a = true →
      k.closed b = true →
      ((k.args a).drop 1).mapM (fun x => k.lookup_domain ctx (k.var_idx x)) = some types →
      List.Forall₂ (fun x T => k.lookup_domain ctx (k.var_idx x) = some T)
        ((k.args a).drop 1) types ∧
      imp.process_simple_ho_match k e ctx a b is_lhs c
        = (.ok true,
            imp.push_front e
              (if is_lhs then
                .Eq ctx (k.arg a 0) (k.mk_lambdas types b) (some (k.traces.destruct_trace c))
              else
                .Eq ctx (k.mk_lambdas types b) (k.arg a 0)
                  (some (k.traces.destruct_trace c))))) ∧
    (c.is_eq = true → k.is_meta_app a = true → imp.are_args_vars k ctx a = true →
      k.closed b = true →
      ((k.args a).drop 1).mapM (fun x => k.lookup_domain ctx (k.var_idx x)) = none →
      imp.process_simple_ho_match k e ctx a b is_lhs c = (.error .kernel_failure, e)) ∧
    (¬ (c.is_eq = true ∧ k.is_meta_app a = true ∧ imp.are_args_vars k ctx a = true ∧
        k.closed b = true) →
      imp.process_simple_ho_match k e ctx a b is_lhs c = (.ok false, e)) := by
  refine ⟨?_, ?_, ?_, ?_, ?_⟩
  · simp [imp.are_args_vars, imp.has_body, List.all_eq_true]
  · unfold imp.process_simple_ho_match
    by_cases hcond : (c.is_eq && k.is_meta_app a && imp.are_args_vars k ctx a && k.closed b) = true
    · rw [if_pos hcond]
      simp only [Bool.and_eq_true] at hcond
      cases hm : ((k.args a).drop 1).mapM (fun x => k.lookup_domain ctx (k.var_idx x)) with
      | none => simp
      | some types =>
        cases is_lhs <;> simp [hcond]
    · rw [if_neg hcond]
      simp only [Bool.and_eq_true] at hcond
      constructor
      · intro h; cases h
      · intro h; exact absurd ⟨⟨⟨h.1, h.2.1⟩, h.2.2.1⟩, h.2.2.2.1⟩ hcond
  · intro types h1 h2 h3 h4 hm
    refine ⟨list_mapM_option_forall₂ _ _ _ hm, ?_⟩
    unfold imp.process_simple_ho_match
    simp only [h1, h2, h3, h4, hm, Bool.and_self, if_true]
    cases is_lhs <;> simp
  · intro h1 h2 h3 h4 hm
    unfold imp.process_simple_ho_match
    simp only [h1, h2, h3, h4, hm, Bool.and_self, if_true]
  · intro h
    unfold imp.process_simple_ho_match
    rw [if_neg]
    simpa [Bool.and_eq_true, and_assoc] using h

end simple_ho_match

/-- C30, in the model: the equation between `(?0 #0 #1)` and the constant
`c`, in a context with the domains `T` and `U`, pushes the equation between
`?0` and `fun x_0 : T, fun x_1 : U, c`. -/
theorem process_simple_ho_match_iff_witness :
    imp.process_simple_ho_match simple_kernel (elaborator.mk ⟨1, []⟩ []) example_ho_context
        (example_ho_app 0 1) (.constant (name.mk_str "c")) true (example_ho_constraint 0 1)
      = (.ok true,
          imp.push_front (elaborator.mk ⟨1, []⟩ [])
            (.Eq example_ho_context (.metavar 0)
              (.lambda (.constant (name.mk_str "T"))
                (.lambda (.constant (name.mk_str "U")) (.constant (name.mk_str "c"))))
              (some 4))) :=
  ((imp.process_simple_ho_match_iff simple_kernel (elaborator.mk ⟨1, []⟩ []) example_ho_context
    (example_ho_app 0 1) (.constant (name.mk_str "c")) true (example_ho_constraint 0 1)).2.2.1
    [.constant (name.mk_str "T"), .constant (name.mk_str "U")] rfl rfl rfl rfl
    (by decide)).2

/-- C30 (as stated) fails: the equation between `(?0 #0 #0)`, whose two
arguments are the same variable, and the constant `c` is solved by the simple
higher-order match, which pushes the equation between `?0` and
`fun x_0 : T, fun x_1 : T, c`. -/
theorem process_simple_ho_match_iff_counterexample :
    Except.toOption
        (imp.process_simple_ho_match simple_kernel (elaborator.mk ⟨1, []⟩ [])
          example_ho_context (example_ho_app 0 0) (.constant (name.mk_str "c")) true
          (example_ho_constraint 0 0)).1 = some true ∧
    (simple_kernel.args (example_ho_app 0 0)).drop 1 = [.var 0, .var 0] ∧
    List.map (fun c => (c.eq_lhs, c.eq_rhs))
        (imp.process_simple_ho_match simple_kernel (elaborator.mk ⟨1, []⟩ [])
          example_ho_context (example_ho_app 0 0) (.constant (name.mk_str "c")) true
          (example_ho_constraint 0 0)).2.m_state.m_queue
      = [(.metavar 0,
          .lambda (.constant (name.mk_str "T"))
            (.lambda (.constant (name.mk_str "T")) (.constant (name.mk_str "c"))))] := by
  decide

section flex_rigid

variable {context expr metavar_env trace : Type}

theorem imp.add_projections_spec (k : kernel_ops context expr metavar_env trace) (a b : expr)
    (is_lhs : Bool) (c : unification_constraint context expr trace) (arg_types : List expr) :
    ∀ (n off : Nat) (cs : List (state context expr metavar_env trace) × List (Option trace))
      (e : imp context expr metavar_env trace), e.m_next_id < UNSIGNED_RANGE →
      imp.add_projections k a b is_lhs c arg_types
          ((List.range n).map (fun j => j + off + 1)) cs e
        = ((cs.1 ++ (List.range n).map (fun j =>
              imp.projection_alternative k a b is_lhs c arg_types e.m_state
                (some (k.traces.assumption_trace ((e.m_next_id + j) % UNSIGNED_RANGE)))
                (j + off + 1)),
            cs.2 ++ (List.range n).map (fun j =>
              some (k.traces.assumption_trace ((e.m_next_id + j) % UNSIGNED_RANGE)))),
          { e with m_next_id := (e.m_next_id + n) % UNSIGNED_RANGE }) := by
  intro n
  induction n with
  | zero =>
    intro off cs e he
    simp [imp.add_projections, Nat.mod_eq_of_lt he]
  | succ n ih =>
    intro off cs e he
    have hlt : (e.m_next_id + 1) % UNSIGNED_RANGE < UNSIGNED_RANGE :=
      Nat.mod_lt _ (by decide)
    have hcomp : ((fun j => j + off + 1) ∘ Nat.succ) = (fun j => j + (off + 1) + 1) := by
      funext j; simp only [Function.comp, Nat.succ_eq_add_one]; omega
    have hid : ∀ j, ((e.m_next_id + 1) % UNSIGNED_RANGE + j) % UNSIGNED_RANGE
        = (e.m_next_id + (j + 1)) % UNSIGNED_RANGE := by
      intro j; unfold UNSIGNED_RANGE; omega
    rw [List.range_succ_eq_map, List.map_cons, List.map_map, hcomp]
    simp only [imp.add_projections]
    rw [ih (off + 1) _ _ (by simpa [imp.mk_assumption] using hlt)]
    simp only [imp.mk_assumption, hid, List.map_cons, List.map_map, Nat.add_zero,
      Nat.mod_eq_of_lt he, Nat.zero_add, List.append_assoc, List.singleton_append]
    refine Prod.ext (Prod.ext ?_ ?_) ?_
    · simp only [imp.projection_alternative, imp.push_new_eq_constraint,
        imp.push_new_constraint_queue, Function.comp, Nat.succ_eq_add_one]
      have hj : ∀ j, j + 1 + off + 1 = j + (off + 1) + 1 := fun j => by omega
      cases c.is_eq <;> cases is_lhs <;> simp [hj]
    · simp [Function.comp]
    · rfl

end flex_rigid

section flex_rigid_core

variable {context expr metavar_env trace : Type}

theorem imp.next_id_foldl_push_front (cs : List (unification_constraint context expr trace)) :
    ∀ e : imp context expr metavar_env trace,
      (cs.foldl imp.push_front e).m_next_id = e.m_next_id := by
  induction cs with
  | nil => intro e; rfl
  | cons c cs ih => intro e; simp only [List.foldl]; rw [ih]; rfl

theorem imp.infer_arg_types_spec (k : kernel_ops context expr metavar_env trace)
    (ctx : context) (xs : List expr) :
    ∀ (arg_types : List expr) (ucs : List (unification_constraint context expr trace))
      (e : imp context expr metavar_env trace),
      (imp.infer_arg_types k ctx xs arg_types ucs e).1.length = arg_types.length + xs.length ∧
      (imp.infer_arg_types k ctx xs arg_types ucs e).2.m_next_id = e.m_next_id := by
  induction xs with
  | nil => intro at1 ucs e; exact ⟨rfl, rfl⟩
  | cons x xs ih =>
    intro at1 ucs e
    simp only [imp.infer_arg_types]
    have := ih (at1 ++ [(k.type_inferer x ctx e.m_state.m_menv).1])
      (ucs ++ (k.type_inferer x ctx e.m_state.m_menv).2.2)
      ((ucs ++ (k.type_inferer x ctx e.m_state.m_menv).2.2).foldl imp.push_front
        { e with
          m_state := { e.m_state with m_menv := (k.type_inferer x ctx e.m_state.m_menv).2.1 } })
    refine ⟨?_, ?_⟩
    · rw [this.1]; simp; omega
    · rw [this.2, imp.next_id_foldl_push_front]

theorem range_mod_nodup (x n R : Nat) (h : n ≤ R) :
    ((List.range n).map (fun j => (x + j) % R)).Nodup := by
  rw [List.nodup_map_iff_inj_on (List.nodup_range n)]
  intro i hi j hj hij
  simp only [List.mem_range] at hi hj
  have h1 : (x + i) % R = (x + j) % R := hij
  by_contra hne
  rcases Nat.lt_or_gt_of_ne hne with hlt | hlt
  · have : (x + j - (x + i)) % R = 0 := Nat.sub_mod_eq_zero_of_mod_eq h1.symm
    have h2 : x + j - (x + i) = j - i := by omega
    rw [h2] at this
    have h3 : (j - i) % R = j - i := Nat.mod_eq_of_lt (by omega)
    omega
  · have : (x + i - (x + j)) % R = 0 := Nat.sub_mod_eq_zero_of_mod_eq h1
    have h2 : x + i - (x + j) = i - j := by omega
    rw [h2] at this
    have h3 : (i - j) % R = i - j := Nat.mod_eq_of_lt (by omega)
    omega

end flex_rigid_core

section beta_projection

theorem simple_expr.lift_free_vars_zero (e : simple_expr) :
    ∀ s, simple_expr.lift_free_vars e s 0 = e := by
  induction e with
  | var i => intro s; simp [simple_expr.lift_free_vars]
  | constant n => intro s; rfl
  | type k => intro s; rfl
  | app f a ihf iha => intro s; simp [simple_expr.lift_free_vars, ihf, iha]
  | lambda d b ihd ihb => intro s; simp [simple_expr.lift_free_vars, ihd, ihb]
  | pi d b ihd ihb => intro s; simp [simple_expr.lift_free_vars, ihd, ihb]
  | eq l r ihl ihr => intro s; simp [simple_expr.lift_free_vars, ihl, ihr]
  | metavar n => intro s; rfl

theorem simple_expr.strip_lambdas_foldr (f : Nat → simple_expr) (body : simple_expr)
    (l : List Nat) :
    simple_expr.strip_lambdas (l.foldr (fun i r => simple_expr.lambda (f i) r) body) l.length
      = (l.length, body) := by
  induction l with
  | nil => cases body <;> rfl
  | cons i l ih => simp [simple_expr.strip_lambdas, ih]

theorem simple_expr.strip_lambdas_mk_lambdas (types : List simple_expr) (body : simple_expr) :
    simple_expr.strip_lambdas (simple_kernel.mk_lambdas types body) types.length
      = (types.length, body) := by
  have := simple_expr.strip_lambdas_foldr (fun i => types.getD i body) body
    (List.range types.length)
  rw [List.length_range] at this
  exact this

theorem simple_expr.apply_beta_projection (types as : List simple_expr) (p : Nat)
    (hlen : types.length = as.length) (hp : p < as.length) :
    simple_expr.apply_beta
        (simple_kernel.mk_lambdas types (simple_kernel.mk_var (as.length - 1 - p))) as
      = as.getD p (.var 0) := by
  have hs := simple_expr.strip_lambdas_mk_lambdas types
    (simple_kernel.mk_var (as.length - 1 - p))
  rw [hlen] at hs
  unfold simple_expr.apply_beta
  rw [hs]
  simp only [List.take_length, List.drop_length, simple_expr.mk_app, List.foldl,
    simple_expr.instantiate_list]
  have h1 : ¬ (as.length - 1 - p < 0) := by omega
  have h2 : as.length - 1 - p - 0 < as.length := by omega
  show simple_expr.instantiate_at (simple_expr.var (as.length - 1 - p)) 0 as = _
  simp only [simple_expr.instantiate_at]
  rw [if_neg h1, if_pos h2, simple_expr.lift_free_vars_zero,
    List.getD_eq_getElem _ _ (by omega), List.getD_eq_getElem _ _ hp]
  congr 1
  omega

end beta_projection

section flex_rigid_split

variable {context expr metavar_env trace : Type}

/-- C29: the flex-rigid split.  For `a = (?m a_1 ... a_n)`, with
`n = num_args(a) - 1`, `process_meta_app_core` infers one type per argument
(the types `arg_types`, in the engine `e1`) and adds to `new_cs` the `n`
projection alternatives, in the order of the arguments, and then one
imitation alternative.  The alternative `j` (counted from 0) is guarded by
the assumption with the identifier `m_next_id + j` (modulo `2^32`), and these
`n + 1` identifiers are pairwise distinct.  The alternative of the argument
`i` is the state after the type inference with the constraint between `a_i`
and `b`, of the kind of `c`, and the equation between `?m` and
`fun x_1 ... x_n, x_i`, whose body is the variable `n - i`.  In the model of
the expressions, the projection term applied to `a_1 ... a_n` beta-reduces
to `a_i`. -/
theorem imp.process_meta_app_core_alternatives (k : kernel_ops context expr metavar_env trace)
    (new_cs : List (state context expr metavar_env trace) × List (Option trace))
    (e e1 : imp context expr metavar_env trace) (a b : expr) (is_lhs : Bool)
    (c : unification_constraint context expr trace) (arg_types : List expr)
    (hid : e.m_next_id < UNSIGNED_RANGE) (hn : k.num_args a ≤ UNSIGNED_RANGE)
    (hargs : 1 ≤ k.num_args a)
    (ht : imp.infer_arg_types k c.get_context ((k.args a).drop 1) [] [] e = (arg_types, e1)) :
    arg_types.length = k.num_args a - 1 ∧
    (imp.process_meta_app_core k new_cs e a b is_lhs c).1.1
      = new_cs.1 ++
        (List.range (k.num_args a - 1)).map (fun j =>
          imp.projection_alternative k a b is_lhs c arg_types e1.m_state
            (some (k.traces.assumption_trace ((e.m_next_id + j) % UNSIGNED_RANGE))) (j + 1)) ++
        [imp.imitation_alternative k a b c arg_types e1.m_state
          (some (k.traces.assumption_trace
            ((e.m_next_id + (k.num_args a - 1)) % UNSIGNED_RANGE)))] ∧
    (imp.process_meta_app_core k new_cs e a b is_lhs c).1.2
      = new_cs.2 ++
        (List.range (k.num_args a)).map (fun j =>
          some (k.traces.assumption_trace ((e.m_next_id + j) % UNSIGNED_RANGE))) ∧
    ((List.range (k.num_args a)).map (fun j => (e.m_next_id + j) % UNSIGNED_RANGE)).Nodup ∧
    (∀ (types as : List simple_expr) (p : Nat), types.length = as.length → p < as.length →
      simple_expr.apply_beta
          (simple_kernel.mk_lambdas types (simple_kernel.mk_var (as.length - 1 - p))) as
        = as.getD p (.var 0)) := by
  have hspec := imp.infer_arg_types_spec k c.get_context ((k.args a).drop 1) [] [] e
  rw [ht] at hspec
  have hlen : arg_types.length = k.num_args a - 1 := by
    rw [hspec.1]; simp [kernel_ops.num_args]
  have hid1 : e1.m_next_id = e.m_next_id := hspec.2
  have hp := imp.add_projections_spec k a b is_lhs c arg_types (k.num_args a - 1) 0
    new_cs e1 (by rw [hid1]; exact hid)
  simp only [Nat.add_zero, hid1] at hp
  refine ⟨hlen, ?_, ?_, range_mod_nodup _ _ _ hn,
    fun types as p h1 h2 => simple_expr.apply_beta_projection types as p h1 h2⟩
  · simp only [imp.process_meta_app_core, ht, hp, imp.mk_assumption,
      imp.push_new_eq_constraint, imp.push_new_constraint_queue, if_true,
      imp.imitation_alternative]
  · simp only [imp.process_meta_app_core, ht, hp, imp.mk_assumption]
    have hsucc : k.num_args a = (k.num_args a - 1) + 1 := by omega
    conv_rhs => rw [hsucc, List.range_succ]
    simp [List.append_assoc]

end flex_rigid_split

/-- C29, in the model: the split of `(?0 a1 a2) == b` has the two projections
and the imitation, guarded by the assumptions 0, 1 and 2 (the cells 10, 11
and 12). -/
theorem process_meta_app_core_alternatives_witness :
    (imp.process_meta_app_core simple_kernel ([], []) (elaborator.mk ⟨1, []⟩ [])
        (.app (.app (.metavar 0) (.constant (name.mk_str "a1"))) (.constant (name.mk_str "a2")))
        (.constant (name.mk_str "b")) true
        (.Eq []
          (.app (.app (.metavar 0) (.constant (name.mk_str "a1")))
            (.constant (name.mk_str "a2")))
          (.constant (name.mk_str "b")) none)).1.2
      = [some 10, some 11, some 12] :=
  (imp.process_meta_app_core_alternatives simple_kernel ([], []) (elaborator.mk ⟨1, []⟩ []) _
    (.app (.app (.metavar 0) (.constant (name.mk_str "a1"))) (.constant (name.mk_str "a2")))
    (.constant (name.mk_str "b")) true
    (.Eq []
      (.app (.app (.metavar 0) (.constant (name.mk_str "a1"))) (.constant (name.mk_str "a2")))
      (.constant (name.mk_str "b")) none) _ (by decide) (by decide) (by decide) rfl).2.2.1.trans
    (by decide)

section church

open simple_expr normalizer_test

theorem simple_expr.normalize_mono :
    ∀ (fuel : Nat) (e r : simple_expr), simple_expr.normalize fuel e = some r →
      ∀ fuel1, fuel ≤ fuel1 → simple_expr.normalize fuel1 e = some r := by
  intro fuel
  induction fuel with
  | zero => intro e r h; simp [simple_expr.normalize] at h
  | succ n ih =>
    intro e r h fuel1 hle
    obtain ⟨m, rfl⟩ : ∃ m, fuel1 = m + 1 := ⟨fuel1 - 1, by omega⟩
    have hnm : n ≤ m := by omega
    cases e with
    | var i => simpa [simple_expr.normalize] using h
    | constant c => simpa [simple_expr.normalize] using h
    | type k => simpa [simple_expr.normalize] using h
    | metavar k => simpa [simple_expr.normalize] using h
    | app f a =>
      simp only [simple_expr.normalize] at h ⊢
      cases hf : simple_expr.normalize n f with
      | none => simp [hf] at h
      | some f1 =>
        rw [hf] at h
        rw [ih f f1 hf m hnm]
        cases f1 with
        | lambda d b => exact ih _ _ h m hnm
        | var i =>
          cases ha : simple_expr.normalize n a with
          | none => simp [ha] at h
          | some a1 => rw [ha] at h; rw [ih a a1 ha m hnm]; exact h
        | constant c =>
          cases ha : simple_expr.normalize n a with
          | none => simp [ha] at h
          | some a1 => rw [ha] at h; rw [ih a a1 ha m hnm]; exact h
        | type k =>
          cases ha : simple_expr.normalize n a with
          | none => simp [ha] at h
          | some a1 => rw [ha] at h; rw [ih a a1 ha m hnm]; exact h
        | app f2 a2 =>
          cases ha : simple_expr.normalize n a with
          | none => simp [ha] at h
          | some a1 => rw [ha] at h; rw [ih a a1 ha m hnm]; exact h
        | pi d b =>
          cases ha : simple_expr.normalize n a with
          | none => simp [ha] at h
          | some a1 => rw [ha] at h; rw [ih a a1 ha m hnm]; exact h
        | eq l r1 =>
          cases ha : simple_expr.normalize n a with
          | none => simp [ha] at h
          | some a1 => rw [ha] at h; rw [ih a a1 ha m hnm]; exact h
        | metavar k =>
          cases ha : simple_expr.normalize n a with
          | none => simp [ha] at h
          | some a1 => rw [ha] at h; rw [ih a a1 ha m hnm]; exact h
    | lambda d b =>
      simp only [simple_expr.normalize] at h ⊢
      cases hd : simple_expr.normalize n d with
      | none => simp [hd] at h
      | some d1 =>
        cases hb : simple_expr.normalize n b with
        | none => simp [hd, hb] at h
        | some b1 =>
          rw [hd, hb] at h
          rw [ih d d1 hd m hnm, ih b b1 hb m hnm]; exact h
    | pi d b =>
      simp only [simple_expr.normalize] at h ⊢
      cases hd : simple_expr.normalize n d with
      | none => simp [hd] at h
      | some d1 =>
        cases hb : simple_expr.normalize n b with
        | none => simp [hd, hb] at h
        | some b1 =>
          rw [hd, hb] at h
          rw [ih d d1 hd m hnm, ih b b1 hb m hnm]; exact h
    | eq l r1 =>
      simp only [simple_expr.normalize] at h ⊢
      cases hd : simple_expr.normalize n l with
      | none => simp [hd] at h
      | some d1 =>
        cases hb : simple_expr.normalize n r1 with
        | none => simp [hd, hb] at h
        | some b1 =>
          rw [hd, hb] at h
          rw [ih l d1 hd m hnm, ih r1 b1 hb m hnm]; exact h

end church

section church_count

open simple_expr normalizer_test

theorem normalizer_test.nest_succ (n : Nat) : nest (n + 1) = app s (nest n) := rfl

theorem normalizer_test.nest_injective : ∀ m n, nest m = nest n → m = n := by
  intro m
  induction m with
  | zero =>
    intro n h
    cases n with
    | zero => rfl
    | succ n => simp [nest, iter_app, z] at h
  | succ m ih =>
    intro n h
    cases n with
    | zero => simp [nest, iter_app, z] at h
    | succ n =>
      simp only [nest, iter_app, app.injEq, true_and] at h
      rw [ih n h]

theorem normalizer_test.count_core_nest :
    ∀ (n : Nat) (set : List simple_expr), s ∈ set → (∀ m, m ≤ n → nest m ∉ set) →
      (count_core false (nest n) set).1 = n + 1 := by
  intro n
  induction n with
  | zero =>
    intro set _ hn
    have h0 : z ∉ set := hn 0 (Nat.le_refl 0)
    simp [nest, iter_app, z, count_core] at h0 ⊢
    simp [h0]
  | succ n ih =>
    intro set hs hn
    have h1 : app s (nest n) ∉ set := hn (n + 1) (Nat.le_refl _)
    have hs1 : s ∈ app s (nest n) :: set := List.mem_cons_of_mem _ hs
    have hs2 : constant (name.mk_str "s") ∈ set := hs
    have hc : (app s (nest n) :: set).contains (constant (name.mk_str "s")) = true := by
      simp [hs2]
    rw [nest_succ]
    simp only [count_core]
    rw [if_neg (by simpa using h1)]
    simp only [hc, if_true]
    rw [ih (app s (nest n) :: set) hs1]
    · omega
    · intro m hm hmem
      rcases List.mem_cons.mp hmem with h | h
      · have := normalizer_test.nest_injective m (n + 1) (by rw [nest_succ]; exact h)
        omega
      · exact hn m (by omega) h

theorem normalizer_test.count_nest (n : Nat) :
    count (nest (n + 1)) = (n + 1) + 2 ∧ count (nest 0) = 1 := by
  constructor
  · unfold count
    rw [nest_succ]
    simp only [count_core]
    have hc : [app s (nest n)].contains (constant (name.mk_str "s")) = false := by
      simp [s]
    rw [if_neg (by simp)]
    simp only [hc, Bool.false_eq_true, if_false]
    show 1 + 1 + (count_core false (nest n) [s, app s (nest n)]).1 = n + 1 + 2
    rw [normalizer_test.count_core_nest n [s, app s (nest n)] (by simp)]
    · omega
    · intro m hm hmem
      simp only [List.mem_cons, List.mem_singleton, List.not_mem_nil, or_false] at hmem
      rcases hmem with h | h
      · cases m with
        | zero => simp [nest, iter_app, z, s, name.mk_str] at h
        | succ m => simp [nest, iter_app, s] at h
      · have := normalizer_test.nest_injective m (n + 1) (by rw [nest_succ]; exact h)
        omega
  · decide

end church_count

section church_normalize

open simple_expr normalizer_test

theorem normalizer_test.instantiate_at_iter_app (h b : simple_expr) (d : Nat)
    (l : List simple_expr) :
    ∀ n, instantiate_at (iter_app h b n) d l
      = iter_app (instantiate_at h d l) (instantiate_at b d l) n := by
  intro n
  induction n with
  | zero => rfl
  | succ n ih => simp [iter_app, instantiate_at, ih]

theorem normalizer_test.normalize_iter_app (h b : simple_expr)
    (hh : (∃ i, h = var i) ∨ (∃ c, h = constant c))
    (hb : (∃ i, b = var i) ∨ (∃ c, b = constant c)) :
    ∀ n, simple_expr.normalize (n + 1) (iter_app h b n) = some (iter_app h b n) := by
  intro n
  induction n with
  | zero =>
    rcases hb with ⟨i, rfl⟩ | ⟨c, rfl⟩ <;> rfl
  | succ n ih =>
    have h1 : simple_expr.normalize (n + 1) h = some h := by
      rcases hh with ⟨i, rfl⟩ | ⟨c, rfl⟩ <;> rfl
    simp only [iter_app, simple_expr.normalize, h1, ih]
    rcases hh with ⟨i, rfl⟩ | ⟨c, rfl⟩ <;> rfl

theorem simple_expr.normalize_app_lambda (fuel : Nat) (f a d b : simple_expr)
    (h : simple_expr.normalize fuel f = some (lambda d b)) :
    simple_expr.normalize (fuel + 1) (app f a) = simple_expr.normalize fuel (instantiate b a) := by
  simp [simple_expr.normalize, h]

theorem simple_expr.normalize_lambda (fuel : Nat) (d b d1 b1 : simple_expr)
    (hd : simple_expr.normalize fuel d = some d1) (hb : simple_expr.normalize fuel b = some b1) :
    simple_expr.normalize (fuel + 1) (lambda d b) = some (lambda d1 b1) := by
  simp [simple_expr.normalize, hd, hb]

theorem simple_expr.normalize_pi (fuel : Nat) (d b d1 b1 : simple_expr)
    (hd : simple_expr.normalize fuel d = some d1) (hb : simple_expr.normalize fuel b = some b1) :
    simple_expr.normalize (fuel + 1) (pi d b) = some (pi d1 b1) := by
  simp [simple_expr.normalize, hd, hb]

theorem normalizer_test.normalize_church_numeral (n fuel : Nat) (hfuel : n + 7 ≤ fuel) :
    simple_expr.normalize fuel (mk_app [church_numeral n, N, s, z]) = some (nest n) := by
  obtain ⟨m, rfl⟩ : ∃ m, fuel = m + n + 7 := ⟨fuel - (n + 7), by omega⟩
  have hbody : ∀ k, n + 1 ≤ k →
      simple_expr.normalize k (iter_app (var 1) (var 0) n) = some (iter_app (var 1) (var 0) n) :=
    fun k hk => simple_expr.normalize_mono _ _ _
      (normalizer_test.normalize_iter_app (var 1) (var 0) (Or.inl ⟨1, rfl⟩) (Or.inl ⟨0, rfl⟩) n)
      k hk
  have hbody3 : ∀ k, n + 1 ≤ k →
      simple_expr.normalize k (iter_app s (var 0) n) = some (iter_app s (var 0) n) :=
    fun k hk => simple_expr.normalize_mono _ _ _
      (normalizer_test.normalize_iter_app s (var 0) (Or.inr ⟨_, rfl⟩) (Or.inl ⟨0, rfl⟩) n)
      k hk
  have hnest : ∀ k, n + 1 ≤ k → simple_expr.normalize k (nest n) = some (nest n) :=
    fun k hk => simple_expr.normalize_mono _ _ _
      (normalizer_test.normalize_iter_app s z (Or.inr ⟨_, rfl⟩) (Or.inr ⟨_, rfl⟩) n) k hk
  -- the numeral is in normal form
  have hC : simple_expr.normalize (m + n + 4) (church_numeral n)
      = some (lambda t (lambda (pi (var 0) (var 0))
          (lambda (var 1) (iter_app (var 1) (var 0) n)))) :=
    simple_expr.normalize_lambda _ _ _ _ _ rfl
      (simple_expr.normalize_lambda _ _ _ _ _
        (simple_expr.normalize_pi (m + n + 1) _ _ _ _ rfl rfl)
        (simple_expr.normalize_lambda (m + n + 1) _ _ _ _ rfl (hbody _ (by omega))))
  -- after the first argument
  have hi1 : instantiate
      (lambda (pi (var 0) (var 0)) (lambda (var 1) (iter_app (var 1) (var 0) n))) N
      = lambda (pi N (var 0)) (lambda N (iter_app (var 1) (var 0) n)) := by
    have hl : ∀ d, lift_free_vars N 0 d = N := fun _ => rfl
    simp [instantiate, instantiate_at, normalizer_test.instantiate_at_iter_app, hl]
  have h3 : simple_expr.normalize (m + n + 5) (app (church_numeral n) N)
      = some (lambda (pi N (var 0)) (lambda N (iter_app (var 1) (var 0) n))) := by
    rw [simple_expr.normalize_app_lambda _ _ _ _ _ hC, hi1]
    exact simple_expr.normalize_lambda (m + n + 3) _ _ _ _
      (simple_expr.normalize_pi (m + n + 2) _ _ _ _ rfl rfl)
      (simple_expr.normalize_lambda (m + n + 2) _ _ _ _ rfl (hbody _ (by omega)))
  -- after the second argument
  have hi2 : instantiate (lambda N (iter_app (var 1) (var 0) n)) s
      = lambda N (iter_app s (var 0) n) := by
    have hl : ∀ d, lift_free_vars s 0 d = s := fun _ => rfl
    have hN0 : instantiate_at N 0 [s] = N := rfl
    simp [instantiate, instantiate_at, normalizer_test.instantiate_at_iter_app, hl, hN0]
    rfl
  have h5 : simple_expr.normalize (m + n + 6) (app (app (church_numeral n) N) s)
      = some (lambda N (iter_app s (var 0) n)) := by
    rw [simple_expr.normalize_app_lambda _ _ _ _ _ h3, hi2]
    exact simple_expr.normalize_lambda (m + n + 4) _ _ _ _ rfl (hbody3 _ (by omega))
  -- after the third argument
  have hi3 : instantiate (iter_app s (var 0) n) z = nest n := by
    have hl : ∀ d, lift_free_vars z 0 d = z := fun _ => rfl
    have hs0 : instantiate_at s 0 [z] = s := rfl
    simp [instantiate, normalizer_test.instantiate_at_iter_app, instantiate_at, nest, hl, hs0]
    rfl
  show simple_expr.normalize (m + n + 6 + 1) (app (app (app (church_numeral n) N) s) z)
    = some (nest n)
  rw [simple_expr.normalize_app_lambda _ _ _ _ _ h5, hi3]
  exact hnest _ (by omega)

end church_normalize

section church_evaluation

open simple_expr normalizer_test

/-- C25 (as amended): Church numeral evaluation, with the normalizer of the
model.  With a step budget of at least 200, the normal form of
`(power two four) N s z` is the term with 16 nested applications of `s` to
`z`, which has `16 + 2` distinct subterms; the normal forms of `four N s z`,
`(times four (power two four)) N s z` and `(power three three) N s z` have 4,
64 and 27 nested applications and `4 + 2`, `64 + 2` and `27 + 2` distinct
subterms.  In general the Church numeral for `n` applied to `N`, `s` and `z`
has the normal form with `n` nested applications of `s` around `z` (with a
budget of at least `n + 7`), and for `n >= 1` this term has `n + 2` distinct
subterms; for `n = 0` the normal form is `z`, which has one. -/
theorem normalizer_test.church_numbers (fuel : Nat) (hfuel : 200 ≤ fuel) :
    (simple_expr.normalize fuel (mk_app [mk_app [power, two, four], N, s, z]) = some (nest 16) ∧
      count (nest 16) = 16 + 2) ∧
    (simple_expr.normalize fuel (mk_app [four, N, s, z]) = some (nest 4) ∧
      count (nest 4) = 4 + 2) ∧
    (simple_expr.normalize fuel
        (mk_app [mk_app [times, four, mk_app [power, two, four]], N, s, z]) = some (nest 64) ∧
      count (nest 64) = 64 + 2) ∧
    (simple_expr.normalize fuel (mk_app [mk_app [power, three, three], N, s, z])
        = some (nest 27) ∧
      count (nest 27) = 27 + 2) ∧
    (∀ n, n + 7 ≤ fuel →
      simple_expr.normalize fuel (mk_app [church_numeral n, N, s, z]) = some (nest n)) ∧
    (∀ n, count (nest (n + 1)) = (n + 1) + 2) ∧
    (simple_expr.normalize fuel (mk_app [zero, N, s, z]) = some (nest 0) ∧
      count (nest 0) = 1) := by
  refine ⟨⟨?_, ?_⟩, ⟨?_, ?_⟩, ⟨?_, ?_⟩, ⟨?_, ?_⟩, ?_, ?_, ⟨?_, ?_⟩⟩
  · exact simple_expr.normalize_mono 200 _ _ (by decide) fuel hfuel
  · exact (normalizer_test.count_nest 15).1
  · exact simple_expr.normalize_mono 200 _ _ (by decide) fuel hfuel
  · exact (normalizer_test.count_nest 3).1
  · exact simple_expr.normalize_mono 200 _ _ (by decide) fuel hfuel
  · exact (normalizer_test.count_nest 63).1
  · exact simple_expr.normalize_mono 200 _ _ (by decide) fuel hfuel
  · exact (normalizer_test.count_nest 26).1
  · intro n hn
    exact normalizer_test.normalize_church_numeral n fuel hn
  · intro n
    exact (normalizer_test.count_nest n).1
  · exact simple_expr.normalize_mono 200 _ _ (by decide) fuel hfuel
  · exact (normalizer_test.count_nest 0).2

end church_evaluation

/-- C25, with the step budget 200: the normal form of
`(power two four) N s z` and the number of its distinct subterms. -/
theorem church_numbers_witness :
    simple_expr.normalize 200
        (simple_expr.mk_app
          [simple_expr.mk_app [normalizer_test.power, normalizer_test.two, normalizer_test.four],
            normalizer_test.N, normalizer_test.s, normalizer_test.z])
      = some (normalizer_test.nest 16) ∧
    normalizer_test.count (normalizer_test.nest 16) = 16 + 2 :=
  (normalizer_test.church_numbers 200 (Nat.le_refl 200)).1

/-- C25 (as stated) fails for the numeral `zero`: the normal form of
`zero N s z` is `z`, with no application of `s`, and the number of its
distinct subterms is 1, not `0 + 2`. -/
theorem church_numbers_counterexample :
    simple_expr.normalize 200
        (simple_expr.mk_app
          [normalizer_test.zero, normalizer_test.N, normalizer_test.s, normalizer_test.z])
      = some normalizer_test.z ∧
    normalizer_test.count normalizer_test.z = 1 ∧
    normalizer_test.zero = normalizer_test.church_numeral 0 := by
  decide

/-! ## Buffers -/

namespace buffer

variable {T : Type}

theorem push_back_spec (b : buffer T) (x : T) (hwf : b.well_formed)
    (hlt : b.m_pos < 2147483648) :
    ∃ b1, push_back b x = some b1 ∧ b1.m_buffer = b.m_buffer ++ [x] ∧
      b1.m_pos = b.m_pos + 1 ∧ b1.well_formed ∧ b.m_capacity ≤ b1.m_capacity := by
  obtain ⟨h1, h2, h3⟩ := hwf
  by_cases hc : b.m_pos ≥ b.m_capacity
  · have hcap : b.m_capacity = b.m_pos := by omega
    have hm : (b.m_capacity * 2) % UNSIGNED_RANGE = b.m_capacity * 2 := by
      unfold UNSIGNED_RANGE; omega
    have hm1 : (b.m_pos + 1) % UNSIGNED_RANGE = b.m_pos + 1 := by
      unfold UNSIGNED_RANGE; omega
    refine ⟨{ m_buffer := b.m_buffer ++ [x], m_pos := b.m_pos + 1,
              m_capacity := b.m_capacity * 2 }, ?_, rfl, rfl, ?_, ?_⟩
    · simp only [push_back, expand, hc, if_true, hm]
      have h4 : b.m_pos ≤ b.m_capacity * 2 := by omega
      have h5 : b.m_pos < b.m_capacity * 2 := by omega
      have ht : b.m_buffer.take b.m_pos = b.m_buffer := by rw [← h1]; exact List.take_length _
      simp [h4, h5, hm1, ht]
    · refine ⟨?_, ?_, ?_⟩ <;> simp <;> omega
    · simp only []; omega
  · have hm1 : (b.m_pos + 1) % UNSIGNED_RANGE = b.m_pos + 1 := by
      unfold UNSIGNED_RANGE; omega
    have h5 : b.m_pos < b.m_capacity := by omega
    refine ⟨{ m_buffer := b.m_buffer ++ [x], m_pos := b.m_pos + 1,
              m_capacity := b.m_capacity }, ?_, rfl, rfl, ?_, ?_⟩
    · have ht : b.m_buffer.take b.m_pos = b.m_buffer := by rw [← h1]; exact List.take_length _
      simp [push_back, hc, h5, hm1, ht]
    · refine ⟨?_, ?_, ?_⟩ <;> simp <;> omega
    · exact Nat.le_refl _

theorem push_back_loop_spec (n : Nat) : ∀ (b : buffer T) (x : T), b.well_formed →
    b.m_pos + n ≤ 2147483648 →
    ∃ b1, push_back_loop n b x = some b1 ∧ b1.m_buffer = b.m_buffer ++ List.replicate n x ∧
      b1.m_pos = b.m_pos + n ∧ b1.well_formed := by
  induction n with
  | zero => intro b x hwf _; exact ⟨b, rfl, by simp, rfl, hwf⟩
  | succ n ih =>
    intro b x hwf hle
    obtain ⟨b1, hp, hb, hpos, hwf1, _⟩ := push_back_spec b x hwf (by omega)
    obtain ⟨b2, hp2, hb2, hpos2, hwf2⟩ := ih b1 x hwf1 (by omega)
    refine ⟨b2, ?_, ?_, ?_, hwf2⟩
    · simp [push_back_loop, hp, hp2]
    · rw [hb2, hb, List.append_assoc]; rfl
    · omega

theorem pop_back_loop_spec (n : Nat) : ∀ (b : buffer T), b.well_formed → n ≤ b.m_pos →
    ∃ b1, pop_back_loop n b = some b1 ∧ b1.m_buffer = b.m_buffer.take (b.m_pos - n) ∧
      b1.m_pos = b.m_pos - n ∧ b1.m_capacity = b.m_capacity ∧ b1.well_formed := by
  induction n with
  | zero =>
    intro b hwf _
    exact ⟨b, rfl, by simp [← hwf.1], rfl, rfl, hwf⟩
  | succ n ih =>
    intro b hwf hle
    have hpos : b.m_pos > 0 := by omega
    have hwf1 : well_formed { b with m_buffer := b.m_buffer.take (b.m_pos - 1),
                                     m_pos := b.m_pos - 1 } := by
      obtain ⟨h1, h2, h3⟩ := hwf
      refine ⟨?_, ?_, h3⟩ <;> simp <;> omega
    obtain ⟨b2, hp2, hb2, hpos2, hcap2, hwf2⟩ := ih _ hwf1 (by simp; omega)
    refine ⟨b2, ?_, ?_, ?_, hcap2, hwf2⟩
    · have hne : b.m_pos ≠ 0 := by omega
      simp [pop_back_loop, pop_back, empty, hpos, hne, hp2]
    · rw [hb2]; simp [List.take_take]; omega
    · rw [hpos2]; simp; omega

end buffer
/-- C40 (as amended): a buffer behaves as a sequence under `resize`, `shrink`
and `push_back`, as long as no buffer grows beyond `2^31` elements.  For a
buffer `b` of size `sz` that satisfies the invariant (`m_pos <= m_capacity`,
with a block of at least one cell): `resize(n, e)` with `n <= 2^31` (or
`n <= sz`) returns with `size() == n`, keeps the elements `0 .. min(sz, n) - 1`
and sets the elements `sz .. n - 1` to `e`; `shrink(n)` with `n <= sz` returns
with `size() == n` and keeps the elements `0 .. n - 1`; `push_back(x)` on
fewer than `2^31` elements followed by `back()` returns `x` and increases the
size by one, also when the block is expanded; `pop_back()` on a buffer that
is not empty returns; and each of them leaves a buffer that satisfies the
invariant. -/
theorem buffer.resize_shrink_push_back {T : Type} (b : buffer T) (hwf : b.well_formed) :
    (∀ (n : Nat) (e : T), n ≤ 2147483648 ∨ n ≤ b.size →
      ∃ b1, buffer.resize b n e = some b1 ∧ b1.size = n ∧ b1.well_formed ∧
        (∀ i, i < min b.size n → b1.get i = b.get i) ∧
        (∀ i, b.size ≤ i → i < n → b1.get i = some e)) ∧
    (∀ n : Nat, n ≤ b.size →
      ∃ b1, buffer.shrink b n = some b1 ∧ b1.size = n ∧ b1.well_formed ∧
        (∀ i, i < n → b1.get i = b.get i)) ∧
    (∀ x : T, b.size < 2147483648 →
      ∃ b1, buffer.push_back b x = some b1 ∧ b1.back = some x ∧
        b1.size = b.size + 1 ∧ b1.well_formed) ∧
    (0 < b.size → ∃ b1, buffer.pop_back b = some b1 ∧ b1.size = b.size - 1 ∧ b1.well_formed) := by
  have hsize : ∀ c : buffer T, c.size = c.m_pos := fun _ => rfl
  simp only [hsize]
  have hpop : ∀ n : Nat, n ≤ b.m_pos →
      ∃ b1, buffer.pop_back_loop (b.m_pos - n) b = some b1 ∧ b1.m_pos = n ∧ b1.well_formed ∧
        (∀ i, i < n → b1.get i = b.get i) := by
    intro n hn
    obtain ⟨b1, hp, hb, hpos, _, hwf1⟩ := buffer.pop_back_loop_spec (b.m_pos - n) b hwf
      (by omega)
    have hsz : b1.m_pos = n := by omega
    refine ⟨b1, hp, hsz, hwf1, ?_⟩
    intro i hi
    have hi2 : i < b.m_pos := by omega
    have hbn : b.m_pos - (b.m_pos - n) = n := by omega
    simp [buffer.get, hsize, hsz, hi, hi2, hb, hbn, List.getElem?_take]
  refine ⟨?_, ?_, ?_, ?_⟩
  · intro n e hn
    by_cases hgt : n > b.m_pos
    · have hn1 : n ≤ 2147483648 := by omega
      obtain ⟨b1, hp, hb, hpos, hwf1⟩ := buffer.push_back_loop_spec (n - b.m_pos) b e hwf
        (by omega)
      have hsz : b1.m_pos = n := by omega
      refine ⟨b1, ?_, hsz, hwf1, ?_, ?_⟩
      · simp [buffer.resize, hgt, hp, hsize, hsz]
      · intro i hi
        have hi1 : i < b.m_pos := by omega
        have hi2 : i < n := by omega
        have hi3 : i < b.m_buffer.length := by rw [hwf.1]; exact hi1
        simp [buffer.get, hsize, hsz, hi1, hi2, hb, List.getElem?_append_left hi3]
      · intro i hi1 hi2
        have hi3 : b.m_buffer.length ≤ i := by rw [hwf.1]; exact hi1
        have hi4 : i - b.m_buffer.length < n - b.m_pos := by
          rw [hwf.1]; omega
        simp [buffer.get, hsize, hsz, hi2, hb, List.getElem?_append_right hi3,
          List.getElem?_replicate, hi4]
    · by_cases hlt : n < b.m_pos
      · obtain ⟨b1, hp, hsz, hwf1, hget⟩ := hpop n (by omega)
        refine ⟨b1, ?_, hsz, hwf1, ?_, ?_⟩
        · simp [buffer.resize, hgt, hlt, hp, hsize, hsz]
        · intro i hi
          exact hget i (by omega)
        · intro i hi1 hi2; omega
      · have heq : b.m_pos = n := by omega
        refine ⟨b, ?_, heq, hwf, fun _ _ => rfl, ?_⟩
        · simp [buffer.resize, hgt, hlt, heq, hsize]
        · intro i hi1 hi2; omega
  · intro n hn
    obtain ⟨b1, hp, hsz, hwf1, hget⟩ := hpop n hn
    exact ⟨b1, by simp [buffer.shrink, hn, hp, hsize, hsz], hsz, hwf1, hget⟩
  · intro x hlt
    obtain ⟨b1, hp, hb, hpos, hwf1, _⟩ := buffer.push_back_spec b x hwf hlt
    refine ⟨b1, hp, ?_, hpos, hwf1⟩
    have h1 := hwf.1
    simp [buffer.back, buffer.empty, hpos, hb, h1]
  · intro hpos
    obtain ⟨b1, hp, _, hpos1, _, hwf1⟩ := buffer.pop_back_loop_spec 1 b hwf hpos
    refine ⟨b1, ?_, hpos1, hwf1⟩
    simp only [buffer.pop_back_loop] at hp
    cases h : buffer.pop_back b with
    | none => rw [h] at hp; cases hp
    | some b2 => rw [h] at hp; exact hp

/-- C40, on the buffer of the three elements 1, 2, 3 in a block of four
cells: the invariant holds, `resize(6, 0)` expands the block and gives the
elements 1, 2, 3, 0, 0, 0, and `shrink(1)` keeps the element 1. -/
theorem resize_shrink_push_back_witness :
    buffer.well_formed (⟨[1, 2, 3], 3, 4⟩ : buffer Nat) ∧
    buffer.resize (⟨[1, 2, 3], 3, 4⟩ : buffer Nat) 6 0 = some ⟨[1, 2, 3, 0, 0, 0], 6, 8⟩ ∧
    buffer.shrink (⟨[1, 2, 3], 3, 4⟩ : buffer Nat) 1 = some ⟨[1], 1, 4⟩ ∧
    (∀ x : Nat, buffer.size (⟨[1, 2, 3], 3, 4⟩ : buffer Nat) < 2147483648 →
      ∃ b1, buffer.push_back (⟨[1, 2, 3], 3, 4⟩ : buffer Nat) x = some b1 ∧ b1.back = some x ∧
        b1.size = buffer.size (⟨[1, 2, 3], 3, 4⟩ : buffer Nat) + 1 ∧ b1.well_formed) :=
  ⟨by decide, by decide, by decide,
    (buffer.resize_shrink_push_back (⟨[1, 2, 3], 3, 4⟩ : buffer Nat) (by decide)).2.2.1⟩

/-- C40 (as stated) fails beyond `2^31` elements: on a buffer that holds
`2^31` elements in a block of `2^31` cells, which satisfies the invariant,
`push_back` computes the new capacity `2^31 << 1 = 0` and copies the `2^31`
cells to a block without cells, and so does `resize(2^31 + 1, e)`. -/
theorem resize_shrink_push_back_counterexample :
    buffer.well_formed (⟨List.replicate 2147483648 0, 2147483648, 2147483648⟩ : buffer Nat) ∧
    buffer.expand (⟨List.replicate 2147483648 0, 2147483648, 2147483648⟩ : buffer Nat) = none ∧
    buffer.push_back (⟨List.replicate 2147483648 0, 2147483648, 2147483648⟩ : buffer Nat) 0
      = none ∧
    buffer.resize (⟨List.replicate 2147483648 0, 2147483648, 2147483648⟩ : buffer Nat)
      2147483649 0 = none := by
  refine ⟨⟨?_, ?_, ?_⟩, ?_, ?_, ?_⟩
  · exact List.length_replicate _ _
  · exact Nat.le_refl _
  · decide
  · simp [buffer.expand, UNSIGNED_RANGE]
  · simp [buffer.push_back, buffer.expand, UNSIGNED_RANGE]
  · simp [buffer.resize, buffer.size, buffer.push_back_loop, buffer.push_back, buffer.expand,
      UNSIGNED_RANGE]

/-! ## Formats -/

namespace format

theorem flatten_list_eq_map : ∀ l : List format, flatten_list l = l.map flatten
  | [] => rfl
  | s :: l => by simp [flatten_list, flatten_list_eq_map l]

mutual
theorem is_flat_flatten : ∀ s : format, is_flat (flatten s) = true
  | NIL => rfl
  | NEST _ x => by simp only [flatten]; exact is_flat_flatten x
  | COMPOSE l => by simp only [flatten, is_flat]; exact is_flat_flatten_list l
  | CHOICE x _ => by simp only [flatten]; exact is_flat_flatten x
  | LINE => rfl
  | TEXT _ => rfl
  | COLOR_BEGIN _ => rfl
  | COLOR_END => rfl
theorem is_flat_flatten_list : ∀ l : List format, is_flat_list (flatten_list l) = true
  | [] => rfl
  | s :: l => by
    simp only [flatten_list, is_flat_list, Bool.and_eq_true]
    exact ⟨is_flat_flatten s, is_flat_flatten_list l⟩
end

mutual
theorem flatten_of_is_flat : ∀ s : format, is_flat s = true → flatten s = s
  | NIL, _ => rfl
  | NEST _ _, h => by simp [is_flat] at h
  | COMPOSE l, h => by
    simp only [is_flat] at h
    simp only [flatten, flatten_list_of_is_flat l h]
  | CHOICE _ _, h => by simp [is_flat] at h
  | LINE, h => by simp [is_flat] at h
  | TEXT _, _ => rfl
  | COLOR_BEGIN _, _ => rfl
  | COLOR_END, _ => rfl
theorem flatten_list_of_is_flat : ∀ l : List format, is_flat_list l = true → flatten_list l = l
  | [], _ => rfl
  | s :: l, h => by
    simp only [is_flat_list, Bool.and_eq_true] at h
    simp only [flatten_list, flatten_of_is_flat s h.1, flatten_list_of_is_flat l h.2]
end

end format

/-- C35: the equations of `flatten`.  `flatten(NEST i x) = flatten(x)`,
`flatten(x <|> y) = flatten(x)`, the flattened composition is the composition
of the flattened parts, `flatten(LINE)` is the text `" "`, and `NIL`, `TEXT`
and the colour nodes are unchanged; hence `flatten(s)` has no `LINE`, `NEST`
or `CHOICE` node, `flatten(flatten(s)) = flatten(s)`, and `group(f) =
choice(flatten(f), f)`. -/
theorem format.flatten_equations :
    (∀ (i : Int) (x : format), format.flatten (.NEST i x) = format.flatten x) ∧
    (∀ x y : format, format.flatten (.CHOICE x y) = format.flatten x) ∧
    (∀ l : List format, format.flatten (.COMPOSE l) = .COMPOSE (l.map format.flatten)) ∧
    format.flatten .LINE = .TEXT " " ∧
    format.flatten .NIL = .NIL ∧
    (∀ s : String, format.flatten (.TEXT s) = .TEXT s) ∧
    (∀ c : Int, format.flatten (.COLOR_BEGIN c) = .COLOR_BEGIN c) ∧
    format.flatten .COLOR_END = .COLOR_END ∧
    (∀ s : format, format.is_flat (format.flatten s) = true) ∧
    (∀ s : format, format.flatten (format.flatten s) = format.flatten s) ∧
    (∀ f : format, format.group f = format.choice (format.flatten f) f) :=
  ⟨fun _ _ => rfl, fun _ _ => rfl,
    fun l => by simp only [format.flatten, format.flatten_list_eq_map],
    rfl, rfl, fun _ => rfl, fun _ => rfl, rfl, format.is_flat_flatten,
    fun s => format.flatten_of_is_flat _ (format.is_flat_flatten s), fun _ => rfl⟩

/-! ## Equality and hash codes of levels -/

mutual
theorem level_eq_symm : ∀ l1 l2 : level, level_eq l1 l2 = true → level_eq l2 l1 = true
  | .uvar _ _, .uvar _ _, h => by simp only [level_eq, beq_iff_eq] at h ⊢; exact h.symm
  | .lift l1 k1, .lift l2 k2, h => by
    simp only [level_eq, Bool.and_eq_true, beq_iff_eq] at h ⊢
    exact ⟨level_eq_symm l1 l2 h.1, h.2.symm⟩
  | .max ls1, .max ls2, h => by
    simp only [level_eq, Bool.and_eq_true, beq_iff_eq] at h ⊢
    exact ⟨h.1.symm, level_eq_list_symm ls1 ls2 h.2⟩
  | .uvar _ _, .lift _ _, h => by simp [level_eq] at h
  | .uvar _ _, .max _, h => by simp [level_eq] at h
  | .lift _ _, .uvar _ _, h => by simp [level_eq] at h
  | .lift _ _, .max _, h => by simp [level_eq] at h
  | .max _, .uvar _ _, h => by simp [level_eq] at h
  | .max _, .lift _ _, h => by simp [level_eq] at h
theorem level_eq_list_symm : ∀ ls1 ls2 : List level,
    level_eq_list ls1 ls2 = true → level_eq_list ls2 ls1 = true
  | [], [], _ => rfl
  | [], _ :: _, _ => rfl
  | _ :: _, [], _ => rfl
  | l1 :: ls1, l2 :: ls2, h => by
    simp only [level_eq_list] at h ⊢
    split at h
    · rename_i h1
      rw [if_pos (level_eq_symm l1 l2 h1)]
      exact level_eq_list_symm ls1 ls2 h
    · cases h
end

mutual
theorem level_eq_trans : ∀ l1 l2 l3 : level, level_eq l1 l2 = true → level_eq l2 l3 = true →
    level_eq l1 l3 = true
  | .uvar _ _, .uvar _ _, .uvar _ _, h1, h2 => by
    simp only [level_eq, beq_iff_eq] at h1 h2 ⊢; exact h1.trans h2
  | .lift l1 k1, .lift l2 k2, .lift l3 k3, h1, h2 => by
    simp only [level_eq, Bool.and_eq_true, beq_iff_eq] at h1 h2 ⊢
    exact ⟨level_eq_trans l1 l2 l3 h1.1 h2.1, h1.2.trans h2.2⟩
  | .max ls1, .max ls2, .max ls3, h1, h2 => by
    simp only [level_eq, Bool.and_eq_true, beq_iff_eq] at h1 h2 ⊢
    exact ⟨h1.1.trans h2.1, level_eq_list_trans ls1 ls2 ls3 h1.1 h1.2 h2.2⟩
  | .uvar _ _, .lift _ _, _, h, _ => by simp [level_eq] at h
  | .uvar _ _, .max _, _, h, _ => by simp [level_eq] at h
  | .lift _ _, .uvar _ _, _, h, _ => by simp [level_eq] at h
  | .lift _ _, .max _, _, h, _ => by simp [level_eq] at h
  | .max _, .uvar _ _, _, h, _ => by simp [level_eq] at h
  | .max _, .lift _ _, _, h, _ => by simp [level_eq] at h
  | .uvar _ _, .uvar _ _, .lift _ _, _, h => by simp [level_eq] at h
  | .uvar _ _, .uvar _ _, .max _, _, h => by simp [level_eq] at h
  | .lift _ _, .lift _ _, .uvar _ _, _, h => by simp [level_eq] at h
  | .lift _ _, .lift _ _, .max _, _, h => by simp [level_eq] at h
  | .max _, .max _, .uvar _ _, _, h => by simp [level_eq] at h
  | .max _, .max _, .lift _ _, _, h => by simp [level_eq] at h
theorem level_eq_list_trans : ∀ ls1 ls2 ls3 : List level, ls1.length = ls2.length →
    level_eq_list ls1 ls2 = true → level_eq_list ls2 ls3 = true →
    level_eq_list ls1 ls3 = true
  | [], _, _, _, _, _ => rfl
  | _ :: _, [], _, hl, _, _ => by simp at hl
  | _ :: _, _ :: _, [], _, _, _ => rfl
  | l1 :: ls1, l2 :: ls2, l3 :: ls3, hl, h1, h2 => by
    simp only [level_eq_list] at h1 h2 ⊢
    split at h1
    · rename_i e1
      split at h2
      · rename_i e2
        rw [if_pos (level_eq_trans l1 l2 l3 e1 e2)]
        exact level_eq_list_trans ls1 ls2 ls3 (by simpa using hl) h1 h2
      · cases h2
    · cases h1
end

mutual
theorem eq_of_level_eq_of_uvars_named (names : Nat → name) : ∀ l1 l2 : level,
    uvars_named names l1 = true → uvars_named names l2 = true → level_eq l1 l2 = true →
    l1 = l2
  | .uvar n1 u1, .uvar n2 u2, w1, w2, h => by
    simp only [uvars_named, decide_eq_true_eq] at w1 w2
    simp only [level_eq, beq_iff_eq] at h
    rw [w1, w2, h]
  | .lift l1 k1, .lift l2 k2, w1, w2, h => by
    simp only [uvars_named] at w1 w2
    simp only [level_eq, Bool.and_eq_true, beq_iff_eq] at h
    rw [eq_of_level_eq_of_uvars_named names l1 l2 w1 w2 h.1, h.2]
  | .max ls1, .max ls2, w1, w2, h => by
    simp only [uvars_named] at w1 w2
    simp only [level_eq, Bool.and_eq_true, beq_iff_eq] at h
    rw [eq_of_level_eq_list_of_uvars_named names ls1 ls2 w1 w2 h.1 h.2]
  | .uvar _ _, .lift _ _, _, _, h => by simp [level_eq] at h
  | .uvar _ _, .max _, _, _, h => by simp [level_eq] at h
  | .lift _ _, .uvar _ _, _, _, h => by simp [level_eq] at h
  | .lift _ _, .max _, _, _, h => by simp [level_eq] at h
  | .max _, .uvar _ _, _, _, h => by simp [level_eq] at h
  | .max _, .lift _ _, _, _, h => by simp [level_eq] at h
theorem eq_of_level_eq_list_of_uvars_named (names : Nat → name) : ∀ ls1 ls2 : List level,
    uvars_named_list names ls1 = true → uvars_named_list names ls2 = true →
    ls1.length = ls2.length → level_eq_list ls1 ls2 = true → ls1 = ls2
  | [], [], _, _, _, _ => rfl
  | [], _ :: _, _, _, hl, _ => by simp at hl
  | _ :: _, [], _, _, hl, _ => by simp at hl
  | l1 :: ls1, l2 :: ls2, w1, w2, hl, h => by
    simp only [uvars_named_list, Bool.and_eq_true] at w1 w2
    simp only [level_eq_list] at h
    split at h
    · rename_i e1
      rw [eq_of_level_eq_of_uvars_named names l1 l2 w1.1 w2.1 e1,
        eq_of_level_eq_list_of_uvars_named names ls1 ls2 w1.2 w2.2 (by simpa using hl) h]
    · cases h
end

/-- C34 (as amended): `operator==` on levels is reflexive, symmetric and
transitive, and for two levels whose universe variables are named by the same
environment (the name of a variable is determined by its identifier),
`l1 == l2` implies `l1.hash() == l2.hash()`, whatever the hash functions of
names and of sequences are. -/
theorem level_eq_equivalence_hash (ops : hash_ops) (names : Nat → name) :
    (∀ l : level, level_eq l l = true) ∧
    (∀ l1 l2 : level, level_eq l1 l2 = true → level_eq l2 l1 = true) ∧
    (∀ l1 l2 l3 : level, level_eq l1 l2 = true → level_eq l2 l3 = true →
      level_eq l1 l3 = true) ∧
    (∀ l1 l2 : level, uvars_named names l1 = true → uvars_named names l2 = true →
      level_eq l1 l2 = true → level.hash ops l1 = level.hash ops l2) :=
  ⟨level_eq_refl, level_eq_symm, level_eq_trans, fun l1 l2 w1 w2 h => by
    rw [eq_of_level_eq_of_uvars_named names l1 l2 w1 w2 h]⟩

/-- C34, for the levels `max(u1 + 2, u2)` of an environment that names the
variables 1 and 2 `u1` and `u2`. -/
theorem level_eq_equivalence_hash_witness :
    level.hash example_hash_ops
        (.max [.lift (.uvar (name.mk_str "u1") 1) 2, .uvar (name.mk_str "u2") 2])
      = level.hash example_hash_ops
        (.max [.lift (.uvar (name.mk_str "u1") 1) 2, .uvar (name.mk_str "u2") 2]) :=
  (level_eq_equivalence_hash example_hash_ops
    (fun u => if u = 1 then name.mk_str "u1" else name.mk_str "u2")).2.2.2 _ _
    (by decide) (by decide) (by decide)

/-- C34 (as stated) fails for universe variables of two environments: the
variables named `a` and `b`, both with the identifier 1, are `==`, and their
hash codes are the hash codes of the two names. -/
theorem level_eq_equivalence_hash_counterexample :
    level_eq (.uvar (name.mk_str "a") 1) (.uvar (name.mk_str "b") 1) = true ∧
    level.hash example_hash_ops (.uvar (name.mk_str "a") 1)
      ≠ level.hash example_hash_ops (.uvar (name.mk_str "b") 1) ∧
    (∀ ops : hash_ops, ops.name_hash (name.mk_str "a") ≠ ops.name_hash (name.mk_str "b") →
      level.hash ops (.uvar (name.mk_str "a") 1) ≠ level.hash ops (.uvar (name.mk_str "b") 1)) :=
  ⟨by decide, by decide, fun _ h => h⟩

/-! ## The weight of a definition -/

section definition_weight

variable {expr : Type}

namespace environment_cell

theorem foldl_max_weight_le (env : environment_cell expr) : ∀ (cs : List name) (w0 : Nat),
    w0 ≤ cs.foldl (fun w c =>
        match get_object_core env c with
        | some obj => Nat.max w obj.get_weight
        | none => w) w0 ∧
    ∀ c ∈ cs, ∀ obj, get_object_core env c = some obj →
      obj.get_weight ≤ cs.foldl (fun w c =>
        match get_object_core env c with
        | some obj => Nat.max w obj.get_weight
        | none => w) w0
  | [], w0 => ⟨Nat.le_refl _, fun c hc => by cases hc⟩
  | c0 :: cs, w0 => by
    simp only [List.foldl_cons]
    cases h0 : get_object_core env c0 with
    | none =>
      obtain ⟨h1, h2⟩ := foldl_max_weight_le env cs w0
      refine ⟨h1, ?_⟩
      intro c hc obj hobj
      rcases List.mem_cons.mp hc with rfl | hc
      · rw [h0] at hobj; cases hobj
      · exact h2 c hc obj hobj
    | some o0 =>
      obtain ⟨h1, h2⟩ := foldl_max_weight_le env cs (Nat.max w0 o0.get_weight)
      refine ⟨Nat.le_trans (Nat.le_max_left _ _) h1, ?_⟩
      intro c hc obj hobj
      rcases List.mem_cons.mp hc with rfl | hc
      · rw [h0] at hobj
        cases hobj
        exact Nat.le_trans (Nat.le_max_right _ _) h1
      · exact h2 c hc obj hobj

theorem foldl_max_weight_attained (env : environment_cell expr) : ∀ (cs : List name) (w0 : Nat),
    cs.foldl (fun w c =>
        match get_object_core env c with
        | some obj => Nat.max w obj.get_weight
        | none => w) w0 = w0 ∨
    ∃ c ∈ cs, ∃ obj, get_object_core env c = some obj ∧
      obj.get_weight = cs.foldl (fun w c =>
        match get_object_core env c with
        | some obj => Nat.max w obj.get_weight
        | none => w) w0
  | [], w0 => Or.inl rfl
  | c0 :: cs, w0 => by
    simp only [List.foldl_cons]
    cases h0 : get_object_core env c0 with
    | none =>
      rcases foldl_max_weight_attained env cs w0 with h | ⟨c, hc, obj, hobj, hw⟩
      · exact Or.inl h
      · exact Or.inr ⟨c, List.mem_cons_of_mem _ hc, obj, hobj, hw⟩
    | some o0 =>
      rcases foldl_max_weight_attained env cs (Nat.max w0 o0.get_weight) with
        h | ⟨c, hc, obj, hobj, hw⟩
      · simp only
        rw [h]
        rcases Nat.le_total w0 o0.get_weight with hle | hle
        · exact Or.inr ⟨c0, List.mem_cons_self _ _, o0, h0, (Nat.max_eq_right hle).symm⟩
        · exact Or.inl (Nat.max_eq_left hle)
      · exact Or.inr ⟨c, List.mem_cons_of_mem _ hc, obj, hobj, hw⟩

/-- The result of `get_max_weight` is the greatest weight of the objects
named by the constants of the expression, and 0 without such an object. -/
theorem get_max_weight_spec (ops : expr_ops expr) (env : environment_cell expr) (v : expr) :
    (∀ c ∈ ops.constants v, ∀ obj, get_object_core env c = some obj →
      obj.get_weight ≤ get_max_weight ops env v) ∧
    (get_max_weight ops env v = 0 ∨
      ∃ c ∈ ops.constants v, ∃ obj, get_object_core env c = some obj ∧
        obj.get_weight = get_max_weight ops env v) :=
  ⟨(foldl_max_weight_le env (ops.constants v) 0).2,
    foldl_max_weight_attained env (ops.constants v) 0⟩

/-- The object found under `n` after the definition `n` has been registered
under a name that passes `check_name`, and made opaque when asked. -/
theorem get_object_core_register_definition (ops : expr_ops expr)
    (env : environment_cell expr) (n : name) (t v : expr) (w : Nat) (f : Bool)
    (hcn : check_name env n = none) :
    get_object_core
      (if f = true then set_opaque (register_named_object ops env (.Definition n t v w false)) n f
        else (none, register_named_object ops env (.Definition n t v w false))).2 n
      = some (.Definition n t v w f) := by
  have hreg := get_object_core_register ops env (.Definition n t v w false)
    (not_declared_of_check_name env _ hcn)
  have hown := own_entry_register ops env (.Definition n t v w false) hcn
  simp only [object.get_name] at hreg hown
  cases f with
  | false => simpa using hreg
  | true =>
    simp only [if_true]
    unfold set_opaque
    rw [hreg]
    simp only [object.is_definition, if_true]
    rw [get_object_core_add_neutral_object, get_object_core_update_opaque _ n true _ hown]
    rfl

end environment_cell

end definition_weight

/-! ## The order of the alternatives of a generic case split -/

theorem map_getD_reverse {α : Type} (d : α) : ∀ (l : List α),
    (List.range l.length).map (fun i => l.getD (l.length - i - 1) d) = l.reverse := by
  intro l
  apply List.ext_getElem
  · simp
  · intro i h1 h2
    simp only [List.length_map, List.length_range] at h1
    simp only [List.getElem_map, List.getElem_range, List.getElem_reverse]
    rw [List.getD_eq_getElem _ _ (by omega)]
    congr 1
    omega

section generic_split_order

variable {context expr metavar_env trace : Type}

theorem imp.next_calls_generic (ops : trace_ops context expr trace)
    (prev : state context expr metavar_env trace) (failed : List (Option trace))
    (c : unification_constraint context expr trace)
    (ss : List (state context expr metavar_env trace)) (as : List (Option trace)) :
    ∀ (m j : Nat) (a0 : Option trace) (e : imp context expr metavar_env trace),
      j + m ≤ ss.length →
      (imp.next_calls ops m (.generic a0 prev failed c j ss as) e).1
        = (List.range m).map (fun i =>
            (true, ss.getD (ss.length - (j + i) - 1) prev,
              as.getD (ss.length - (j + i) - 1) none)) ∧
      (∃ a1 s1, (imp.next_calls ops m (.generic a0 prev failed c j ss as) e).2
        = (.generic a1 prev failed c (j + m) ss as, { e with m_state := s1 })) := by
  intro m
  induction m with
  | zero => intro j a0 e _; exact ⟨rfl, a0, e.m_state, rfl⟩
  | succ m ih =>
    intro j a0 e hle
    have hj : j < ss.length := by omega
    have hn : imp.next ops (.generic a0 prev failed c j ss as) e
        = (true, .generic (as.getD (ss.length - j - 1) none) prev failed c (j + 1) ss as,
            { e with m_state := ss.getD (ss.length - j - 1) prev }) := by
      simp [imp.next, imp.next_generic_case, hj]
    obtain ⟨h1, a1, s1, h2⟩ := ih (j + 1) (as.getD (ss.length - j - 1) none)
      { e with m_state := ss.getD (ss.length - j - 1) prev } (by omega)
    have hidx : ∀ i, j + 1 + i = j + (i + 1) := by intro i; omega
    refine ⟨?_, a1, s1, ?_⟩
    · simp only [imp.next_calls, hn, h1, List.range_succ_eq_map, List.map_cons, List.map_map,
        Nat.add_zero, case_split.m_curr_assumption, hidx]
      rfl
    · simp only [imp.next_calls, hn, h2]
      rw [show j + 1 + m = j + (m + 1) by omega]

/-- The alternatives that `process_meta_app_core` adds to an empty split: the
projections in the order of the arguments, then the imitation. -/
theorem imp.process_meta_app_core_nil (k : kernel_ops context expr metavar_env trace)
    (e e1 : imp context expr metavar_env trace) (a b : expr) (is_lhs : Bool)
    (c : unification_constraint context expr trace) (arg_types : List expr)
    (hid : e.m_next_id < UNSIGNED_RANGE)
    (ht : imp.infer_arg_types k c.get_context ((k.args a).drop 1) [] [] e = (arg_types, e1)) :
    imp.process_meta_app_core k ([], []) e a b is_lhs c
      = (((List.range (k.num_args a - 1)).map (fun j =>
            imp.projection_alternative k a b is_lhs c arg_types e1.m_state
              (some (k.traces.assumption_trace ((e.m_next_id + j) % UNSIGNED_RANGE))) (j + 1)) ++
          [imp.imitation_alternative k a b c arg_types e1.m_state
            (some (k.traces.assumption_trace
              ((e.m_next_id + (k.num_args a - 1)) % UNSIGNED_RANGE)))],
          (List.range (k.num_args a - 1)).map (fun j =>
            some (k.traces.assumption_trace ((e.m_next_id + j) % UNSIGNED_RANGE))) ++
          [some (k.traces.assumption_trace
              ((e.m_next_id + (k.num_args a - 1)) % UNSIGNED_RANGE))]),
        { e1 with m_next_id :=
            ((e.m_next_id + (k.num_args a - 1)) % UNSIGNED_RANGE + 1) % UNSIGNED_RANGE }) := by
  have hspec := imp.infer_arg_types_spec k c.get_context ((k.args a).drop 1) [] [] e
  rw [ht] at hspec
  have hid1 : e1.m_next_id = e.m_next_id := hspec.2
  have hp := imp.add_projections_spec k a b is_lhs c arg_types (k.num_args a - 1) 0
    ([], []) e1 (by rw [hid1]; exact hid)
  simp only [Nat.add_zero, hid1] at hp
  simp only [imp.process_meta_app_core, ht, hp, imp.mk_assumption,
    imp.push_new_eq_constraint, imp.push_new_constraint_queue, if_true,
    imp.imitation_alternative, List.nil_append]

end generic_split_order
section generic_split_claim

variable {context expr metavar_env trace : Type}

/-- C33: the order in which a generic case split is explored.  On a split
with the alternatives `m_states` and `m_assumptions` (of the same size) and
`m_idx = 0`, the calls of `next` visit the alternatives in the reverse of the
order in which they were added: the call number `n` (from 1 to the size)
returns true and installs the stored state and the assumption of the
alternative `size - n`, and the call after them returns false with the
`unification_failure_by_cases` conflict of the constraint and the failed
traces.  For a flex-rigid constraint on `a = (?m a_1 ... a_n)`,
`process_meta_app` builds the split of the projections on `a_1, ..., a_n`
followed by the imitation and calls `next` once: it returns true with the
imitation alternative installed, and the following `n` calls of `next`
install the projections on `a_n, a_(n-1), ..., a_1`, after which `next`
returns false with the conflict. -/
theorem imp.next_generic_case_order (k : kernel_ops context expr metavar_env trace)
    (prev : state context expr metavar_env trace) (failed : List (Option trace))
    (c : unification_constraint context expr trace)
    (ss : List (state context expr metavar_env trace)) (as : List (Option trace))
    (a0 : Option trace) (e e1 : imp context expr metavar_env trace)
    (a b : expr) (is_lhs : Bool) (arg_types : List expr)
    (hlen : as.length = ss.length)
    (hma : k.is_meta_app a = true) (hmb : k.is_meta_app b = false)
    (hid : e.m_next_id < UNSIGNED_RANGE)
    (ht : imp.infer_arg_types k c.get_context ((k.args a).drop 1) [] [] e = (arg_types, e1)) :
    (imp.next_calls k.traces ss.length (.generic a0 prev failed c 0 ss as) e).1
      = (ss.reverse.zip as.reverse).map (fun p => (true, p.1, p.2)) ∧
    (∀ n, 1 ≤ n → n ≤ ss.length →
      (imp.next_calls k.traces ss.length (.generic a0 prev failed c 0 ss as) e).1.get? (n - 1)
        = some (true, ss.getD (ss.length - n) prev, as.getD (ss.length - n) none)) ∧
    (imp.next k.traces
        (imp.next_calls k.traces ss.length (.generic a0 prev failed c 0 ss as) e).2.1
        (imp.next_calls k.traces ss.length (.generic a0 prev failed c 0 ss as) e).2.2).1
      = false ∧
    (imp.next k.traces
        (imp.next_calls k.traces ss.length (.generic a0 prev failed c 0 ss as) e).2.1
        (imp.next_calls k.traces ss.length (.generic a0 prev failed c 0 ss as) e).2.2).2.2.m_conflict
      = some (k.traces.unification_failure_by_cases_trace c failed) ∧
    (imp.process_meta_app k e a b is_lhs c false).1 = true ∧
    (imp.process_meta_app k e a b is_lhs c false).2.m_state
      = imp.imitation_alternative k a b c arg_types e1.m_state
          (some (k.traces.assumption_trace
            ((e.m_next_id + (k.num_args a - 1)) % UNSIGNED_RANGE))) ∧
    ∃ d, (imp.process_meta_app k e a b is_lhs c false).2.m_case_splits = d :: e1.m_case_splits ∧
      d.m_curr_assumption = some (k.traces.assumption_trace
            ((e.m_next_id + (k.num_args a - 1)) % UNSIGNED_RANGE)) ∧
      ∀ e2 : imp context expr metavar_env trace,
        (imp.next_calls k.traces (k.num_args a - 1) d e2).1
          = (List.range (k.num_args a - 1)).map (fun j =>
              (true,
                imp.projection_alternative k a b is_lhs c arg_types e1.m_state
                  (some (k.traces.assumption_trace
                    ((e.m_next_id + (k.num_args a - 1 - 1 - j)) % UNSIGNED_RANGE)))
                  (k.num_args a - 1 - j),
                some (k.traces.assumption_trace
                    ((e.m_next_id + (k.num_args a - 1 - 1 - j)) % UNSIGNED_RANGE)))) ∧
        (imp.next k.traces (imp.next_calls k.traces (k.num_args a - 1) d e2).2.1
            (imp.next_calls k.traces (k.num_args a - 1) d e2).2.2).1 = false ∧
        (imp.next k.traces (imp.next_calls k.traces (k.num_args a - 1) d e2).2.1
            (imp.next_calls k.traces (k.num_args a - 1) d e2).2.2).2.2.m_conflict
          = some (k.traces.unification_failure_by_cases_trace c []) := by
  obtain ⟨h1, a1, s1, h2⟩ := imp.next_calls_generic k.traces prev failed c ss as ss.length 0 a0 e
    (by omega)
  simp only [Nat.zero_add] at h1 h2
  have hlist : (List.range ss.length).map (fun i =>
      ((true, ss.getD (ss.length - i - 1) prev, as.getD (ss.length - i - 1) none) :
        Bool × state context expr metavar_env trace × Option trace))
      = (ss.reverse.zip as.reverse).map (fun p => (true, p.1, p.2)) := by
    rw [← map_getD_reverse prev ss, ← map_getD_reverse none as, hlen, List.zip_map,
      List.zip_eq_zipWith, List.map_map]
    apply List.ext_getElem
    · simp
    · intro i h3 h4
      simp
  refine ⟨by rw [h1, hlist], ?_, ?_, ?_, ?_⟩
  · intro n hn1 hn2
    rw [h1, List.get?_eq_getElem?, List.getElem?_map, List.getElem?_range (by omega)]
    simp only [Option.map_some']
    rw [show ss.length - (n - 1) - 1 = ss.length - n by omega]
  · rw [h2]
    simp [imp.next, imp.next_generic_case]
  · rw [h2]
    simp [imp.next, imp.next_generic_case]
  · have hcore := imp.process_meta_app_core_nil k e e1 a b is_lhs c arg_types hid ht
    have hpos : 0 < k.num_args a - 1 + 1 := Nat.succ_pos _
    have hpm : imp.process_meta_app k e a b is_lhs c false
        = imp.push_generic_split k c e.m_state
            (imp.process_meta_app_core k ([], []) e a b is_lhs c).1
            (imp.process_meta_app_core k ([], []) e a b is_lhs c).2 := by
      simp [imp.process_meta_app, hma, hmb]
    rw [hpm, hcore]
    simp only [imp.push_generic_split, imp.next, imp.next_generic_case,
      List.length_append, List.length_map, List.length_range,
      List.length_singleton, hpos, if_true, imp.reset_quota, Nat.sub_zero, Nat.add_sub_cancel,
      Nat.zero_add]
    refine ⟨trivial, ?_, _, rfl, ?_, ?_⟩
    · rw [List.getD_eq_getElem?_getD, List.getElem?_append_right (by simp)]
      simp
    · simp only [case_split.m_curr_assumption]
      rw [List.getD_eq_getElem?_getD, List.getElem?_append_right (by simp)]
      simp
    · intro e2
      obtain ⟨g1, b1, t1, g2⟩ := imp.next_calls_generic k.traces e.m_state [] c
        ((List.range (k.num_args a - 1)).map (fun j =>
            imp.projection_alternative k a b is_lhs c arg_types e1.m_state
              (some (k.traces.assumption_trace ((e.m_next_id + j) % UNSIGNED_RANGE))) (j + 1)) ++
          [imp.imitation_alternative k a b c arg_types e1.m_state
            (some (k.traces.assumption_trace
              ((e.m_next_id + (k.num_args a - 1)) % UNSIGNED_RANGE)))])
        ((List.range (k.num_args a - 1)).map (fun j =>
            some (k.traces.assumption_trace ((e.m_next_id + j) % UNSIGNED_RANGE))) ++
          [some (k.traces.assumption_trace
              ((e.m_next_id + (k.num_args a - 1)) % UNSIGNED_RANGE))])
        (k.num_args a - 1) 1
        (((List.range (k.num_args a - 1)).map (fun j =>
            some (k.traces.assumption_trace ((e.m_next_id + j) % UNSIGNED_RANGE))) ++
          [some (k.traces.assumption_trace
              ((e.m_next_id + (k.num_args a - 1)) % UNSIGNED_RANGE))]).getD
            (k.num_args a - 1) none) e2 (by simp; omega)
      simp only [List.length_append, List.length_map, List.length_range,
        List.length_singleton] at g1 g2
      refine ⟨?_, ?_, ?_⟩
      · rw [g1]
        apply List.map_congr_left
        intro j hj
        have hj1 : j < k.num_args a - 1 := List.mem_range.mp hj
        have hidx : k.num_args a - 1 + 1 - (1 + j) - 1 = k.num_args a - 1 - 1 - j := by omega
        have hidx2 : k.num_args a - 1 - 1 - j + 1 = k.num_args a - 1 - j := by omega
        rw [hidx, List.getD_eq_getElem?_getD, List.getD_eq_getElem?_getD,
          List.getElem?_append_left (by simp; omega),
          List.getElem?_append_left (by simp; omega)]
        simp [List.getElem?_range, show k.num_args a - 1 - 1 - j < k.num_args a - 1 by omega,
          hidx2]
      · have hnlt : ¬ (1 + (k.num_args a - 1) < k.num_args a - 1 + 1) := by omega
        rw [g2]
        simp [imp.next, imp.next_generic_case, hnlt]
      · have hnlt : ¬ (1 + (k.num_args a - 1) < k.num_args a - 1 + 1) := by omega
        rw [g2]
        simp [imp.next, imp.next_generic_case, hnlt]

end generic_split_claim
/-- C33, in the model: a split with the two alternatives of the states 2 and
3, guarded by the assumptions 1 and 2, installs the second and then the
first; and `process_meta_app` on `(?0 a1 a2) == b` returns true. -/
theorem next_generic_case_order_witness :
    (imp.next_calls simple_kernel.traces 2
        (.generic none example_split_engine.m_state [] example_split_constraint 0
          [example_split_state 2, example_split_state 3] [some 1, some 2])
        example_split_engine).1
      = [(true, example_split_state 3, some 2), (true, example_split_state 2, some 1)] ∧
    (imp.process_meta_app simple_kernel example_split_engine
        (.app (.app (.metavar 0) (.constant (name.mk_str "a1"))) (.constant (name.mk_str "a2")))
        (.constant (name.mk_str "b")) true example_split_constraint false).1 = true :=
  ⟨(imp.next_generic_case_order simple_kernel example_split_engine.m_state []
      example_split_constraint [example_split_state 2, example_split_state 3]
      [some 1, some 2] none example_split_engine _
      (.app (.app (.metavar 0) (.constant (name.mk_str "a1"))) (.constant (name.mk_str "a2")))
      (.constant (name.mk_str "b")) true _ rfl (by decide) (by decide) (by decide) rfl).1,
    (imp.next_generic_case_order simple_kernel example_split_engine.m_state []
      example_split_constraint [example_split_state 2, example_split_state 3]
      [some 1, some 2] none example_split_engine _
      (.app (.app (.metavar 0) (.constant (name.mk_str "a1"))) (.constant (name.mk_str "a2")))
      (.constant (name.mk_str "b")) true _ rfl (by decide) (by decide) (by decide)
      rfl).2.2.2.2.1⟩

/-! ## Unfolding by weight in `normalize_head` -/

section unfolding

variable {context expr metavar_env trace : Type} [DecidableEq expr]

end unfolding
section unfolding_weight

variable {context expr metavar_env trace : Type}

end unfolding_weight

section unfolding_claim

variable {context expr metavar_env trace : Type} [DecidableEq expr]

end unfolding_claim
theorem char_digit_iff (c : Char) : ('0' ≤ c ∧ c ≤ '9') ↔ c.isDigit = true := by
  simp only [Char.isDigit, Char.le_def, Bool.and_eq_true, decide_eq_true_eq]
  exact Iff.rfl

theorem decimal_number_foldl (ds : List Char) : ∀ v : Nat,
    ds.foldl (fun v c => 10 * v + (c.toNat - '0'.toNat)) v
      = v * 10 ^ ds.length + decimal_number ds := by
  induction ds with
  | nil => intro v; simp [decimal_number]
  | cons d ds ih =>
    intro v
    simp only [List.foldl_cons, decimal_number, List.length_cons]
    rw [ih, ih (10 * 0 + (d.toNat - '0'.toNat))]
    ring

theorem decimal_number_cons (d : Char) (ds : List Char) :
    decimal_number (d :: ds) = (d.toNat - '0'.toNat) * 10 ^ ds.length + decimal_number ds := by
  rw [decimal_number, List.foldl_cons, decimal_number_foldl]
  simp

theorem decimal_number_append (ds es : List Char) :
    decimal_number (ds ++ es) = decimal_number ds * 10 ^ es.length + decimal_number es := by
  unfold decimal_number
  rw [List.foldl_append, decimal_number_foldl]
  rfl

namespace scanner

theorem reads_next (s : scanner) (c : Char) (l : List Char) (h : s.reads (c :: l)) :
    (next s).reads l := by
  obtain ⟨_, h2⟩ := h
  simp only [List.tail_cons] at h2
  exact ⟨by simp [next, h2], by simp [next, h2]⟩

theorem read_number_loop_digits : ∀ (ds : List Char), (∀ c ∈ ds, '0' ≤ c ∧ c ≤ '9') →
    ∀ (l : List Char) (fuel : Nat) (q : Rat) (dec : Bool) (s : scanner), s.reads (ds ++ l) →
    ∃ s1, read_number_loop (fuel + ds.length) q dec s
        = read_number_loop fuel (if dec then q * 10 ^ ds.length else q) dec s1 ∧
      s1.reads l ∧
      s1.m_num_val = s.m_num_val * 10 ^ ds.length + (decimal_number ds : Rat) := by
  intro ds
  induction ds with
  | nil =>
    intro _ l fuel q dec s hs
    refine ⟨s, ?_, hs, ?_⟩
    · cases dec <;> simp
    · simp [decimal_number]
  | cons d ds ih =>
    intro hd l fuel q dec s hs
    have hdd := hd d (List.mem_cons_self _ _)
    have hcurr : s.curr = d := hs.1
    obtain ⟨s1, h1, h2, h3⟩ := ih (fun c hc => hd c (List.mem_cons_of_mem _ hc)) l fuel
      (if dec then q * 10 else q) dec
      (next { s with m_num_val := 10 * s.m_num_val + ((d.toNat - '0'.toNat : Nat) : Rat) })
      (reads_next _ d (ds ++ l) hs)
    refine ⟨s1, ?_, h2, ?_⟩
    · rw [List.length_cons, ← Nat.add_assoc, read_number_loop]
      simp only [hcurr, hdd, and_self, if_true]
      rw [h1]
      cases dec
      · simp
      · simp only [if_true, pow_succ]
        congr 1
        ring
    · rw [h3, decimal_number_cons]
      simp only [next, List.length_cons]
      push_cast
      ring

/-- The loop of `read_number` stops at a character that is neither a digit
nor a `.` followed by a digit, and at a `.` when the number is a decimal
already. -/
theorem read_number_loop_stop (l : List Char) (fuel : Nat) (q : Rat) (dec : Bool) (s : scanner)
    (hs : s.reads l) (hnd : ¬ ('0' ≤ l.headD EOF ∧ l.headD EOF ≤ '9'))
    (hdot : l.headD EOF ≠ '.' ∨ ¬ ('0' ≤ l.tail.headD EOF ∧ l.tail.headD EOF ≤ '9') ∨
      dec = true) :
    read_number_loop (fuel + 1) q dec s = some (q, dec, s) := by
  have hcurr : s.curr = l.headD EOF := hs.1
  rw [read_number_loop]
  simp only [hcurr, hnd, if_false]
  by_cases hp : l.headD EOF = '.'
  · simp only [hp, if_true]
    rcases hdot with h | h | h
    · exact absurd hp h
    · have : s.check_next_is_digit = false := by
        simp only [check_next_is_digit, hs.2]
        rw [Bool.eq_false_iff]
        intro hc
        simp only [Bool.and_eq_true, decide_eq_true_eq] at hc
        exact h hc
      simp [this]
    · simp [h]
  · simp only [hp, if_false]

/-- At a `.` followed by a digit, the loop of `read_number` goes on with a
decimal when the number is not one yet. -/
theorem read_number_loop_dot (l : List Char) (fuel : Nat) (q : Rat) (s : scanner)
    (hs : s.reads ('.' :: l)) (hd : '0' ≤ l.headD EOF ∧ l.headD EOF ≤ '9') :
    read_number_loop (fuel + 1) q false s = read_number_loop fuel q true (next s) := by
  have hcurr : s.curr = '.' := hs.1
  have hnd : ¬ ('0' ≤ ('.' : Char) ∧ ('.' : Char) ≤ '9') := by decide
  have hc : s.check_next_is_digit = true := by
    simp only [check_next_is_digit, hs.2, List.tail_cons, Bool.and_eq_true, decide_eq_true_eq]
    exact hd
  rw [read_number_loop]
  simp [hcurr, hnd, hc]

/-- The function `read_number` on the digits `ds` followed by `rest`, when
`rest` ends the numeral as an integer. -/
theorem read_number_int (ds rest : List Char) (pos : Bool) (s : scanner) (hne : ds ≠ [])
    (hd : ∀ c ∈ ds, '0' ≤ c ∧ c ≤ '9') (hs : s.reads (ds ++ rest))
    (hnd : ¬ ('0' ≤ rest.headD EOF ∧ rest.headD EOF ≤ '9'))
    (hdot : rest.headD EOF ≠ '.' ∨
      ¬ ('0' ≤ rest.tail.headD EOF ∧ rest.tail.headD EOF ≤ '9')) :
    ∃ s1, read_number s pos = some (.IntVal, s1) ∧ s1.reads rest ∧
      s1.m_num_val = (if pos then ((decimal_number ds : Nat) : Rat)
        else -((decimal_number ds : Nat) : Rat)) := by
  obtain ⟨d, ds1, rfl⟩ : ∃ d ds1, ds = d :: ds1 := by
    cases ds with
    | nil => exact absurd rfl hne
    | cons d ds1 => exact ⟨d, ds1, rfl⟩
  have hcurr : s.curr = d := hs.1
  have hlen : s.m_stream.length + 2 = (rest.length + 1 + 1) + ds1.length := by
    rw [hs.2]; simp; omega
  obtain ⟨s1, h1, h2, h3⟩ := read_number_loop_digits ds1
    (fun c hc => hd c (List.mem_cons_of_mem _ hc)) rest (rest.length + 1 + 1) 1 false
    (next { s with m_num_val := ((d.toNat - '0'.toNat : Nat) : Rat) })
    (reads_next _ d (ds1 ++ rest) hs)
  have h4 := read_number_loop_stop rest (rest.length + 1) 1 false s1 h2 hnd
    (hdot.elim Or.inl (fun h => Or.inr (Or.inl h)))
  simp only [Bool.false_eq_true, if_false] at h1
  refine ⟨{ s1 with m_num_val := (if pos then id else Neg.neg) s1.m_num_val }, ?_, h2, ?_⟩
  · simp only [read_number, hlen, hcurr, h1, h4, Bool.false_eq_true, if_false]
  · simp only [h3, next, decimal_number_cons]
    cases pos <;> simp

/-- The function `read_number` on the digits `ds`, a `.` and the digits `es`
followed by `rest`. -/
theorem read_number_decimal (ds es rest : List Char) (pos : Bool) (s : scanner) (hne : ds ≠ [])
    (hnes : es ≠ []) (hd : ∀ c ∈ ds, '0' ≤ c ∧ c ≤ '9') (he : ∀ c ∈ es, '0' ≤ c ∧ c ≤ '9')
    (hs : s.reads (ds ++ '.' :: (es ++ rest)))
    (hnd : ¬ ('0' ≤ rest.headD EOF ∧ rest.headD EOF ≤ '9')) :
    ∃ s1, read_number s pos = some (.DecimalVal, s1) ∧ s1.reads rest ∧
      s1.m_num_val = (if pos then ((decimal_number (ds ++ es) : Nat) : Rat) / 10 ^ es.length
        else -(((decimal_number (ds ++ es) : Nat) : Rat) / 10 ^ es.length)) := by
  obtain ⟨d, ds1, rfl⟩ : ∃ d ds1, ds = d :: ds1 := by
    cases ds with
    | nil => exact absurd rfl hne
    | cons d ds1 => exact ⟨d, ds1, rfl⟩
  obtain ⟨x, es1, rfl⟩ : ∃ x es1, es = x :: es1 := by
    cases es with
    | nil => exact absurd rfl hnes
    | cons x es1 => exact ⟨x, es1, rfl⟩
  have hcurr : s.curr = d := hs.1
  have hlen : s.m_stream.length + 2
      = (((rest.length + 1 + 1) + (x :: es1).length) + 1) + ds1.length := by
    rw [hs.2]; simp; omega
  obtain ⟨s1, h1, h2, h3⟩ := read_number_loop_digits ds1
    (fun c hc => hd c (List.mem_cons_of_mem _ hc)) ('.' :: (x :: es1 ++ rest))
    (((rest.length + 1 + 1) + (x :: es1).length) + 1) 1 false
    (next { s with m_num_val := ((d.toNat - '0'.toNat : Nat) : Rat) })
    (reads_next _ d (ds1 ++ '.' :: (x :: es1 ++ rest)) hs)
  have h4 := read_number_loop_dot (x :: es1 ++ rest) ((rest.length + 1 + 1) + (x :: es1).length)
    1 s1 h2 (he x (List.mem_cons_self _ _))
  obtain ⟨s2, h5, h6, h7⟩ := read_number_loop_digits (x :: es1) he rest (rest.length + 1 + 1) 1
    true (next s1) (reads_next _ '.' (x :: es1 ++ rest) h2)
  have h8 := read_number_loop_stop rest (rest.length + 1) (1 * 10 ^ (x :: es1).length) true s2 h6
    hnd (Or.inr (Or.inr rfl))
  simp only [Bool.false_eq_true, if_false] at h1
  simp only [if_true] at h5
  refine ⟨{ s2 with
    m_num_val :=
      ((if pos then id else Neg.neg) (s2.m_num_val / (1 * 10 ^ (x :: es1).length))) },
    ?_, h6, ?_⟩
  · simp only [read_number, hlen, hcurr, h1, h4, h5, h8, if_true]
  · have hv : s2.m_num_val = ((decimal_number (d :: ds1 ++ x :: es1) : Nat) : Rat) := by
      rw [h7, decimal_number_append]
      simp only [next, h3, decimal_number_cons]
      push_cast
      ring
    simp only [hv, one_mul]
    cases pos <;> simp

end scanner
namespace scanner

theorem normalize_digit (d : Char) (h : '0' ≤ d ∧ d ≤ '9') : normalize d = '0' := by
  simp [normalize, (char_digit_iff d).mp h]

/-- The function `scan` at a digit calls `read_number(true)`. -/
theorem scan_at_digit (s : scanner) (d : Char) (h : '0' ≤ d ∧ d ≤ '9') (hc : s.m_curr = d) :
    scan s = (read_number { s with m_pos := s.m_spos } true).map (fun r => (.ok r.1, r.2)) := by
  have hn := normalize_digit d h
  rw [scan, scan_loop]
  simp +decide only [curr, hc, hn, if_false, if_true]

/-- The function `scan` at a `-` followed by a digit calls
`read_number(false)`. -/
theorem scan_at_minus_digit (s : scanner) (d : Char) (h : '0' ≤ d ∧ d ≤ '9')
    (hc : s.m_curr = '-') (hd : s.m_stream.headD EOF = d) :
    scan s = (read_number (next { s with m_pos := s.m_spos }) false).map
      (fun r => (.ok r.1, r.2)) := by
  have hn := normalize_digit d h
  have hm : normalize '-' = '-' := by decide
  obtain ⟨spos, cur, line, pos, stream, sl, sp, nv, num, buf, cmds⟩ := s
  simp only at hc hd
  subst hc
  rw [scan, scan_loop]
  simp +decide only [curr, next, hm, hd, hn, if_false, if_true]

end scanner
/-- C38: numeric literals are read exactly.  Let `ds` be one or more digits,
`es` digits, and `rest` an input whose first character is not a digit.  From
a scanner that reads `ds` followed by `rest`, where `rest` does not start
with a `.` followed by a digit, `scan` returns `IntVal` with the value of the
decimal number `ds`.  From a scanner that reads `ds`, a `.`, one or more
digits `es` and `rest`, `scan` returns `DecimalVal` with the exact rational
value `(ds es) / 10^n`, `n` being the number of the digits `es`.  In both
cases the scanner is left reading `rest`: a `.` that is not followed by a
digit, and a second `.`, are not consumed.  When a `-` stands right before
the digits the value is negated. -/
theorem scanner.scan_number (ds es rest : List Char) (s : scanner) (hne : ds ≠ [])
    (hd : ∀ c ∈ ds, '0' ≤ c ∧ c ≤ '9') (he : ∀ c ∈ es, '0' ≤ c ∧ c ≤ '9')
    (hnd : ¬ ('0' ≤ rest.headD EOF ∧ rest.headD EOF ≤ '9')) :
    (s.reads (ds ++ rest) →
      (rest.headD EOF ≠ '.' ∨ ¬ ('0' ≤ rest.tail.headD EOF ∧ rest.tail.headD EOF ≤ '9')) →
      ∃ s1, scanner.scan s = some (.ok .IntVal, s1) ∧ s1.reads rest ∧
        s1.m_num_val = ((decimal_number ds : Nat) : Rat)) ∧
    (es ≠ [] → s.reads (ds ++ '.' :: (es ++ rest)) →
      ∃ s1, scanner.scan s = some (.ok .DecimalVal, s1) ∧ s1.reads rest ∧
        s1.m_num_val = ((decimal_number (ds ++ es) : Nat) : Rat) / 10 ^ es.length) ∧
    (s.reads ('-' :: (ds ++ rest)) →
      (rest.headD EOF ≠ '.' ∨ ¬ ('0' ≤ rest.tail.headD EOF ∧ rest.tail.headD EOF ≤ '9')) →
      ∃ s1, scanner.scan s = some (.ok .IntVal, s1) ∧ s1.reads rest ∧
        s1.m_num_val = -((decimal_number ds : Nat) : Rat)) ∧
    (es ≠ [] → s.reads ('-' :: (ds ++ '.' :: (es ++ rest))) →
      ∃ s1, scanner.scan s = some (.ok .DecimalVal, s1) ∧ s1.reads rest ∧
        s1.m_num_val = -(((decimal_number (ds ++ es) : Nat) : Rat) / 10 ^ es.length)) := by
  obtain ⟨d, ds1, rfl⟩ : ∃ d ds1, ds = d :: ds1 := by
    cases ds with
    | nil => exact absurd rfl hne
    | cons d ds1 => exact ⟨d, ds1, rfl⟩
  have hdd := hd d (List.mem_cons_self _ _)
  refine ⟨?_, ?_, ?_, ?_⟩
  · intro hs hdot
    obtain ⟨s1, h1, h2, h3⟩ := scanner.read_number_int (d :: ds1) rest true
      { s with m_pos := s.m_spos } hne hd hs hnd hdot
    exact ⟨s1, by rw [scanner.scan_at_digit s d hdd hs.1, h1]; rfl, h2, by simpa using h3⟩
  · intro hnes hs
    obtain ⟨s1, h1, h2, h3⟩ := scanner.read_number_decimal (d :: ds1) es rest true
      { s with m_pos := s.m_spos } hne hnes hd he hs hnd
    exact ⟨s1, by rw [scanner.scan_at_digit s d hdd hs.1, h1]; rfl, h2, by simpa using h3⟩
  · intro hs hdot
    have hst : s.m_stream.headD EOF = d := by rw [hs.2]; rfl
    obtain ⟨s1, h1, h2, h3⟩ := scanner.read_number_int (d :: ds1) rest false
      (scanner.next { s with m_pos := s.m_spos }) hne hd
      (scanner.reads_next _ '-' (d :: ds1 ++ rest) hs) hnd hdot
    exact ⟨s1, by rw [scanner.scan_at_minus_digit s d hdd hs.1 hst, h1]; rfl, h2,
      by simpa using h3⟩
  · intro hnes hs
    have hst : s.m_stream.headD EOF = d := by rw [hs.2]; rfl
    obtain ⟨s1, h1, h2, h3⟩ := scanner.read_number_decimal (d :: ds1) es rest false
      (scanner.next { s with m_pos := s.m_spos }) hne hnes hd he
      (scanner.reads_next _ '-' (d :: ds1 ++ '.' :: (es ++ rest)) hs) hnd
    exact ⟨s1, by rw [scanner.scan_at_minus_digit s d hdd hs.1 hst, h1]; rfl, h2,
      by simpa using h3⟩

/-- C38, on the input `12.50.3`: the scanner returns `DecimalVal` with the
value 1250 / 100 and is left at the second `.`. -/
theorem scan_number_witness :
    ∃ s1, scanner.scan (scanner.mk_scanner "12.50.3".data) = some (.ok .DecimalVal, s1) ∧
      s1.reads ".3".data ∧
      s1.m_num_val = ((decimal_number ("12".data ++ "50".data) : Nat) : Rat)
        / 10 ^ "50".data.length :=
  (scanner.scan_number "12".data "50".data ".3".data (scanner.mk_scanner "12.50.3".data)
    (by decide) (by decide) (by decide) (by decide)).2.1 (by decide) (by decide)
/-! ## Script blocks in the scanner -/

theorem has_pair_tail (a b x : Char) (l : List Char) (h : has_pair a b (x :: l) = false) :
    has_pair a b l = false := by
  cases l with
  | nil => rfl
  | cons y l =>
    simp only [has_pair, Bool.or_eq_false_iff] at h
    exact h.2

theorem has_pair_head (a b x y : Char) (l : List Char) (h : has_pair a b (x :: y :: l) = false) :
    ¬ (x = a ∧ y = b) := by
  simp only [has_pair, Bool.or_eq_false_iff, Bool.and_eq_false_imp, beq_iff_eq] at h
  rintro ⟨h1, h2⟩
  have := h.1 h1
  simp [h2] at this

namespace scanner

theorem reads_with_buffer (s : scanner) (l : List Char) (b : String) (h : s.reads l) :
    reads { s with m_buffer := b } l := h

theorem reads_new_line (s : scanner) (l : List Char) (h : s.reads l) : (new_line s).reads l := h

theorem reads_step (s : scanner) (c : Char) (l : List Char) (b : String) (p : Prop)
    [Decidable p] (h : s.reads (c :: l)) :
    reads { (if p then new_line (next s) else next s) with m_buffer := b } l := by
  split
  · exact reads_next s c l h
  · exact reads_next s c l h

/-- The loop of `read_script_block` on a body in which no `*` is followed by
a `*`, a `)` or the byte 255, and which does not hold the byte 255: the block
ends at the `*)` that follows the body. -/
theorem read_script_block_loop_body : ∀ (n : Nat) (body rest : List Char) (fuel : Nat)
    (s : scanner), body.length ≤ n → body.length + 1 ≤ fuel →
    s.reads (body ++ '*' :: ')' :: rest) → EOF ∉ body →
    has_pair '*' ')' (body ++ ['*']) = false → has_pair '*' '*' (body ++ ['*']) = false →
    ∃ s1, read_script_block_loop fuel s = some (.ok .ScriptBlock, s1) ∧ s1.reads rest ∧
      s1.m_buffer = ⟨s.m_buffer.data ++ body⟩ := by
  intro n
  induction n using Nat.strong_induction_on with
  | _ n ih =>
    intro body rest fuel s hn hf hs he h1 h2
    obtain ⟨fuel, rfl⟩ : ∃ m, fuel = m + 1 := ⟨fuel - 1, by omega⟩
    have hEOF : EOF ≠ '*' := by decide
    cases body with
    | nil =>
      have hc : s.curr = '*' := hs.1
      have hr1 := reads_next s '*' (')' :: rest) hs
      have hc1 : (next s).curr = ')' := hr1.1
      have hne : (')' : Char) ≠ EOF := by decide
      refine ⟨next (next s), ?_, reads_next _ ')' rest hr1, by simp [next]⟩
      rw [read_script_block_loop]
      simp only [hc, hc1, hEOF.symm, hne, if_false, if_true]
    | cons c body1 =>
      have hc : s.curr = c := hs.1
      have hcE : c ≠ EOF := fun h => he (h ▸ List.mem_cons_self _ _)
      by_cases hstar : c = '*'
      · subst hstar
        cases body1 with
        | nil => simp [has_pair] at h2
        | cons c2 body2 =>
          have hr1 := reads_next s '*' (c2 :: body2 ++ '*' :: ')' :: rest) hs
          have hc1 : (next s).curr = c2 := hr1.1
          have hc2E : c2 ≠ EOF := fun h =>
            he (h ▸ List.mem_cons_of_mem _ (List.mem_cons_self _ _))
          have hc2p : c2 ≠ ')' := fun h =>
            has_pair_head '*' ')' '*' c2 (body2 ++ ['*']) h1 ⟨rfl, h⟩
          have hr2 := reads_next _ c2 (body2 ++ '*' :: ')' :: rest) hr1
          obtain ⟨s1, g1, g2, g3⟩ := ih body2.length (by simp at hn; omega) body2 rest fuel
            { (if (next s).curr = '\n' then new_line (next (next s)) else next (next s)) with
              m_buffer := (s.m_buffer.push s.curr).push (next s).curr }
            (Nat.le_refl _) (by simp at hf; omega)
            (by split <;> exact hr2)
            (fun h => he (List.mem_cons_of_mem _ (List.mem_cons_of_mem _ h)))
            (has_pair_tail _ _ _ _ (has_pair_tail _ _ _ _ h1))
            (has_pair_tail _ _ _ _ (has_pair_tail _ _ _ _ h2))
          refine ⟨s1, ?_, g2, ?_⟩
          · rw [read_script_block_loop]
            simp only [hc, hEOF.symm, if_false, if_true]
            rw [if_neg (by rw [hc1]; exact hc2E), if_neg (by rw [hc1]; exact hc2p)]
            simpa only [hc] using g1
          · rw [g3]
            simp [String.push, hc, hc1]
      · have hr1 := reads_next s c (body1 ++ '*' :: ')' :: rest) hs
        obtain ⟨s1, g1, g2, g3⟩ := ih body1.length (by simp at hn; omega) body1 rest fuel
          { (if s.curr = '\n' then new_line (next s) else next s) with
            m_buffer := s.m_buffer.push s.curr }
          (Nat.le_refl _) (by simp at hf; omega)
          (by split <;> exact hr1)
          (fun h => he (List.mem_cons_of_mem _ h))
          (has_pair_tail _ _ _ _ h1) (has_pair_tail _ _ _ _ h2)
        refine ⟨s1, ?_, g2, ?_⟩
        · rw [read_script_block_loop]
          simp only [hc, hcE, hstar, if_false]
          simpa only [hc] using g1
        · rw [g3]
          simp [String.push, hc]

/-- The loop of `read_script_block` on an input without `*)`: the exception
`unexpected end of script` is thrown. -/
theorem read_script_block_loop_eof : ∀ (n : Nat) (l : List Char) (fuel : Nat) (s : scanner),
    l.length ≤ n → l.length + 1 ≤ fuel → s.reads l → has_pair '*' ')' l = false →
    ∃ s1, read_script_block_loop fuel s
      = some (.error (s1.throw_exception "unexpected end of script"), s1) := by
  intro n
  induction n using Nat.strong_induction_on with
  | _ n ih =>
    intro l fuel s hn hf hs h1
    obtain ⟨fuel, rfl⟩ : ∃ m, fuel = m + 1 := ⟨fuel - 1, by omega⟩
    by_cases hcE : s.curr = EOF
    · exact ⟨s, by rw [read_script_block_loop]; simp only [hcE, if_true]⟩
    · cases l with
      | nil => exact absurd hs.1 hcE
      | cons c l1 =>
        have hc : s.curr = c := hs.1
        have hr1 := reads_next s c l1 hs
        by_cases hstar : s.curr = '*'
        · by_cases hc1E : (next s).curr = EOF
          · have hsE : ('*' : Char) ≠ EOF := by decide
            exact ⟨next s, by
              rw [read_script_block_loop]
              simp only [hstar, hsE, hc1E, if_true, if_false]⟩
          · cases l1 with
            | nil => exact absurd hr1.1 hc1E
            | cons c2 l2 =>
              have hc1 : (next s).curr = c2 := hr1.1
              have hc2p : (next s).curr ≠ ')' := fun h =>
                has_pair_head '*' ')' c c2 l2 h1 ⟨hc ▸ hstar, hc1 ▸ h⟩
              have hr2 := reads_next _ c2 l2 hr1
              obtain ⟨s1, g1⟩ := ih l2.length (by simp at hn; omega) l2 fuel
                { (if (next s).curr = '\n' then new_line (next (next s)) else next (next s)) with
                  m_buffer := (s.m_buffer.push s.curr).push (next s).curr }
                (Nat.le_refl _) (by simp at hf; omega)
                (by split <;> exact hr2)
                (has_pair_tail _ _ _ _ (has_pair_tail _ _ _ _ h1))
              have hsE : ('*' : Char) ≠ EOF := by decide
              refine ⟨s1, ?_⟩
              rw [read_script_block_loop]
              simp only [hstar, hsE, hc1E, hc2p, if_true, if_false]
              simpa only [hstar] using g1
        · obtain ⟨s1, g1⟩ := ih l1.length (by simp at hn; omega) l1 fuel
            { (if s.curr = '\n' then new_line (next s) else next s) with
              m_buffer := s.m_buffer.push s.curr }
            (Nat.le_refl _) (by simp at hf; omega)
            (by split <;> exact hr1)
            (has_pair_tail _ _ _ _ h1)
          refine ⟨s1, ?_⟩
          rw [read_script_block_loop]
          simp only [hcE, hstar, if_false]
          exact g1

end scanner
namespace scanner

/-- The function `scan` at `(*` calls `read_script_block`. -/
theorem scan_at_script_block (s : scanner) (hc : s.m_curr = '(')
    (hd : s.m_stream.headD EOF = '*') :
    scan s = read_script_block (next (next { s with m_pos := s.m_spos })) := by
  have hm : normalize '(' = '(' := by decide
  obtain ⟨spos, cur, line, pos, stream, sl, sp, nv, num, buf, cmds⟩ := s
  simp only at hc hd
  subst hc
  rw [scan, scan_loop]
  simp +decide only [curr, next, hm, hd, if_false, if_true]

end scanner

/-- C39: the script blocks of the scanner.  On the input `(* a **)` the
block is not closed: after the `*` that ends the body, `read_script_block`
reads the `*` of the delimiter as the character that follows it, takes the
`)` for a character of the block, and throws `unexpected end of script` at
the end of the input; with more input the block ends at a later `*)`.  The
block ends at the first `*)`, with the body in the buffer and the scanner
left reading the rest, when no `*` of the body is followed by a `*` (so the
body does not end with `*`) and the body does not hold the byte 255.  On an
input without `*)` after the opening `(*`, `scan` throws `unexpected end of
script`. -/
theorem scanner.scan_script_block (body rest l : List Char) (s : scanner) :
    (∃ m_line m_spos, (scanner.scan (scanner.mk_scanner "(* a **)".data)).map (fun r => r.1)
      = some (.error ⟨"unexpected end of script", m_line, m_spos⟩)) ∧
    (scanner.scan (scanner.mk_scanner "(* a **) b *) c".data)).map
        (fun r => (r.1, r.2.m_buffer, r.2.m_curr :: r.2.m_stream))
      = some (.ok .ScriptBlock, " a **) b ", " c".data) ∧
    (s.reads ('(' :: '*' :: (body ++ '*' :: ')' :: rest)) → EOF ∉ body →
      has_pair '*' ')' (body ++ ['*']) = false → has_pair '*' '*' (body ++ ['*']) = false →
      ∃ s1, scanner.scan s = some (.ok .ScriptBlock, s1) ∧ s1.reads rest ∧
        s1.m_buffer = String.mk body) ∧
    (s.reads ('(' :: '*' :: l) → has_pair '*' ')' l = false →
      ∃ s1, scanner.scan s
        = some (.error (s1.throw_exception "unexpected end of script"), s1)) := by
  refine ⟨⟨_, _, rfl⟩, rfl, ?_, ?_⟩
  · intro hs he h1 h2
    have hr2 := scanner.reads_next _ '*' _
      (scanner.reads_next { s with m_pos := s.m_spos } '(' _ hs)
    obtain ⟨s1, g1, g2, g3⟩ := scanner.read_script_block_loop_body body.length body rest
      ((scanner.next (scanner.next { s with m_pos := s.m_spos })).m_stream.length + 2)
      { scanner.next (scanner.next { s with m_pos := s.m_spos }) with
        m_script_line := (scanner.next (scanner.next { s with m_pos := s.m_spos })).m_line,
        m_script_pos := (scanner.next (scanner.next { s with m_pos := s.m_spos })).m_pos,
        m_buffer := "" }
      (Nat.le_refl _) (by rw [hr2.2]; simp; omega) hr2 he h1 h2
    refine ⟨s1, ?_, g2, by simpa using g3⟩
    rw [scanner.scan_at_script_block s hs.1 (by rw [hs.2]; rfl), scanner.read_script_block]
    exact g1
  · intro hs h1
    have hr2 := scanner.reads_next _ '*' _
      (scanner.reads_next { s with m_pos := s.m_spos } '(' _ hs)
    obtain ⟨s1, g1⟩ := scanner.read_script_block_loop_eof l.length l
      ((scanner.next (scanner.next { s with m_pos := s.m_spos })).m_stream.length + 2)
      { scanner.next (scanner.next { s with m_pos := s.m_spos }) with
        m_script_line := (scanner.next (scanner.next { s with m_pos := s.m_spos })).m_line,
        m_script_pos := (scanner.next (scanner.next { s with m_pos := s.m_spos })).m_pos,
        m_buffer := "" }
      (Nat.le_refl _) (by rw [hr2.2]; simp; omega) hr2 h1
    refine ⟨s1, ?_⟩
    rw [scanner.scan_at_script_block s hs.1 (by rw [hs.2]; rfl), scanner.read_script_block]
    exact g1

/-- C39, on the input `(* a*b *) c`: the block ends at the first `*)` with
the body ` a*b ` in the buffer, and the scanner is left reading ` c`. -/
theorem scan_script_block_witness :
    ∃ s1, scanner.scan (scanner.mk_scanner "(* a*b *) c".data) = some (.ok .ScriptBlock, s1) ∧
      s1.reads " c".data ∧ s1.m_buffer = String.mk " a*b ".data :=
  (scanner.scan_script_block " a*b ".data " c".data []
    (scanner.mk_scanner "(* a*b *) c".data)).2.2.1 (by decide) (by decide) (by decide) (by decide)

/-! ## The layout of a format -/

namespace format

theorem mem_append_all (as bs : List (List format)) (out : List format) :
    out ∈ append_all as bs ↔ ∃ a ∈ as, ∃ b ∈ bs, out = a ++ b := by
  simp only [append_all, List.mem_flatMap, List.mem_map]
  constructor
  · rintro ⟨a, ha, b, hb, rfl⟩
    exact ⟨a, ha, b, hb, rfl⟩
  · rintro ⟨a, ha, b, hb, rfl⟩
    exact ⟨a, ha, b, hb, rfl⟩

theorem size_pos : ∀ v : format, 0 < size v
  | NIL => by simp [size]
  | NEST _ _ => by simp [size]
  | COMPOSE _ => by simp [size]
  | CHOICE _ _ => by simp [size]
  | LINE => by simp [size]
  | TEXT _ => by simp [size]
  | COLOR_BEGIN _ => by simp [size]
  | COLOR_END => by simp [size]

theorem size_items_foldr (i : Int) (z : List (Int × format)) : ∀ l : List format,
    size_items (l.foldr (fun s res => (i, s) :: res) z) = size_list l + size_items z
  | [] => by simp [size_list]
  | s :: l => by
    simp only [List.foldr_cons, size_items, size_list, size_items_foldr i z l]
    omega

theorem cons_result_isSome (v : format) (r : Option (Except format_exception (List format)))
    (h : r.isSome = true) : (cons_result v r).isSome = true := by
  cases r with
  | none => cases h
  | some x => rfl

/-- The function `be` returns: a bound above the number of nodes of the
pending formats is enough. -/
theorem be_terminates (text_length : String → Nat) (w : Nat) : ∀ (fuel k : Nat)
    (s : List (Int × format)), size_items s < fuel → (be text_length w fuel k s).isSome = true := by
  intro fuel
  induction fuel with
  | zero => intro k s h; omega
  | succ n ih =>
    intro k s h
    cases s with
    | nil => rfl
    | cons hd z =>
      obtain ⟨i, v⟩ := hd
      cases v with
      | NIL =>
        simp only [be]
        exact ih k z (by simp [size_items, size] at h; omega)
      | NEST j x =>
        simp only [be]
        exact ih k _ (by simp [size_items, size] at h ⊢; omega)
      | COMPOSE l =>
        simp only [be]
        exact ih k _ (by rw [size_items_foldr]; simp [size_items, size] at h; omega)
      | CHOICE x y =>
        simp only [be]
        split
        · exact ih k _ (by simp [size_items, size] at h ⊢; omega)
        · exact ih k _ (by simp [size_items, size] at h ⊢; omega)
      | LINE =>
        simp only [be]
        split
        · rfl
        · exact cons_result_isSome _ _ (cons_result_isSome _ _
            (ih _ z (by simp [size_items, size] at h; omega)))
      | TEXT t =>
        simp only [be]
        exact cons_result_isSome _ _ (ih _ z (by simp [size_items, size] at h; omega))
      | COLOR_BEGIN c =>
        simp only [be]
        exact cons_result_isSome _ _ (ih _ z (by simp [size_items, size] at h; omega))
      | COLOR_END =>
        simp only [be]
        exact cons_result_isSome _ _ (ih _ z (by simp [size_items, size] at h; omega))

theorem cons_result_eq_some (v : format) (r : Option (Except format_exception (List format)))
    (x : Except format_exception (List format)) (h : cons_result v r = some x) :
    ∃ y, r = some y ∧ x = y.map (fun l => v :: l) := by
  cases r with
  | none => cases h
  | some y =>
    simp only [cons_result, Option.map_some', Option.some.injEq] at h
    exact ⟨y, rfl, h.symm⟩

theorem to_int_of_range (x : Int) (h1 : INT_MIN ≤ x) (h2 : x ≤ INT_MAX) : to_int x = x := by
  unfold INT_MIN at h1
  unfold INT_MAX at h2
  unfold to_int
  omega

theorem layouts_items_foldr (i : Int) (z : List (Int × format)) (out : List format) :
    ∀ l : List format, out ∈ layouts_items (l.foldr (fun s res => (i, s) :: res) z) →
      out ∈ append_all (layouts_compose i l) (layouts_items z)
  | [], h => by
    rw [mem_append_all]
    exact ⟨[], by simp [layouts_compose], out, h, rfl⟩
  | s :: l, h => by
    simp only [List.foldr_cons, layouts_items] at h
    rw [mem_append_all] at h
    obtain ⟨a, ha, b, hb, rfl⟩ := h
    have h2 := layouts_items_foldr i z b l hb
    rw [mem_append_all] at h2
    obtain ⟨c, hc, d, hd, rfl⟩ := h2
    rw [mem_append_all]
    refine ⟨a ++ c, ?_, d, hd, by simp⟩
    simp only [layouts_compose]
    rw [mem_append_all]
    exact ⟨a, ha, c, hc, rfl⟩

theorem indent_ok_items_foldr (i : Int) (z : List (Int × format)) : ∀ l : List format,
    indent_ok_compose i l = true → indent_ok_items z = true →
    indent_ok_items (l.foldr (fun s res => (i, s) :: res) z) = true
  | [], _, hz => hz
  | s :: l, hl, hz => by
    simp only [indent_ok_compose, Bool.and_eq_true] at hl
    simp only [List.foldr_cons, indent_ok_items, Bool.and_eq_true]
    exact ⟨hl.1, indent_ok_items_foldr i z l hl.2 hz⟩

/-- When the indentations are `int` values that are not negative at the
`LINE` nodes, the list that `be` returns is a resolved layout of the pending
formats. -/
theorem be_mem_layouts (text_length : String → Nat) (w : Nat) : ∀ (fuel k : Nat)
    (s : List (Int × format)) (r : Except format_exception (List format)),
    be text_length w fuel k s = some r → indent_ok_items s = true →
    ∃ out, r = .ok out ∧ out ∈ layouts_items s := by
  intro fuel
  induction fuel with
  | zero => intro k s r h; simp [be] at h
  | succ n ih =>
    intro k s r h hok
    cases s with
    | nil =>
      simp only [be, Option.some.injEq] at h
      exact ⟨[], h.symm, by simp [layouts_items]⟩
    | cons hd z =>
      obtain ⟨i, v⟩ := hd
      simp only [indent_ok_items, Bool.and_eq_true] at hok
      obtain ⟨hv, hz⟩ := hok
      cases v with
      | NIL =>
        simp only [be] at h
        obtain ⟨out, h1, h2⟩ := ih k z r h hz
        refine ⟨out, h1, ?_⟩
        simp only [layouts_items, layouts]
        rw [mem_append_all]
        exact ⟨[], by simp, out, h2, rfl⟩
      | NEST j x =>
        simp only [be] at h
        simp only [indent_ok, Bool.and_eq_true, decide_eq_true_eq] at hv
        rw [to_int_of_range _ hv.1.1 hv.1.2] at h
        obtain ⟨out, h1, h2⟩ := ih k _ r h (by
          simp only [indent_ok_items, Bool.and_eq_true]; exact ⟨hv.2, hz⟩)
        exact ⟨out, h1, by simpa only [layouts_items, layouts] using h2⟩
      | COMPOSE l =>
        simp only [be] at h
        simp only [indent_ok] at hv
        obtain ⟨out, h1, h2⟩ := ih k _ r h (indent_ok_items_foldr i z l hv hz)
        exact ⟨out, h1, by
          simp only [layouts_items, layouts]; exact layouts_items_foldr i z out l h2⟩
      | CHOICE x y =>
        simp only [be] at h
        simp only [indent_ok, Bool.and_eq_true] at hv
        split at h
        · obtain ⟨out, h1, h2⟩ := ih k _ r h (by
            simp only [indent_ok_items, Bool.and_eq_true]; exact ⟨hv.1, hz⟩)
          refine ⟨out, h1, ?_⟩
          simp only [layouts_items, mem_append_all] at h2 ⊢
          obtain ⟨a, ha, b, hb, rfl⟩ := h2
          exact ⟨a, by simp only [layouts]; exact List.mem_append_left _ ha, b, hb, rfl⟩
        · obtain ⟨out, h1, h2⟩ := ih k _ r h (by
            simp only [indent_ok_items, Bool.and_eq_true]; exact ⟨hv.2, hz⟩)
          refine ⟨out, h1, ?_⟩
          simp only [layouts_items, mem_append_all] at h2 ⊢
          obtain ⟨a, ha, b, hb, rfl⟩ := h2
          exact ⟨a, by simp only [layouts]; exact List.mem_append_right _ ha, b, hb, rfl⟩
      | LINE =>
        simp only [be] at h
        simp only [indent_ok, decide_eq_true_eq] at hv
        rw [if_neg (by omega)] at h
        obtain ⟨y1, g1, rfl⟩ := cons_result_eq_some _ _ _ h
        obtain ⟨y2, g2, rfl⟩ := cons_result_eq_some _ _ _ g1
        obtain ⟨out, h1, h2⟩ := ih _ z y2 g2 hz
        subst h1
        refine ⟨LINE :: TEXT (spaces i) :: out, rfl, ?_⟩
        simp only [layouts_items, layouts]
        rw [mem_append_all]
        exact ⟨[LINE, TEXT (spaces i)], by simp, out, h2, rfl⟩
      | TEXT t =>
        simp only [be] at h
        obtain ⟨y1, g1, rfl⟩ := cons_result_eq_some _ _ _ h
        obtain ⟨out, h1, h2⟩ := ih _ z y1 g1 hz
        subst h1
        refine ⟨TEXT t :: out, rfl, ?_⟩
        simp only [layouts_items, layouts]
        rw [mem_append_all]
        exact ⟨[TEXT t], by simp, out, h2, rfl⟩
      | COLOR_BEGIN c =>
        simp only [be] at h
        obtain ⟨y1, g1, rfl⟩ := cons_result_eq_some _ _ _ h
        obtain ⟨out, h1, h2⟩ := ih _ z y1 g1 hz
        subst h1
        refine ⟨COLOR_BEGIN c :: out, rfl, ?_⟩
        simp only [layouts_items, layouts]
        rw [mem_append_all]
        exact ⟨[COLOR_BEGIN c], by simp, out, h2, rfl⟩
      | COLOR_END =>
        simp only [be] at h
        obtain ⟨y1, g1, rfl⟩ := cons_result_eq_some _ _ _ h
        obtain ⟨out, h1, h2⟩ := ih _ z y1 g1 hz
        subst h1
        refine ⟨COLOR_END :: out, rfl, ?_⟩
        simp only [layouts_items, layouts]
        rw [mem_append_all]
        exact ⟨[COLOR_END], by simp, out, h2, rfl⟩

end format
namespace format

mutual
/-- A property of the empty list and of the blocks that is kept by `++`
holds of every resolved layout. -/
theorem layouts_forall (P : List format → Prop) (hnil : P [])
    (happ : ∀ a b, P a → P b → P (a ++ b)) (hline : ∀ i, P [LINE, TEXT (spaces i)])
    (htext : ∀ s, P [TEXT s]) (hcb : ∀ c, P [COLOR_BEGIN c]) (hce : P [COLOR_END]) :
    ∀ (v : format) (i : Int) (out : List format), out ∈ layouts i v → P out
  | NIL, _, out, h => by
    simp only [layouts, List.mem_singleton] at h
    rw [h]; exact hnil
  | NEST j x, i, out, h => by
    simp only [layouts] at h
    exact layouts_forall P hnil happ hline htext hcb hce x (i + j) out h
  | COMPOSE l, i, out, h => by
    simp only [layouts] at h
    exact layouts_compose_forall P hnil happ hline htext hcb hce l i out h
  | CHOICE x y, i, out, h => by
    simp only [layouts, List.mem_append] at h
    rcases h with h | h
    · exact layouts_forall P hnil happ hline htext hcb hce x i out h
    · exact layouts_forall P hnil happ hline htext hcb hce y i out h
  | LINE, i, out, h => by
    simp only [layouts, List.mem_singleton] at h
    rw [h]; exact hline i
  | TEXT s, _, out, h => by
    simp only [layouts, List.mem_singleton] at h
    rw [h]; exact htext s
  | COLOR_BEGIN c, _, out, h => by
    simp only [layouts, List.mem_singleton] at h
    rw [h]; exact hcb c
  | COLOR_END, _, out, h => by
    simp only [layouts, List.mem_singleton] at h
    rw [h]; exact hce
theorem layouts_compose_forall (P : List format → Prop) (hnil : P [])
    (happ : ∀ a b, P a → P b → P (a ++ b)) (hline : ∀ i, P [LINE, TEXT (spaces i)])
    (htext : ∀ s, P [TEXT s]) (hcb : ∀ c, P [COLOR_BEGIN c]) (hce : P [COLOR_END]) :
    ∀ (l : List format) (i : Int) (out : List format), out ∈ layouts_compose i l → P out
  | [], _, out, h => by
    simp only [layouts_compose, List.mem_singleton] at h
    rw [h]; exact hnil
  | s :: l, i, out, h => by
    simp only [layouts_compose] at h
    rw [mem_append_all] at h
    obtain ⟨a, ha, b, hb, rfl⟩ := h
    exact happ a b (layouts_forall P hnil happ hline htext hcb hce s i a ha)
      (layouts_compose_forall P hnil happ hline htext hcb hce l i b hb)
end

theorem layouts_items_forall (P : List format → Prop) (hnil : P [])
    (happ : ∀ a b, P a → P b → P (a ++ b)) (hline : ∀ i, P [LINE, TEXT (spaces i)])
    (htext : ∀ s, P [TEXT s]) (hcb : ∀ c, P [COLOR_BEGIN c]) (hce : P [COLOR_END]) :
    ∀ (s : List (Int × format)) (out : List format), out ∈ layouts_items s → P out
  | [], out, h => by
    simp only [layouts_items, List.mem_singleton] at h
    rw [h]; exact hnil
  | hd :: z, out, h => by
    simp only [layouts_items] at h
    rw [mem_append_all] at h
    obtain ⟨a, ha, b, hb, rfl⟩ := h
    exact happ a b (layouts_forall P hnil happ hline htext hcb hce hd.2 hd.1 a ha)
      (layouts_items_forall P hnil happ hline htext hcb hce z b hb)

theorem is_block_line (i : Int) : is_block [LINE, TEXT (spaces i)] = true := by
  simp [is_block, spaces]

/-- Every element of a resolved layout is a `TEXT`, `LINE`, `COLOR_BEGIN` or
`COLOR_END` node, and the layout is made of blocks: each `LINE` is followed
by a `TEXT` of spaces. -/
theorem layouts_items_resolved (s : List (Int × format)) (out : List format)
    (h : out ∈ layouts_items s) :
    out.all is_leaf = true ∧ ∃ blocks : List (List format), out = blocks.flatten ∧
      ∀ b ∈ blocks, is_block b = true := by
  refine layouts_items_forall
    (fun out => out.all is_leaf = true ∧ ∃ blocks : List (List format), out = blocks.flatten ∧
      ∀ b ∈ blocks, is_block b = true) ?_ ?_ ?_ ?_ ?_ ?_ s out h
  · exact ⟨rfl, [], rfl, fun b hb => by cases hb⟩
  · rintro a b ⟨ha, ba, rfl, hba⟩ ⟨hb, bb, rfl, hbb⟩
    refine ⟨by simp only [List.all_append, ha, hb, Bool.and_self], ba ++ bb, by simp, ?_⟩
    intro x hx
    rcases List.mem_append.mp hx with hx | hx
    · exact hba x hx
    · exact hbb x hx
  · intro i
    exact ⟨rfl, [[LINE, TEXT (spaces i)]], by simp, fun b hb => by
      rw [List.mem_singleton.mp hb]; exact is_block_line i⟩
  · intro t
    exact ⟨rfl, [[TEXT t]], by simp, fun b hb => by rw [List.mem_singleton.mp hb]; rfl⟩
  · intro c
    exact ⟨rfl, [[COLOR_BEGIN c]], by simp, fun b hb => by rw [List.mem_singleton.mp hb]; rfl⟩
  · exact ⟨rfl, [[COLOR_END]], by simp, fun b hb => by rw [List.mem_singleton.mp hb]; rfl⟩

/-- The function `layout_list` does not reach `lean_unreachable()` on a list
of `TEXT`, `LINE`, `COLOR_BEGIN` and `COLOR_END` nodes. -/
theorem layout_list_of_leaves (colors : Bool) : ∀ out : List format,
    out.all is_leaf = true → ∃ text, layout_list colors out = .ok text
  | [], _ => ⟨"", rfl⟩
  | v :: out, h => by
    simp only [List.all_cons, Bool.and_eq_true] at h
    obtain ⟨text, ht⟩ := layout_list_of_leaves colors out h.2
    cases v with
    | NIL => simp [is_leaf] at h
    | NEST _ _ => simp [is_leaf] at h
    | COMPOSE _ => simp [is_leaf] at h
    | CHOICE _ _ => simp [is_leaf] at h
    | LINE => exact ⟨"\n" ++ text, by simp [layout_list, layout, ht, Except.map]⟩
    | TEXT t => exact ⟨t ++ text, by simp [layout_list, layout, ht, Except.map]⟩
    | COLOR_BEGIN c => exact ⟨_, by simp only [layout_list, layout, ht, Except.map]; rfl⟩
    | COLOR_END => exact ⟨_, by simp only [layout_list, layout, ht, Except.map]; rfl⟩

end format
/-- C36 (as amended): the layout produced by `best` is resolved when no
indentation is negative.  For all widths `w` and columns `k`, `be` returns on
every list of pending formats (a bound above their number of nodes is
enough).  When the indentations in force are `int` values that are not
negative at the `LINE` nodes, `be` returns a list without throwing, the list
is a resolved layout of the pending formats (each `LINE` is followed by the
`TEXT` of `i` spaces, `i` being the indentation in force at that `LINE`), its
elements are only `TEXT`, `LINE`, `COLOR_BEGIN` or `COLOR_END` nodes, and it
is made of blocks in which a `LINE` is immediately followed by a `TEXT` of
spaces; so `best` returns such a list and `pretty` writes it without
reaching the unreachable branch of `layout`. -/
theorem format.be_resolved (text_length : String → Nat) (w k fuel : Nat) (colors : Bool)
    (s : List (Int × format)) (f : format) :
    (format.size_items s < fuel → (format.be text_length w fuel k s).isSome = true) ∧
    (format.size_items s < fuel → format.indent_ok_items s = true →
      ∃ out, format.be text_length w fuel k s = some (.ok out) ∧
        out ∈ format.layouts_items s ∧ out.all format.is_leaf = true ∧
        ∃ blocks : List (List format), out = blocks.flatten ∧
          ∀ b ∈ blocks, format.is_block b = true) ∧
    (format.size f < fuel → format.indent_ok 0 f = true →
      (∃ out, format.best text_length w fuel k f = some (.ok out) ∧
        out ∈ format.layouts 0 f ∧ out.all format.is_leaf = true ∧
        ∃ blocks : List (List format), out = blocks.flatten ∧
          ∀ b ∈ blocks, format.is_block b = true) ∧
      ∃ out text, format.best text_length w fuel 0 f = some (.ok out) ∧
        format.layout_list colors out = .ok text ∧
        format.pretty text_length w colors fuel f = some (.ok text)) := by
  have hbe : ∀ (k1 : Nat) (s1 : List (Int × format)), format.size_items s1 < fuel →
      format.indent_ok_items s1 = true →
      ∃ out, format.be text_length w fuel k1 s1 = some (.ok out) ∧
        out ∈ format.layouts_items s1 ∧ out.all format.is_leaf = true ∧
        ∃ blocks : List (List format), out = blocks.flatten ∧
          ∀ b ∈ blocks, format.is_block b = true := by
    intro k1 s1 hsz hok
    have ht := format.be_terminates text_length w fuel k1 s1 hsz
    obtain ⟨r, hr⟩ := Option.isSome_iff_exists.mp ht
    obtain ⟨out, h1, h2⟩ := format.be_mem_layouts text_length w fuel k1 s1 r hr hok
    subst h1
    obtain ⟨h3, h4⟩ := format.layouts_items_resolved s1 out h2
    exact ⟨out, hr, h2, h3, h4⟩
  have hbest : ∀ k1 : Nat, format.size f < fuel → format.indent_ok 0 f = true →
      ∃ out, format.best text_length w fuel k1 f = some (.ok out) ∧
        out ∈ format.layouts 0 f ∧ out.all format.is_leaf = true ∧
        ∃ blocks : List (List format), out = blocks.flatten ∧
          ∀ b ∈ blocks, format.is_block b = true := by
    intro k1 hsz hok
    obtain ⟨out, h1, h2, h3, h4⟩ := hbe k1 [(0, f)]
      (by simpa [format.size_items] using hsz) (by simpa [format.indent_ok_items] using hok)
    refine ⟨out, h1, ?_, h3, h4⟩
    simp only [format.layouts_items] at h2
    rw [format.mem_append_all] at h2
    obtain ⟨a, ha, b, hb, rfl⟩ := h2
    simp only [List.mem_singleton] at hb
    subst hb
    simpa using ha
  refine ⟨format.be_terminates text_length w fuel k s, hbe k s, ?_⟩
  intro hsz hok
  refine ⟨hbest k hsz hok, ?_⟩
  obtain ⟨out, h1, _, h3, _⟩ := hbest 0 hsz hok
  obtain ⟨text, ht⟩ := format.layout_list_of_leaves colors out h3
  exact ⟨out, text, h1, ht, by simp only [format.pretty, h1, ht]⟩

/-- C36, on the format `a` followed by the nested `LINE` and `b`, grouped,
at the width 1: the second alternative is laid out, with the `LINE` followed
by the text of two spaces. -/
theorem be_resolved_witness :
    format.best format.string_length 1 20 0
        (format.group (.COMPOSE [.TEXT "a", .NEST 2 (.COMPOSE [.LINE, .TEXT "b"])]))
      = some (.ok [.TEXT "a", .LINE, .TEXT "  ", .TEXT "b"]) ∧
    ∃ out text, format.best format.string_length 1 20 0
          (format.group (.COMPOSE [.TEXT "a", .NEST 2 (.COMPOSE [.LINE, .TEXT "b"])]))
        = some (.ok out) ∧
      format.layout_list true out = .ok text ∧
      format.pretty format.string_length 1 true 20
          (format.group (.COMPOSE [.TEXT "a", .NEST 2 (.COMPOSE [.LINE, .TEXT "b"])]))
        = some (.ok text) :=
  ⟨rfl, ((format.be_resolved format.string_length 1 0 20 true []
    (format.group (.COMPOSE [.TEXT "a", .NEST 2 (.COMPOSE [.LINE, .TEXT "b"])]))).2.2
      (by decide) (by decide)).2⟩

/-- C36 (as stated) fails for a negative indentation: on the format
`nest(-1, line())` the call of `best` reaches the `LINE` with `i = -1`, and
`std::string(i, ' ')` throws `std::length_error`; so does `pretty`. -/
theorem be_resolved_counterexample :
    format.best format.string_length 80 10 0 (.NEST (-1) .LINE)
      = some (.error .length_error) ∧
    format.pretty format.string_length 80 true 10 (.NEST (-1) .LINE)
      = some (.error .length_error) ∧
    ∀ (text_length : String → Nat) (w k fuel : Nat),
      format.best text_length w (fuel + 2) k (.NEST (-1) .LINE)
        = some (.error .length_error) :=
  ⟨rfl, rfl, fun _ _ _ _ => rfl⟩
/-! ## The choices of the layout -/

namespace format

theorem text_before_line_append (text_length : String → Nat) : ∀ (a b : List format),
    text_before_line text_length (a ++ b)
      = if a.any is_line then text_before_line text_length a
        else text_before_line text_length a + text_before_line text_length b
  | [], b => by simp [text_before_line]
  | v :: a, b => by
    have ih := text_before_line_append text_length a b
    cases v with
    | LINE => simp [text_before_line, is_line]
    | TEXT s =>
      show text_before_line text_length (TEXT s :: (a ++ b)) = _
      rw [text_before_line, ih]
      simp only [List.any_cons, is_line, Bool.false_or, text_before_line]
      split <;> omega
    | NIL => simpa [text_before_line, is_line] using ih
    | NEST _ _ => simpa [text_before_line, is_line] using ih
    | COMPOSE _ => simpa [text_before_line, is_line] using ih
    | CHOICE _ _ => simpa [text_before_line, is_line] using ih
    | COLOR_BEGIN _ => simpa [text_before_line, is_line] using ih
    | COLOR_END => simpa [text_before_line, is_line] using ih

mutual
/-- The function `space_upto_line_break` returns the length, modulo `2^32`,
of the text that precedes the first `LINE`, and sets `found_newline` when
there is a `LINE`. -/
theorem space_upto_line_break_spec (text_length : String → Nat) : ∀ v : format,
    space_upto_line_break text_length v
      = (text_before_line text_length (leaves v) % UNSIGNED_RANGE, (leaves v).any is_line)
  | NIL => rfl
  | NEST _ x => by
    simp only [space_upto_line_break, leaves]
    exact space_upto_line_break_spec text_length x
  | COMPOSE l => by
    simp only [space_upto_line_break, leaves]
    rw [space_upto_line_break_compose_spec text_length l 0 (by decide)]
    simp
  | CHOICE _ y => by
    simp only [space_upto_line_break, leaves]
    exact space_upto_line_break_spec text_length y
  | LINE => rfl
  | TEXT s => by simp [space_upto_line_break, leaves, text_before_line, is_line]
  | COLOR_BEGIN _ => rfl
  | COLOR_END => rfl
theorem space_upto_line_break_compose_spec (text_length : String → Nat) :
    ∀ (l : List format) (len : Nat), len < UNSIGNED_RANGE →
    space_upto_line_break_compose text_length l len
      = ((len + text_before_line text_length (leaves_list l)) % UNSIGNED_RANGE,
          (leaves_list l).any is_line)
  | [], len, hlen => by
    simp [space_upto_line_break_compose, leaves_list, text_before_line,
      Nat.mod_eq_of_lt hlen]
  | s :: l, len, hlen => by
    have hlt : (len + text_before_line text_length (leaves s) % UNSIGNED_RANGE)
        % UNSIGNED_RANGE < UNSIGNED_RANGE := Nat.mod_lt _ (by decide)
    simp only [space_upto_line_break_compose, leaves_list,
      space_upto_line_break_spec text_length s,
      space_upto_line_break_compose_spec text_length l _ hlt, text_before_line_append,
      List.any_append]
    split
    · rename_i h
      simp only [h, Bool.true_or, Prod.mk.injEq, and_true]
      unfold UNSIGNED_RANGE
      omega
    · rename_i h
      simp only [h, Bool.false_or, Prod.mk.injEq, and_true]
      unfold UNSIGNED_RANGE
      omega
end

/-- The function `space_upto_line_break_list` returns the length, modulo
`2^32`, of the text that precedes the first `LINE` of the pending formats. -/
theorem space_upto_line_break_list_spec (text_length : String → Nat) :
    ∀ (r : List (Int × format)) (len : Nat), len < UNSIGNED_RANGE →
    space_upto_line_break_list text_length r len
      = ((len + text_before_line text_length (leaves_list (r.map (fun h => h.2))))
          % UNSIGNED_RANGE,
          (leaves_list (r.map (fun h => h.2))).any is_line)
  | [], len, hlen => by
    simp [space_upto_line_break_list, leaves_list, text_before_line, Nat.mod_eq_of_lt hlen]
  | h :: r, len, hlen => by
    have hlt : (len + text_before_line text_length (leaves h.2) % UNSIGNED_RANGE)
        % UNSIGNED_RANGE < UNSIGNED_RANGE := Nat.mod_lt _ (by decide)
    simp only [space_upto_line_break_list, List.map_cons, leaves_list,
      space_upto_line_break_spec text_length h.2,
      space_upto_line_break_list_spec text_length r _ hlt, text_before_line_append,
      List.any_append]
    split
    · rename_i h1
      simp only [h1, Bool.true_or, Prod.mk.injEq, and_true]
      unfold UNSIGNED_RANGE
      omega
    · rename_i h1
      simp only [h1, Bool.false_or, Prod.mk.injEq, and_true]
      unfold UNSIGNED_RANGE
      omega

/-- The test `d >= 0` of the case `CHOICE` of `be`, when the difference
`w - k - len` is an `int`. -/
theorem be_choice (text_length : String → Nat) (w fuel k : Nat) (i : Int) (x y : format)
    (z : List (Int × format)) (hw : w < 2147483648)
    (hk : k + (space_upto_line_break_list text_length ((i, x) :: z) 0).1 ≤ w + 2147483648) :
    be text_length w (fuel + 1) k ((i, CHOICE x y) :: z)
      = if k + (space_upto_line_break_list text_length ((i, x) :: z) 0).1 ≤ w
        then be text_length w fuel k ((i, x) :: z)
        else be text_length w fuel k ((i, y) :: z) := by
  rw [be]
  have hlen : (space_upto_line_break_list text_length ((i, x) :: z) 0).1 < 4294967296 := by
    rw [space_upto_line_break_list_spec text_length _ 0 (by decide)]
    exact Nat.mod_lt _ (by decide)
  generalize (space_upto_line_break_list text_length ((i, x) :: z) 0).1 = len at hk hlen ⊢
  by_cases h : k + len ≤ w
  · rw [if_pos h, if_pos]
    unfold to_int
    omega
  · rw [if_neg h, if_neg]
    unfold to_int
    omega

end format
namespace format

mutual
theorem leaves_of_is_flat (text_length : String → Nat) : ∀ v : format, is_flat v = true →
    (leaves v).any is_line = false ∧
    text_before_line text_length (leaves v) = text_length_total text_length v
  | NIL, _ => ⟨rfl, rfl⟩
  | NEST _ _, h => by simp [is_flat] at h
  | COMPOSE l, h => by
    simp only [is_flat] at h
    simpa only [leaves, text_length_total] using leaves_list_of_is_flat text_length l h
  | CHOICE _ _, h => by simp [is_flat] at h
  | LINE, h => by simp [is_flat] at h
  | TEXT s, _ => ⟨rfl, by simp [leaves, text_before_line, text_length_total]⟩
  | COLOR_BEGIN _, _ => ⟨rfl, rfl⟩
  | COLOR_END, _ => ⟨rfl, rfl⟩
theorem leaves_list_of_is_flat (text_length : String → Nat) : ∀ l : List format,
    is_flat_list l = true →
    (leaves_list l).any is_line = false ∧
    text_before_line text_length (leaves_list l) = text_length_total_list text_length l
  | [], _ => ⟨rfl, rfl⟩
  | s :: l, h => by
    simp only [is_flat_list, Bool.and_eq_true] at h
    obtain ⟨h1, h2⟩ := leaves_of_is_flat text_length s h.1
    obtain ⟨h3, h4⟩ := leaves_list_of_is_flat text_length l h.2
    refine ⟨by simp [leaves_list, h1, h3], ?_⟩
    simp [leaves_list, text_before_line_append, h1, h2, h4, text_length_total_list]
end

mutual
theorem indent_ok_of_is_flat : ∀ (v : format) (i : Int), is_flat v = true →
    indent_ok i v = true
  | NIL, _, _ => rfl
  | NEST _ _, _, h => by simp [is_flat] at h
  | COMPOSE l, i, h => by
    simp only [is_flat] at h
    simpa only [indent_ok] using indent_ok_compose_of_is_flat l i h
  | CHOICE _ _, _, h => by simp [is_flat] at h
  | LINE, _, h => by simp [is_flat] at h
  | TEXT _, _, _ => rfl
  | COLOR_BEGIN _, _, _ => rfl
  | COLOR_END, _, _ => rfl
theorem indent_ok_compose_of_is_flat : ∀ (l : List format) (i : Int),
    is_flat_list l = true → indent_ok_compose i l = true
  | [], _, _ => rfl
  | s :: l, i, h => by
    simp only [is_flat_list, Bool.and_eq_true] at h
    simp only [indent_ok_compose, Bool.and_eq_true]
    exact ⟨indent_ok_of_is_flat s i h.1, indent_ok_compose_of_is_flat l i h.2⟩
end

mutual
theorem layouts_of_is_flat : ∀ (v : format) (i : Int) (out : List format),
    is_flat v = true → out ∈ layouts i v → out.all (fun e => !is_line e) = true
  | NIL, _, out, _, h => by
    simp only [layouts, List.mem_singleton] at h
    rw [h]; rfl
  | NEST _ _, _, _, h, _ => by simp [is_flat] at h
  | COMPOSE l, i, out, h, ho => by
    simp only [is_flat] at h
    simp only [layouts] at ho
    exact layouts_compose_of_is_flat l i out h ho
  | CHOICE _ _, _, _, h, _ => by simp [is_flat] at h
  | LINE, _, _, h, _ => by simp [is_flat] at h
  | TEXT _, _, out, _, h => by
    simp only [layouts, List.mem_singleton] at h
    rw [h]; rfl
  | COLOR_BEGIN _, _, out, _, h => by
    simp only [layouts, List.mem_singleton] at h
    rw [h]; rfl
  | COLOR_END, _, out, _, h => by
    simp only [layouts, List.mem_singleton] at h
    rw [h]; rfl
theorem layouts_compose_of_is_flat : ∀ (l : List format) (i : Int) (out : List format),
    is_flat_list l = true → out ∈ layouts_compose i l →
    out.all (fun e => !is_line e) = true
  | [], _, out, _, h => by
    simp only [layouts_compose, List.mem_singleton] at h
    rw [h]; rfl
  | s :: l, i, out, h, ho => by
    simp only [is_flat_list, Bool.and_eq_true] at h
    simp only [layouts_compose] at ho
    rw [mem_append_all] at ho
    obtain ⟨a, ha, b, hb, rfl⟩ := ho
    rw [List.all_append, layouts_of_is_flat s i a h.1 ha,
      layouts_compose_of_is_flat l i b h.2 hb]
    rfl
end

end format

/-- C37 (as amended): the choice of `be`.  For a width `w < 2^31`, a column
`k` and the length `len` that `space_upto_line_break_list` returns for `x`
followed by `z`, with `k + len <= w + 2^31`, `be` lays out the first
alternative of the pending `CHOICE(x, y)` iff `k + len <= w`, and the second
one otherwise; `len` is the length, modulo `2^32`, of the text that precedes
the first `LINE` in `x` followed by `z` (a nested `CHOICE` counting by its
second alternative).  In particular, when `w < 2^31` is at least the total
length of the text of `flatten(f)`, `best` lays out `group(f)` as
`flatten(f)`: the list has no `LINE`, and `pretty` writes it. -/
theorem format.be_choice_rule (text_length : String → Nat) (w fuel k : Nat) (colors : Bool)
    (i : Int) (x y f : format) (z : List (Int × format)) :
    (w < 2147483648 →
      k + (format.space_upto_line_break_list text_length ((i, x) :: z) 0).1 ≤ w + 2147483648 →
      format.be text_length w (fuel + 1) k ((i, .CHOICE x y) :: z)
        = if k + (format.space_upto_line_break_list text_length ((i, x) :: z) 0).1 ≤ w
          then format.be text_length w fuel k ((i, x) :: z)
          else format.be text_length w fuel k ((i, y) :: z)) ∧
    (format.space_upto_line_break_list text_length ((i, x) :: z) 0).1
      = format.text_before_line text_length
          (format.leaves_list (x :: z.map (fun h => h.2))) % UNSIGNED_RANGE ∧
    (w < 2147483648 → format.text_length_total text_length (format.flatten f) ≤ w →
      format.size (format.group f) < fuel →
      ∃ out text, format.best text_length w fuel 0 (format.group f) = some (.ok out) ∧
        out ∈ format.layouts 0 (format.flatten f) ∧
        out.all (fun e => !format.is_line e) = true ∧
        format.pretty text_length w colors fuel (format.group f) = some (.ok text)) := by
  refine ⟨format.be_choice text_length w fuel k i x y z, ?_, ?_⟩
  · rw [format.space_upto_line_break_list_spec text_length _ 0 (by decide)]
    simp
  · intro hw ht hsz
    obtain ⟨n, rfl⟩ : ∃ n, fuel = n + 1 := ⟨fuel - 1, by
      have := format.size_pos (format.group f); omega⟩
    have hflat := format.is_flat_flatten f
    obtain ⟨hl1, hl2⟩ := format.leaves_of_is_flat text_length (format.flatten f) hflat
    have hlen : (format.space_upto_line_break_list text_length [(0, format.flatten f)] 0).1
        = format.text_length_total text_length (format.flatten f) := by
      rw [format.space_upto_line_break_list_spec text_length _ 0 (by decide)]
      simp only [List.map_cons, List.map_nil, format.leaves_list, List.append_nil, hl2,
        Nat.zero_add]
      exact Nat.mod_eq_of_lt (by unfold UNSIGNED_RANGE; omega)
    have hstep : format.best text_length w (n + 1) 0 (format.group f)
        = format.be text_length w n 0 [(0, format.flatten f)] := by
      rw [format.best, format.group, format.choice,
        format.be_choice text_length w n 0 0 _ _ [] hw (by rw [hlen]; omega), hlen,
        if_pos (by omega)]
    have hsz2 : format.size_items [(0, format.flatten f)] < n := by
      simp only [format.group, format.choice, format.size] at hsz
      simp only [format.size_items]
      omega
    have ht2 := format.be_terminates text_length w n 0 _ hsz2
    obtain ⟨r, hr⟩ := Option.isSome_iff_exists.mp ht2
    obtain ⟨out, h1, h2⟩ := format.be_mem_layouts text_length w n 0 _ r hr
      (by simp only [format.indent_ok_items, Bool.and_true]
          exact format.indent_ok_of_is_flat _ 0 hflat)
    subst h1
    obtain ⟨h3, _⟩ := format.layouts_items_resolved _ out h2
    obtain ⟨text, htext⟩ := format.layout_list_of_leaves colors out h3
    simp only [format.layouts_items] at h2
    rw [format.mem_append_all] at h2
    obtain ⟨a, ha, b, hb, rfl⟩ := h2
    simp only [List.mem_singleton] at hb
    subst hb
    rw [List.append_nil] at hr htext
    refine ⟨a, text, by rw [hstep, hr], ha, format.layouts_of_is_flat _ 0 a hflat ha, ?_⟩
    rw [format.pretty, hstep, hr]
    exact congrArg some htext

/-- C37, at the width 80: the group of `a`, a `LINE` and `b` is laid out flat,
without a `LINE`. -/
theorem be_choice_rule_witness :
    format.best format.string_length 80 20 0
        (format.group (.COMPOSE [.TEXT "a", .LINE, .TEXT "b"]))
      = some (.ok [.TEXT "a", .TEXT " ", .TEXT "b"]) ∧
    ∃ out text, format.best format.string_length 80 20 0
          (format.group (.COMPOSE [.TEXT "a", .LINE, .TEXT "b"])) = some (.ok out) ∧
      out ∈ format.layouts 0 (format.flatten (.COMPOSE [.TEXT "a", .LINE, .TEXT "b"])) ∧
      out.all (fun e => !format.is_line e) = true ∧
      format.pretty format.string_length 80 true 20
          (format.group (.COMPOSE [.TEXT "a", .LINE, .TEXT "b"])) = some (.ok text) :=
  ⟨rfl, (format.be_choice_rule format.string_length 80 20 0 true 0 .NIL .NIL
    (.COMPOSE [.TEXT "a", .LINE, .TEXT "b"]) []).2.2 (by decide) (by decide) (by decide)⟩

/-- C37 (as stated) fails for a width of `2^31` or more: at the width
`2^32 - 1` the text of `flatten(line())` has the length 1, which the width
exceeds, but `d` is the `int` of `2^32 - 2`, which is negative: `best` lays
out the second alternative of `group(line())`, and the list has a `LINE`. -/
theorem be_choice_rule_counterexample :
    format.text_length_total format.string_length (format.flatten .LINE) = 1 ∧
    (format.space_upto_line_break_list format.string_length
      [(0, format.flatten .LINE)] 0).1 = 1 ∧
    format.best format.string_length 4294967295 10 0 (format.group .LINE)
      = some (.ok [.LINE, .TEXT ""]) ∧
    format.best format.string_length 4294967295 10 0 (format.group .LINE)
      ≠ format.be format.string_length 4294967295 9 0 [(0, format.flatten .LINE)] ∧
    format.pretty format.string_length 4294967295 true 10 (format.group .LINE)
      = some (.ok "\n") := by
  refine ⟨rfl, rfl, rfl, ?_, rfl⟩
  intro h
  have h1 : format.best format.string_length 4294967295 10 0 (format.group .LINE)
      = some (.ok [.LINE, .TEXT ""]) := rfl
  have h2 : format.be format.string_length 4294967295 9 0 [(0, format.flatten .LINE)]
      = some (.ok [.TEXT " "]) := rfl
  rw [h1, h2] at h
  simp at h

/-! ## When a declaration returns normally -/

section declaration_success

variable {expr : Type}

namespace environment_cell

/-- The call of `set_opaque` on the definition that has just been registered
under a name that passes `check_name` does not throw. -/
theorem set_opaque_register_definition (ops : expr_ops expr) (env : environment_cell expr)
    (n : name) (t v : expr) (w : Nat) (f : Bool) (hcn : check_name env n = none) :
    ( set_opaque (register_named_object ops env (.Definition n t v w false)) n f).1 = none := by
  have hreg := get_object_core_register ops env (.Definition n t v w false)
    (not_declared_of_check_name env _ hcn)
  simp only [object.get_name] at hreg
  unfold set_opaque
  rw [hreg]
  simp [object.is_definition]

theorem check_name_of_check_new_definition (tc : type_checker expr)
    (env : environment_cell expr) (n : name) (t v : expr)
    (hc : check_new_definition tc env n t v = none) : check_name env n = none := by
  unfold check_new_definition at hc
  cases h : check_name env n with
  | none => rfl
  | some e => simp [h] at hc

/-- The function `add_var` returns normally exactly when its three checks
pass. -/
theorem add_var_success (ops : expr_ops expr) (tc : type_checker expr)
    (env : environment_cell expr) (n : name) (t : expr) :
    (add_var ops tc env n t).1 = none ↔
      check_no_cached_type ops t = none ∧ check_name env n = none ∧
      (if env.m_type_check = true then tc.check_type env t else none) = none := by
  unfold add_var
  cases check_no_cached_type ops t with
  | some e => simp
  | none =>
    cases check_name env n with
    | some e => simp
    | none =>
      cases (if env.m_type_check = true then tc.check_type env t else none) with
      | some e => simp
      | none => simp

/-- The function `add_axiom` returns normally exactly when its three checks
pass. -/
theorem add_axiom_success (ops : expr_ops expr) (tc : type_checker expr)
    (env : environment_cell expr) (n : name) (t : expr) :
    ( add_axiom ops tc env n t).1 = none ↔
      check_no_cached_type ops t = none ∧ check_name env n = none ∧
      (if env.m_type_check = true then tc.check_type env t else none) = none := by
  unfold add_axiom
  cases check_no_cached_type ops t with
  | some e => simp
  | none =>
    cases check_name env n with
    | some e => simp
    | none =>
      cases (if env.m_type_check = true then tc.check_type env t else none) with
      | some e => simp
      | none => simp

/-- The function `add_theorem` returns normally exactly when its three
checks pass. -/
theorem add_theorem_success (ops : expr_ops expr) (tc : type_checker expr)
    (env : environment_cell expr) (n : name) (t v : expr) :
    (add_theorem ops tc env n t v).1 = none ↔
      check_no_cached_type ops t = none ∧ check_no_cached_type ops v = none ∧
      check_new_definition tc env n t v = none := by
  unfold add_theorem
  cases check_no_cached_type ops t with
  | some e => simp
  | none =>
    cases check_no_cached_type ops v with
    | some e => simp
    | none =>
      cases check_new_definition tc env n t v with
      | some e => simp
      | none => simp

/-- The four-argument `add_definition` returns normally exactly when its
three checks pass, whatever the opaque flag. -/
theorem add_definition_success (ops : expr_ops expr) (tc : type_checker expr)
    (env : environment_cell expr) (n : name) (t v : expr) (f : Bool) :
    (add_definition ops tc env n t v f).1 = none ↔
      check_no_cached_type ops t = none ∧ check_no_cached_type ops v = none ∧
      check_new_definition tc env n t v = none := by
  unfold add_definition
  cases check_no_cached_type ops t with
  | some e => simp
  | none =>
    cases check_no_cached_type ops v with
    | some e => simp
    | none =>
      cases hc : check_new_definition tc env n t v with
      | some e => simp
      | none =>
        have hcn := check_name_of_check_new_definition tc env n t v hc
        cases f with
        | false => simp
        | true =>
          simp only [if_true, true_and]
          exact iff_of_true (set_opaque_register_definition ops env n t v _ true hcn) trivial

/-- The three-argument `add_definition` returns normally exactly when its
two checks pass and the type checker gives a type to the value, whatever the
opaque flag. -/
theorem add_definition_infer_success (ops : expr_ops expr) (tc : type_checker expr)
    (env : environment_cell expr) (n : name) (v : expr) (f : Bool) :
    (add_definition_infer ops tc env n v f).1 = none ↔
      check_no_cached_type ops v = none ∧ check_name env n = none ∧
      ∃ v_t, (if env.m_type_check = true then tc.check env v else tc.infer_type env v)
        = .ok v_t := by
  unfold add_definition_infer
  cases check_no_cached_type ops v with
  | some e => simp
  | none =>
    cases hcn : check_name env n with
    | some e => simp
    | none =>
      cases (if env.m_type_check = true then tc.check env v else tc.infer_type env v) with
      | error e => simp
      | ok v_t =>
        cases f with
        | false => simp
        | true =>
          simp only [if_true, true_and]
          exact iff_of_true (set_opaque_register_definition ops env n v_t v _ true hcn)
            ⟨v_t, rfl⟩

end environment_cell

end declaration_success

section registered_definition

variable {expr : Type}

namespace environment_cell

/-- The object found under `n` after the four-argument `add_definition` has
returned normally: the definition with the weight `get_max_weight(v) + 1` of
the unsigned sum. -/
theorem get_object_core_add_definition (ops : expr_ops expr) (tc : type_checker expr)
    (env : environment_cell expr) (n : name) (t v : expr) (f : Bool)
    (h : (add_definition ops tc env n t v f).1 = none) :
    get_object_core (add_definition ops tc env n t v f).2 n
      = some (.Definition n t v ((get_max_weight ops env v + 1) % UNSIGNED_RANGE) f) := by
  obtain ⟨h1, h2, h3⟩ := (add_definition_success ops tc env n t v f).mp h
  have hcn := check_name_of_check_new_definition tc env n t v h3
  unfold add_definition
  rw [h1, h2, h3]
  exact get_object_core_register_definition ops env n t v _ f hcn

/-- The object found under `n` after the three-argument `add_definition` has
returned normally: the definition with the type given by the type checker
and the weight `get_max_weight(v) + 1` of the unsigned sum. -/
theorem get_object_core_add_definition_infer (ops : expr_ops expr) (tc : type_checker expr)
    (env : environment_cell expr) (n : name) (v : expr) (f : Bool)
    (h : (add_definition_infer ops tc env n v f).1 = none) :
    ∃ v_t, (if env.m_type_check = true then tc.check env v else tc.infer_type env v)
        = .ok v_t ∧
      get_object_core (add_definition_infer ops tc env n v f).2 n
        = some (.Definition n v_t v ((get_max_weight ops env v + 1) % UNSIGNED_RANGE) f) := by
  obtain ⟨h1, h2, v_t, h3⟩ := (add_definition_infer_success ops tc env n v f).mp h
  refine ⟨v_t, h3, ?_⟩
  unfold add_definition_infer
  rw [h1, h2, h3]
  exact get_object_core_register_definition ops env n v_t v _ f h2

theorem has_children_register (ops : expr_ops expr) (env : environment_cell expr)
    (o : object expr) :
    (register_named_object ops env o).has_children = env.has_children := by
  cases env with
  | mk p c o1 d u t ti i =>
    simp only [register_named_object, set_objects, m_objects, m_object_dictionary,
      set_object_dictionary]
    split <;> rfl

/-- The objects of the other names are left as they are by
`register_named_object`. -/
theorem get_object_core_register_ne (ops : expr_ops expr) (env : environment_cell expr)
    (o : object expr) (m : name) (hm : o.get_name ops ≠ m) :
    get_object_core (register_named_object ops env o) m = get_object_core env m := by
  cases env with
  | mk p c o1 d u t ti i =>
    rw [get_object_core_eq, get_object_core_eq]
    by_cases hany : d.any (fun e => decide (e.1 = o.get_name ops)) = true
    · simp [register_named_object, set_objects, m_objects, m_object_dictionary,
        set_object_dictionary, hany, m_parent]
    · have hs : List.find? (fun e => decide (e.1 = m)) [(o.get_name ops, o)] = none := by
        simp [hm]
      have hany1 : d.any (fun e => decide (e.1 = o.get_name ops)) = false := by
        cases h : d.any (fun e => decide (e.1 = o.get_name ops)) with
        | false => rfl
        | true => exact absurd h hany
      simp only [register_named_object, set_objects, m_objects, m_object_dictionary,
        set_object_dictionary, hany1, m_parent, Bool.false_eq_true, if_false,
        List.find?_append, hs, Option.or_none]

end environment_cell

end registered_definition

/-! ## A chain of definitions -/

theorem environment_with_chain_succ (k : Nat) :
    environment_with_chain (k + 1)
      = (environment_cell.add_definition nat_ops_constants nat_tc (environment_with_chain k)
          (name.num name.anonymous k) 0 k false).2 := rfl

theorem add_definition_nat (env : environment_cell Nat) (n : name) (t v : Nat)
    (hcn : environment_cell.check_name env n = none) :
    environment_cell.add_definition nat_ops_constants nat_tc env n t v false
      = (none, environment_cell.register_named_object nat_ops_constants env
          (.Definition n t v
            ((environment_cell.get_max_weight nat_ops_constants env v + 1) % UNSIGNED_RANGE)
            false)) := by
  have h3 : environment_cell.check_new_definition nat_tc env n t v = none := by
    unfold environment_cell.check_new_definition environment_cell.check_type
    rw [hcn]
    simp [nat_tc]
  unfold environment_cell.add_definition
  rw [h3]
  simp [environment_cell.check_no_cached_type, nat_ops_constants]

/-- The environment left by a chain of `k` definitions has no child, declares
the names 0 to `k - 1`, and the definition named `j` has the weight `j + 1` of
the unsigned sums. -/
theorem environment_with_chain_spec : ∀ k : Nat,
    (environment_with_chain k).has_children = false ∧
    environment_cell.declared_names (environment_with_chain k)
      = (List.range k).map (fun j => name.num name.anonymous j) ∧
    ∀ j, j < k →
      environment_cell.get_object_core (environment_with_chain k) (name.num name.anonymous j)
        = some (.Definition (name.num name.anonymous j) 0 j ((j + 1) % UNSIGNED_RANGE) false)
  | 0 => ⟨rfl, rfl, fun j hj => absurd hj (Nat.not_lt_zero j)⟩
  | k + 1 => by
    obtain ⟨ih1, ih2, ih3⟩ := environment_with_chain_spec k
    have hnd : name.num name.anonymous k
        ∉ environment_cell.declared_names (environment_with_chain k) := by
      rw [ih2]
      simp
    have hcn : environment_cell.check_name (environment_with_chain k)
        (name.num name.anonymous k) = none := by
      unfold environment_cell.check_name
      rw [ih1, environment_cell.check_name_core_eq, if_neg hnd]
      rfl
    have hw : (environment_cell.get_max_weight nat_ops_constants (environment_with_chain k) k
        + 1) % UNSIGNED_RANGE = (k + 1) % UNSIGNED_RANGE := by
      cases k with
      | zero => rfl
      | succ j =>
        have hj := ih3 j (Nat.lt_succ_self j)
        simp only [environment_cell.get_max_weight, nat_ops_constants, Nat.add_sub_cancel,
          Nat.succ_ne_zero, if_false, List.foldl_cons, List.foldl_nil, hj,
          object.get_weight, Nat.add_one_ne_zero]
        have hmax : ∀ x : Nat, Nat.max 0 x = x := fun x => Nat.max_eq_right (Nat.zero_le x)
        rw [hmax]
        simp only [UNSIGNED_RANGE]
        omega
    rw [environment_with_chain_succ, add_definition_nat _ _ _ _ hcn, hw]
    refine ⟨?_, ?_, ?_⟩
    · rw [environment_cell.has_children_register, ih1]
    · rw [environment_cell.declared_names_register _ _ _ hnd, ih2, List.range_succ,
        List.map_append]
      rfl
    · intro j hj
      rcases Nat.lt_succ_iff_lt_or_eq.mp hj with hlt | rfl
      · rw [environment_cell.get_object_core_register_ne _ _ _ _ (by
          simp only [object.get_name]
          intro h
          injection h with _ h2
          omega)]
        exact ih3 j hlt
      · exact environment_cell.get_object_core_register nat_ops_constants
          (environment_with_chain j) _ hnd

/-- The next name passes `check_name` after a chain of `k` definitions. -/
theorem environment_with_chain_check_name (k : Nat) :
    environment_cell.check_name (environment_with_chain k) (name.num name.anonymous k)
      = none := by
  obtain ⟨h1, h2, _⟩ := environment_with_chain_spec k
  have hnd : name.num name.anonymous k
      ∉ environment_cell.declared_names (environment_with_chain k) := by
    rw [h2]
    simp
  unfold environment_cell.check_name
  rw [h1, environment_cell.check_name_core_eq, if_neg hnd]
  rfl

/-! ## The round trip of a declaration -/

/-- C13: add-then-lookup round trip.  Each of `add_var(n, t)`,
`add_axiom(n, t)`, `add_theorem(n, t, v)` and `add_definition(n, t, v, f)`
returns normally exactly when its checks pass (no cached type, the name is
new in a cell without children, the type checker accepts), and then
`get_object(n)` on the environment, and on a child created from it
afterwards, returns the object just registered, with the name `n`, the same
type and the same value; and `get_object(m)` throws the unknown-object
exception exactly when no object named `m` is registered in the environment
or its ancestors, and returns an object otherwise. -/
theorem environment_cell.add_then_get_object {expr : Type} (ops : expr_ops expr)
    (tc : type_checker expr) (env : environment_cell expr) (n : name) (t v : expr) (f : Bool) :
    ((environment_cell.add_var ops tc env n t).1 = none ↔
      environment_cell.check_no_cached_type ops t = none ∧
      environment_cell.check_name env n = none ∧
      (if env.m_type_check = true then tc.check_type env t else none) = none) ∧
    (( environment_cell.add_axiom ops tc env n t).1 = none ↔
      environment_cell.check_no_cached_type ops t = none ∧
      environment_cell.check_name env n = none ∧
      (if env.m_type_check = true then tc.check_type env t else none) = none) ∧
    ((environment_cell.add_theorem ops tc env n t v).1 = none ↔
      environment_cell.check_no_cached_type ops t = none ∧
      environment_cell.check_no_cached_type ops v = none ∧
      environment_cell.check_new_definition tc env n t v = none) ∧
    ((environment_cell.add_definition ops tc env n t v f).1 = none ↔
      environment_cell.check_no_cached_type ops t = none ∧
      environment_cell.check_no_cached_type ops v = none ∧
      environment_cell.check_new_definition tc env n t v = none) ∧
    ((environment_cell.add_var ops tc env n t).1 = none →
      environment_cell.get_object (environment_cell.add_var ops tc env n t).2 n
        = .ok (.VarDecl n t) ∧
      environment_cell.get_object
          (environment_cell.mk_child (environment_cell.add_var ops tc env n t).2).2 n
        = .ok (.VarDecl n t)) ∧
    (( environment_cell.add_axiom ops tc env n t).1 = none →
      environment_cell.get_object ( environment_cell.add_axiom ops tc env n t).2 n
        = .ok (.Axiom n t) ∧
      environment_cell.get_object
          (environment_cell.mk_child ( environment_cell.add_axiom ops tc env n t).2).2 n
        = .ok (.Axiom n t)) ∧
    ((environment_cell.add_theorem ops tc env n t v).1 = none →
      environment_cell.get_object (environment_cell.add_theorem ops tc env n t v).2 n
        = .ok (.Theorem n t v) ∧
      environment_cell.get_object
          (environment_cell.mk_child (environment_cell.add_theorem ops tc env n t v).2).2 n
        = .ok (.Theorem n t v)) ∧
    ((environment_cell.add_definition ops tc env n t v f).1 = none →
      environment_cell.get_object (environment_cell.add_definition ops tc env n t v f).2 n
        = .ok (.Definition n t v
            ((environment_cell.get_max_weight ops env v + 1) % UNSIGNED_RANGE) f) ∧
      environment_cell.get_object
          (environment_cell.mk_child (environment_cell.add_definition ops tc env n t v f).2).2 n
        = .ok (.Definition n t v
            ((environment_cell.get_max_weight ops env v + 1) % UNSIGNED_RANGE) f)) ∧
    ∀ m, (environment_cell.get_object env m = .error (.unknown_object m) ↔
        m ∉ environment_cell.declared_names env) ∧
      (m ∈ environment_cell.declared_names env →
        ∃ o, environment_cell.get_object env m = .ok o) :=
  ⟨environment_cell.add_var_success ops tc env n t,
    environment_cell.add_axiom_success ops tc env n t,
    environment_cell.add_theorem_success ops tc env n t v,
    environment_cell.add_definition_success ops tc env n t v f,
    environment_cell.get_object_after_add ops tc env n t v f⟩

/-- The round trip of each of `add_var(d, 1)`, `add_axiom(d, 1)`,
`add_theorem(d, 1, 2)` and `add_definition(d, 1, 2, true)` in the empty
environment with the operations of the examples: each call returns normally,
and `get_object(d)` on the environment that it leaves and on a child of it
returns the variable, the axiom, the theorem and the opaque definition of
weight 1; in the empty environment `get_object(d)` throws the unknown-object
exception. -/
theorem add_then_get_object_witness :
    ((environment_cell.add_var nat_ops nat_tc environment_cell.empty
        (name.mk_str "d") 1).1 = none ∧
      environment_cell.get_object
          (environment_cell.add_var nat_ops nat_tc environment_cell.empty
            (name.mk_str "d") 1).2 (name.mk_str "d")
        = .ok (.VarDecl (name.mk_str "d") 1) ∧
      environment_cell.get_object
          (environment_cell.mk_child
            (environment_cell.add_var nat_ops nat_tc environment_cell.empty
              (name.mk_str "d") 1).2).2 (name.mk_str "d")
        = .ok (.VarDecl (name.mk_str "d") 1)) ∧
    (( environment_cell.add_axiom nat_ops nat_tc environment_cell.empty
        (name.mk_str "d") 1).1 = none ∧
      environment_cell.get_object
          ( environment_cell.add_axiom nat_ops nat_tc environment_cell.empty
            (name.mk_str "d") 1).2 (name.mk_str "d")
        = .ok (.Axiom (name.mk_str "d") 1) ∧
      environment_cell.get_object
          (environment_cell.mk_child
            ( environment_cell.add_axiom nat_ops nat_tc environment_cell.empty
              (name.mk_str "d") 1).2).2 (name.mk_str "d")
        = .ok (.Axiom (name.mk_str "d") 1)) ∧
    ((environment_cell.add_theorem nat_ops nat_tc environment_cell.empty
        (name.mk_str "d") 1 2).1 = none ∧
      environment_cell.get_object
          (environment_cell.add_theorem nat_ops nat_tc environment_cell.empty
            (name.mk_str "d") 1 2).2 (name.mk_str "d")
        = .ok (.Theorem (name.mk_str "d") 1 2) ∧
      environment_cell.get_object
          (environment_cell.mk_child
            (environment_cell.add_theorem nat_ops nat_tc environment_cell.empty
              (name.mk_str "d") 1 2).2).2 (name.mk_str "d")
        = .ok (.Theorem (name.mk_str "d") 1 2)) ∧
    ((environment_cell.add_definition nat_ops nat_tc environment_cell.empty
        (name.mk_str "d") 1 2 true).1 = none ∧
      environment_cell.get_object
          (environment_cell.add_definition nat_ops nat_tc environment_cell.empty
            (name.mk_str "d") 1 2 true).2 (name.mk_str "d")
        = .ok (.Definition (name.mk_str "d") 1 2
            ((environment_cell.get_max_weight nat_ops environment_cell.empty 2 + 1)
              % UNSIGNED_RANGE) true) ∧
      environment_cell.get_object
          (environment_cell.mk_child
            (environment_cell.add_definition nat_ops nat_tc environment_cell.empty
              (name.mk_str "d") 1 2 true).2).2 (name.mk_str "d")
        = .ok (.Definition (name.mk_str "d") 1 2
            ((environment_cell.get_max_weight nat_ops environment_cell.empty 2 + 1)
              % UNSIGNED_RANGE) true)) ∧
    (environment_cell.get_max_weight nat_ops environment_cell.empty 2 + 1) % UNSIGNED_RANGE = 1 ∧
    environment_cell.get_object (environment_cell.empty : environment_cell Nat) (name.mk_str "d")
      = .error (.unknown_object (name.mk_str "d")) :=
  have h := environment_cell.add_then_get_object nat_ops nat_tc environment_cell.empty
    (name.mk_str "d") 1 2 true
  ⟨⟨h.1.mpr ⟨rfl, rfl, rfl⟩, h.2.2.2.2.1 (h.1.mpr ⟨rfl, rfl, rfl⟩)⟩,
    ⟨h.2.1.mpr ⟨rfl, rfl, rfl⟩, h.2.2.2.2.2.1 (h.2.1.mpr ⟨rfl, rfl, rfl⟩)⟩,
    ⟨h.2.2.1.mpr ⟨rfl, rfl, rfl⟩, h.2.2.2.2.2.2.1 (h.2.2.1.mpr ⟨rfl, rfl, rfl⟩)⟩,
    ⟨h.2.2.2.1.mpr ⟨rfl, rfl, rfl⟩, h.2.2.2.2.2.2.2.1 (h.2.2.2.1.mpr ⟨rfl, rfl, rfl⟩)⟩,
    by decide,
    (h.2.2.2.2.2.2.2.2 (name.mk_str "d")).1.mpr (by decide)⟩

/-! ## The weight of a definition and the unsigned sum -/

/-- C32: the weight of a definition.  The four-argument and the
three-argument `add_definition` return normally exactly when their checks
pass, and then the object registered under `n` is the definition with the
weight `get_max_weight(v) + 1` of the unsigned sum, that is, modulo `2^32`;
`get_max_weight(v)` is the greatest weight of the objects named by the
constants of `v` (0 when `v` mentions no known constant, which gives the
weight 1).  When the sum does not wrap, the weight is `1 +
get_max_weight(v)` and is strictly greater than the weight of every object
that `v` mentions; when it wraps, `v` mentions an object whose weight is not
smaller than the registered weight, which is 0 when `get_max_weight(v)` is
`2^32 - 1`. -/
theorem environment_cell.add_definition_weight {expr : Type} (ops : expr_ops expr)
    (tc : type_checker expr) (env : environment_cell expr) (n : name) (t v : expr) (f : Bool) :
    ((environment_cell.add_definition ops tc env n t v f).1 = none ↔
      environment_cell.check_no_cached_type ops t = none ∧
      environment_cell.check_no_cached_type ops v = none ∧
      environment_cell.check_new_definition tc env n t v = none) ∧
    ((environment_cell.add_definition_infer ops tc env n v f).1 = none ↔
      environment_cell.check_no_cached_type ops v = none ∧
      environment_cell.check_name env n = none ∧
      ∃ v_t, (if env.m_type_check = true then tc.check env v else tc.infer_type env v)
        = .ok v_t) ∧
    ((environment_cell.add_definition ops tc env n t v f).1 = none →
      environment_cell.get_object_core (environment_cell.add_definition ops tc env n t v f).2 n
        = some (.Definition n t v
            ((environment_cell.get_max_weight ops env v + 1) % UNSIGNED_RANGE) f)) ∧
    ((environment_cell.add_definition_infer ops tc env n v f).1 = none →
      ∃ v_t, (if env.m_type_check = true then tc.check env v else tc.infer_type env v)
          = .ok v_t ∧
        environment_cell.get_object_core
            (environment_cell.add_definition_infer ops tc env n v f).2 n
          = some (.Definition n v_t v
              ((environment_cell.get_max_weight ops env v + 1) % UNSIGNED_RANGE) f)) ∧
    (∀ c ∈ ops.constants v, ∀ obj, environment_cell.get_object_core env c = some obj →
      obj.get_weight ≤ environment_cell.get_max_weight ops env v) ∧
    (environment_cell.get_max_weight ops env v = 0 ∨
      ∃ c ∈ ops.constants v, ∃ obj, environment_cell.get_object_core env c = some obj ∧
        obj.get_weight = environment_cell.get_max_weight ops env v) ∧
    ((∀ c ∈ ops.constants v, environment_cell.get_object_core env c = none) →
      (environment_cell.get_max_weight ops env v + 1) % UNSIGNED_RANGE = 1) ∧
    (environment_cell.get_max_weight ops env v + 1 < UNSIGNED_RANGE →
      (environment_cell.get_max_weight ops env v + 1) % UNSIGNED_RANGE
        = 1 + environment_cell.get_max_weight ops env v ∧
      ∀ c ∈ ops.constants v, ∀ obj, environment_cell.get_object_core env c = some obj →
        obj.get_weight
          < (environment_cell.get_max_weight ops env v + 1) % UNSIGNED_RANGE) ∧
    (UNSIGNED_RANGE ≤ environment_cell.get_max_weight ops env v + 1 →
      ∃ c ∈ ops.constants v, ∃ obj, environment_cell.get_object_core env c = some obj ∧
        (environment_cell.get_max_weight ops env v + 1) % UNSIGNED_RANGE ≤ obj.get_weight) ∧
    (environment_cell.get_max_weight ops env v + 1 = UNSIGNED_RANGE →
      (environment_cell.get_max_weight ops env v + 1) % UNSIGNED_RANGE = 0) := by
  obtain ⟨hle, hatt⟩ := environment_cell.get_max_weight_spec ops env v
  refine ⟨environment_cell.add_definition_success ops tc env n t v f,
    environment_cell.add_definition_infer_success ops tc env n v f,
    environment_cell.get_object_core_add_definition ops tc env n t v f,
    environment_cell.get_object_core_add_definition_infer ops tc env n v f,
    hle, hatt, ?_, ?_, ?_, fun h => by rw [h]; rfl⟩
  · intro hnone
    rcases hatt with h0 | ⟨c, hc, obj, hobj, _⟩
    · rw [h0]
      rfl
    · rw [hnone c hc] at hobj
      cases hobj
  · intro hw
    have hmod : (environment_cell.get_max_weight ops env v + 1) % UNSIGNED_RANGE
        = 1 + environment_cell.get_max_weight ops env v := by
      rw [Nat.mod_eq_of_lt hw, Nat.add_comm]
    refine ⟨hmod, ?_⟩
    intro c hc obj hobj
    have := hle c hc obj hobj
    omega
  · intro hw
    have hlt : (environment_cell.get_max_weight ops env v + 1) % UNSIGNED_RANGE
        < UNSIGNED_RANGE := Nat.mod_lt _ (by decide)
    rcases hatt with h0 | ⟨c, hc, obj, hobj, heq⟩
    · rw [h0] at hw
      exact absurd hw (by decide)
    · exact ⟨c, hc, obj, hobj, by omega⟩

/-- C32, in the environment with the definition named 0 of weight 1: each of
`add_definition(1, 0, 1, true)` and `add_definition(1, 1, true)`, whose value
mentions the constant 0, returns normally and registers the definition named
1 with the weight 2, which is greater than the weight of the definition
named 0. -/
theorem add_definition_weight_witness :
    environment_cell.get_object_core environment_with_definition (name.num name.anonymous 0)
      = some (.Definition (name.num name.anonymous 0) 0 0 1 false) ∧
    (environment_cell.add_definition nat_ops_constants nat_tc environment_with_definition
        (name.num name.anonymous 1) 0 1 true).1 = none ∧
    environment_cell.get_object_core
        (environment_cell.add_definition nat_ops_constants nat_tc environment_with_definition
          (name.num name.anonymous 1) 0 1 true).2 (name.num name.anonymous 1)
      = some (.Definition (name.num name.anonymous 1) 0 1
          ((environment_cell.get_max_weight nat_ops_constants environment_with_definition 1 + 1)
            % UNSIGNED_RANGE) true) ∧
    (environment_cell.add_definition_infer nat_ops_constants nat_tc environment_with_definition
        (name.num name.anonymous 1) 1 true).1 = none ∧
    (∃ v_t, (if environment_with_definition.m_type_check = true
          then nat_tc.check environment_with_definition 1
          else nat_tc.infer_type environment_with_definition 1) = .ok v_t ∧
      environment_cell.get_object_core
          (environment_cell.add_definition_infer nat_ops_constants nat_tc
            environment_with_definition (name.num name.anonymous 1) 1 true).2
          (name.num name.anonymous 1)
        = some (.Definition (name.num name.anonymous 1) v_t 1
            ((environment_cell.get_max_weight nat_ops_constants environment_with_definition 1
              + 1) % UNSIGNED_RANGE) true)) ∧
    ((environment_cell.get_max_weight nat_ops_constants environment_with_definition 1 + 1)
        % UNSIGNED_RANGE
      = 1 + environment_cell.get_max_weight nat_ops_constants environment_with_definition 1 ∧
      ∀ c ∈ nat_ops_constants.constants 1, ∀ obj,
        environment_cell.get_object_core environment_with_definition c = some obj →
        obj.get_weight
          < (environment_cell.get_max_weight nat_ops_constants environment_with_definition 1
              + 1) % UNSIGNED_RANGE) ∧
    (environment_cell.get_max_weight nat_ops_constants environment_with_definition 1 + 1)
      % UNSIGNED_RANGE = 2 :=
  have h := environment_cell.add_definition_weight nat_ops_constants nat_tc
    environment_with_definition (name.num name.anonymous 1) 0 1 true
  ⟨rfl, h.1.mpr ⟨rfl, rfl, rfl⟩, h.2.2.1 (h.1.mpr ⟨rfl, rfl, rfl⟩),
    h.2.1.mpr ⟨rfl, rfl, 1, rfl⟩, h.2.2.2.1 (h.2.1.mpr ⟨rfl, rfl, 1, rfl⟩),
    h.2.2.2.2.2.2.2.1 (by decide), by decide⟩

/-- C32 (as stated) fails when the unsigned sum wraps: after the chain of
`2^32 - 1` definitions of which each one mentions the one before it, the
definition named `2^32 - 2` has the weight `2^32 - 1`, and the next call
`add_definition(2^32 - 1, 0, 2^32 - 1, false)`, whose value mentions it,
returns normally and registers the weight 0. -/
theorem add_definition_weight_counterexample :
    (environment_cell.add_definition nat_ops_constants nat_tc
        (environment_with_chain 4294967295) (name.num name.anonymous 4294967295)
        0 4294967295 false).1 = none ∧
    name.num name.anonymous 4294967294 ∈ nat_ops_constants.constants 4294967295 ∧
    environment_cell.get_object_core (environment_with_chain 4294967295)
        (name.num name.anonymous 4294967294)
      = some (.Definition (name.num name.anonymous 4294967294) 0 4294967294 4294967295 false) ∧
    environment_cell.get_object_core
        (environment_cell.add_definition nat_ops_constants nat_tc
          (environment_with_chain 4294967295) (name.num name.anonymous 4294967295)
          0 4294967295 false).2 (name.num name.anonymous 4294967295)
      = some (.Definition (name.num name.anonymous 4294967295) 0 4294967295 0 false) := by
  have h1 := (environment_with_chain_spec 4294967295).2.2 4294967294 (by decide)
  have h2 := (environment_with_chain_spec (4294967295 + 1)).2.2 4294967295 (by decide)
  rw [environment_with_chain_succ] at h2
  have hcn := environment_with_chain_check_name 4294967295
  refine ⟨?_, ?_, h1, h2⟩
  · rw [add_definition_nat _ _ _ _ hcn]
  · simp [nat_ops_constants]

/-! ## The soundness of `is_ge` for well-formed levels -/

/-- C3: `is_ge` is sound for the max/lift semantics of levels.  For every
valuation `rho` that satisfies every implied basic constraint
(`is_implied(u, v, k)` implies `rho(u) >= rho(v) + k`), all levels `l1`,
`l2` and every offset `k`: when `l1` and `l2` are well formed (the name of a
variable is determined by its identifier, a max has a child) and
`is_ge(l1, l2, k)` returns true (so no offset overflowed), then
`eval(l1) >= eval(l2) + k`; and for all levels, `is_ge(l, l, k)` is
`k <= 0`, and `is_ge(l1, l2)` is `is_ge(l1, l2, 0)`. -/
theorem is_ge_sound (imp : name → name → Int → Bool) (rho : name → Int)
    (names : Nat → name) (hrho : ∀ u v k, imp u v k = true → rho u ≥ rho v + k)
    (l1 l2 : level) (k : Int) :
    (well_formed names l1 = true → well_formed names l2 = true →
      is_ge imp l1 l2 k = some true → eval rho l1 ≥ eval rho l2 + k) ∧
    (is_ge imp l1 l1 k = some true ↔ k ≤ 0) ∧
    is_ge0 imp l1 l2 = is_ge imp l1 l2 0 := by
  refine ⟨?_, ?_, rfl⟩
  · intro h1 h2 h
    exact is_ge_sound_aux imp rho names (fun a b k h => hrho a b k h) l2 l1 k h1 h2 h
  · rw [is_ge_eq, level_eq_refl]
    simp

/-- The soundness of `is_ge` at `max(u1 + 2, u2) >= (u3 + 1) + 1`, where
every variable is above every other one and the valuation is constant. -/
theorem is_ge_sound_witness :
    is_ge (fun _ _ k => decide (k ≤ 0))
        (.max [.lift (.uvar (name.num .anonymous 1) 1) 2, .uvar (name.num .anonymous 2) 2])
        (.lift (.uvar (name.num .anonymous 3) 3) 1) 1 = some true ∧
    eval (fun _ => 0)
        (.max [.lift (.uvar (name.num .anonymous 1) 1) 2, .uvar (name.num .anonymous 2) 2])
      ≥ eval (fun _ => 0) (.lift (.uvar (name.num .anonymous 3) 3) 1) + 1 ∧
    (is_ge (fun _ _ k => decide (k ≤ 0))
        (.max [.lift (.uvar (name.num .anonymous 1) 1) 2, .uvar (name.num .anonymous 2) 2])
        (.max [.lift (.uvar (name.num .anonymous 1) 1) 2, .uvar (name.num .anonymous 2) 2])
        1 = some true ↔ (1 : Int) ≤ 0) ∧
    is_ge0 (fun _ _ k => decide (k ≤ 0))
        (.max [.lift (.uvar (name.num .anonymous 1) 1) 2, .uvar (name.num .anonymous 2) 2])
        (.lift (.uvar (name.num .anonymous 3) 3) 1)
      = is_ge (fun _ _ k => decide (k ≤ 0))
        (.max [.lift (.uvar (name.num .anonymous 1) 1) 2, .uvar (name.num .anonymous 2) 2])
        (.lift (.uvar (name.num .anonymous 3) 3) 1) 0 :=
  have h := is_ge_sound (fun _ _ k => decide (k ≤ 0)) (fun _ => 0)
    (fun i => name.num .anonymous i) (fun _ _ k h => by simpa using h)
    (.max [.lift (.uvar (name.num .anonymous 1) 1) 2, .uvar (name.num .anonymous 2) 2])
    (.lift (.uvar (name.num .anonymous 3) 3) 1) 1
  ⟨by decide, h.1 (by decide) (by decide) (by decide), h.2.1, h.2.2⟩

/-- C3 (as stated) fails for levels that are not well formed, with no
implied constraint at all and the valuation that sends `b` to 5 and every
other name to 0.  The variables `a` and `b` with the same identifier 1 are
equal for `operator==`, so `is_ge(a, b, 0)` returns true, while
`eval(a) = 0 < 5 = eval(b) + 0`.  The level `max({})` has no child, so
`is_ge(a, max({}), k)` returns true for every `k`, and no value of
`eval(max({}))` is below `eval(a) - k` for every `k`: here
`eval(a) = 0 < eval(max({})) + 1`. -/
theorem is_ge_sound_counterexample :
    (∀ u v k, (fun _ _ _ => false : name → name → Int → Bool) u v k = true →
      (fun n => if n = name.mk_str "b" then 5 else 0 : name → Int) u
        ≥ (fun n => if n = name.mk_str "b" then 5 else 0 : name → Int) v + k) ∧
    is_ge (fun _ _ _ => false) (.uvar (name.mk_str "a") 1) (.uvar (name.mk_str "b") 1) 0
      = some true ∧
    ¬ (eval (fun n => if n = name.mk_str "b" then 5 else 0) (.uvar (name.mk_str "a") 1)
      ≥ eval (fun n => if n = name.mk_str "b" then 5 else 0) (.uvar (name.mk_str "b") 1) + 0) ∧
    (∀ k, is_ge (fun _ _ _ => false) (.uvar (name.mk_str "a") 1) (max_list []) k
      = some true) ∧
    ¬ (eval (fun n => if n = name.mk_str "b" then 5 else 0) (.uvar (name.mk_str "a") 1)
      ≥ eval (fun n => if n = name.mk_str "b" then 5 else 0) (max_list []) + 1) := by
  refine ⟨fun _ _ _ h => Bool.noConfusion h, by decide, by decide, ?_, by decide⟩
  intro k
  rfl

end lean
